import Mathlib

/-! # golang/sync (fork): `singleflight`, `lock`, `syncmultimap`

A shallow embedding of the call-coalescing code (`singleflight.Group`,
`singleflight.SimpleSingleFlight` over `lock.LeadLock`) and of
`syncmultimap.MultiMap`, and a verification of the natural-language specification.

Modelling conventions.

* Go pointers are addresses into explicit heaps (`List`s); the address of the
  `n`-th allocated object is `n`.  A `*call` is an index into `State.calls`, a
  `chan Result` is an index into `State.chans`.
* `interface{}` and `error` values are `Option V` and `Option E`; `none` is `nil`.
* The sections of the code that run with `g.mu` held are atomic functions on the state.
* A call `fn()` of a caller-supplied work function is represented by its outcome
  (`FnExit`): it returns, it panics, or it ends the goroutine with `runtime.Goexit`.
* `int64` arithmetic wraps (`wrapInt64`).
* Concurrent goroutines are small-step machines; a schedule lists the goroutines in
  the order in which they take their steps.
-/

set_option autoImplicit false

namespace singleflight

/-! ## Machine integers -/

/-- Two's-complement wrap-around into the `int64` range. -/
def wrapInt64 (x : Int) : Int :=
  (x + 9223372036854775808) % 18446744073709551616 - 9223372036854775808

/-! ## Data model of `singleflight.go` -/

/-- Go `refShared`: the `shared` flag and the `refCount *int64` pointer.  The pointer
always aliases the `refCount` field of a call record, so it is the address of that
record. -/
structure refShared where
  shared : Bool
  refCount : Nat
deriving DecidableEq, Repr

/-- Go `Result`: what is sent on a caller's channel. -/
structure Result (V E : Type) where
  Val : Option V
  Err : Option E
  Shared : refShared
deriving DecidableEq, Repr

/-- Go `call`: an in-flight or completed call.  `wg` is the counter of the
`sync.WaitGroup`; `chans` holds the addresses of the receivers' channels. -/
structure call (V E : Type) where
  wg : Int
  val : Option V
  err : Option E
  forgotten : Bool
  refCount : Int
  chans : List Nat
deriving DecidableEq, Repr

/-- Go `Group`: the table `m map[string]*call`, `none` while it is the nil map.
The mutex `mu` is represented by the atomicity of the functions below. -/
structure Group where
  m : Option (List (String × Nat))
deriving DecidableEq, Repr

/-- A goroutine started by the statement `go g.doCall(c, key, fn)`. -/
structure Spawn (F : Type) where
  c : Nat
  key : String
  fn : F
deriving DecidableEq, Repr

/-- The program state a `Group` lives in: the group itself, the heap of call records,
the heap of channels (each a buffer of capacity `chanCap`), and the log of the
goroutines started so far. -/
structure State (V E F : Type) where
  g : Group
  calls : List (call V E)
  chans : List (List (Result V E))
  spawned : List (Spawn F)
deriving DecidableEq, Repr

/-- How a call `fn()` of a work function ends. -/
inductive FnExit (V E P : Type) where
  | ret (v : Option V) (err : Option E)
  | panic (r : P)
  | goexit
deriving DecidableEq, Repr

/-- A value a goroutine can panic with: the value of a `panic(r)` in user code, or the
runtime's `sync: negative WaitGroup counter`. -/
inductive PanicVal (P : Type) where
  | user (r : P)
  | negativeWaitGroup
deriving DecidableEq, Repr

/-- How the goroutine running `doCall` ends, with the state it leaves behind:
it runs to the end, it blocks forever on a channel send (with `g.mu` held), it dies of
an unrecovered panic, or it is ended by `runtime.Goexit`. -/
inductive Exit (σ P : Type) where
  | done (s : σ)
  | blocked (s : σ)
  | panicked (r : PanicVal P) (s : σ)
  | goexit (s : σ)
deriving DecidableEq, Repr

/-- The state a goroutine leaves behind. -/
def Exit.state {σ P : Type} : Exit σ P → σ
  | .done s => s
  | .blocked s => s
  | .panicked _ s => s
  | .goexit s => s

section Model

variable {V E F P : Type}

/-! ## Go maps -/

/-- Go `m[key]` with the comma-ok form; reading the nil map finds nothing. -/
def mapLookup (m : Option (List (String × Nat))) (key : String) : Option Nat :=
  match m with
  | none => none
  | some l => (l.find? (fun p => p.1 == key)).map Prod.snd

/-- Go `delete(m, key)`; a no-op on the nil map. -/
def mapDelete (m : Option (List (String × Nat))) (key : String) :
    Option (List (String × Nat)) :=
  m.map (fun l => l.filter (fun p => !(p.1 == key)))

/-- Go `m[key] = c` on a map that is not nil. -/
def mapStore (l : List (String × Nat)) (key : String) (c : Nat) : List (String × Nat) :=
  (key, c) :: l.filter (fun p => !(p.1 == key))

/-! ## Heaps and channels -/

/-- Update of the object at address `i`; nothing happens at an address that was never
allocated. -/
def modifyAt {α : Type} (l : List α) (i : Nat) (f : α → α) : List α :=
  match l[i]? with
  | some a => l.set i (f a)
  | none => l

/-- Capacity of the channels made by `make(chan Result, 1)`. -/
def chanCap : Nat := 1

/-- Go `ch <- r` on a buffered channel: `none` when the send blocks (buffer full). -/
def send {R : Type} (chans : List (List R)) (ch : Nat) (r : R) : Option (List (List R)) :=
  match chans[ch]? with
  | some buf => if buf.length < chanCap then some (chans.set ch (buf ++ [r])) else none
  | none => none

/-- Go `<-ch`: `none` when the receive blocks (buffer empty). -/
def recv {R : Type} (chans : List (List R)) (ch : Nat) : Option (R × List (List R)) :=
  match chans[ch]? with
  | some (r :: buf) => some (r, chans.set ch buf)
  | _ => none

/-- The loop `for _, ch := range c.chans { ch <- r }`: the channels after the sends
that went through, and whether the loop got to its end. -/
def sendAll {R : Type} (chans : List (List R)) (r : R) : List Nat → List (List R) × Bool
  | [] => (chans, true)
  | ch :: rest =>
    match send chans ch r with
    | some chans1 => sendAll chans1 r rest
    | none => (chans, false)

/-! ## `Group.DoChan`, `Group.doCall`, `Group.Forget`, `Group.Do`, `refShared` -/

/-- Go `Group.DoChan`, the part that runs before `return ch`: make the channel, and
under `g.mu` either attach to the record in the table or create a record, store it and
start `go g.doCall(c, key, fn)`.  Returns the channel and the new state. -/
def DoChan (s : State V E F) (key : String) (fn : F) : Nat × State V E F :=
  let ch := s.chans.length
  let chans := s.chans ++ [[]]
  let m : List (String × Nat) := s.g.m.getD []
  match mapLookup (some m) key with
  | some c =>
    (ch, { g := ⟨some m⟩,
           calls := modifyAt s.calls c (fun r =>
             { r with refCount := wrapInt64 (r.refCount + 1), chans := r.chans ++ [ch] }),
           chans := chans,
           spawned := s.spawned })
  | none =>
    let c := s.calls.length
    (ch, { g := ⟨some (mapStore m key c)⟩,
           calls := s.calls ++ [{ wg := 1, val := none, err := none, forgotten := false,
                                  refCount := 1, chans := [ch] }],
           chans := chans,
           spawned := s.spawned ++ [⟨c, key, fn⟩] })

/-- Go `refShared{shared: c.refCount > 1, refCount: &c.refCount}` for the record at
address `c`. -/
def mkShared (c : Nat) (r : call V E) : refShared :=
  { shared := decide (r.refCount > 1), refCount := c }

/-- The part of `doCall` that runs with `g.mu` held (the completion step): delete the
key unless the record is forgotten, then send the result on every channel of the
record. -/
def doCallLocked (s : State V E F) (c : Nat) (key : String) : Exit (State V E F) P :=
  match s.calls[c]? with
  | none => .blocked s
  | some r =>
    let m := if !r.forgotten then mapDelete s.g.m key else s.g.m
    let res : Result V E := ⟨r.val, r.err, mkShared c r⟩
    let sent := sendAll s.chans res r.chans
    let s1 : State V E F := { s with g := ⟨m⟩, chans := sent.1 }
    if sent.2 then .done s1 else .blocked s1

/-- The part of `doCall` before `g.mu.Lock()`: `c.val, c.err = fn()` and `c.wg.Done()`.
A panic or `Goexit` of `fn` ends the goroutine here: `doCall` has no `defer`.
`WaitGroup.Done` first subtracts 1 from the counter and then panics if it is negative. -/
def doCallRun (s : State V E F) (c : Nat) (out : FnExit V E P) : Exit (State V E F) P :=
  match out with
  | .panic r => .panicked (.user r) s
  | .goexit => .goexit s
  | .ret v err =>
    match s.calls[c]? with
    | none => .blocked s
    | some r =>
      let s1 : State V E F :=
        { s with calls := s.calls.set c { r with val := v, err := err, wg := r.wg - 1 } }
      if r.wg - 1 < 0 then .panicked .negativeWaitGroup s1 else .done s1

/-- Go `Group.doCall(c, key, fn)`, with `out` the outcome of the call `fn()`. -/
def doCall (s : State V E F) (c : Nat) (key : String) (out : FnExit V E P) :
    Exit (State V E F) P :=
  match doCallRun s c out with
  | .done s1 => doCallLocked s1 c key
  | e => e

/-- Go `Group.Forget`. -/
def Forget (s : State V E F) (key : String) : State V E F :=
  let calls := match mapLookup s.g.m key with
    | some c => modifyAt s.calls c (fun r => { r with forgotten := true })
    | none => s.calls
  { s with g := ⟨mapDelete s.g.m key⟩, calls := calls }

/-- The receive `r := <-ch` of `Group.Do` and its `return r.Val, r.Err, r.Shared`;
`none` while the receive blocks. -/
def DoRecv (s : State V E F) (ch : Nat) :
    Option ((Option V × Option E × refShared) × State V E F) :=
  match recv s.chans ch with
  | some (r, chans) => some ((r.Val, r.Err, r.Shared), { s with chans := chans })
  | none => none

/-- Go `refShared.Decrement`: `atomic.AddInt64(rs.refCount, -1)`, which returns the new
value.  `none` only at an address that holds no counter. -/
def Decrement (s : State V E F) (rs : refShared) : Option (Int × State V E F) :=
  match s.calls[rs.refCount]? with
  | none => none
  | some r =>
    let n := wrapInt64 (r.refCount + -1)
    some (n, { s with calls := s.calls.set rs.refCount { r with refCount := n } })

/-- Go `refShared.Shared`. -/
def Shared (rs : refShared) : Bool := rs.shared

/-- The zero `Group` in a program that has allocated nothing yet. -/
def State.init : State V E F := { g := ⟨none⟩, calls := [], chans := [], spawned := [] }

/-- Successive `DoChan(key, fn)` registrations, one per work function of `fns`, in
order; returns the channels handed to the callers and the final state. -/
def registerAll (s : State V E F) (key : String) : List F → List Nat × State V E F
  | [] => ([], s)
  | fn :: rest =>
    let r := DoChan s key fn
    let rs := registerAll r.2 key rest
    (r.1 :: rs.1, rs.2)

/-- The record made by `&call{refCount: 1, chans: []chan<- Result{ch}}` and `c.wg.Add(1)`
once `n` callers in all have registered: the first created it with the channel `ch0`, the
others attached the channels that were made next. -/
def freshCall (V E : Type) (ch0 n : Nat) : call V E :=
  { wg := 1, val := none, err := none, forgotten := false, refCount := n,
    chans := List.range' ch0 n }

/-- The state reached from `s` once the key `key`, absent from the table of `s`, has been
registered by a first caller with work function `fn`: the table maps `key` to the new
record `r` at address `s.calls.length`, the `n` channels made for the callers of `key` so
far are still empty, and the one goroutine started is the first caller's. -/
def afterRegs (s : State V E F) (key : String) (fn : F) (r : call V E) (n : Nat) :
    State V E F :=
  { g := ⟨some (mapStore (s.g.m.getD []) key s.calls.length)⟩,
    calls := s.calls ++ [r],
    chans := s.chans ++ List.replicate n [],
    spawned := s.spawned ++ [⟨s.calls.length, key, fn⟩] }

/-- The call whose record `r` lives at address `c` is in flight: its work has not
returned yet (the wait-group counter set by `c.wg.Add(1)` is still positive) and its
receivers are pairwise distinct channels on which nothing has been sent. -/
def InFlight (s : State V E F) (c : Nat) (r : call V E) : Prop :=
  s.calls[c]? = some r ∧ 0 < r.wg ∧ r.chans.Nodup ∧ ∀ ch ∈ r.chans, s.chans[ch]? = some []

/-- Successive `Decrement()` calls, one on each descriptor of the list in order; returns
the values the calls returned, in call order. -/
def decrementAll (s : State V E F) : List refShared → Option (List Int × State V E F)
  | [] => some ([], s)
  | rs :: rest =>
    match Decrement s rs with
    | none => none
    | some (n, s1) =>
      match decrementAll s1 rest with
      | none => none
      | some (ns, s2) => some (n :: ns, s2)


/-! ## Programs on a `Group` -/

/-- A step of a program that uses a `Group`: a caller registers with `DoChan(key, fn)`;
the `i`-th goroutine started by `go g.doCall(c, key, fn)` gets the outcome `out` of its
call `fn()` and does `c.wg.Done()`; that goroutine runs its completion step (the part of
`doCall` under `g.mu`); or somebody calls `Forget(key)`. -/
inductive GroupOp (V E F P : Type) where
  | doChan (key : String) (fn : F)
  | work (i : Nat) (out : FnExit V E P)
  | complete (i : Nat)
  | forget (key : String)
deriving DecidableEq, Repr

/-- A running program: the state of the `Group`, the goroutines (by their place in
`State.spawned`) whose work function has returned, and those whose completion step has
run. -/
structure Prog (V E F : Type) where
  s : State V E F
  ran : List Nat
  completed : List Nat
deriving DecidableEq, Repr

/-- The program that has only declared its `Group`. -/
def Prog.init : Prog V E F := { s := State.init, ran := [], completed := [] }

/-- One step of the program; `none` when the step cannot be taken: the goroutine does not
exist, has taken the step before or has not got that far, it dies in its work function,
or it blocks. -/
def Prog.apply (p : Prog V E F) : GroupOp V E F P → Option (Prog V E F)
  | .doChan key fn => some { p with s := (DoChan p.s key fn).2 }
  | .forget key => some { p with s := Forget p.s key }
  | .work i out =>
    if i ∈ p.ran then none
    else
      match p.s.spawned[i]? with
      | none => none
      | some sp =>
        match doCallRun p.s sp.c out with
        | .done s1 => some { p with s := s1, ran := i :: p.ran }
        | _ => none
  | .complete i =>
    if i ∈ p.ran ∧ i ∉ p.completed then
      match p.s.spawned[i]? with
      | none => none
      | some sp =>
        match (doCallLocked p.s sp.c sp.key : Exit (State V E F) P) with
        | .done s1 => some { p with s := s1, completed := i :: p.completed }
        | _ => none
    else none

/-- A sequence of steps from `p`. -/
def Prog.run (p : Prog V E F) : List (GroupOp V E F P) → Option (Prog V E F)
  | [] => some p
  | op :: ops =>
    match p.apply op with
    | some p1 => p1.run ops
    | none => none

/-- The call whose record lives at address `c` has completed: the completion step of
its goroutine has run. -/
def Prog.hasCompleted (p : Prog V E F) (c : Nat) : Prop :=
  ∃ i ∈ p.completed, ∃ sp, p.s.spawned[i]? = some sp ∧ sp.c = c

/-- What holds in every state a program can bring its `Group` into: the goroutines and
the call records were allocated together, goroutine `i` for the record at address `i`;
a completed goroutine exists; a table entry leads to a record that is not forgotten and
not completed, under the key of the record's goroutine; a record that has not completed
has at least one receiver and as many references as receivers (as long as `int64` can
count them); the wait-group counter of a record whose work has not returned is 1; the
receivers of a record that has not completed are pairwise distinct, allocated and empty
channels, and no channel is a receiver of two records. -/
structure GInv (p : Prog V E F) : Prop where
  spawnLen : p.s.spawned.length = p.s.calls.length
  spawnC : ∀ (i : Nat) (sp : Spawn F), p.s.spawned[i]? = some sp → sp.c = i
  compv : ∀ i ∈ p.completed, i < p.s.calls.length
  table : ∀ key c, mapLookup p.s.g.m key = some c →
    ∃ (r : call V E) (sp : Spawn F), p.s.calls[c]? = some r ∧ r.forgotten = false ∧
      c ∉ p.completed ∧
      p.s.spawned[c]? = some sp ∧ sp.key = key
  refs : ∀ (c : Nat) (r : call V E), p.s.calls[c]? = some r → c ∉ p.completed →
    1 ≤ r.chans.length ∧
      ((r.chans.length : Int) < 9223372036854775808 → r.refCount = r.chans.length)
  wgI : ∀ (c : Nat) (r : call V E), p.s.calls[c]? = some r → c ∉ p.ran → r.wg = 1
  chansI : ∀ (c : Nat) (r : call V E), p.s.calls[c]? = some r → c ∉ p.completed →
    r.chans.Nodup ∧ ∀ ch ∈ r.chans, p.s.chans[ch]? = some []
  disj : ∀ (c c1 : Nat) (r r1 : call V E), p.s.calls[c]? = some r →
    p.s.calls[c1]? = some r1 → c ≠ c1 →
    ∀ ch ∈ r.chans, ch ∉ r1.chans
  bound : ∀ (c : Nat) (r : call V E), p.s.calls[c]? = some r →
    ∀ ch ∈ r.chans, ch < p.s.chans.length
end Model

end singleflight

/-! ## Data model of `lock/leadlock.go`

One `LeadLock` and the `cond`s it allocates form a memory of their own: distinct
`LeadLock`s share no memory.  `Lock` and `Unlock` are small-step machines over that
memory, one step per statement that reads or writes shared memory or may block. -/

namespace lock

/-- Two's-complement wrap-around into the `int32` range. -/
def wrapInt32 (x : Int) : Int := (x + 2147483648) % 4294967296 - 2147483648

/-- Go `cond`: the pointer `uptr` (`none` is nil).  Its `mux` and `sync.Cond` only make
`wait` block until `uptr` is not nil and `wake` atomic. -/
structure cond where
  uptr : Option Nat
deriving DecidableEq, Repr

/-- Go `LeadLock`.  `cond` and `batch` are addresses into the heap of `cond`s (`batch`
may be nil); `mux` tells whether the `sync.Mutex` is locked. -/
structure LeadLock where
  nr : Int
  cond : Nat
  batch : Option Nat
  mux : Bool
deriving DecidableEq, Repr

/-- The memory of one `LeadLock`: its fields and the `cond`s allocated by `newCond()`. -/
structure Mem where
  ll : LeadLock
  conds : List cond
deriving DecidableEq, Repr

/-- Go `NewLeadLock()`: a zero `LeadLock` whose `cond` is a new `cond`. -/
def NewLeadLock : Mem :=
  { ll := { nr := 0, cond := 0, batch := none, mux := false }, conds := [⟨none⟩] }

/-- Where a goroutine stands inside `LeadLock.Lock`: before `atomic.AddInt32`; with
`n > 1` before `atomic.LoadPointer`, inside `cond.wait()`, before reading `cond.uptr`;
otherwise before `this.mux.Lock()`, before `atomic.StoreInt32(&this.nr, 0)`, before the
swap that installs `newCond()` and stores the old `cond` in `this.batch`; or returned. -/
inductive LockPc where
  | add
  | loadCond
  | wait (c : Nat)
  | read (c : Nat)
  | mux
  | storeNr
  | swap
  | ret (uptr : Option Nat)
deriving DecidableEq, Repr

/-- One step of `LeadLock.Lock`; `none` when the goroutine is blocked (in `cond.wait()`
while `uptr` is nil, in `mux.Lock()` while the mutex is held) or has returned. -/
def LockStep (m : Mem) : LockPc → Option (Mem × LockPc)
  | .add =>
    let n := wrapInt32 (m.ll.nr + 1)
    some ({ m with ll := { m.ll with nr := n } }, if n > 1 then .loadCond else .mux)
  | .loadCond => some (m, .wait m.ll.cond)
  | .wait c =>
    match m.conds[c]? with
    | some ⟨some _⟩ => some (m, .read c)
    | _ => none
  | .read c =>
    match m.conds[c]? with
    | some cd => some (m, .ret cd.uptr)
    | none => none
  | .mux => if m.ll.mux then none else some ({ m with ll := { m.ll with mux := true } }, .storeNr)
  | .storeNr => some ({ m with ll := { m.ll with nr := 0 } }, .swap)
  | .swap =>
    some ({ ll := { m.ll with cond := m.conds.length, batch := some m.ll.cond },
            conds := m.conds ++ [⟨none⟩] }, .ret none)
  | .ret _ => none

/-- Where a goroutine stands inside `LeadLock.Unlock(uptr)`: before the swap of
`this.batch` with nil, before `batch.wake(uptr)`, before `this.mux.Unlock()`, returned,
or dead of the runtime's fatal error `sync: unlock of unlocked mutex`. -/
inductive UnlockPc where
  | swap
  | wake (b : Nat)
  | mux
  | ret
  | fatal
deriving DecidableEq, Repr

/-- One step of `LeadLock.Unlock(uptr)`; `none` once it has returned or died. -/
def UnlockStep (m : Mem) (uptr : Option Nat) : UnlockPc → Option (Mem × UnlockPc)
  | .swap =>
    match m.ll.batch with
    | none => some (m, .ret)
    | some b => some ({ m with ll := { m.ll with batch := none } }, .wake b)
  | .wake b =>
    some ({ m with conds := match m.conds[b]? with
                            | some _ => m.conds.set b ⟨uptr⟩
                            | none => m.conds }, .mux)
  | .mux =>
    if m.ll.mux then some ({ m with ll := { m.ll with mux := false } }, .ret)
    else some (m, .fatal)
  | .ret => none
  | .fatal => none

end lock

/-! ## Data model of `singleflight/simple.go` -/

namespace singleflight

/-- Modelled from the spec: the error values `*panicError` (made by `newPanicError`) and
`errGoexit`, which `simple.go` uses and no file of the repository declares.  The spec
(sections 7 and 9) has a result end in one of three ways, an ordinary error, an uncaught
fault or an abrupt silent exit; `app e` is an ordinary, application-level error. -/
inductive GoError (E P : Type) where
  | app (e : E)
  | panicError (value : P)
  | errGoexit
deriving DecidableEq, Repr

/-- Modelled from the spec: `newPanicError(r)`, missing from the repository like
`panicError`; it wraps the recovered value `r`. -/
def newPanicError {E P : Type} (r : P) : GoError E P := .panicError r

/-- An error value is ordinary when it is nil or an application-level error, that is
neither a `*panicError` nor `errGoexit`. -/
def ordinary {E P : Type} : Option (GoError E P) → Bool
  | none => true
  | some (.app _) => true
  | some (.panicError _) => false
  | some .errGoexit => false

/-- Go `result` of `simple.go`. -/
structure result (V E P : Type) where
  v : Option V
  err : Option (GoError E P)
deriving DecidableEq, Repr

/-- How a call of `SimpleSingleFlight.Do` ends: it returns `(v, err)`, it panics with the
`*panicError` holding `value`, it ends its goroutine by `runtime.Goexit`, or the program
dies of a fatal runtime error (unlock of an unlocked mutex, nil dereference). -/
inductive DoExit (V E P : Type) where
  | returned (v : Option V) (err : Option (GoError E P))
  | panicked (value : P)
  | goexit
  | crashed
deriving DecidableEq, Repr

/-- Whether the goroutine is returning normally from the inner function of `Do` or is
being ended by `runtime.Goexit` (and only runs its deferred calls). -/
inductive Mode where
  | normal
  | goexiting
deriving DecidableEq, Repr

/-- Where a goroutine stands inside `SimpleSingleFlight.Do(key, fn)`: before
`ll := this.leadLock(key)`; inside `ll.Lock()`; with a pointer `p` that is not nil
returned by `Lock`, before `res = (*result)(ptr); return res.v, res.err`; with nil
returned by `Lock`, before `res = &result{}` and the call of `fn`; inside the deferred
`ll.Unlock(unsafe.Pointer(res))`; before `return res.v, res.err`; or ended. -/
inductive Pc (V E P : Type) where
  | start
  | lock (pc : lock.LockPc)
  | follower (p : Nat)
  | work
  | unlock (mode : Mode) (pc : lock.UnlockPc)
  | ret (mode : Mode)
  | done (e : DoExit V E P)
deriving DecidableEq, Repr

/-- A goroutine that calls `Do(key, fn)`: the outcome `fn` of its work function (a panic
carries a value that is not nil), where it stands, whether it has called its work
function, and its local variable `res`. -/
structure Thread (V E P : Type) where
  fn : FnExit V (GoError E P) P
  pc : Pc V E P
  called : Bool
  res : Option Nat
deriving DecidableEq, Repr

/-- The world of one key of a `SimpleSingleFlight`: the memory of the key's `LeadLock`
(every caller gets the same one from `leadLock(key)`), the heap of `result` records, and
the goroutines calling `Do` with that key. -/
structure World (V E P : Type) where
  mem : lock.Mem
  results : List (result V E P)
  threads : Nat → Thread V E P

section Simple

variable {V E P : Type}

/-- Go `sync.Map.Load` on the map from keys to `*LeadLock`. -/
def syncLoad (m : List (String × Nat)) (key : String) : Option Nat :=
  (m.find? (fun p => p.1 == key)).map Prod.snd

/-- Go `sync.Map.LoadOrStore`: the value stored for the key if there is one, else the
given value, which is stored. -/
def syncLoadOrStore (m : List (String × Nat)) (key : String) (v : Nat) :
    Nat × List (String × Nat) :=
  match syncLoad m key with
  | some x => (x, m)
  | none => (v, (key, v) :: m)

/-- Go `SimpleSingleFlight.leadLock(key)`; `nlocks` counts the `LeadLock`s allocated so
far, the next one gets the address `nlocks`.  Returns the lock of the key, the map and
the count. -/
def leadLock (m : List (String × Nat)) (nlocks : Nat) (key : String) :
    Nat × List (String × Nat) × Nat :=
  match syncLoad m key with
  | some x => (x, m, nlocks)
  | none => ((syncLoadOrStore m key nlocks).1, (syncLoadOrStore m key nlocks).2, nlocks + 1)

/-- The record a leader leaves in `res` once its work function has ended:
`res.v, res.err = fn()` when it returns; `res.err = newPanicError(r)` when it panics with
`r`, which `recover()` yields; `res.err = errGoexit` when it calls `runtime.Goexit`. -/
def recordOf (fn : FnExit V (GoError E P) P) : result V E P :=
  match fn with
  | .ret v err => ⟨v, err⟩
  | .panic r => ⟨none, some (newPanicError r)⟩
  | .goexit => ⟨none, some .errGoexit⟩

/-- How the leader leaves the inner function of `Do`: normally when `fn` returned or its
panic was recovered, still ending its goroutine when `fn` called `runtime.Goexit`. -/
def modeOf (fn : FnExit V (GoError E P) P) : Mode :=
  match fn with
  | .goexit => .goexiting
  | _ => .normal

/-- The end of `Do`: `return res.v, res.err` and the deferred check of `res.err`, which
panics on a `*panicError` and calls `runtime.Goexit` on `errGoexit`. -/
def exitOf (r : result V E P) (mode : Mode) : DoExit V E P :=
  match r.err with
  | some (.panicError value) => .panicked value
  | some .errGoexit => .goexit
  | _ =>
    match mode with
    | .normal => .returned r.v r.err
    | .goexiting => .goexit

/-- The world with thread `t` replaced. -/
def World.setThread (w : World V E P) (t : Nat) (th : Thread V E P) : World V E P :=
  { w with threads := Function.update w.threads t th }

/-- One step of goroutine `t`; `none` when it is blocked or has ended. -/
def step (w : World V E P) (t : Nat) : Option (World V E P) :=
  match (w.threads t).pc with
  | .start => some (w.setThread t { w.threads t with pc := .lock .add })
  | .lock lp =>
    match lock.LockStep w.mem lp with
    | none => none
    | some (m, .ret (some p)) =>
      some ({ w with mem := m }.setThread t { w.threads t with pc := .follower p })
    | some (m, .ret none) =>
      some ({ w with mem := m }.setThread t { w.threads t with pc := .work })
    | some (m, lp1) =>
      some ({ w with mem := m }.setThread t { w.threads t with pc := .lock lp1 })
  | .follower p =>
    match w.results[p]? with
    | some r =>
      some (w.setThread t { w.threads t with res := some p, pc := .done (exitOf r .normal) })
    | none => some (w.setThread t { w.threads t with res := some p, pc := .done .crashed })
  | .work =>
    some ({ w with results := w.results ++ [recordOf (w.threads t).fn] }.setThread t
      { w.threads t with
        res := some w.results.length,
        called := true,
        pc := .unlock (modeOf (w.threads t).fn) .swap })
  | .unlock mode up =>
    match lock.UnlockStep w.mem (w.threads t).res up with
    | none => none
    | some (m, .ret) =>
      some ({ w with mem := m }.setThread t { w.threads t with pc := .ret mode })
    | some (m, .fatal) =>
      some ({ w with mem := m }.setThread t { w.threads t with pc := .done .crashed })
    | some (m, up1) =>
      some ({ w with mem := m }.setThread t { w.threads t with pc := .unlock mode up1 })
  | .ret mode =>
    match (w.threads t).res with
    | none => some (w.setThread t { w.threads t with pc := .done .crashed })
    | some r =>
      match w.results[r]? with
      | some rec => some (w.setThread t { w.threads t with pc := .done (exitOf rec mode) })
      | none => some (w.setThread t { w.threads t with pc := .done .crashed })
  | .done _ => none

/-- A schedule: the goroutines in the order in which they take their steps.  `none` when
a goroutine is scheduled that cannot step. -/
def run (w : World V E P) : List Nat → Option (World V E P)
  | [] => some w
  | t :: ts =>
    match step w t with
    | some w1 => run w1 ts
    | none => none

/-- A new `LeadLock` (the key was never used) and callers that have not started, caller
`i` with the work function whose outcome is `fns i`. -/
def World.init (fns : Nat → FnExit V (GoError E P) P) : World V E P :=
  { mem := lock.NewLeadLock,
    results := [],
    threads := fun i => { fn := fns i, pc := .start, called := false, res := none } }

/-- The worlds the callers can get into from `World.init fns`, by any interleaving. -/
def Reachable (fns : Nat → FnExit V (GoError E P) P) (w : World V E P) : Prop :=
  ∃ sched : List Nat, run (World.init fns) sched = some w

/-! ### The invariant of the reachable worlds -/

/-- The goroutine is between its `this.mux.Lock()` and its `this.mux.Unlock()`. -/
def Pc.crit : Pc V E P → Bool
  | .lock .storeNr => true
  | .lock .swap => true
  | .work => true
  | .unlock _ .swap => true
  | .unlock _ (.wake _) => true
  | .unlock _ .mux => true
  | _ => false

/-- The goroutine has stored its batch token in `this.batch` and not yet taken it back. -/
def Pc.holdsBatch : Pc V E P → Bool
  | .work => true
  | .unlock _ .swap => true
  | _ => false

/-- The goroutine has not reached the call of its work function. -/
def Pc.early : Pc V E P → Bool
  | .start => true
  | .lock _ => true
  | .follower _ => true
  | .work => true
  | _ => false

/-- What holds in every world the callers of `Do` can get into from `World.init fns`: the
work functions are those of `fns`; `this.cond`, `this.batch` and the token a leader is
about to wake are allocated `cond`s; a goroutine that has left `Unlock` is not inside
`Unlock`; at most one goroutine is
between `mux.Lock()` and `mux.Unlock()`, and then the mutex is held; a leader that has not
begun its `Unlock` finds its token in `this.batch`; a `cond` whose `wait()` has returned
holds a pointer; a goroutine has called its work function exactly if it is past the
leader's call, and then `res` points to the record of that call; a pointer published in
a `cond` or returned to a follower is the `res` of a leader; and a call that has ended
has ended by the final check of `Do` on such a record. -/
structure Inv (fns : Nat → FnExit V (GoError E P) P) (w : World V E P) : Prop where
  fnc : ∀ i, (w.threads i).fn = fns i
  condv : w.mem.ll.cond < w.mem.conds.length
  batchv : ∀ b, w.mem.ll.batch = some b → b < w.mem.conds.length
  wakev : ∀ i m b, (w.threads i).pc = .unlock m (.wake b) → b < w.mem.conds.length
  inUnlock : ∀ i m, (w.threads i).pc ≠ .unlock m .ret ∧ (w.threads i).pc ≠ .unlock m .fatal
  excl : ∀ i j, (w.threads i).pc.crit = true → (w.threads j).pc.crit = true → i = j
  held : ∀ i, (w.threads i).pc.crit = true → w.mem.ll.mux = true
  batch : ∀ i, (w.threads i).pc.holdsBatch = true → ∃ b, w.mem.ll.batch = some b
  woken : ∀ i c, (w.threads i).pc = .lock (.read c) →
    ∃ p, w.mem.conds[c]? = some (lock.cond.mk (some p))
  early : ∀ i, (w.threads i).pc.early = true → (w.threads i).called = false
  lateU : ∀ i m up, (w.threads i).pc = .unlock m up →
    (w.threads i).called = true ∧ m = modeOf (w.threads i).fn
  lateR : ∀ i m, (w.threads i).pc = .ret m →
    (w.threads i).called = true ∧ m = modeOf (w.threads i).fn
  recd : ∀ i, (w.threads i).called = true →
    ∃ r, (w.threads i).res = some r ∧ w.results[r]? = some (recordOf (w.threads i).fn)
  doneL : ∀ i e, (w.threads i).pc = .done e → (w.threads i).called = true →
    e = exitOf (recordOf (w.threads i).fn) (modeOf (w.threads i).fn)
  uptr : ∀ (c p : Nat), w.mem.conds[c]? = some (lock.cond.mk (some p)) →
    ∃ L, (w.threads L).called = true ∧ (w.threads L).res = some p
  foll : ∀ i p, (w.threads i).pc = .follower p →
    ∃ L, (w.threads L).called = true ∧ (w.threads L).res = some p
  doneF : ∀ i e, (w.threads i).pc = .done e → (w.threads i).called = false →
    ∃ L, (w.threads L).called = true ∧
      e = exitOf (recordOf (w.threads L).fn) .normal

/-- The steps of goroutine `t` that occur in the worlds satisfying the invariant, as a
relation between the world before and the world after (`step_cases` shows that `step`
takes no other step there). -/
inductive Step (w : World V E P) (t : Nat) : World V E P → Prop where
  | start (h : (w.threads t).pc = .start) :
    Step w t (w.setThread t { w.threads t with pc := .lock .add })
  | addFollow (h : (w.threads t).pc = .lock .add)
    (hn : lock.wrapInt32 (w.mem.ll.nr + 1) > 1) :
    Step w t ({ w with mem := { w.mem with
        ll := { w.mem.ll with nr := lock.wrapInt32 (w.mem.ll.nr + 1) } } }.setThread t
      { w.threads t with pc := .lock .loadCond })
  | addLead (h : (w.threads t).pc = .lock .add)
    (hn : ¬ lock.wrapInt32 (w.mem.ll.nr + 1) > 1) :
    Step w t ({ w with mem := { w.mem with
        ll := { w.mem.ll with nr := lock.wrapInt32 (w.mem.ll.nr + 1) } } }.setThread t
      { w.threads t with pc := .lock .mux })
  | loadCond (h : (w.threads t).pc = .lock .loadCond) :
    Step w t (w.setThread t { w.threads t with pc := .lock (.wait w.mem.ll.cond) })
  | wait (c p : Nat) (h : (w.threads t).pc = .lock (.wait c))
    (hc : w.mem.conds[c]? = some (lock.cond.mk (some p))) :
    Step w t (w.setThread t { w.threads t with pc := .lock (.read c) })
  | read (c p : Nat) (h : (w.threads t).pc = .lock (.read c))
    (hc : w.mem.conds[c]? = some (lock.cond.mk (some p))) :
    Step w t (w.setThread t { w.threads t with pc := .follower p })
  | mux (h : (w.threads t).pc = .lock .mux) (hm : w.mem.ll.mux = false) :
    Step w t ({ w with mem := { w.mem with ll := { w.mem.ll with mux := true } } }.setThread t
      { w.threads t with pc := .lock .storeNr })
  | storeNr (h : (w.threads t).pc = .lock .storeNr) :
    Step w t ({ w with mem := { w.mem with ll := { w.mem.ll with nr := 0 } } }.setThread t
      { w.threads t with pc := .lock .swap })
  | swap (h : (w.threads t).pc = .lock .swap) :
    Step w t ({ w with mem :=
        { ll := { w.mem.ll with cond := w.mem.conds.length, batch := some w.mem.ll.cond },
          conds := w.mem.conds ++ [lock.cond.mk none] } }.setThread t
      { w.threads t with pc := .work })
  | follower (p L : Nat) (h : (w.threads t).pc = .follower p)
    (hL : (w.threads L).called = true ∧ (w.threads L).res = some p)
    (hr : w.results[p]? = some (recordOf (w.threads L).fn)) :
    Step w t (w.setThread t
      { w.threads t with
        res := some p,
        pc := .done (exitOf (recordOf (w.threads L).fn) .normal) })
  | work (h : (w.threads t).pc = .work) :
    Step w t ({ w with results := w.results ++ [recordOf (w.threads t).fn] }.setThread t
      { w.threads t with
        res := some w.results.length,
        called := true,
        pc := .unlock (modeOf (w.threads t).fn) .swap })
  | unlockSwap (m : Mode) (b : Nat) (h : (w.threads t).pc = .unlock m .swap)
    (hb : w.mem.ll.batch = some b) :
    Step w t ({ w with mem := { w.mem with ll := { w.mem.ll with batch := none } } }.setThread t
      { w.threads t with pc := .unlock m (.wake b) })
  | wake (m : Mode) (b r : Nat) (h : (w.threads t).pc = .unlock m (.wake b))
    (hb : b < w.mem.conds.length) (hr : (w.threads t).res = some r) :
    Step w t ({ w with mem := { w.mem with
        conds := w.mem.conds.set b (lock.cond.mk (some r)) } }.setThread t
      { w.threads t with pc := .unlock m .mux })
  | unlockMux (m : Mode) (h : (w.threads t).pc = .unlock m .mux)
    (hm : w.mem.ll.mux = true) :
    Step w t ({ w with mem := { w.mem with ll := { w.mem.ll with mux := false } } }.setThread t
      { w.threads t with pc := .ret m })
  | ret (m : Mode) (r : Nat) (h : (w.threads t).pc = .ret m)
    (hres : (w.threads t).res = some r)
    (hr : w.results[r]? = some (recordOf (w.threads t).fn)) :
    Step w t (w.setThread t
      { w.threads t with pc := .done (exitOf (recordOf (w.threads t).fn) m) })

/-- What the invariant adds on the batch tokens: the token in `this.cond`, the token in
`this.batch` and the token a leader is about to wake have not been woken, the latter two
are not the token in `this.cond`, and a token is in `this.batch` only while a leader has
not begun its `Unlock`. -/
structure Tokens (w : World V E P) : Prop where
  condFresh : w.mem.conds[w.mem.ll.cond]? = some (lock.cond.mk none)
  batchFresh : ∀ b, w.mem.ll.batch = some b →
    w.mem.conds[b]? = some (lock.cond.mk none) ∧ b ≠ w.mem.ll.cond
  wakeFresh : ∀ i m b, (w.threads i).pc = .unlock m (.wake b) →
    w.mem.conds[b]? = some (lock.cond.mk none) ∧ b ≠ w.mem.ll.cond
  batchHeld : ∀ b, w.mem.ll.batch = some b → ∃ i, (w.threads i).pc.holdsBatch = true

/-- The hand-over of the batch token `b` from the leader `L` to the follower `T`: `T` has
not called its work function, and either `L` holds the mutex and is about to swap the
token `b` of `this.cond` into `this.batch`, or still has `b` in `this.batch`, or is about
to wake it, while `T` waits on it; or `L` has woken `b` with its record `r`, and `T` waits
on `b`, reads it, decodes `r`, or has ended by the final check of `Do` on the record of
`L`. -/
def Handoff (w : World V E P) (L T b : Nat) : Prop :=
  (w.threads T).called = false ∧
  ((((w.threads L).pc = .lock .storeNr ∨ (w.threads L).pc = .lock .swap) ∧
      w.mem.ll.cond = b ∧ (w.threads T).pc = .lock (.wait b))
   ∨ ((w.threads L).pc.holdsBatch = true ∧ w.mem.ll.batch = some b ∧
      (w.threads T).pc = .lock (.wait b))
   ∨ ((∃ m, (w.threads L).pc = .unlock m (.wake b)) ∧ (w.threads T).pc = .lock (.wait b))
   ∨ ((w.threads L).called = true ∧
      ∃ r, (w.threads L).res = some r ∧ w.mem.conds[b]? = some (lock.cond.mk (some r)) ∧
        ((w.threads T).pc = .lock (.wait b) ∨ (w.threads T).pc = .lock (.read b) ∨
         (w.threads T).pc = .follower r ∨
         (w.threads T).pc = .done (exitOf (recordOf (w.threads L).fn) .normal))))

/-- The places of a caller whose increment of `this.nr` returned more than 1: it loads
the batch token, waits on it, reads its pointer, decodes the record, and ends. -/
def Pc.follPath : Pc V E P → Bool
  | .lock .loadCond => true
  | .lock (.wait _) => true
  | .lock (.read _) => true
  | .follower _ => true
  | .done _ => true
  | _ => false

/-- The number of steps a leader has taken since it stood before the call of its work
function: the call, the swap of `this.batch` in `Unlock`, the wake of the batch token,
`this.mux.Unlock()`, and `return res.v, res.err` with the deferred check. -/
def Pc.leadSteps : Pc V E P → Nat
  | .unlock _ .swap => 1
  | .unlock _ (.wake _) => 2
  | .unlock _ .mux => 3
  | .ret _ => 4
  | .done _ => 5
  | _ => 0

/-- The number of steps a follower has taken since it entered `cond.wait()`: it leaves
`wait()`, reads `cond.uptr` (`Lock` returns), and returns from `Do` through the deferred
check. -/
def Pc.follSteps : Pc V E P → Nat
  | .lock (.read _) => 1
  | .follower _ => 2
  | .done _ => 3
  | _ => 0

/-- The goroutine is inside `cond.wait()` or past it on the follower's path. -/
def Pc.waited : Pc V E P → Bool
  | .lock (.wait _) => true
  | .lock (.read _) => true
  | .follower _ => true
  | .done _ => true
  | _ => false

/-- The world reached from `World.init fns` by the schedule `sched` (the initial world
if the schedule cannot be run). -/
def World.after (fns : Nat → FnExit V (GoError E P) P) (sched : List Nat) : World V E P :=
  (run (World.init fns) sched).getD (World.init fns)

end Simple

/-- Two callers of `Do` for one key (all further ones behave like the second): the work
function of caller 0 returns `("v1", nil)`, that of the others `("v2", nil)`. -/
def twoCallers : Nat → FnExit String (GoError String String) String :=
  fun i => if i = 0 then .ret (some "v1") none else .ret (some "v2") none

/-- Three callers of `Do` for one key whose work functions return different values:
that of caller 0 returns `("v1", nil)`, that of caller 1 `("v2", nil)`, that of the
others `("v3", nil)`. -/
def threeCallers : Nat → FnExit String (GoError String String) String :=
  fun i => if i = 0 then .ret (some "v1") none
    else if i = 1 then .ret (some "v2") none else .ret (some "v3") none

/-- The callers of `TestPanicDo`: the work function of every caller panics with the
message of a nil dereference. -/
def panicCallers : Nat → FnExit String (GoError String String) String :=
  fun _ => .panic "invalid memory address or nil pointer dereference"

/-- The callers of `TestGoexitDo`: the work function of every caller calls
`runtime.Goexit()`. -/
def goexitCallers : Nat → FnExit String (GoError String String) String :=
  fun _ => .goexit

end singleflight


/-! ## Callers of a `LeadLock`

Any number of goroutines call `Lock()` on one `LeadLock`; a caller to which `Lock`
returns nil is the leader of its batch and goes on to call `Unlock(R)`, with a pointer
`R` of its own choice (nil is allowed); the others have their result.  Nobody else calls
`Unlock`. -/

namespace lock

/-- Where a caller stands: inside `Lock()`; leader (`Lock` has returned nil, `Unlock` is
not called yet); follower with the pointer `p` that `Lock` returned; inside
`Unlock(R)`; back from `Unlock`; or dead of the runtime's fatal error. -/
inductive CallerPc where
  | lock (pc : LockPc)
  | leader
  | follower (p : Nat)
  | unlock (pc : UnlockPc)
  | released
  | fatal
deriving DecidableEq, Repr

/-- A `LeadLock` with its callers. -/
structure Sys where
  mem : Mem
  pcs : Nat → CallerPc

/-- The system with caller `t` moved to `pc` and the memory `m`. -/
def Sys.set (s : Sys) (m : Mem) (t : Nat) (pc : CallerPc) : Sys :=
  { mem := m, pcs := Function.update s.pcs t pc }

/-- One step of caller `t`, who passes `R t` to `Unlock` if it becomes a leader; `none`
when the caller is blocked or has nothing left to do. -/
def Sys.step (R : Nat → Option Nat) (s : Sys) (t : Nat) : Option Sys :=
  match s.pcs t with
  | .lock lp =>
    match LockStep s.mem lp with
    | none => none
    | some (m, .ret none) => some (s.set m t .leader)
    | some (m, .ret (some p)) => some (s.set m t (.follower p))
    | some (m, lp1) => some (s.set m t (.lock lp1))
  | .leader => some (s.set s.mem t (.unlock .swap))
  | .unlock up =>
    match UnlockStep s.mem (R t) up with
    | none => none
    | some (m, .ret) => some (s.set m t .released)
    | some (m, .fatal) => some (s.set m t .fatal)
    | some (m, up1) => some (s.set m t (.unlock up1))
  | .follower _ => none
  | .released => none
  | .fatal => none

/-- A schedule: the callers in the order in which they take their steps. -/
def Sys.run (R : Nat → Option Nat) (s : Sys) : List Nat → Option Sys
  | [] => some s
  | t :: ts =>
    match s.step R t with
    | some s1 => s1.run R ts
    | none => none

/-- A fresh `LeadLock` and callers about to execute the first statement of `Lock()`. -/
def Sys.init : Sys := { mem := NewLeadLock, pcs := fun _ => .lock .add }

/-- The systems the callers can get into from a fresh `LeadLock`, by any interleaving. -/
def Sys.Reachable (R : Nat → Option Nat) (s : Sys) : Prop :=
  ∃ sched : List Nat, Sys.init.run R sched = some s

/-- The system reached from a fresh `LeadLock` by the schedule (the initial one if the
schedule cannot be run). -/
def Sys.after (R : Nat → Option Nat) (sched : List Nat) : Sys :=
  (Sys.init.run R sched).getD Sys.init

/-- The caller holds the leader role: `Lock` has returned nil to it and its `Unlock` has
not completed. -/
def CallerPc.leads : CallerPc → Bool
  | .leader => true
  | .unlock .swap => true
  | .unlock (.wake _) => true
  | .unlock .mux => true
  | _ => false

/-- The caller is between its `this.mux.Lock()` and its `this.mux.Unlock()`. -/
def CallerPc.crit : CallerPc → Bool
  | .lock .storeNr => true
  | .lock .swap => true
  | pc => pc.leads

/-- The caller has stored its batch token in `this.batch` and not yet taken it back. -/
def CallerPc.holdsBatch : CallerPc → Bool
  | .leader => true
  | .unlock .swap => true
  | _ => false

/-- The caller has woken its batch token: it is about to unlock the mutex, or has
returned from `Unlock`. -/
def CallerPc.past : CallerPc → Bool
  | .unlock .mux => true
  | .released => true
  | _ => false

/-- The places of a caller whose increment of `this.nr` returned more than 1: it loads
the batch token, waits on it, reads its pointer, and returns it. -/
def CallerPc.follPath : CallerPc → Bool
  | .lock .loadCond => true
  | .lock (.wait _) => true
  | .lock (.read _) => true
  | .follower _ => true
  | _ => false

/-- The steps of caller `t` that occur in the systems satisfying the invariant `CInv`,
as a relation between the system before and the system after. -/
inductive Sys.Step (R : Nat → Option Nat) (s : Sys) (t : Nat) : Sys → Prop where
  | addFollow (h : s.pcs t = .lock .add) (hn : wrapInt32 (s.mem.ll.nr + 1) > 1) :
    Sys.Step R s t (s.set { s.mem with ll := { s.mem.ll with nr := wrapInt32 (s.mem.ll.nr + 1) } }
      t (.lock .loadCond))
  | addLead (h : s.pcs t = .lock .add) (hn : ¬ wrapInt32 (s.mem.ll.nr + 1) > 1) :
    Sys.Step R s t (s.set { s.mem with ll := { s.mem.ll with nr := wrapInt32 (s.mem.ll.nr + 1) } }
      t (.lock .mux))
  | loadCond (h : s.pcs t = .lock .loadCond) :
    Sys.Step R s t (s.set s.mem t (.lock (.wait s.mem.ll.cond)))
  | wait (c p : Nat) (h : s.pcs t = .lock (.wait c))
    (hc : s.mem.conds[c]? = some (cond.mk (some p))) :
    Sys.Step R s t (s.set s.mem t (.lock (.read c)))
  | read (c p : Nat) (h : s.pcs t = .lock (.read c))
    (hc : s.mem.conds[c]? = some (cond.mk (some p))) :
    Sys.Step R s t (s.set s.mem t (.follower p))
  | mux (h : s.pcs t = .lock .mux) (hm : s.mem.ll.mux = false) :
    Sys.Step R s t (s.set { s.mem with ll := { s.mem.ll with mux := true } } t (.lock .storeNr))
  | storeNr (h : s.pcs t = .lock .storeNr) :
    Sys.Step R s t (s.set { s.mem with ll := { s.mem.ll with nr := 0 } } t (.lock .swap))
  | swap (h : s.pcs t = .lock .swap) :
    Sys.Step R s t (s.set
      { ll := { s.mem.ll with cond := s.mem.conds.length, batch := some s.mem.ll.cond },
        conds := s.mem.conds ++ [cond.mk none] } t .leader)
  | call (h : s.pcs t = .leader) :
    Sys.Step R s t (s.set s.mem t (.unlock .swap))
  | unlockSwap (b : Nat) (h : s.pcs t = .unlock .swap) (hb : s.mem.ll.batch = some b) :
    Sys.Step R s t (s.set { s.mem with ll := { s.mem.ll with batch := none } } t
      (.unlock (.wake b)))
  | wake (b : Nat) (h : s.pcs t = .unlock (.wake b)) (hb : b < s.mem.conds.length) :
    Sys.Step R s t (s.set { s.mem with conds := s.mem.conds.set b (cond.mk (R t)) } t
      (.unlock .mux))
  | unlockMux (h : s.pcs t = .unlock .mux) (hm : s.mem.ll.mux = true) :
    Sys.Step R s t (s.set { s.mem with ll := { s.mem.ll with mux := false } } t .released)

/-- What holds in every system the callers can get into from a fresh `LeadLock`: the
token in `this.cond`, the token in `this.batch` and the token a leader is about to wake
have not been woken, the latter two are not the token in `this.cond`; at most one caller
is between `mux.Lock()` and `mux.Unlock()`, and then the mutex is held; a token is in
`this.batch` exactly while a leader has not begun to take it back; a token whose
`wait()` has returned holds a pointer; no caller has died or stands at a place that is
left at once; and a pointer held by a token or returned to a follower is the `R` of a
leader that has woken its token. -/
structure CInv (R : Nat → Option Nat) (s : Sys) : Prop where
  condFresh : s.mem.conds[s.mem.ll.cond]? = some (cond.mk none)
  batchFresh : ∀ b, s.mem.ll.batch = some b →
    s.mem.conds[b]? = some (cond.mk none) ∧ b ≠ s.mem.ll.cond
  wakeFresh : ∀ i b, s.pcs i = .unlock (.wake b) →
    s.mem.conds[b]? = some (cond.mk none) ∧ b ≠ s.mem.ll.cond
  excl : ∀ i j, (s.pcs i).crit = true → (s.pcs j).crit = true → i = j
  held : ∀ i, (s.pcs i).crit = true → s.mem.ll.mux = true
  batchOf : ∀ i, (s.pcs i).holdsBatch = true → ∃ b, s.mem.ll.batch = some b
  batchHeld : ∀ b, s.mem.ll.batch = some b → ∃ i, (s.pcs i).holdsBatch = true
  woken : ∀ (i c : Nat), s.pcs i = .lock (.read c) →
    ∃ p, s.mem.conds[c]? = some (cond.mk (some p))
  trans : ∀ i, (∀ u, s.pcs i ≠ .lock (.ret u)) ∧ s.pcs i ≠ .unlock .ret ∧
    s.pcs i ≠ .unlock .fatal ∧ s.pcs i ≠ .fatal
  uptr : ∀ (c p : Nat), s.mem.conds[c]? = some (cond.mk (some p)) →
    ∃ L, R L = some p ∧ (s.pcs L).past = true
  foll : ∀ (i p : Nat), s.pcs i = .follower p → ∃ L, R L = some p ∧ (s.pcs L).past = true

/-- The token `b` is out of use: it is allocated, it is neither the token of `this.cond`
nor that of `this.batch`, and no leader is about to wake it. -/
def Sys.Retired (s : Sys) (b : Nat) : Prop :=
  b < s.mem.conds.length ∧ b ≠ s.mem.ll.cond ∧ s.mem.ll.batch ≠ some b ∧
    ∀ i, s.pcs i ≠ .unlock (.wake b)

/-- The hand-over of the batch token `b` from the leader `L` to the follower `T`: either
`L` holds the mutex and is about to swap the token `b` of `this.cond` into `this.batch`,
or has `b` in `this.batch`, or is about to wake it, while `T` is inside `wait()` on `b`;
or `L` has woken `b` with its pointer `R L`, the token is out of use, and `T` is still
inside `wait()` on `b` or, when `R L` is a pointer `r` that is not nil, reads it from `b`
or has returned it. -/
def Sys.Handoff (R : Nat → Option Nat) (s : Sys) (L T b : Nat) : Prop :=
  ((s.pcs L = .lock .storeNr ∨ s.pcs L = .lock .swap) ∧ s.mem.ll.cond = b ∧
      s.pcs T = .lock (.wait b))
  ∨ ((s.pcs L).holdsBatch = true ∧ s.mem.ll.batch = some b ∧ s.pcs T = .lock (.wait b))
  ∨ (s.pcs L = .unlock (.wake b) ∧ s.pcs T = .lock (.wait b))
  ∨ ((s.pcs L).past = true ∧ s.Retired b ∧ s.mem.conds[b]? = some (cond.mk (R L)) ∧
      (s.pcs T = .lock (.wait b) ∨
        ∃ r, R L = some r ∧ (s.pcs T = .lock (.read b) ∨ s.pcs T = .follower r)))

/-- Callers that pass nil to `Unlock` when they become leader. -/
def nilRelease : Nat → Option Nat := fun _ => none

/-- Callers of which caller `i`, if it becomes leader, passes the pointer `i + 100` to
`Unlock`. -/
def ownRelease : Nat → Option Nat := fun i => some (i + 100)

end lock

/-! ## Data model of `syncmultimap/multimap.go`

The `sync.Map` of a `MultiMap` is an association list from keys to addresses of
`MultiMapSet`s; the sets live in a heap.  Every set of the heap has the one `MultiMap`
as its `mapRef`.  Values of type `interface{}` are compared with `==`. -/

namespace syncmultimap

/-- Go `MultiMapSet`: its `key` and its `values` (`mapRef` is the one map of the
program). -/
structure MultiMapSet (α : Type) where
  key : String
  values : List α
deriving DecidableEq, Repr

/-- Go `MultiMap` in its program: the `sync.Map` named `values` and the heap of the
`MultiMapSet`s allocated so far. -/
structure MultiMap (α : Type) where
  values : List (String × Nat)
  sets : List (MultiMapSet α)
deriving DecidableEq, Repr

section MultiMapModel

variable {α : Type} [DecidableEq α]

/-- Go `sync.Map.Load`. -/
def Load (m : List (String × Nat)) (key : String) : Option Nat :=
  (m.find? (fun p => p.1 == key)).map Prod.snd

/-- Go `sync.Map.Delete`. -/
def Delete (m : List (String × Nat)) (key : String) : List (String × Nat) :=
  m.filter (fun p => !(p.1 == key))

/-- Go `sync.Map.Store`. -/
def Store (m : List (String × Nat)) (key : String) (v : Nat) : List (String × Nat) :=
  (key, v) :: Delete m key

/-- Go `sync.Map.LoadOrStore`: the value stored for the key if there is one, else the
given value, which is stored. -/
def LoadOrStore (m : List (String × Nat)) (key : String) (v : Nat) :
    Nat × List (String × Nat) :=
  match Load m key with
  | some x => (x, m)
  | none => (v, Store m key v)

/-- Go `NewMultiMap()`. -/
def NewMultiMap : MultiMap α := { values := [], sets := [] }

/-- Go `MultiMap.RemoveAll`. -/
def MultiMap.RemoveAll (m : MultiMap α) (key : String) : MultiMap α :=
  { m with values := Delete m.values key }

/-- The loop `for i, v := range s.values { if v == value { ... } }` of
`MultiMapSet.Remove`: the first index whose value equals `value`, if any. -/
def rangeFind (value : α) : List α → Option Nat
  | [] => none
  | v :: rest => if v = value then some 0 else (rangeFind value rest).map (· + 1)

/-- Go `MultiMapSet.Remove` on the set at address `s`: at the first value equal to
`value` it stores `append(s.values[:i], s.values[i+1:]...)` and returns; only when the
loop finds nothing does it reach the test `len(s.values) == 0` and `RemoveAll`. -/
def MultiMapSet.Remove (m : MultiMap α) (s : Nat) (value : α) : MultiMap α :=
  match m.sets[s]? with
  | none => m
  | some st =>
    match rangeFind value st.values with
    | some i =>
      let st1 : MultiMapSet α := { st with values := st.values.take i ++ st.values.drop (i + 1) }
      { m with sets := m.sets.set s st1 }
    | none => if st.values.length = 0 then m.RemoveAll st.key else m

/-- Go `MultiMapSet.Add` on the set at address `s`. -/
def MultiMapSet.Add (m : MultiMap α) (s : Nat) (value : α) : MultiMap α :=
  match m.sets[s]? with
  | none => m
  | some st =>
    let st1 : MultiMapSet α := { st with values := st.values ++ [value] }
    { m with sets := m.sets.set s st1 }

/-- Go `MultiMap.Add`: a new set is allocated, the set of the key is loaded or the new
one stored, the value is added to it, and the set is stored again. -/
def MultiMap.Add (m : MultiMap α) (key : String) (value : α) : MultiMap α :=
  let fresh := m.sets.length
  let m1 : MultiMap α := { m with sets := m.sets ++ [{ key := key, values := [] }] }
  let ls := LoadOrStore m1.values key fresh
  let m2 : MultiMap α := { m1 with values := ls.2 }
  let m3 := MultiMapSet.Add m2 ls.1 value
  { m3 with values := Store m3.values key ls.1 }

/-- Go `MultiMap.Remove`. -/
def MultiMap.Remove (m : MultiMap α) (key : String) (value : α) : MultiMap α :=
  match Load m.values key with
  | none => m
  | some s => MultiMapSet.Remove m s value

/-- Go `MultiMap.ContainsKey`. -/
def MultiMap.ContainsKey (m : MultiMap α) (key : String) : Bool :=
  (Load m.values key).isSome

/-- The values `RangeKey` visits for a key: those of the key's set, none when the key is
absent. -/
def MultiMap.valuesOf (m : MultiMap α) (key : String) : List α :=
  match Load m.values key with
  | none => []
  | some s =>
    match m.sets[s]? with
    | none => []
    | some st => st.values

end MultiMapModel

end syncmultimap

/-! ## `Group.Use`

`singleflight_test.go` calls `g.Use(key, create, handle, dispose)`; no file of the
repository declares it.  The definitions of this section follow sections 3 and 4.4 of the
specification. -/

namespace singleflight

/-- Modelled from the spec: the states of the state machine of a key of `Group.Use`
(missing from the repository), `Idle → Creating → Ready → Disposing → Idle`; `Ready`
holds the resource value or the creation error. -/
inductive Phase (Res Er : Type) where
  | idle
  | creating
  | ready (res : Option Res) (err : Option Er)
  | disposing
deriving DecidableEq, Repr

/-- Modelled from the spec: where a caller of `Group.Use` (missing from the repository)
stands: before it joins a session; running `create` (it began the session); joined and
waiting for `create` to complete; running `handle` on the resource or the creation error;
running `dispose` (its `handle` was the last to complete); or returned. -/
inductive UsePc (Res Er : Type) where
  | start
  | create
  | wait
  | handle (res : Option Res) (err : Option Er)
  | dispose (res : Option Res)
  | done
deriving DecidableEq, Repr

/-- Modelled from the spec: the session record of one key of `Group.Use` (missing from
the repository) with its callers: the state of the state machine, with the resource or
the creation error; the active-handler counter, which counts the callers that have
joined the session and whose `handle` has not completed; and the callers.  The last four
fields are the counters of `TestUse`: the callers whose `create` has run, the arguments
of the `handle` calls begun, and the numbers of `handle` and `dispose` calls
completed. -/
structure UseWorld (Res Er : Type) where
  phase : Phase Res Er
  active : Nat
  pcs : Nat → UsePc Res Er
  creators : List Nat
  handleStarts : List (Option Res × Option Er)
  handleCount : Nat
  disposeCount : Nat

section UseModel

variable {Res Er : Type}

/-- Modelled from the spec: one step of caller `t` of `Group.Use` (missing from the
repository); `creates t` is what the `create` function of caller `t` returns.

* A caller joins: it begins a session and runs `create` when the key is `Idle`; it joins
  the session while it is `Creating` or `Ready`; it waits while the key is `Disposing` (a
  new session begins only when the previous one is back to `Idle`).
* `create` completes: the session is `Ready` with what `create` returned.
* A caller that has joined begins `handle`, on what `create` returned, once the session
  is `Ready`.
* `handle` completes: the counter goes down; the caller whose `handle` completes last
  makes the session `Disposing` and runs `dispose`.
* `dispose` completes: the key is `Idle` again. -/
def useStep (creates : Nat → Option Res × Option Er) (w : UseWorld Res Er) (t : Nat) :
    Option (UseWorld Res Er) :=
  match w.pcs t with
  | .start =>
    match w.phase with
    | .idle =>
      some { w with phase := .creating, active := 1,
                    pcs := Function.update w.pcs t .create }
    | .creating =>
      some { w with active := w.active + 1, pcs := Function.update w.pcs t .wait }
    | .ready _ _ =>
      some { w with active := w.active + 1, pcs := Function.update w.pcs t .wait }
    | .disposing => none
  | .create =>
    some { w with phase := .ready (creates t).1 (creates t).2,
                  creators := w.creators ++ [t],
                  pcs := Function.update w.pcs t .wait }
  | .wait =>
    match w.phase with
    | .ready r e =>
      some { w with handleStarts := w.handleStarts ++ [(r, e)],
                    pcs := Function.update w.pcs t (.handle r e) }
    | _ => none
  | .handle r _ =>
    if w.active = 1 then
      some { w with phase := .disposing, active := 0,
                    handleCount := w.handleCount + 1,
                    pcs := Function.update w.pcs t (.dispose r) }
    else
      some { w with active := w.active - 1,
                    handleCount := w.handleCount + 1,
                    pcs := Function.update w.pcs t .done }
  | .dispose _ =>
    some { w with phase := .idle, disposeCount := w.disposeCount + 1,
                  pcs := Function.update w.pcs t .done }
  | .done => none

/-- A schedule of callers of `Use`. -/
def useRun (creates : Nat → Option Res × Option Er) (w : UseWorld Res Er) :
    List Nat → Option (UseWorld Res Er)
  | [] => some w
  | t :: ts =>
    match useStep creates w t with
    | some w1 => useRun creates w1 ts
    | none => none

/-- An `Idle` key and callers that have not called `Use` yet. -/
def UseWorld.init : UseWorld Res Er :=
  { phase := .idle, active := 0, pcs := fun _ => .start, creators := [],
    handleStarts := [], handleCount := 0, disposeCount := 0 }

/-- The world reached from `UseWorld.init` by the schedule (the initial one if the
schedule cannot be run). -/
def UseWorld.after (creates : Nat → Option Res × Option Er) (sched : List Nat) :
    UseWorld Res Er :=
  (useRun creates UseWorld.init sched).getD UseWorld.init

/-- The caller has joined the session and its `handle` has not completed. -/
def UsePc.inSession : UsePc Res Er → Bool
  | .create => true
  | .wait => true
  | .handle _ _ => true
  | _ => false

/-- The caller has begun its `handle`. -/
def UsePc.begun : UsePc Res Er → Bool
  | .handle _ _ => true
  | .dispose _ => true
  | .done => true
  | _ => false

/-- The `handle` of the caller has completed. -/
def UsePc.handled : UsePc Res Er → Bool
  | .dispose _ => true
  | .done => true
  | _ => false

/-- What holds in every world `N` callers of `Use` can get into: the other callers have
not called `Use`; the counter counts the callers in the session and is 0 when the key is
`Idle` or `Disposing` and at least 1 while it is `Creating` or `Ready`; a caller runs
`create` exactly while the key is `Creating`, runs
`handle` only on what the `Ready` session holds, and runs `dispose` exactly while the key
is `Disposing`; and, as long as no `dispose` has completed, the counters of the test
count the callers of the one session. -/
structure UseInv (N : Nat) (creates : Nat → Option Res × Option Er)
    (w : UseWorld Res Er) : Prop where
  fresh : ∀ t, N ≤ t → w.pcs t = .start
  members : ∃ ms : List Nat, ms.Nodup ∧ (∀ t, t ∈ ms ↔ (w.pcs t).inSession = true) ∧
    w.active = ms.length
  quiet : w.phase = .idle ∨ w.phase = .disposing → w.active = 0
  creator : (∀ t, w.pcs t = .create → w.phase = .creating) ∧
    (w.phase = .creating → ∃ c, w.pcs c = .create) ∧
    (∀ i j, w.pcs i = .create → w.pcs j = .create → i = j)
  handler : ∀ (t : Nat) (r : Option Res) (e : Option Er),
    w.pcs t = .handle r e → w.phase = .ready r e
  disposer : (∀ (t : Nat) (r : Option Res), w.pcs t = .dispose r → w.phase = .disposing) ∧
    (w.phase = .disposing → ∃ (d : Nat) (r : Option Res), w.pcs d = .dispose r) ∧
    (∀ (i j : Nat) (r r1 : Option Res),
      w.pcs i = .dispose r → w.pcs j = .dispose r1 → i = j)
  first : w.disposeCount = 0 →
    (w.phase = .idle ∨ w.phase = .creating → w.creators = []) ∧
    (∀ (r : Option Res) (e : Option Er), w.phase = .ready r e →
      ∃ c, w.creators = [c] ∧ (r, e) = creates c) ∧
    (w.phase = .disposing → ∃ c, w.creators = [c]) ∧
    (∀ x ∈ w.handleStarts, ∃ c, w.creators = [c] ∧ x = creates c) ∧
    (∃ bs : List Nat, bs.Nodup ∧ (∀ t, t ∈ bs ↔ (w.pcs t).begun = true) ∧
      w.handleStarts.length = bs.length) ∧
    (∃ fs : List Nat, fs.Nodup ∧ (∀ t, t ∈ fs ↔ (w.pcs t).handled = true) ∧
      w.handleCount = fs.length)
  live : (w.phase = .creating ∨ ∃ r e, w.phase = .ready r e) → 1 ≤ w.active

/-- The session of `N` concurrent callers has ended: every caller has returned, `create`
has run once, `handle` has been begun and completed `N` times, each time on what
`create` returned, and `dispose` has run once. -/
def UseFinal (N : Nat) (creates : Nat → Option Res × Option Er) (w : UseWorld Res Er) :
    Prop :=
  w.disposeCount = 1 ∧ w.phase = .idle ∧ (∀ t, t < N → w.pcs t = .done) ∧
    (∃ c, w.creators = [c] ∧ ∀ x ∈ w.handleStarts, x = creates c) ∧
    w.handleStarts.length = N ∧ w.handleCount = N

/-- The `N` callers are concurrent: all of them have joined the session, and they are in
the first session of the key (no `dispose` has completed) or that session has ended. -/
def UseSession (N : Nat) (creates : Nat → Option Res × Option Er) (w : UseWorld Res Er) :
    Prop :=
  UseInv N creates w ∧ (∀ t, t < N → w.pcs t ≠ .start) ∧
    (w.disposeCount = 0 ∨ UseFinal N creates w)

end UseModel

/-- The `create` function of `TestUse`: it returns `("bar", nil)`. -/
def testCreate : Nat → Option String × Option String := fun _ => (some "bar", none)

end singleflight

/-! # Proofs on `Group` -/

namespace singleflight

section GroupProofs

variable {V E F P : Type}

/-! ## Lemmas on maps, channels and the Group operations -/

theorem find_filter_self (l : List (String × Nat)) (key : String) :
    (l.filter (fun p => !(p.1 == key))).find? (fun p => p.1 == key) = none := by
  induction l with
  | nil => rfl
  | cons p l ih =>
    by_cases h : p.1 = key
    · rw [List.filter_cons]
      simp only [h, beq_self_eq_true, Bool.not_true]
      exact ih
    · rw [List.filter_cons]
      have hb : (p.1 == key) = false := by simpa using h
      simp only [hb, Bool.not_false, if_true, List.find?_cons]
      exact ih

theorem find_filter_ne (l : List (String × Nat)) (key k : String) (hk : k ≠ key) :
    (l.filter (fun p => !(p.1 == key))).find? (fun p => p.1 == k)
      = l.find? (fun p => p.1 == k) := by
  induction l with
  | nil => rfl
  | cons p l ih =>
    by_cases h : p.1 = key
    · have h2 : (p.1 == k) = false := by
        have : ¬ p.1 = k := fun e => hk (e ▸ h)
        simpa using this
      rw [List.filter_cons]
      simp only [h, beq_self_eq_true, Bool.not_true, List.find?_cons]
      rw [h] at h2
      simp only [h2]
      exact ih
    · have hb : (p.1 == key) = false := by simpa using h
      rw [List.filter_cons]
      simp only [hb, Bool.not_false, if_true, List.find?_cons]
      cases hpk : (p.1 == k)
      · exact ih
      · rfl

theorem mapLookup_mapDelete_self (m : Option (List (String × Nat))) (key : String) :
    mapLookup (mapDelete m key) key = none := by
  cases m with
  | none => rfl
  | some l => simp [mapLookup, mapDelete, find_filter_self]

theorem mapLookup_mapDelete_ne (m : Option (List (String × Nat))) (key k : String)
    (hk : k ≠ key) : mapLookup (mapDelete m key) k = mapLookup m k := by
  cases m with
  | none => rfl
  | some l => simp [mapLookup, mapDelete, find_filter_ne l key k hk]

theorem mapLookup_mapStore_self (l : List (String × Nat)) (key : String) (c : Nat) :
    mapLookup (some (mapStore l key c)) key = some c := by
  simp [mapLookup, mapStore]

theorem mapLookup_mapStore_ne (l : List (String × Nat)) (key k : String) (c : Nat)
    (hk : k ≠ key) : mapLookup (some (mapStore l key c)) k = mapLookup (some l) k := by
  have h2 : (key == k) = false := by
    have : ¬ key = k := fun e => hk e.symm
    simpa using this
  simp only [mapLookup, mapStore, List.find?_cons, h2, find_filter_ne l key k hk]

theorem send_empty {R : Type} (chans : List (List R)) (ch : Nat) (r : R)
    (h : chans[ch]? = some []) : send chans ch r = some (chans.set ch [r]) := by
  simp [send, h, chanCap]

theorem sendAll_spec {R : Type} (r : R) : ∀ (chs : List Nat) (chans : List (List R)),
    chs.Nodup → (∀ ch ∈ chs, chans[ch]? = some []) →
    (sendAll chans r chs).2 = true ∧ (sendAll chans r chs).1.length = chans.length ∧
    (∀ ch ∈ chs, (sendAll chans r chs).1[ch]? = some [r]) ∧
    (∀ ch, ch ∉ chs → (sendAll chans r chs).1[ch]? = chans[ch]?) := by
  intro chs
  induction chs with
  | nil => intro chans _ _; simp [sendAll]
  | cons c rest ih =>
    intro chans hnd hemp
    have hc : chans[c]? = some [] := hemp c (List.mem_cons_self _ _)
    have hlt : c < chans.length := by
      rcases List.getElem?_eq_some.mp hc with ⟨h, _⟩; exact h
    have hnd2 : rest.Nodup := (List.nodup_cons.mp hnd).2
    have hnot : c ∉ rest := (List.nodup_cons.mp hnd).1
    have hemp2 : ∀ ch ∈ rest, (chans.set c [r])[ch]? = some [] := by
      intro ch hch
      have hne : c ≠ ch := fun e => hnot (e ▸ hch)
      rw [List.getElem?_set_ne hne]
      exact hemp ch (List.mem_cons_of_mem _ hch)
    obtain ⟨h1, h2, h3, h4⟩ := ih (chans.set c [r]) hnd2 hemp2
    have hs : sendAll chans r (c :: rest) = sendAll (chans.set c [r]) r rest := by
      simp [sendAll, send_empty chans c r hc]
    rw [hs]
    refine ⟨h1, by simpa using h2, ?_, ?_⟩
    · intro ch hch
      rcases List.mem_cons.mp hch with e | hin
      · subst e
        rw [h4 ch hnot]
        exact List.getElem?_set_self hlt
      · exact h3 ch hin
    · intro ch hch
      have hne : c ≠ ch := fun e => hch (e ▸ List.mem_cons_self _ _)
      have hnr : ch ∉ rest := fun hin => hch (List.mem_cons_of_mem _ hin)
      rw [h4 ch hnr, List.getElem?_set_ne hne]


theorem doCallRun_ret (P : Type) (s : State V E F) (c : Nat) (r : call V E) (v : Option V)
    (err : Option E) (hc : s.calls[c]? = some r) (hwg : 0 < r.wg) :
    (doCallRun s c (FnExit.ret v err) : Exit (State V E F) P)
      = .done { s with calls := s.calls.set c { r with val := v, err := err, wg := r.wg - 1 } } := by
  have h : ¬ (r.wg - 1 < 0) := by omega
  simp [doCallRun, hc, h]

theorem doCallLocked_done (P : Type) (s : State V E F) (c : Nat) (key : String) (r : call V E)
    (hc : s.calls[c]? = some r) (hnd : r.chans.Nodup)
    (hemp : ∀ ch ∈ r.chans, s.chans[ch]? = some []) :
    (doCallLocked s c key : Exit (State V E F) P) = .done
      { g := ⟨if !r.forgotten then mapDelete s.g.m key else s.g.m⟩,
        calls := s.calls,
        chans := (sendAll s.chans ⟨r.val, r.err, mkShared c r⟩ r.chans).1,
        spawned := s.spawned } := by
  have hsent := (sendAll_spec (⟨r.val, r.err, mkShared c r⟩ : Result V E) r.chans s.chans
    hnd hemp).1
  simp only [doCallLocked, hc, hsent, if_true]

theorem doCall_ret (P : Type) (s : State V E F) (c : Nat) (key : String) (r : call V E)
    (v : Option V) (err : Option E) (hc : s.calls[c]? = some r) (hwg : 0 < r.wg)
    (hnd : r.chans.Nodup) (hemp : ∀ ch ∈ r.chans, s.chans[ch]? = some []) :
    (doCall s c key (FnExit.ret v err) : Exit (State V E F) P) = .done
      { g := ⟨if !r.forgotten then mapDelete s.g.m key else s.g.m⟩,
        calls := s.calls.set c { r with val := v, err := err, wg := r.wg - 1 },
        chans := (sendAll s.chans ⟨v, err, mkShared c r⟩ r.chans).1,
        spawned := s.spawned } := by
  have hlt : c < s.calls.length := by
    rcases List.getElem?_eq_some.mp hc with ⟨h, _⟩; exact h
  simp only [doCall, doCallRun_ret P s c r v err hc hwg]
  exact doCallLocked_done P
    { s with calls := s.calls.set c { r with val := v, err := err, wg := r.wg - 1 } }
    c key { r with val := v, err := err, wg := r.wg - 1 }
    (List.getElem?_set_self hlt) hnd hemp

theorem DoRecv_single (s : State V E F) (ch : Nat) (res : Result V E)
    (h : s.chans[ch]? = some [res]) :
    DoRecv s ch = some ((res.Val, res.Err, res.Shared), { s with chans := s.chans.set ch [] })
    ∧ DoRecv { s with chans := s.chans.set ch [] } ch = none := by
  have hlt : ch < s.chans.length := by
    rcases List.getElem?_eq_some.mp h with ⟨h1, _⟩; exact h1
  constructor
  · simp only [DoRecv, recv, h]
  · simp only [DoRecv, recv, List.getElem?_set_self hlt]

theorem wrapInt64_id (x : Int) (h1 : -9223372036854775808 ≤ x) (h2 : x < 9223372036854775808) :
    wrapInt64 x = x := by
  unfold wrapInt64
  omega

theorem set_same {α : Type} (l : List α) (i : Nat) (a : α) (h : l[i]? = some a) :
    l.set i a = l := by
  apply List.ext_getElem?
  intro j
  by_cases hj : i = j
  · subst hj
    rcases List.getElem?_eq_some.mp h with ⟨hlt, _⟩
    rw [List.getElem?_set_self hlt, h]
  · rw [List.getElem?_set_ne hj]

theorem lookup_some_m (m : Option (List (String × Nat))) (key : String) (c : Nat)
    (h : mapLookup m key = some c) : some (m.getD []) = m := by
  cases m with
  | none => simp [mapLookup] at h
  | some l => rfl

theorem lookup_getD (m : Option (List (String × Nat))) (key : String) :
    mapLookup (some (m.getD [])) key = mapLookup m key := by
  cases m with
  | none => rfl
  | some l => rfl

theorem DoChan_new (s : State V E F) (key : String) (fn : F)
    (hkey : mapLookup s.g.m key = none) :
    DoChan s key fn = (s.chans.length,
      { g := ⟨some (mapStore (s.g.m.getD []) key s.calls.length)⟩,
        calls := s.calls ++ [{ wg := 1, val := none, err := none, forgotten := false,
                               refCount := 1, chans := [s.chans.length] }],
        chans := s.chans ++ [[]],
        spawned := s.spawned ++ [⟨s.calls.length, key, fn⟩] }) := by
  simp only [DoChan, lookup_getD, hkey]

theorem DoChan_attach (s : State V E F) (key : String) (fn : F) (c : Nat) (r : call V E)
    (hkey : mapLookup s.g.m key = some c) (hc : s.calls[c]? = some r) :
    DoChan s key fn = (s.chans.length,
      { g := s.g,
        calls := s.calls.set c { r with refCount := wrapInt64 (r.refCount + 1),
                                        chans := r.chans ++ [s.chans.length] },
        chans := s.chans ++ [[]],
        spawned := s.spawned }) := by
  simp only [DoChan, lookup_getD, hkey, modifyAt, hc, lookup_some_m s.g.m key c hkey]

theorem registerAll_attach (key : String) : ∀ (fns : List F) (s : State V E F) (c : Nat)
    (r : call V E), mapLookup s.g.m key = some c → s.calls[c]? = some r →
    0 ≤ r.refCount → r.refCount + fns.length < 9223372036854775808 →
    registerAll s key fns = (List.range' s.chans.length fns.length,
      { g := s.g,
        calls := s.calls.set c { r with refCount := r.refCount + fns.length,
                                        chans := r.chans ++ List.range' s.chans.length fns.length },
        chans := s.chans ++ List.replicate fns.length [],
        spawned := s.spawned }) := by
  intro fns
  induction fns with
  | nil =>
    intro s c r _ hc _ _
    simp [registerAll, set_same s.calls c r hc]
  | cons fn rest ih =>
    intro s c r hkey hc h0 hb
    have hlt : c < s.calls.length := by
      rcases List.getElem?_eq_some.mp hc with ⟨h, _⟩; exact h
    simp only [List.length_cons, Nat.cast_add, Nat.cast_one] at hb
    have hw : wrapInt64 (r.refCount + 1) = r.refCount + 1 :=
      wrapInt64_id _ (by omega) (by omega)
    simp only [registerAll, DoChan_attach s key fn c r hkey hc, hw]
    have hi := ih
      { g := s.g,
        calls := s.calls.set c { r with refCount := r.refCount + 1,
                                        chans := r.chans ++ [s.chans.length] },
        chans := s.chans ++ [[]], spawned := s.spawned } c
      { r with refCount := r.refCount + 1, chans := r.chans ++ [s.chans.length] }
      hkey (List.getElem?_set_self hlt) (by simp only; omega) (by simp only; omega)
    rw [hi]
    have e : (1 : Int) + (rest.length : Int) = (rest.length : Int) + 1 := by omega
    simp [List.range'_succ, List.replicate_succ, add_assoc, add_comm 1, e]

theorem set_concat {α : Type} (l : List α) (a b : α) :
    (l ++ [a]).set l.length b = l ++ [b] := by
  induction l with
  | nil => rfl
  | cons x l ih => simp [List.set, ih]

theorem registerAll_new (s : State V E F) (key : String) (fn : F) (rest : List F)
    (hkey : mapLookup s.g.m key = none)
    (hb : (rest.length : Int) + 1 < 9223372036854775808) :
    registerAll s key (fn :: rest) = (List.range' s.chans.length (rest.length + 1),
      afterRegs s key fn (freshCall V E s.chans.length (rest.length + 1)) (rest.length + 1)) := by
  simp only [registerAll, DoChan_new s key fn hkey]
  have hi := registerAll_attach key rest
    { g := ⟨some (mapStore (s.g.m.getD []) key s.calls.length)⟩,
      calls := s.calls ++ [{ wg := 1, val := none, err := none, forgotten := false,
                             refCount := 1, chans := [s.chans.length] }],
      chans := s.chans ++ [[]],
      spawned := s.spawned ++ [⟨s.calls.length, key, fn⟩] } s.calls.length
    { wg := 1, val := none, err := none, forgotten := false,
      refCount := 1, chans := [s.chans.length] }
    (mapLookup_mapStore_self _ _ _) (List.getElem?_concat_length _ _)
    (by simp only; omega) (by simp only; omega)
  rw [hi]
  have e : (1 : Int) + (rest.length : Int) = (rest.length : Int) + 1 := by omega
  simp [afterRegs, set_concat, freshCall, List.range'_succ, List.replicate_succ, add_comm 1, e]

theorem afterRegs_lookup (s : State V E F) (key : String) (fn : F) (r : call V E) (n : Nat) :
    mapLookup (afterRegs s key fn r n).g.m key = some s.calls.length :=
  mapLookup_mapStore_self _ _ _

theorem afterRegs_call (s : State V E F) (key : String) (fn : F) (r : call V E) (n : Nat) :
    (afterRegs s key fn r n).calls[s.calls.length]? = some r :=
  List.getElem?_concat_length _ _

theorem afterRegs_empty (s : State V E F) (key : String) (fn : F) (r : call V E) (n : Nat) :
    ∀ ch ∈ List.range' s.chans.length n, (afterRegs s key fn r n).chans[ch]? = some [] := by
  intro ch hch
  rcases List.mem_range'_1.mp hch with ⟨h1, h2⟩
  simp only [afterRegs]
  rw [List.getElem?_append_right h1, List.getElem?_replicate_of_lt (by omega)]

theorem afterRegs_old (s : State V E F) (key : String) (fn : F) (r : call V E) (n : Nat)
    (ch : Nat) (h : ch < s.chans.length) :
    (afterRegs s key fn r n).chans[ch]? = s.chans[ch]? := by
  simp only [afterRegs]
  rw [List.getElem?_append_left h]

theorem afterRegs_run (P : Type) (s : State V E F) (key : String) (fn : F) (r : call V E) (n : Nat)
    (v : Option V) (err : Option E) (hwg : 0 < r.wg) :
    (doCallRun (afterRegs s key fn r n) s.calls.length (FnExit.ret v err) :
        Exit (State V E F) P)
      = .done (afterRegs s key fn { r with val := v, err := err, wg := r.wg - 1 } n) := by
  rw [doCallRun_ret P _ _ r v err (afterRegs_call s key fn r n) hwg]
  simp [afterRegs, set_concat]

theorem afterRegs_attach (s : State V E F) (key : String) (fn : F) (r : call V E) (n : Nat)
    (fns : List F) (hch : r.chans = List.range' s.chans.length n) (h0 : 0 ≤ r.refCount)
    (hb : r.refCount + fns.length < 9223372036854775808) :
    registerAll (afterRegs s key fn r n) key fns
      = (List.range' (s.chans.length + n) fns.length,
         afterRegs s key fn
           { r with refCount := r.refCount + fns.length,
                    chans := List.range' s.chans.length (n + fns.length) }
           (n + fns.length)) := by
  rw [registerAll_attach key fns _ s.calls.length r (afterRegs_lookup s key fn r n)
    (afterRegs_call s key fn r n) h0 hb]
  have e : List.range' s.chans.length n ++ List.range' (s.chans.length + n) fns.length
      = List.range' s.chans.length (n + fns.length) := by
    rw [List.range'_append_1, Nat.add_comm]
  simp [afterRegs, set_concat, hch, e]

theorem afterRegs_forget (s : State V E F) (key : String) (fn : F) (r : call V E) (n : Nat) :
    Forget (afterRegs s key fn r n) key
      = { afterRegs s key fn { r with forgotten := true } n with
          g := ⟨mapDelete (afterRegs s key fn r n).g.m key⟩ } := by
  simp only [Forget, afterRegs_lookup, modifyAt, afterRegs_call]
  simp [afterRegs, set_concat]

theorem afterRegs_locked (P : Type) (s : State V E F) (key : String) (fn : F) (r : call V E)
    (n : Nat) (hch : r.chans = List.range' s.chans.length n) :
    ∃ s2 : State V E F,
      (doCallLocked (afterRegs s key fn r n) s.calls.length key : Exit (State V E F) P)
        = .done s2 ∧
      s2.g = ⟨if !r.forgotten then mapDelete (afterRegs s key fn r n).g.m key
              else (afterRegs s key fn r n).g.m⟩ ∧
      s2.calls = s.calls ++ [r] ∧
      s2.spawned = (afterRegs s key fn r n).spawned ∧
      s2.chans.length = s.chans.length + n ∧
      (∀ ch ∈ List.range' s.chans.length n,
        s2.chans[ch]? = some [⟨r.val, r.err, mkShared s.calls.length r⟩]) ∧
      (∀ ch, ch < s.chans.length → s2.chans[ch]? = s.chans[ch]?) := by
  have hnd : r.chans.Nodup := by rw [hch]; exact List.nodup_range' _ _
  have hemp : ∀ ch ∈ r.chans, (afterRegs s key fn r n).chans[ch]? = some [] := by
    rw [hch]; exact afterRegs_empty s key fn r n
  obtain ⟨_, hlen, hin, hout⟩ := sendAll_spec
    (⟨r.val, r.err, mkShared s.calls.length r⟩ : Result V E) r.chans _ hnd hemp
  refine ⟨_, doCallLocked_done P _ s.calls.length key r (afterRegs_call s key fn r n) hnd hemp,
    rfl, rfl, rfl, ?_, ?_, ?_⟩
  · simp only [hlen]; simp [afterRegs]
  · intro ch hc; exact hin ch (by rw [hch]; exact hc)
  · intro ch hc
    have hnot : ch ∉ r.chans := by
      rw [hch]; intro hm
      have := (List.mem_range'_1.mp hm).1
      omega
    simp only [hout ch hnot]
    exact afterRegs_old s key fn r n ch hc

theorem doCall_forgotten_frame (P : Type) (s : State V E F) (a : Nat) (key : String)
    (r : call V E) (ha : s.calls[a]? = some r) (hf : r.forgotten = true)
    (out : FnExit V E P) : (doCall s a key out).state.g = s.g := by
  have hlt : a < s.calls.length := by
    rcases List.getElem?_eq_some.mp ha with ⟨h, _⟩; exact h
  cases out with
  | panic p => rfl
  | goexit => rfl
  | ret v err =>
    by_cases hw : r.wg - 1 < 0
    · simp [doCall, doCallRun, ha, hw, Exit.state]
    · simp only [doCall, doCallRun, ha, hw, if_false, doCallLocked,
        List.getElem?_set_self hlt, hf]
      split <;> rfl

theorem mem_lt_of_empty {R : Type} (chans : List (List R)) (l : List Nat)
    (h : ∀ ch ∈ l, chans[ch]? = some []) : ∀ ch ∈ l, ch < chans.length := by
  intro ch hch
  rcases List.getElem?_eq_some.mp (h ch hch) with ⟨h1, _⟩
  exact h1

theorem Decrement_eq (s : State V E F) (rs : refShared) (r : call V E)
    (hc : s.calls[rs.refCount]? = some r)
    (h1 : -9223372036854775808 < r.refCount) (h2 : r.refCount ≤ 9223372036854775808) :
    Decrement s rs = some (r.refCount - 1,
      { s with calls := s.calls.set rs.refCount { r with refCount := r.refCount - 1 } }) := by
  have hw : wrapInt64 (r.refCount + -1) = r.refCount - 1 := by
    rw [wrapInt64_id _ (by omega) (by omega)]; omega
  simp only [Decrement, hc, hw]

theorem decrementAll_replicate (rs : refShared) : ∀ (k : Nat) (s : State V E F)
    (r : call V E), s.calls[rs.refCount]? = some r → (k : Int) ≤ r.refCount →
    r.refCount < 9223372036854775808 →
    ∃ s1 : State V E F,
      decrementAll s (List.replicate k rs)
        = some ((List.range k).map (fun (i : Nat) => r.refCount - 1 - (i : Int)), s1) ∧
      s1.calls[rs.refCount]? = some { r with refCount := r.refCount - k } := by
  intro k
  induction k with
  | zero =>
    intro s r hc _ _
    exact ⟨s, rfl, by simpa using hc⟩
  | succ k ih =>
    intro s r hc hk hb
    have hlt : rs.refCount < s.calls.length := by
      rcases List.getElem?_eq_some.mp hc with ⟨h, _⟩; exact h
    push_cast at hk
    have hd := Decrement_eq s rs r hc (by omega) (by omega)
    obtain ⟨s1, h1, h2⟩ := ih
      { s with calls := s.calls.set rs.refCount { r with refCount := r.refCount - 1 } }
      { r with refCount := r.refCount - 1 } (List.getElem?_set_self hlt)
      (by simp only; omega) (by simp only; omega)
    refine ⟨s1, ?_, ?_⟩
    · simp only [List.replicate_succ, decrementAll, hd, h1, List.range_succ_eq_map,
        List.map_cons, List.map_map]
      have e1 : r.refCount - 1 - ((0 : Nat) : Int) = r.refCount - 1 := by simp
      have e2 : List.map ((fun (i : Nat) => r.refCount - 1 - (i : Int)) ∘ Nat.succ)
          (List.range k)
          = List.map (fun (i : Nat) => r.refCount - 1 - 1 - (i : Int)) (List.range k) := by
        apply List.map_congr_left
        intro i _
        simp only [Function.comp, Nat.cast_succ]
        omega
      rw [e1, e2]
    · rw [h2]
      congr 2
      push_cast
      omega

/-! ## The claims on Group -/

/-- C1 (duplicate suppression).  From any state in which `key` has no table entry,
`N = rest.length + 1` successive `DoChan(key, .)` registrations start exactly one
goroutine, the one for the first caller's work function `fn`; the table maps `key` to the
one new record, whose `refCount` is `N` and whose receivers are the `N` channels handed
out; and each of the other `N - 1` registrations changes nothing but that record
(`refCount` plus one, its receiver appended) and the channel heap (its new channel):
the table and the list of started goroutines stay as they are. -/
theorem C1_duplicate_suppression (s : State V E F) (key : String) (fn : F) (rest : List F)
    (hkey : mapLookup s.g.m key = none)
    (hN : (rest.length : Int) + 1 < 9223372036854775808) :
    (registerAll s key (fn :: rest)).2.spawned = s.spawned ++ [⟨s.calls.length, key, fn⟩]
    ∧ mapLookup (registerAll s key (fn :: rest)).2.g.m key = some s.calls.length
    ∧ (registerAll s key (fn :: rest)).2.calls
        = s.calls ++ [{ wg := 1, val := none, err := none, forgotten := false,
                        refCount := (rest.length : Int) + 1,
                        chans := (registerAll s key (fn :: rest)).1 }]
    ∧ (registerAll s key (fn :: rest)).1.length = rest.length + 1
    ∧ (∀ (pre post : List F) (x : F), rest = pre ++ x :: post →
        ∃ rk : call V E,
          (registerAll s key (fn :: pre)).2.calls[s.calls.length]? = some rk ∧
          DoChan (registerAll s key (fn :: pre)).2 key x
            = ((registerAll s key (fn :: pre)).2.chans.length,
               { g := (registerAll s key (fn :: pre)).2.g,
                 calls := (registerAll s key (fn :: pre)).2.calls.set s.calls.length
                   { rk with refCount := rk.refCount + 1,
                             chans := rk.chans ++ [(registerAll s key (fn :: pre)).2.chans.length] },
                 chans := (registerAll s key (fn :: pre)).2.chans ++ [[]],
                 spawned := (registerAll s key (fn :: pre)).2.spawned })) := by
  rw [registerAll_new s key fn rest hkey hN]
  refine ⟨rfl, mapLookup_mapStore_self _ _ _, ?_, by simp, ?_⟩
  · simp [freshCall, afterRegs]
  · intro pre post x hrest
    have hlen : rest.length = pre.length + (post.length + 1) := by
      rw [hrest]; simp
    have hpre : (pre.length : Int) + 1 < 9223372036854775808 := by
      rw [hlen] at hN; push_cast at hN; omega
    rw [registerAll_new s key fn pre hkey hpre]
    refine ⟨freshCall V E s.chans.length (pre.length + 1),
      List.getElem?_concat_length _ _, ?_⟩
    have hw : wrapInt64 ((freshCall V E s.chans.length (pre.length + 1)).refCount + 1)
        = (freshCall V E s.chans.length (pre.length + 1)).refCount + 1 := by
      apply wrapInt64_id
      · simp only [freshCall]; omega
      · simp only [freshCall]; rw [hlen] at hN; push_cast at hN ⊢; omega
    rw [DoChan_attach _ key x s.calls.length (freshCall V E s.chans.length (pre.length + 1))
      (mapLookup_mapStore_self _ _ _) (List.getElem?_concat_length _ _), hw]

/-- Witness of `C1_duplicate_suppression`: three callers on the zero `Group`. -/
theorem C1_duplicate_suppression_witness :
    mapLookup (State.init : State String String String).g.m "k" = none
    ∧ ((["f2", "f3"].length : Nat) : Int) + 1 < 9223372036854775808
    ∧ (registerAll (State.init : State String String String) "k" ["f1", "f2", "f3"]).2.spawned
        = [⟨0, "k", "f1"⟩] :=
  ⟨rfl, by decide,
   (C1_duplicate_suppression (State.init : State String String String) "k" "f1" ["f2", "f3"]
      rfl (by decide)).1⟩

/-- C2 (result broadcast).  Let the record at `c` have a positive wait-group counter and
receivers `r.chans` that are pairwise distinct channels nothing has been sent on yet.
When its work returns `(v, err)`, `doCall` runs to its end, and afterwards the buffer of
every receiver holds exactly one `Result`, namely `{v, err, shared}` with the one
descriptor `shared = mkShared c r` for all of them: a receive on it yields
`(v, err, shared)` and a second receive finds nothing.  No other channel changes. -/
theorem C2_result_broadcast (s : State V E F) (c : Nat) (key : String) (r : call V E)
    (v : Option V) (err : Option E)
    (hc : s.calls[c]? = some r) (hwg : 0 < r.wg) (hnd : r.chans.Nodup)
    (hemp : ∀ ch ∈ r.chans, s.chans[ch]? = some []) :
    ∃ s1 : State V E F,
      (doCall s c key (FnExit.ret v err) : Exit (State V E F) P) = .done s1 ∧
      (∀ ch ∈ r.chans, s1.chans[ch]? = some [⟨v, err, mkShared c r⟩]) ∧
      (∀ ch ∈ r.chans, ∃ s2 : State V E F,
        DoRecv s1 ch = some ((v, err, mkShared c r), s2) ∧ DoRecv s2 ch = none) ∧
      (∀ ch, ch ∉ r.chans → s1.chans[ch]? = s.chans[ch]?) := by
  obtain ⟨_, _, hin, hout⟩ :=
    sendAll_spec (⟨v, err, mkShared c r⟩ : Result V E) r.chans s.chans hnd hemp
  refine ⟨_, doCall_ret P s c key r v err hc hwg hnd hemp, hin, ?_, hout⟩
  intro ch hch
  exact ⟨_, DoRecv_single _ ch ⟨v, err, mkShared c r⟩ (hin ch hch)⟩

/-- Witness of `C2_result_broadcast`: two callers registered on the zero `Group`, the
work returns `("bar", nil)`. -/
theorem C2_result_broadcast_witness :
    ∃ s1 : State String String String,
      (doCall (registerAll (State.init : State String String String) "k" ["f1", "f2"]).2
          0 "k" (FnExit.ret (some "bar") none) : Exit (State String String String) String)
        = .done s1 ∧
      ∀ ch ∈ [0, 1], s1.chans[ch]? = some [⟨some "bar", none, ⟨true, 0⟩⟩] := by
  obtain ⟨s1, h1, h2, _⟩ := C2_result_broadcast
    (registerAll (State.init : State String String String) "k" ["f1", "f2"]).2 0 "k"
    (freshCall String String 0 2) (some "bar") none rfl (by decide) (by decide)
    (by decide)
  exact ⟨s1, h1, h2⟩

/-- C3 (shared flag).  From any state in which `key` has no table entry, let
`N = rest1.length + rest2.length + 1` callers register for `key`: the first one and
`rest1` before the work returns, `rest2` after the work has returned `(v, err)` and before
the completion step.  Then the work-return step and the completion step both run to
their end, the record's receivers are exactly the `N` channels handed out, and the one
`Result` found on each of them has `Shared() = true` if `N > 1` and `Shared() = false`
if `N = 1`. -/
theorem C3_shared_flag (s : State V E F) (key : String) (fn : F) (rest1 rest2 : List F)
    (v : Option V) (err : Option E)
    (hkey : mapLookup s.g.m key = none)
    (hN : (rest1.length : Int) + (rest2.length : Int) + 1 < 9223372036854775808) :
    ∃ s1 s2 : State V E F,
      (doCallRun (registerAll s key (fn :: rest1)).2 s.calls.length (FnExit.ret v err) :
          Exit (State V E F) P) = .done s1 ∧
      (doCallLocked (registerAll s1 key rest2).2 s.calls.length key :
          Exit (State V E F) P) = .done s2 ∧
      ((registerAll s key (fn :: rest1)).1 ++ (registerAll s1 key rest2).1).length
        = rest1.length + rest2.length + 1 ∧
      (∃ r : call V E, (registerAll s1 key rest2).2.calls[s.calls.length]? = some r ∧
        r.chans = (registerAll s key (fn :: rest1)).1 ++ (registerAll s1 key rest2).1) ∧
      ∀ ch ∈ (registerAll s key (fn :: rest1)).1 ++ (registerAll s1 key rest2).1,
        ∃ res : Result V E, s2.chans[ch]? = some [res] ∧
          Shared res.Shared = decide (rest1.length + rest2.length + 1 > 1) := by
  have hb1 : (rest1.length : Int) + 1 < 9223372036854775808 := by omega
  rw [registerAll_new s key fn rest1 hkey hb1]
  have hrun := afterRegs_run P s key fn (freshCall V E s.chans.length (rest1.length + 1))
    (rest1.length + 1) v err (by simp [freshCall])
  have hatt := afterRegs_attach s key fn
    { freshCall V E s.chans.length (rest1.length + 1) with
      val := v, err := err, wg := (freshCall V E s.chans.length (rest1.length + 1)).wg - 1 }
    (rest1.length + 1) rest2 (by simp [freshCall]) (by simp [freshCall]; omega)
    (by simp [freshCall]; omega)
  obtain ⟨s2, hlock, _, _, _, _, hin, _⟩ := afterRegs_locked P s key fn
    ({ wg := (freshCall V E s.chans.length (rest1.length + 1)).wg - 1, val := v, err := err,
       forgotten := false,
       refCount := (freshCall V E s.chans.length (rest1.length + 1)).refCount + rest2.length,
       chans := List.range' s.chans.length (rest1.length + 1 + rest2.length) } : call V E)
    (rest1.length + 1 + rest2.length) rfl
  have happ : List.range' s.chans.length (rest1.length + 1)
      ++ List.range' (s.chans.length + (rest1.length + 1)) rest2.length
      = List.range' s.chans.length (rest1.length + 1 + rest2.length) := by
    rw [List.range'_append_1, Nat.add_comm]
  refine ⟨_, s2, hrun, (by rw [hatt]; exact hlock), ?_, ?_, ?_⟩
  · rw [hatt]; simp; omega
  · rw [hatt]
    exact ⟨_, afterRegs_call s key fn _ _, happ.symm⟩
  · rw [hatt]
    simp only [happ]
    intro ch hch
    refine ⟨_, hin ch hch, ?_⟩
    simp only [Shared, mkShared, freshCall, decide_eq_decide]
    push_cast
    omega

/-- Witness of `C3_shared_flag`: one caller before the work returns, one after. -/
theorem C3_shared_flag_witness :
    mapLookup (State.init : State String String String).g.m "k" = none ∧
    ∃ s1 s2 : State String String String,
      (doCallRun (registerAll (State.init : State String String String) "k" ["f1"]).2
          (State.init : State String String String).calls.length
          (FnExit.ret (some "bar") none) : Exit (State String String String) String)
        = .done s1 ∧
      (doCallLocked (registerAll s1 "k" ["f2"]).2
          (State.init : State String String String).calls.length "k" :
          Exit (State String String String) String) = .done s2 := by
  obtain ⟨s1, s2, h1, h2, _⟩ := C3_shared_flag (State.init : State String String String)
    "k" "f1" [] ["f2"] (some "bar") none rfl (by decide)
  exact ⟨rfl, s1, s2, h1, h2⟩

/-- C4 (Forget starts a fresh call).  Let call A, with record `rA` at address `a`, be in
flight and be the table entry of `key`.  After `Forget(key)` the table has no entry for
`key`; the next `DoChan(key, fB)` starts a goroutine for `fB` on a new record at a
different address, which becomes the table entry, and leaves the `refCount` and the
receivers of A as they were; and when the work of A then returns `(v, err)`, `doCall`
runs to its end and every receiver of A holds exactly the `Result` of A. -/
theorem C4_forget_starts_fresh_call (s : State V E F) (key : String) (a : Nat)
    (rA : call V E) (fB : F) (v : Option V) (err : Option E)
    (htab : mapLookup s.g.m key = some a) (hA : InFlight s a rA) :
    mapLookup (Forget s key).g.m key = none
    ∧ (DoChan (Forget s key) key fB).2.spawned = s.spawned ++ [⟨s.calls.length, key, fB⟩]
    ∧ mapLookup (DoChan (Forget s key) key fB).2.g.m key = some s.calls.length
    ∧ s.calls.length ≠ a
    ∧ (DoChan (Forget s key) key fB).2.calls[s.calls.length]?
        = some { wg := 1, val := none, err := none, forgotten := false, refCount := 1,
                 chans := [(DoChan (Forget s key) key fB).1] }
    ∧ (DoChan (Forget s key) key fB).1 ∉ rA.chans
    ∧ (DoChan (Forget s key) key fB).2.calls[a]? = some { rA with forgotten := true }
    ∧ ∃ s3 : State V E F,
        (doCall (DoChan (Forget s key) key fB).2 a key (FnExit.ret v err) :
            Exit (State V E F) P) = .done s3 ∧
        ∀ ch ∈ rA.chans, s3.chans[ch]? = some [⟨v, err, mkShared a rA⟩] := by
  obtain ⟨ha, hwg, hnd, hemp⟩ := hA
  have hlt : a < s.calls.length := by
    rcases List.getElem?_eq_some.mp ha with ⟨h, _⟩; exact h
  have hF : Forget s key =
      { s with
        g := ⟨mapDelete s.g.m key⟩,
        calls := s.calls.set a { rA with forgotten := true } } := by
    simp only [Forget, htab, modifyAt, ha]
  have hnone : mapLookup (Forget s key).g.m key = none := by
    rw [hF]; exact mapLookup_mapDelete_self _ _
  have hD := DoChan_new (Forget s key) key fB hnone
  have hlen : (Forget s key).calls.length = s.calls.length := by rw [hF]; simp
  have hchlen : (Forget s key).chans = s.chans := by rw [hF]
  have hsp : (Forget s key).spawned = s.spawned := by rw [hF]
  have hfresh : s.chans.length ∉ rA.chans := by
    intro hm
    have h1 := hemp _ hm
    rcases List.getElem?_eq_some.mp h1 with ⟨h, _⟩
    omega
  have hcallA : (DoChan (Forget s key) key fB).2.calls[a]? = some { rA with forgotten := true } := by
    rw [hD]; simp only
    rw [List.getElem?_append_left (by rw [hlen]; exact hlt), hF]
    exact List.getElem?_set_self hlt
  have hemp2 : ∀ ch ∈ rA.chans, (DoChan (Forget s key) key fB).2.chans[ch]? = some [] := by
    intro ch hch
    have h1 := hemp ch hch
    rcases List.getElem?_eq_some.mp h1 with ⟨h, _⟩
    rw [hD]; simp only
    rw [hchlen, List.getElem?_append_left h]
    exact h1
  refine ⟨hnone, ?_, ?_, by omega, ?_, ?_, hcallA, ?_⟩
  · rw [hD]; simp only [hlen, hsp]
  · rw [hD]; simp only [hlen]; exact mapLookup_mapStore_self _ _ _
  · rw [hD]; simp only [hchlen]
    rw [← hlen]; exact List.getElem?_concat_length _ _
  · rw [hD]; simp only [hchlen]; exact hfresh
  · obtain ⟨_, _, hin, _⟩ := sendAll_spec
      (⟨v, err, mkShared a ({ rA with forgotten := true } : call V E)⟩ : Result V E)
      rA.chans _ hnd hemp2
    exact ⟨_, doCall_ret P _ a key { rA with forgotten := true } v err hcallA hwg hnd hemp2,
      hin⟩

/-- Witness of `C4_forget_starts_fresh_call`: two callers wait for A when `Forget`
is called. -/
theorem C4_forget_starts_fresh_call_witness :
    mapLookup (registerAll (State.init : State String String String) "k" ["fA", "f2"]).2.g.m "k"
      = some 0
    ∧ InFlight (registerAll (State.init : State String String String) "k" ["fA", "f2"]).2 0
        (freshCall String String 0 2)
    ∧ mapLookup (Forget (registerAll (State.init : State String String String) "k"
        ["fA", "f2"]).2 "k").g.m "k" = none :=
  ⟨rfl, ⟨rfl, by decide, by decide, by decide⟩,
   (@C4_forget_starts_fresh_call String String String String
      (registerAll (State.init : State String String String) "k" ["fA", "f2"]).2 "k" 0
      (freshCall String String 0 2) "fB" (some "bar") none rfl
      ⟨rfl, by decide, by decide, by decide⟩).1⟩

/-- C5 (a forgotten call never clobbers a newer one).  Let call A (record `rA` at `a`) be
in flight and marked forgotten.  However its work ends, `doCall` for A leaves the group
table as it was.  In particular, if a newer call B (record `rB` at `b`, in flight, no
receiver in common with A) is the table entry of `key`, then after A has completed with
`(vA, errA)` B is still the table entry of `key`; a caller C arriving then with
`DoChan(key, fC)` starts no goroutine and is attached to B (`refCount` plus one, its
channel appended); and when the work of B returns `(vB, errB)`, the channel of C holds
exactly the `Result` of B. -/
theorem C5_forgotten_call_never_clobbers (s : State V E F) (key : String) (a b : Nat)
    (rA rB : call V E) (fC : F) (vA vB : Option V) (errA errB : Option E)
    (hA : InFlight s a rA) (hforg : rA.forgotten = true)
    (hB : InFlight s b rB) (htab : mapLookup s.g.m key = some b) (hab : a ≠ b)
    (hdisj : ∀ ch ∈ rA.chans, ch ∉ rB.chans) :
    (∀ out : FnExit V E P, (doCall s a key out).state.g = s.g)
    ∧ ∃ s1 : State V E F,
        (doCall s a key (FnExit.ret vA errA) : Exit (State V E F) P) = .done s1 ∧
        s1.g = s.g ∧ mapLookup s1.g.m key = some b ∧
        (DoChan s1 key fC).2.spawned = s.spawned ∧
        (DoChan s1 key fC).2.calls[b]?
          = some { rB with
                   refCount := wrapInt64 (rB.refCount + 1),
                   chans := rB.chans ++ [(DoChan s1 key fC).1] } ∧
        ∃ s2 : State V E F,
          (doCall (DoChan s1 key fC).2 b key (FnExit.ret vB errB) :
              Exit (State V E F) P) = .done s2 ∧
          s2.chans[(DoChan s1 key fC).1]?
            = some [⟨vB, errB, ⟨decide (wrapInt64 (rB.refCount + 1) > 1), b⟩⟩] := by
  obtain ⟨ha, hwgA, hndA, hempA⟩ := hA
  obtain ⟨hb, hwgB, hndB, hempB⟩ := hB
  refine ⟨doCall_forgotten_frame P s a key rA ha hforg, ?_⟩
  have hltb : b < s.calls.length := by
    rcases List.getElem?_eq_some.mp hb with ⟨h, _⟩; exact h
  obtain ⟨_, hlenA, _, houtA⟩ := sendAll_spec
    (⟨vA, errA, mkShared a rA⟩ : Result V E) rA.chans s.chans hndA hempA
  have h1 := doCall_ret P s a key rA vA errA ha hwgA hndA hempA
  have hg : (if (!rA.forgotten) = true then mapDelete s.g.m key else s.g.m) = s.g.m := by
    simp [hforg]
  rw [hg] at h1
  refine ⟨_, h1, rfl, htab, ?_⟩
  have hb1 : (s.calls.set a { rA with val := vA, err := errA, wg := rA.wg - 1 })[b]?
      = some rB := by
    rw [List.getElem?_set_ne hab]; exact hb
  have hD := DoChan_attach
    ({ g := ⟨s.g.m⟩,
       calls := s.calls.set a { rA with val := vA, err := errA, wg := rA.wg - 1 },
       chans := (sendAll s.chans (⟨vA, errA, mkShared a rA⟩ : Result V E) rA.chans).1,
       spawned := s.spawned } : State V E F) key fC b rB htab hb1
  rw [hD]
  simp only [hlenA]
  have hcb : ((s.calls.set a { rA with val := vA, err := errA, wg := rA.wg - 1 }).set b
      { rB with
        refCount := wrapInt64 (rB.refCount + 1),
        chans := rB.chans ++ [s.chans.length] })[b]?
      = some { rB with
               refCount := wrapInt64 (rB.refCount + 1),
               chans := rB.chans ++ [s.chans.length] } :=
    List.getElem?_set_self (by simpa using hltb)
  have hfresh : s.chans.length ∉ rB.chans := by
    intro hm
    have := mem_lt_of_empty s.chans rB.chans hempB _ hm
    omega
  have hnd2 : (rB.chans ++ [s.chans.length]).Nodup := by
    rw [List.nodup_append]
    refine ⟨hndB, List.nodup_singleton _, ?_⟩
    intro x hx hy
    rw [List.mem_singleton] at hy
    exact hfresh (hy ▸ hx)
  have hemp2 : ∀ ch ∈ rB.chans ++ [s.chans.length],
      ((sendAll s.chans (⟨vA, errA, mkShared a rA⟩ : Result V E) rA.chans).1 ++ [[]])[ch]?
        = some [] := by
    intro ch hch
    rcases List.mem_append.mp hch with h | h
    · have hlt := mem_lt_of_empty s.chans rB.chans hempB ch h
      rw [List.getElem?_append_left (by rw [hlenA]; exact hlt)]
      rw [houtA ch (fun hin => hdisj ch hin h)]
      exact hempB ch h
    · rw [List.mem_singleton] at h
      subst h
      rw [← hlenA]
      exact List.getElem?_concat_length _ _
  obtain ⟨_, _, hin2, _⟩ := sendAll_spec
    (⟨vB, errB, mkShared b ({ rB with
        refCount := wrapInt64 (rB.refCount + 1),
        chans := rB.chans ++ [s.chans.length] } : call V E)⟩ : Result V E)
    (rB.chans ++ [s.chans.length]) _ hnd2 hemp2
  refine ⟨trivial, hcb, _, doCall_ret P _ b key _ vB errB hcb hwgB hnd2 hemp2, ?_⟩
  exact hin2 _ (List.mem_append_right _ (List.mem_singleton_self _))

/-- Witness of `C5_forgotten_call_never_clobbers`: A registered and forgotten, then B
registered under the same key (the course of `TestForget`). -/
theorem C5_forgotten_call_never_clobbers_witness :
    InFlight (DoChan (Forget (DoChan (State.init : State String String String) "key" "fA").2
        "key") "key" "fB").2 0
      { wg := 1, val := none, err := none, forgotten := true, refCount := 1, chans := [0] }
    ∧ InFlight (DoChan (Forget (DoChan (State.init : State String String String) "key" "fA").2
        "key") "key" "fB").2 1
      { wg := 1, val := none, err := none, forgotten := false, refCount := 1, chans := [1] }
    ∧ ∀ out : FnExit String String String,
        (doCall (DoChan (Forget (DoChan (State.init : State String String String) "key"
          "fA").2 "key") "key" "fB").2 0 "key" out).state.g
        = (DoChan (Forget (DoChan (State.init : State String String String) "key" "fA").2
          "key") "key" "fB").2.g :=
  ⟨⟨rfl, by decide, by decide, by decide⟩, ⟨rfl, by decide, by decide, by decide⟩,
   (C5_forgotten_call_never_clobbers
      (DoChan (Forget (DoChan (State.init : State String String String) "key" "fA").2
        "key") "key" "fB").2 "key" 0 1
      { wg := 1, val := none, err := none, forgotten := true, refCount := 1, chans := [0] }
      { wg := 1, val := none, err := none, forgotten := false, refCount := 1, chans := [1] }
      "fC" none (some "2") none none
      ⟨rfl, by decide, by decide, by decide⟩ rfl ⟨rfl, by decide, by decide, by decide⟩
      rfl (by decide) (by decide)).1⟩

/-- C6 (retirement on completion).  Let the call with record `r` at `c` be in flight and
not forgotten.  When its work returns and `doCall(c, key, .)` completes, `key` has no
table entry any more and the entry of every other key is as before; a `DoChan(key, f)`
issued then starts a goroutine for `f` on a new record at a new address, which becomes
the table entry of `key`, with a new channel as its only receiver, on which nothing has
been sent. -/
theorem C6_retirement_on_completion (s : State V E F) (key : String) (c : Nat)
    (r : call V E) (f : F) (v : Option V) (err : Option E)
    (hc : InFlight s c r) (hnf : r.forgotten = false) :
    ∃ s1 : State V E F,
      (doCall s c key (FnExit.ret v err) : Exit (State V E F) P) = .done s1 ∧
      mapLookup s1.g.m key = none ∧
      (∀ k, k ≠ key → mapLookup s1.g.m k = mapLookup s.g.m k) ∧
      (DoChan s1 key f).2.spawned = s.spawned ++ [⟨s.calls.length, key, f⟩] ∧
      mapLookup (DoChan s1 key f).2.g.m key = some s.calls.length ∧
      s.calls.length ≠ c ∧
      (DoChan s1 key f).2.calls[s.calls.length]?
        = some { wg := 1, val := none, err := none, forgotten := false, refCount := 1,
                 chans := [(DoChan s1 key f).1] } ∧
      (DoChan s1 key f).1 ∉ r.chans ∧
      (DoChan s1 key f).2.chans[(DoChan s1 key f).1]? = some [] := by
  obtain ⟨ha, hwg, hnd, hemp⟩ := hc
  have hlt : c < s.calls.length := by
    rcases List.getElem?_eq_some.mp ha with ⟨h, _⟩; exact h
  obtain ⟨_, hlen, _, _⟩ := sendAll_spec
    (⟨v, err, mkShared c r⟩ : Result V E) r.chans s.chans hnd hemp
  have h1 := doCall_ret P s c key r v err ha hwg hnd hemp
  have hg : (if (!r.forgotten) = true then mapDelete s.g.m key else s.g.m)
      = mapDelete s.g.m key := by simp [hnf]
  rw [hg] at h1
  have hnone : mapLookup (mapDelete s.g.m key) key = none := mapLookup_mapDelete_self _ _
  have hD := DoChan_new
    ({ g := ⟨mapDelete s.g.m key⟩,
       calls := s.calls.set c { r with val := v, err := err, wg := r.wg - 1 },
       chans := (sendAll s.chans (⟨v, err, mkShared c r⟩ : Result V E) r.chans).1,
       spawned := s.spawned } : State V E F) key f hnone
  refine ⟨_, h1, hnone, fun k hk => mapLookup_mapDelete_ne _ _ _ hk, ?_⟩
  rw [hD]
  simp only [List.length_set, hlen]
  refine ⟨trivial, mapLookup_mapStore_self _ _ _, by omega, ?_, ?_, ?_⟩
  · simp
  · intro hm
    have := mem_lt_of_empty s.chans r.chans hemp _ hm
    omega
  · rw [← hlen]
    exact List.getElem?_concat_length _ _

/-- Witness of `C6_retirement_on_completion`: one caller, as in `TestDo`. -/
theorem C6_retirement_on_completion_witness :
    InFlight (DoChan (State.init : State String String String) "key" "f1").2 0
      (freshCall String String 0 1)
    ∧ ∃ s1 : State String String String,
        (doCall (DoChan (State.init : State String String String) "key" "f1").2 0 "key"
          (FnExit.ret (some "bar") none) : Exit (State String String String) String)
          = .done s1 ∧
        mapLookup s1.g.m "key" = none := by
  obtain ⟨s1, h1, h2, _⟩ := C6_retirement_on_completion
    (DoChan (State.init : State String String String) "key" "f1").2 "key" 0
    (freshCall String String 0 1) "f2" (some "bar") none
    ⟨rfl, by decide, by decide, by decide⟩ rfl
  exact ⟨⟨rfl, by decide, by decide, by decide⟩, s1, h1, h2⟩

/-- C7 (reference-counted last-consumer detection).  `Decrement` on a descriptor whose
counter holds a value above the least `int64` returns that value minus one and stores it.
From any state in which `key` has no table entry, let `N = rest1.length + rest2.length + 1`
callers register for `key` (the first one and `rest1` before the work returns, `rest2`
after it returned and before the completion step) and let the call complete.  Then the
descriptor of the `Result` on each of the `N` receivers points to the one counter of the
record, which holds `N`; and `N` successive `Decrement` calls, on any `N` descriptors
taken from delivered `Result`s, return `N - 1, N - 2, ..., 0` in call order, so that the
call that obtains `0` is exactly the last one. -/
theorem C7_last_consumer_detection (s : State V E F) (key : String) (fn : F)
    (rest1 rest2 : List F) (v : Option V) (err : Option E)
    (hkey : mapLookup s.g.m key = none)
    (hN : (rest1.length : Int) + (rest2.length : Int) + 1 < 9223372036854775808) :
    (∀ (t : State V E F) (rs : refShared) (r : call V E),
        t.calls[rs.refCount]? = some r → -9223372036854775808 < r.refCount →
        r.refCount ≤ 9223372036854775808 →
        ∃ t1 : State V E F, Decrement t rs = some (r.refCount - 1, t1) ∧
          t1.calls[rs.refCount]? = some { r with refCount := r.refCount - 1 })
    ∧ ∃ s1 s2 : State V E F,
      (doCallRun (registerAll s key (fn :: rest1)).2 s.calls.length (FnExit.ret v err) :
          Exit (State V E F) P) = .done s1 ∧
      (doCallLocked (registerAll s1 key rest2).2 s.calls.length key :
          Exit (State V E F) P) = .done s2 ∧
      (∀ ch ∈ (registerAll s key (fn :: rest1)).1 ++ (registerAll s1 key rest2).1,
        ∃ res : Result V E, s2.chans[ch]? = some [res] ∧
          res.Shared.refCount = s.calls.length) ∧
      (∃ r : call V E, s2.calls[s.calls.length]? = some r ∧
        r.refCount = ((rest1.length + rest2.length + 1 : Nat) : Int)) ∧
      (∀ shs : List refShared, shs.length = rest1.length + rest2.length + 1 →
        (∀ sh ∈ shs, ∃ ch ∈ (registerAll s key (fn :: rest1)).1 ++ (registerAll s1 key rest2).1,
          ∃ res : Result V E, s2.chans[ch]? = some [res] ∧ res.Shared = sh) →
        ∃ s3 : State V E F, decrementAll s2 shs
          = some ((List.range (rest1.length + rest2.length + 1)).map
              (fun (i : Nat) =>
                ((rest1.length + rest2.length + 1 : Nat) : Int) - 1 - (i : Int)), s3)) ∧
      (∀ i : Nat, i < rest1.length + rest2.length + 1 →
        (((List.range (rest1.length + rest2.length + 1)).map
            (fun (i : Nat) =>
              ((rest1.length + rest2.length + 1 : Nat) : Int) - 1 - (i : Int)))[i]? = some 0
          ↔ i + 1 = rest1.length + rest2.length + 1)) := by
  constructor
  · intro t rs r hc h1 h2
    have hlt : rs.refCount < t.calls.length := by
      rcases List.getElem?_eq_some.mp hc with ⟨h, _⟩; exact h
    exact ⟨_, Decrement_eq t rs r hc h1 h2, List.getElem?_set_self hlt⟩
  have hb1 : (rest1.length : Int) + 1 < 9223372036854775808 := by omega
  rw [registerAll_new s key fn rest1 hkey hb1]
  have hrun := afterRegs_run P s key fn (freshCall V E s.chans.length (rest1.length + 1))
    (rest1.length + 1) v err (by simp [freshCall])
  have hatt := afterRegs_attach s key fn
    { freshCall V E s.chans.length (rest1.length + 1) with
      val := v, err := err, wg := (freshCall V E s.chans.length (rest1.length + 1)).wg - 1 }
    (rest1.length + 1) rest2 (by simp [freshCall]) (by simp [freshCall]; omega)
    (by simp [freshCall]; omega)
  obtain ⟨s2, hlock, _, hcalls, _, _, hin, _⟩ := afterRegs_locked P s key fn
    ({ wg := (freshCall V E s.chans.length (rest1.length + 1)).wg - 1, val := v, err := err,
       forgotten := false,
       refCount := (freshCall V E s.chans.length (rest1.length + 1)).refCount + rest2.length,
       chans := List.range' s.chans.length (rest1.length + 1 + rest2.length) } : call V E)
    (rest1.length + 1 + rest2.length) rfl
  have happ : List.range' s.chans.length (rest1.length + 1)
      ++ List.range' (s.chans.length + (rest1.length + 1)) rest2.length
      = List.range' s.chans.length (rest1.length + 1 + rest2.length) := by
    rw [List.range'_append_1, Nat.add_comm]
  have hcount : (freshCall V E s.chans.length (rest1.length + 1)).refCount + rest2.length
      = ((rest1.length + rest2.length + 1 : Nat) : Int) := by
    simp only [freshCall]; push_cast; omega
  have hrec : s2.calls[s.calls.length]? = some
      ({ wg := (freshCall V E s.chans.length (rest1.length + 1)).wg - 1, val := v, err := err,
         forgotten := false,
         refCount := (freshCall V E s.chans.length (rest1.length + 1)).refCount + rest2.length,
         chans := List.range' s.chans.length (rest1.length + 1 + rest2.length) } : call V E) := by
    rw [hcalls]; exact List.getElem?_concat_length _ _
  refine ⟨_, s2, hrun, (by rw [hatt]; exact hlock), ?_, ⟨_, hrec, hcount⟩, ?_, ?_⟩
  · rw [hatt]
    simp only [happ]
    intro ch hch
    exact ⟨_, hin ch hch, rfl⟩
  · rw [hatt]
    simp only [happ]
    intro shs hlen hsh
    have hrep : shs = List.replicate (rest1.length + rest2.length + 1)
        (mkShared s.calls.length
          ({ wg := (freshCall V E s.chans.length (rest1.length + 1)).wg - 1, val := v,
             err := err, forgotten := false,
             refCount := (freshCall V E s.chans.length (rest1.length + 1)).refCount
               + rest2.length,
             chans := List.range' s.chans.length (rest1.length + 1 + rest2.length) } :
            call V E)) := by
      rw [List.eq_replicate_iff]
      refine ⟨hlen, ?_⟩
      intro sh hmem
      obtain ⟨ch, hch, res, hres, hshe⟩ := hsh sh hmem
      have h2 := hin ch hch
      rw [hres] at h2
      simp only [Option.some.injEq, List.cons.injEq, and_true] at h2
      rw [← hshe, h2]
    obtain ⟨s3, hd, _⟩ := decrementAll_replicate
      (mkShared s.calls.length
        ({ wg := (freshCall V E s.chans.length (rest1.length + 1)).wg - 1, val := v,
           err := err, forgotten := false,
           refCount := (freshCall V E s.chans.length (rest1.length + 1)).refCount
             + rest2.length,
           chans := List.range' s.chans.length (rest1.length + 1 + rest2.length) } :
          call V E))
      (rest1.length + rest2.length + 1) s2 _ hrec (by simp only [hcount]; exact le_refl _)
      (by simp only [hcount]; push_cast; omega)
    refine ⟨s3, ?_⟩
    rw [hrep, hd]
    simp only [hcount]
  · intro i hi
    simp only [List.getElem?_map, List.getElem?_range hi, Option.map_some',
      Option.some.injEq]
    push_cast
    omega

/-- Witness of `C7_last_consumer_detection`: three callers, the third one registering
after the work has returned; the counter holds 3 at delivery. -/
theorem C7_last_consumer_detection_witness :
    mapLookup (State.init : State String String String).g.m "k" = none ∧
    ∃ s1 s2 : State String String String,
      (doCallRun (registerAll (State.init : State String String String) "k" ["f1", "f2"]).2
          (State.init : State String String String).calls.length
          (FnExit.ret (some "bar") none) : Exit (State String String String) String)
        = .done s1 ∧
      (doCallLocked (registerAll s1 "k" ["f3"]).2
          (State.init : State String String String).calls.length "k" :
          Exit (State String String String) String) = .done s2 ∧
      ∃ r : call String String,
        s2.calls[(State.init : State String String String).calls.length]? = some r ∧
        r.refCount = ((["f2"].length + ["f3"].length + 1 : Nat) : Int) := by
  obtain ⟨_, s1, s2, h1, h2, _, h4, _⟩ := C7_last_consumer_detection
    (State.init : State String String String) "k" "f1" ["f2"] ["f3"] (some "bar") none
    rfl (by decide)
  exact ⟨rfl, s1, s2, h1, h2, h4⟩

/-- C8 (fault fan-out in `Group`), evaluated on the input of `TestPanicDo`: five callers
of `Do("key", fn)` are registered on the zero `Group` and `fn` panics.  `doCall` has no
`recover`: its goroutine dies of the unrecovered panic before `c.wg.Done()`, the table
update and the sends, leaving the state as it was.  So the receive `<-ch` of every one of
the five callers still blocks (no caller observes a fault or a value) and `"key"` keeps
its table entry. -/
theorem C8_panic_not_fanned_out :
    (doCall (registerAll (State.init : State String String String) "key"
        ["fn", "fn", "fn", "fn", "fn"]).2 0 "key"
        (FnExit.panic "invalid memory address or nil pointer dereference") :
        Exit (State String String String) String)
      = .panicked (.user "invalid memory address or nil pointer dereference")
          (registerAll (State.init : State String String String) "key"
            ["fn", "fn", "fn", "fn", "fn"]).2
    ∧ (registerAll (State.init : State String String String) "key"
        ["fn", "fn", "fn", "fn", "fn"]).1 = [0, 1, 2, 3, 4]
    ∧ (∀ ch ∈ [0, 1, 2, 3, 4],
        DoRecv (registerAll (State.init : State String String String) "key"
          ["fn", "fn", "fn", "fn", "fn"]).2 ch = none)
    ∧ mapLookup (registerAll (State.init : State String String String) "key"
        ["fn", "fn", "fn", "fn", "fn"]).2.g.m "key" = some 0 := by
  refine ⟨rfl, rfl, ?_, rfl⟩
  decide

end GroupProofs

end singleflight

/-! # Proofs on `SimpleSingleFlight` over `LeadLock` -/

namespace singleflight

section SimpleProofs

variable {V E P : Type}

/-! ## The invariant is kept by every step -/

theorem update_same (w : World V E P) (t : Nat) (th : Thread V E P) :
    (Function.update w.threads t th) t = th := by
  simp

theorem update_other (w : World V E P) (t i : Nat) (th : Thread V E P) (h : i ≠ t) :
    (Function.update w.threads t th) i = w.threads i := by
  simp [Function.update_noteq h]

/-- The frame rule of the invariant: a step of goroutine `t` to the thread state `th1`,
the lock memory `m1` and the records `rs1` keeps the invariant when the records only
grow, `t` keeps its work function and (once it has called it) its `res`, the other
goroutines still find in `m1` what the invariant promises them, and `th1` itself
satisfies the invariant's clauses. -/
theorem inv_update (fns : Nat → FnExit V (GoError E P) P) (w : World V E P)
    (h : Inv fns w) (t : Nat) (th1 : Thread V E P)
    (m1 : lock.Mem) (rs1 : List (result V E P))
    (hlen : w.mem.conds.length ≤ m1.conds.length)
    (hcondv : m1.ll.cond < m1.conds.length)
    (hbatchv : ∀ b, m1.ll.batch = some b → b < m1.conds.length)
    (hwakev1 : ∀ m b, th1.pc = .unlock m (.wake b) → b < m1.conds.length)
    (hin1 : ∀ m, th1.pc ≠ .unlock m .ret ∧ th1.pc ≠ .unlock m .fatal)
    (hfn : th1.fn = (w.threads t).fn)
    (hmono : ∀ (r : Nat) (x : result V E P), w.results[r]? = some x → rs1[r]? = some x)
    (hown : (w.threads t).called = true →
      th1.called = true ∧ th1.res = (w.threads t).res)
    (hexcl : th1.pc.crit = true → ∀ i, i ≠ t → (w.threads i).pc.crit = false)
    (hheld : ∀ i, i ≠ t → (w.threads i).pc.crit = true → m1.ll.mux = true)
    (hheld1 : th1.pc.crit = true → m1.ll.mux = true)
    (hbatch : ∀ i, i ≠ t → (w.threads i).pc.holdsBatch = true → ∃ b, m1.ll.batch = some b)
    (hbatch1 : th1.pc.holdsBatch = true → ∃ b, m1.ll.batch = some b)
    (hwoken : ∀ i c, i ≠ t → (w.threads i).pc = .lock (.read c) →
      ∃ p, m1.conds[c]? = some (lock.cond.mk (some p)))
    (hwoken1 : ∀ c, th1.pc = .lock (.read c) →
      ∃ p, m1.conds[c]? = some (lock.cond.mk (some p)))
    (hearly1 : th1.pc.early = true → th1.called = false)
    (hlateU1 : ∀ m up, th1.pc = .unlock m up → th1.called = true ∧ m = modeOf th1.fn)
    (hlateR1 : ∀ m, th1.pc = .ret m → th1.called = true ∧ m = modeOf th1.fn)
    (hrecd1 : th1.called = true →
      ∃ r, th1.res = some r ∧ rs1[r]? = some (recordOf th1.fn))
    (hdoneL1 : ∀ e, th1.pc = .done e → th1.called = true →
      e = exitOf (recordOf th1.fn) (modeOf th1.fn))
    (huptr : ∀ (c p : Nat), m1.conds[c]? = some (lock.cond.mk (some p)) →
      (∃ L, (w.threads L).called = true ∧ (w.threads L).res = some p) ∨
      (th1.called = true ∧ th1.res = some p))
    (hfoll1 : ∀ p, th1.pc = .follower p →
      ∃ L, (w.threads L).called = true ∧ (w.threads L).res = some p)
    (hdoneF1 : ∀ e, th1.pc = .done e → th1.called = false →
      ∃ L, (w.threads L).called = true ∧
        e = exitOf (recordOf (w.threads L).fn) .normal) :
    Inv fns { mem := m1, results := rs1, threads := Function.update w.threads t th1 } := by
  have own : ∀ L p, (w.threads L).called = true ∧ (w.threads L).res = some p →
      ((Function.update w.threads t th1) L).called = true ∧
      ((Function.update w.threads t th1) L).res = some p := by
    intro L p hL
    by_cases hLt : L = t
    · rw [hLt, update_same]
      rw [hLt] at hL
      obtain ⟨h1, h2⟩ := hown hL.1
      exact ⟨h1, by rw [h2]; exact hL.2⟩
    · rw [update_other w t L _ hLt]; exact hL
  have ownfn : ∀ L, (w.threads L).called = true →
      ((Function.update w.threads t th1) L).called = true ∧
      ((Function.update w.threads t th1) L).fn = (w.threads L).fn := by
    intro L hL
    by_cases hLt : L = t
    · rw [hLt, update_same]
      rw [hLt] at hL
      exact ⟨(hown hL).1, hfn⟩
    · rw [update_other w t L _ hLt]; exact ⟨hL, rfl⟩
  constructor
  · intro i
    simp only
    by_cases hit : i = t
    · rw [hit, update_same, hfn]; exact h.fnc t
    · rw [update_other w t i _ hit]; exact h.fnc i
  · exact hcondv
  · exact hbatchv
  · intro i m b hi
    simp only at hi ⊢
    by_cases hit : i = t
    · rw [hit, update_same] at hi; exact hwakev1 m b hi
    · rw [update_other w t i _ hit] at hi
      exact Nat.lt_of_lt_of_le (h.wakev i m b hi) hlen
  · intro i m
    simp only
    by_cases hit : i = t
    · rw [hit, update_same]; exact hin1 m
    · rw [update_other w t i _ hit]; exact h.inUnlock i m
  · intro i j hi hj
    simp only at hi hj
    by_cases hit : i = t
    · by_cases hjt : j = t
      · rw [hit, hjt]
      · rw [hit, update_same] at hi
        rw [update_other w t j _ hjt, hexcl hi j hjt] at hj
        exact absurd hj (by simp)
    · by_cases hjt : j = t
      · rw [hjt, update_same] at hj
        rw [update_other w t i _ hit, hexcl hj i hit] at hi
        exact absurd hi (by simp)
      · rw [update_other w t i _ hit] at hi
        rw [update_other w t j _ hjt] at hj
        exact h.excl i j hi hj
  · intro i hi
    simp only at hi ⊢
    by_cases hit : i = t
    · rw [hit, update_same] at hi; exact hheld1 hi
    · rw [update_other w t i _ hit] at hi; exact hheld i hit hi
  · intro i hi
    simp only at hi ⊢
    by_cases hit : i = t
    · rw [hit, update_same] at hi; exact hbatch1 hi
    · rw [update_other w t i _ hit] at hi; exact hbatch i hit hi
  · intro i c hi
    simp only at hi ⊢
    by_cases hit : i = t
    · rw [hit, update_same] at hi; exact hwoken1 c hi
    · rw [update_other w t i _ hit] at hi; exact hwoken i c hit hi
  · intro i hi
    simp only at hi ⊢
    by_cases hit : i = t
    · rw [hit, update_same] at hi ⊢; exact hearly1 hi
    · rw [update_other w t i _ hit] at hi ⊢; exact h.early i hi
  · intro i m up hi
    simp only at hi ⊢
    by_cases hit : i = t
    · rw [hit, update_same] at hi ⊢; exact hlateU1 m up hi
    · rw [update_other w t i _ hit] at hi ⊢; exact h.lateU i m up hi
  · intro i m hi
    simp only at hi ⊢
    by_cases hit : i = t
    · rw [hit, update_same] at hi ⊢; exact hlateR1 m hi
    · rw [update_other w t i _ hit] at hi ⊢; exact h.lateR i m hi
  · intro i hi
    simp only at hi ⊢
    by_cases hit : i = t
    · rw [hit, update_same] at hi ⊢; exact hrecd1 hi
    · rw [update_other w t i _ hit] at hi ⊢
      obtain ⟨r, h1, h2⟩ := h.recd i hi
      exact ⟨r, h1, hmono r _ h2⟩
  · intro i e hi hc
    simp only at hi hc ⊢
    by_cases hit : i = t
    · rw [hit, update_same] at hi hc ⊢; exact hdoneL1 e hi hc
    · rw [update_other w t i _ hit] at hi hc ⊢; exact h.doneL i e hi hc
  · intro c p hc
    simp only at hc ⊢
    rcases huptr c p hc with ⟨L, hL⟩ | ⟨h1, h2⟩
    · exact ⟨L, own L p hL⟩
    · exact ⟨t, by rw [update_same]; exact ⟨h1, h2⟩⟩
  · intro i p hi
    simp only at hi ⊢
    by_cases hit : i = t
    · rw [hit, update_same] at hi
      obtain ⟨L, hL⟩ := hfoll1 p hi
      exact ⟨L, own L p hL⟩
    · rw [update_other w t i _ hit] at hi
      obtain ⟨L, hL⟩ := h.foll i p hi
      exact ⟨L, own L p hL⟩
  · intro i e hi hc
    simp only at hi hc ⊢
    by_cases hit : i = t
    · rw [hit, update_same] at hi hc
      obtain ⟨L, hL1, hL2⟩ := hdoneF1 e hi hc
      obtain ⟨h1, h2⟩ := ownfn L hL1
      exact ⟨L, h1, by rw [h2]; exact hL2⟩
    · rw [update_other w t i _ hit] at hi hc
      obtain ⟨L, hL1, hL2⟩ := h.doneF i e hi hc
      obtain ⟨h1, h2⟩ := ownfn L hL1
      exact ⟨L, h1, by rw [h2]; exact hL2⟩

theorem setThread_same (w : World V E P) (t : Nat) (th : Thread V E P) :
    (w.setThread t th).threads t = th := by
  simp [World.setThread]

theorem setThread_other (w : World V E P) (t i : Nat) (th : Thread V E P) (h : i ≠ t) :
    (w.setThread t th).threads i = w.threads i := by
  simp [World.setThread, Function.update_noteq h]

/-- The frame rule for a step of a goroutine that has not called its work function and
does not call it in this step. -/
theorem inv_earlyStep (fns : Nat → FnExit V (GoError E P) P) (w : World V E P)
    (h : Inv fns w) (t : Nat) (pc1 : Pc V E P) (m1 : lock.Mem)
    (hlen : w.mem.conds.length ≤ m1.conds.length)
    (hcondv : m1.ll.cond < m1.conds.length)
    (hbatchv : ∀ b, m1.ll.batch = some b → b < m1.conds.length)
    (hearly0 : (w.threads t).pc.early = true) (hearly1 : pc1.early = true)
    (hexcl : pc1.crit = true → ∀ i, i ≠ t → (w.threads i).pc.crit = false)
    (hheld : w.mem.ll.mux = true → m1.ll.mux = true)
    (hheld1 : pc1.crit = true → m1.ll.mux = true)
    (hbatch : ∀ b, w.mem.ll.batch = some b → ∃ b1, m1.ll.batch = some b1)
    (hbatch1 : pc1.holdsBatch = true → ∃ b, m1.ll.batch = some b)
    (hconds : ∀ (c p : Nat), m1.conds[c]? = some (lock.cond.mk (some p)) ↔
      w.mem.conds[c]? = some (lock.cond.mk (some p)))
    (hread1 : ∀ c, pc1 = .lock (.read c) →
      ∃ p, w.mem.conds[c]? = some (lock.cond.mk (some p)))
    (hfoll1 : ∀ p, pc1 = .follower p →
      ∃ L, (w.threads L).called = true ∧ (w.threads L).res = some p) :
    Inv fns { mem := m1, results := w.results,
              threads := Function.update w.threads t { w.threads t with pc := pc1 } } := by
  have hc0 : (w.threads t).called = false := h.early t hearly0
  apply inv_update fns w h t { w.threads t with pc := pc1 } m1 w.results hlen hcondv
    hbatchv
    (by intro m b hpc
        simp only at hpc; rw [hpc] at hearly1; simp [Pc.early] at hearly1)
    (by intro m
        constructor <;> intro hpc <;> simp only at hpc <;> rw [hpc] at hearly1 <;>
          simp [Pc.early] at hearly1)
    rfl (fun _ _ hx => hx) (fun hc => ⟨hc, rfl⟩) hexcl
  · intro i _ hi; exact hheld (h.held i hi)
  · exact hheld1
  · intro i _ hi
    obtain ⟨b, hb⟩ := h.batch i hi
    exact hbatch b hb
  · exact hbatch1
  · intro i c _ hi
    obtain ⟨p, hp⟩ := h.woken i c hi
    exact ⟨p, (hconds c p).mpr hp⟩
  · intro c hc
    obtain ⟨p, hp⟩ := hread1 c hc
    exact ⟨p, (hconds c p).mpr hp⟩
  · intro _; exact hc0
  · intro m up hpc
    simp only at hpc; rw [hpc] at hearly1; simp [Pc.early] at hearly1
  · intro m hpc
    simp only at hpc; rw [hpc] at hearly1; simp [Pc.early] at hearly1
  · intro hc
    simp only at hc; rw [hc0] at hc; exact absurd hc (by simp)
  · intro e hpc
    simp only at hpc; rw [hpc] at hearly1; simp [Pc.early] at hearly1
  · intro c p hc
    exact Or.inl (h.uptr c p ((hconds c p).mp hc))
  · exact hfoll1
  · intro e hpc
    simp only at hpc; rw [hpc] at hearly1; simp [Pc.early] at hearly1

theorem others_not_crit (fns : Nat → FnExit V (GoError E P) P) (w : World V E P)
    (h : Inv fns w) (t : Nat)
    (ht : (w.threads t).pc.crit = true) :
    ∀ i, i ≠ t → (w.threads i).pc.crit = false := by
  intro i hi
  cases hc : (w.threads i).pc.crit with
  | false => rfl
  | true => exact absurd (h.excl i t hc ht) hi

theorem none_crit_of_free (fns : Nat → FnExit V (GoError E P) P) (w : World V E P)
    (h : Inv fns w) (hm : w.mem.ll.mux = false) :
    ∀ i, (w.threads i).pc.crit = false := by
  intro i
  cases hc : (w.threads i).pc.crit with
  | false => rfl
  | true =>
    have := h.held i hc
    rw [hm] at this
    exact absurd this (by simp)

theorem conds_append_none (conds : List lock.cond) (c p : Nat) :
    (conds ++ [lock.cond.mk none])[c]? = some (lock.cond.mk (some p)) ↔
      conds[c]? = some (lock.cond.mk (some p)) := by
  by_cases hlt : c < conds.length
  · rw [List.getElem?_append_left hlt]
  · have hge : conds.length ≤ c := Nat.le_of_not_lt hlt
    rw [List.getElem?_append_right hge, List.getElem?_eq_none hge]
    constructor
    · intro hx
      by_cases h0 : c - conds.length = 0
      · rw [h0] at hx; simp at hx
      · have : ([lock.cond.mk none] : List lock.cond)[c - conds.length]? = none := by
          apply List.getElem?_eq_none; simp; omega
        rw [this] at hx; exact absurd hx (by simp)
    · intro hx; exact absurd hx (by simp)

theorem holdsBatch_crit (pc : Pc V E P) (hb : pc.holdsBatch = true) : pc.crit = true := by
  cases pc with
  | work => rfl
  | unlock m up =>
    cases up with
    | swap => rfl
    | _ => simp [Pc.holdsBatch] at hb
  | _ => simp [Pc.holdsBatch] at hb

/-- Every step keeps the invariant. -/
theorem inv_step (fns : Nat → FnExit V (GoError E P) P) (w w1 : World V E P) (t : Nat)
    (h : Inv fns w) (hs : step w t = some w1) : Inv fns w1 := by
  unfold singleflight.step at hs
  cases hpc : (w.threads t).pc with
  | start =>
    rw [hpc] at hs
    simp only [Option.some.injEq] at hs
    subst hs
    exact inv_earlyStep fns w h t (.lock .add) w.mem (le_refl _) h.condv h.batchv
      (by rw [hpc]; rfl) rfl
      (by simp [Pc.crit]) id (by simp [Pc.crit]) (fun b hb => ⟨b, hb⟩)
      (by simp [Pc.holdsBatch]) (fun _ _ => Iff.rfl) (by simp) (by simp)
  | lock lp =>
    rw [hpc] at hs
    have he0 : (w.threads t).pc.early = true := by rw [hpc]; rfl
    cases lp with
    | add =>
      simp only [lock.LockStep] at hs
      by_cases hn : lock.wrapInt32 (w.mem.ll.nr + 1) > 1
      · simp only [hn, if_true, Option.some.injEq] at hs
        subst hs
        exact inv_earlyStep fns w h t (.lock .loadCond)
          { w.mem with ll := { w.mem.ll with nr := lock.wrapInt32 (w.mem.ll.nr + 1) } }
          (le_refl _) h.condv h.batchv he0 rfl
          (by simp [Pc.crit]) id (by simp [Pc.crit]) (fun b hb => ⟨b, hb⟩)
          (by simp [Pc.holdsBatch]) (fun _ _ => Iff.rfl) (by simp) (by simp)
      · simp only [hn, if_false, Option.some.injEq] at hs
        subst hs
        exact inv_earlyStep fns w h t (.lock .mux)
          { w.mem with ll := { w.mem.ll with nr := lock.wrapInt32 (w.mem.ll.nr + 1) } }
          (le_refl _) h.condv h.batchv he0 rfl
          (by simp [Pc.crit]) id (by simp [Pc.crit]) (fun b hb => ⟨b, hb⟩)
          (by simp [Pc.holdsBatch]) (fun _ _ => Iff.rfl) (by simp) (by simp)
    | loadCond =>
      simp only [lock.LockStep, Option.some.injEq] at hs
      subst hs
      exact inv_earlyStep fns w h t (.lock (.wait w.mem.ll.cond)) w.mem (le_refl _) h.condv h.batchv he0 rfl
        (by simp [Pc.crit]) id (by simp [Pc.crit]) (fun b hb => ⟨b, hb⟩)
        (by simp [Pc.holdsBatch]) (fun _ _ => Iff.rfl) (by simp) (by simp)
    | wait c =>
      simp only [lock.LockStep] at hs
      cases hcd : w.mem.conds[c]? with
      | none => rw [hcd] at hs; exact absurd hs (by simp)
      | some cd =>
        cases cd with
        | mk u =>
          cases u with
          | none => rw [hcd] at hs; exact absurd hs (by simp)
          | some p =>
            rw [hcd] at hs
            simp only [Option.some.injEq] at hs
            subst hs
            exact inv_earlyStep fns w h t (.lock (.read c)) w.mem (le_refl _) h.condv h.batchv he0 rfl
              (by simp [Pc.crit]) id (by simp [Pc.crit]) (fun b hb => ⟨b, hb⟩)
              (by simp [Pc.holdsBatch]) (fun _ _ => Iff.rfl)
              (by intro c1 hc1
                  simp only [Pc.lock.injEq, lock.LockPc.read.injEq] at hc1
                  subst hc1
                  exact ⟨p, hcd⟩)
              (by simp)
    | read c =>
      obtain ⟨p, hp⟩ := h.woken t c hpc
      simp only [lock.LockStep, hp, Option.some.injEq] at hs
      subst hs
      exact inv_earlyStep fns w h t (.follower p) w.mem (le_refl _) h.condv h.batchv he0 rfl
        (by simp [Pc.crit]) id (by simp [Pc.crit]) (fun b hb => ⟨b, hb⟩)
        (by simp [Pc.holdsBatch]) (fun _ _ => Iff.rfl) (by simp)
        (by intro p1 hp1
            simp only [Pc.follower.injEq] at hp1
            subst hp1
            exact h.uptr c p hp)
    | mux =>
      simp only [lock.LockStep] at hs
      cases hm : w.mem.ll.mux with
      | true => rw [hm] at hs; exact absurd hs (by simp)
      | false =>
        rw [hm] at hs
        simp only [Bool.false_eq_true, if_false, Option.some.injEq] at hs
        subst hs
        exact inv_earlyStep fns w h t (.lock .storeNr)
          { w.mem with ll := { w.mem.ll with mux := true } } (le_refl _) h.condv h.batchv he0 rfl
          (fun _ i _ => none_crit_of_free fns w h hm i) (fun _ => rfl) (fun _ => rfl)
          (fun b hb => ⟨b, hb⟩) (by simp [Pc.holdsBatch]) (fun _ _ => Iff.rfl)
          (by simp) (by simp)
    | storeNr =>
      have hcrit : (w.threads t).pc.crit = true := by rw [hpc]; rfl
      simp only [lock.LockStep, Option.some.injEq] at hs
      subst hs
      exact inv_earlyStep fns w h t (.lock .swap)
        { w.mem with ll := { w.mem.ll with nr := 0 } } (le_refl _) h.condv h.batchv he0 rfl
        (fun _ => others_not_crit fns w h t hcrit) id (fun _ => h.held t hcrit)
        (fun b hb => ⟨b, hb⟩) (by simp [Pc.holdsBatch]) (fun _ _ => Iff.rfl)
        (by simp) (by simp)
    | swap =>
      have hcrit : (w.threads t).pc.crit = true := by rw [hpc]; rfl
      simp only [lock.LockStep, Option.some.injEq] at hs
      subst hs
      exact inv_earlyStep fns w h t .work
        { ll := { w.mem.ll with cond := w.mem.conds.length, batch := some w.mem.ll.cond },
          conds := w.mem.conds ++ [⟨none⟩] }
        (by simp) (by simp)
        (by intro b hb
            simp only [Option.some.injEq] at hb
            rw [← hb]
            simp only [List.length_append, List.length_singleton]
            exact Nat.lt_succ_of_lt h.condv)
        he0 rfl
        (fun _ => others_not_crit fns w h t hcrit) id (fun _ => h.held t hcrit)
        (fun _ _ => ⟨_, rfl⟩) (fun _ => ⟨_, rfl⟩)
        (fun c p => conds_append_none w.mem.conds c p)
        (by simp) (by simp)
    | ret u => simp [lock.LockStep] at hs
  | follower p =>
    rw [hpc] at hs
    have hc0 : (w.threads t).called = false := h.early t (by rw [hpc]; rfl)
    obtain ⟨L, hL1, hL2⟩ := h.foll t p hpc
    obtain ⟨r, hr1, hr2⟩ := h.recd L hL1
    rw [hL2] at hr1
    simp only [Option.some.injEq] at hr1
    subst hr1
    simp only [hr2, Option.some.injEq] at hs
    subst hs
    apply inv_update fns w h t
      { w.threads t with
        res := some p, pc := .done (exitOf (recordOf (w.threads L).fn) .normal) }
      w.mem w.results (le_refl _) h.condv h.batchv (by simp) (by simp) rfl
      (fun _ _ hx => hx) (fun hc => by rw [hc0] at hc; exact absurd hc (by simp))
      (by simp [Pc.crit]) (fun i _ hi => h.held i hi) (by simp [Pc.crit])
      (fun i _ hi => h.batch i hi) (by simp [Pc.holdsBatch])
      (fun i c _ hi => h.woken i c hi) (by simp) (by simp [Pc.early]) (by simp) (by simp)
    · intro hc; simp only at hc; rw [hc0] at hc; exact absurd hc (by simp)
    · intro e _ hc; simp only at hc; rw [hc0] at hc; exact absurd hc (by simp)
    · intro c q hc; exact Or.inl (h.uptr c q hc)
    · simp
    · intro e he _
      simp only [Pc.done.injEq] at he
      exact ⟨L, hL1, he.symm⟩
  | work =>
    rw [hpc] at hs
    have hcrit : (w.threads t).pc.crit = true := by rw [hpc]; rfl
    have hc0 : (w.threads t).called = false := h.early t (by rw [hpc]; rfl)
    simp only [Option.some.injEq] at hs
    subst hs
    apply inv_update fns w h t
      { w.threads t with
        res := some w.results.length, called := true,
        pc := .unlock (modeOf (w.threads t).fn) .swap }
      w.mem (w.results ++ [recordOf (w.threads t).fn]) (le_refl _) h.condv h.batchv
      (by simp) (by simp) rfl
    · intro r x hx
      have hlt : r < w.results.length := by
        rcases List.getElem?_eq_some.mp hx with ⟨h1, _⟩; exact h1
      rw [List.getElem?_append_left hlt]; exact hx
    · intro hc; rw [hc0] at hc; exact absurd hc (by simp)
    · exact fun _ => others_not_crit fns w h t hcrit
    · exact fun i _ hi => h.held i hi
    · exact fun _ => h.held t hcrit
    · exact fun i _ hi => h.batch i hi
    · exact fun _ => h.batch t (by rw [hpc]; rfl)
    · exact fun i c _ hi => h.woken i c hi
    · simp
    · simp [Pc.early]
    · intro m up he
      simp only [Pc.unlock.injEq] at he
      exact ⟨rfl, he.1.symm⟩
    · simp
    · intro _
      exact ⟨w.results.length, rfl, List.getElem?_concat_length _ _⟩
    · simp
    · intro c q hc; exact Or.inl (h.uptr c q hc)
    · simp
    · simp
  | unlock m up =>
    rw [hpc] at hs
    obtain ⟨hcl, hmode⟩ := h.lateU t m up hpc
    obtain ⟨r, hr1, hr2⟩ := h.recd t hcl
    cases up with
    | swap =>
      have hcrit : (w.threads t).pc.crit = true := by rw [hpc]; rfl
      obtain ⟨b, hb⟩ := h.batch t (by rw [hpc]; rfl)
      simp only [lock.UnlockStep, hb, Option.some.injEq] at hs
      subst hs
      apply inv_update fns w h t { w.threads t with pc := .unlock m (.wake b) }
        { w.mem with ll := { w.mem.ll with batch := none } } w.results (le_refl _)
        h.condv (by simp)
        (by intro m2 b2 he
            simp only [Pc.unlock.injEq, lock.UnlockPc.wake.injEq] at he
            rw [← he.2]; exact h.batchv b hb)
        (by simp) rfl
        (fun _ _ hx => hx) (fun hc => ⟨hc, rfl⟩)
        (fun _ => others_not_crit fns w h t hcrit) (fun i _ hi => h.held i hi)
        (fun _ => h.held t hcrit)
      · intro i hi hib
        have hic : (w.threads i).pc.crit = true := holdsBatch_crit _ hib
        rw [others_not_crit fns w h t hcrit i hi] at hic
        exact absurd hic (by simp)
      · simp [Pc.holdsBatch]
      · exact fun i c _ hi => h.woken i c hi
      · simp
      · simp [Pc.early]
      · intro m2 up2 he
        simp only [Pc.unlock.injEq] at he
        exact ⟨hcl, by rw [← he.1]; exact hmode⟩
      · simp
      · intro _; exact ⟨r, hr1, hr2⟩
      · simp
      · intro c q hc; exact Or.inl (h.uptr c q hc)
      · simp
      · simp
    | wake b =>
      have hcrit : (w.threads t).pc.crit = true := by rw [hpc]; rfl
      simp only [lock.UnlockStep, Option.some.injEq] at hs
      subst hs
      have hkeep : ∀ (c q : Nat), w.mem.conds[c]? = some (lock.cond.mk (some q)) →
          ∃ q1, (match w.mem.conds[b]? with
            | some _ => w.mem.conds.set b ⟨(w.threads t).res⟩
            | none => w.mem.conds)[c]? = some (lock.cond.mk (some q1)) := by
        intro c q hc
        cases hcb : w.mem.conds[b]? with
        | none => exact ⟨q, hc⟩
        | some x =>
          simp only
          by_cases hbc : b = c
          · subst hbc
            have hlt : b < w.mem.conds.length := by
              rcases List.getElem?_eq_some.mp hc with ⟨h1, _⟩; exact h1
            exact ⟨r, by rw [List.getElem?_set_self hlt, hr1]⟩
          · exact ⟨q, by rw [List.getElem?_set_ne hbc]; exact hc⟩
      have hlen : (match w.mem.conds[b]? with
            | some _ => w.mem.conds.set b ⟨(w.threads t).res⟩
            | none => w.mem.conds).length = w.mem.conds.length := by
        cases w.mem.conds[b]? <;> simp
      apply inv_update fns w h t { w.threads t with pc := .unlock m .mux }
        { w.mem with conds := match w.mem.conds[b]? with
                              | some _ => w.mem.conds.set b ⟨(w.threads t).res⟩
                              | none => w.mem.conds } w.results
        (by simp only [hlen]; exact le_refl _)
        (by simp only [hlen]; exact h.condv)
        (by intro b2 hb2; simp only [hlen]; exact h.batchv b2 hb2)
        (by simp) (by simp) rfl
        (fun _ _ hx => hx) (fun hc => ⟨hc, rfl⟩)
        (fun _ => others_not_crit fns w h t hcrit) (fun i _ hi => h.held i hi)
        (fun _ => h.held t hcrit) (fun i _ hi => h.batch i hi)
      · simp [Pc.holdsBatch]
      · intro i c _ hi
        obtain ⟨q, hq⟩ := h.woken i c hi
        exact hkeep c q hq
      · simp
      · simp [Pc.early]
      · intro m2 up2 he
        simp only [Pc.unlock.injEq] at he
        exact ⟨hcl, by rw [← he.1]; exact hmode⟩
      · simp
      · intro _; exact ⟨r, hr1, hr2⟩
      · simp
      · intro c q hc
        simp only at hc
        cases hcb : w.mem.conds[b]? with
        | none => rw [hcb] at hc; exact Or.inl (h.uptr c q hc)
        | some x =>
          rw [hcb] at hc
          simp only at hc
          by_cases hbc : b = c
          · subst hbc
            have hlt : b < w.mem.conds.length := by
              rcases List.getElem?_eq_some.mp hcb with ⟨h1, _⟩; exact h1
            rw [List.getElem?_set_self hlt] at hc
            simp only [Option.some.injEq, lock.cond.mk.injEq] at hc
            exact Or.inr ⟨hcl, hc⟩
          · rw [List.getElem?_set_ne hbc] at hc
            exact Or.inl (h.uptr c q hc)
      · simp
      · simp
    | mux =>
      have hcrit : (w.threads t).pc.crit = true := by rw [hpc]; rfl
      have hm := h.held t hcrit
      simp only [lock.UnlockStep, hm, if_true, Option.some.injEq] at hs
      subst hs
      apply inv_update fns w h t { w.threads t with pc := .ret m }
        { w.mem with ll := { w.mem.ll with mux := false } } w.results (le_refl _)
        h.condv h.batchv (by simp) (by simp) rfl
        (fun _ _ hx => hx) (fun hc => ⟨hc, rfl⟩)
        (by simp [Pc.crit])
      · intro i hi hic
        rw [others_not_crit fns w h t hcrit i hi] at hic
        exact absurd hic (by simp)
      · simp [Pc.crit]
      · exact fun i _ hi => h.batch i hi
      · simp [Pc.holdsBatch]
      · exact fun i c _ hi => h.woken i c hi
      · simp
      · simp [Pc.early]
      · simp
      · intro m2 he
        simp only [Pc.ret.injEq] at he
        exact ⟨hcl, by rw [← he]; exact hmode⟩
      · intro _; exact ⟨r, hr1, hr2⟩
      · simp
      · intro c q hc; exact Or.inl (h.uptr c q hc)
      · simp
      · simp
    | ret => simp [lock.UnlockStep] at hs
    | fatal => simp [lock.UnlockStep] at hs
  | ret m =>
    rw [hpc] at hs
    obtain ⟨hcl, hmode⟩ := h.lateR t m hpc
    obtain ⟨r, hr1, hr2⟩ := h.recd t hcl
    simp only [hr1, hr2, Option.some.injEq] at hs
    subst hs
    apply inv_update fns w h t
      { w.threads t with
        res := some r, pc := .done (exitOf (recordOf (w.threads t).fn) m) }
      w.mem w.results (le_refl _) h.condv h.batchv (by simp) (by simp) rfl
      (fun _ _ hx => hx) (fun hc => ⟨hc, hr1.symm⟩)
      (by simp [Pc.crit]) (fun i _ hi => h.held i hi) (by simp [Pc.crit])
      (fun i _ hi => h.batch i hi) (by simp [Pc.holdsBatch])
      (fun i c _ hi => h.woken i c hi) (by simp) (by simp [Pc.early]) (by simp) (by simp)
    · intro _; exact ⟨r, rfl, hr2⟩
    · intro e he _
      simp only [Pc.done.injEq] at he
      rw [← he, hmode]
    · intro c q hc; exact Or.inl (h.uptr c q hc)
    · simp
    · intro e _ hc
      simp only at hc; rw [hcl] at hc; exact absurd hc (by simp)
  | done e =>
    rw [hpc] at hs
    exact absurd hs (by simp)

theorem inv_init (fns : Nat → FnExit V (GoError E P) P) :
    Inv fns (World.init fns : World V E P) := by
  constructor
  · intro i; rfl
  · simp [World.init, lock.NewLeadLock]
  · intro b hb; simp [World.init, lock.NewLeadLock] at hb
  · intro i m b hi; simp [World.init] at hi
  · intro i m; simp [World.init]
  · intro i j hi _; simp [World.init, Pc.crit] at hi
  · intro i hi; simp [World.init, Pc.crit] at hi
  · intro i hi; simp [World.init, Pc.holdsBatch] at hi
  · intro i c hi; simp [World.init] at hi
  · intro i _; rfl
  · intro i m up hi; simp [World.init] at hi
  · intro i m hi; simp [World.init] at hi
  · intro i hi; simp [World.init] at hi
  · intro i e hi; simp [World.init] at hi
  · intro c p hc
    simp only [World.init, lock.NewLeadLock] at hc
    cases c with
    | zero => simp at hc
    | succ n => simp at hc
  · intro i p hi; simp [World.init] at hi
  · intro i e hi; simp [World.init] at hi

theorem inv_run (fns : Nat → FnExit V (GoError E P) P) :
    ∀ (sched : List Nat) (w w1 : World V E P), Inv fns w → singleflight.run w sched = some w1 →
      Inv fns w1 := by
  intro sched
  induction sched with
  | nil =>
    intro w w1 h hr
    simp only [singleflight.run, Option.some.injEq] at hr
    rw [← hr]; exact h
  | cons t ts ih =>
    intro w w1 h hr
    simp only [singleflight.run] at hr
    cases hs : singleflight.step w t with
    | none => rw [hs] at hr; exact absurd hr (by simp)
    | some w2 =>
      rw [hs] at hr
      exact ih w2 w1 (inv_step fns w w2 t h hs) hr

theorem inv_of_reachable (fns : Nat → FnExit V (GoError E P) P) (w : World V E P)
    (h : Reachable fns w) : Inv fns w := by
  obtain ⟨sched, hs⟩ := h
  exact inv_run fns sched _ w (inv_init fns) hs

theorem reachable_step (fns : Nat → FnExit V (GoError E P) P) (w w1 : World V E P)
    (t : Nat) (h : Reachable fns w) (hs : singleflight.step w t = some w1) : Reachable fns w1 := by
  obtain ⟨sched, hr⟩ := h
  refine ⟨sched ++ [t], ?_⟩
  have key : ∀ (l : List Nat) (a : World V E P), singleflight.run a l = some w →
      singleflight.run a (l ++ [t]) = some w1 := by
    intro l
    induction l with
    | nil =>
      intro a ha
      simp only [singleflight.run, Option.some.injEq] at ha
      subst ha
      simp only [List.nil_append, singleflight.run, hs]
    | cons x xs ih =>
      intro a ha
      simp only [singleflight.run] at ha
      simp only [List.cons_append, singleflight.run]
      cases hx : singleflight.step a x with
      | none => rw [hx] at ha; exact absurd ha (by simp)
      | some a1 =>
        rw [hx] at ha
        exact ih a1 ha
  exact key sched _ hr

theorem run_append (w w1 w2 : World V E P) (l1 l2 : List Nat)
    (h1 : run w l1 = some w1) (h2 : run w1 l2 = some w2) : run w (l1 ++ l2) = some w2 := by
  induction l1 generalizing w with
  | nil =>
    simp only [run, Option.some.injEq] at h1
    subst h1
    exact h2
  | cons x xs ih =>
    simp only [run] at h1
    simp only [List.cons_append, run]
    cases hx : step w x with
    | none => rw [hx] at h1; exact absurd h1 (by simp)
    | some a1 =>
      rw [hx] at h1
      exact ih a1 h1

theorem reachable_run (fns : Nat → FnExit V (GoError E P) P) (w w1 : World V E P)
    (sched : List Nat) (h : Reachable fns w) (hr : singleflight.run w sched = some w1) :
    Reachable fns w1 := by
  obtain ⟨s0, h0⟩ := h
  exact ⟨s0 ++ sched, run_append _ w w1 s0 sched h0 hr⟩

theorem step_other (w w1 : World V E P) (t i : Nat) (hs : step w t = some w1)
    (hi : i ≠ t) : w1.threads i = w.threads i := by
  unfold step at hs
  cases hpc : (w.threads t).pc with
  | start =>
    simp only [hpc, Option.some.injEq] at hs
    rw [← hs]; exact setThread_other w t i _ hi
  | lock lp =>
    simp only [hpc] at hs
    cases hl : lock.LockStep w.mem lp with
    | none => rw [hl] at hs; exact absurd hs (by simp)
    | some x =>
      obtain ⟨m, lp1⟩ := x
      rw [hl] at hs
      cases lp1 with
      | ret u =>
        cases u with
        | none =>
          simp only [Option.some.injEq] at hs
          rw [← hs]; exact setThread_other _ t i _ hi
        | some p =>
          simp only [Option.some.injEq] at hs
          rw [← hs]; exact setThread_other _ t i _ hi
      | _ =>
        simp only [Option.some.injEq] at hs
        rw [← hs]; exact setThread_other _ t i _ hi
  | follower p =>
    simp only [hpc] at hs
    cases hr : w.results[p]? with
    | none =>
      rw [hr] at hs
      simp only [Option.some.injEq] at hs
      rw [← hs]; exact setThread_other _ t i _ hi
    | some r =>
      rw [hr] at hs
      simp only [Option.some.injEq] at hs
      rw [← hs]; exact setThread_other _ t i _ hi
  | work =>
    simp only [hpc, Option.some.injEq] at hs
    rw [← hs]; exact setThread_other _ t i _ hi
  | unlock m up =>
    simp only [hpc] at hs
    cases hl : lock.UnlockStep w.mem (w.threads t).res up with
    | none => rw [hl] at hs; exact absurd hs (by simp)
    | some x =>
      obtain ⟨m1, up1⟩ := x
      rw [hl] at hs
      cases up1 with
      | _ =>
        simp only [Option.some.injEq] at hs
        rw [← hs]; exact setThread_other _ t i _ hi
  | ret m =>
    simp only [hpc] at hs
    cases hres : (w.threads t).res with
    | none =>
      simp only [hres, Option.some.injEq] at hs
      rw [← hs]; exact setThread_other _ t i _ hi
    | some r =>
      cases hr : w.results[r]? with
      | none =>
        simp only [hres, hr, Option.some.injEq] at hs
        rw [← hs]; exact setThread_other _ t i _ hi
      | some x =>
        simp only [hres, hr, Option.some.injEq] at hs
        rw [← hs]; exact setThread_other _ t i _ hi
  | done e =>
    simp [hpc] at hs

theorem exitOf_ordinary (v : Option V) (err : Option (GoError E P))
    (hord : ordinary err = true) (mode : Mode) (hm : mode = .normal) :
    exitOf (⟨v, err⟩ : result V E P) mode = .returned v err := by
  subst hm
  cases err with
  | none => rfl
  | some e =>
    cases e with
    | app a => rfl
    | panicError p => simp [ordinary] at hord
    | errGoexit => simp [ordinary] at hord

theorem step_follower (w : World V E P) (t p : Nat) (r : result V E P)
    (hpc : (w.threads t).pc = .follower p) (hr : w.results[p]? = some r) :
    step w t = some (w.setThread t
      { w.threads t with res := some p, pc := .done (exitOf r .normal) }) := by
  unfold step
  rw [hpc]
  simp only [hr]

theorem step_ret (w : World V E P) (t r : Nat) (m : Mode) (x : result V E P)
    (hpc : (w.threads t).pc = .ret m) (hres : (w.threads t).res = some r)
    (hr : w.results[r]? = some x) :
    step w t = some (w.setThread t { w.threads t with pc := .done (exitOf x m) }) := by
  unfold step
  rw [hpc]
  simp only [hres, hr]

theorem step_work (w : World V E P) (t : Nat) (hpc : (w.threads t).pc = .work) :
    step w t = some ({ w with results := w.results ++ [recordOf (w.threads t).fn] }.setThread t
      { w.threads t with
        res := some w.results.length,
        called := true,
        pc := .unlock (modeOf (w.threads t).fn) .swap }) := by
  unfold step
  rw [hpc]

theorem step_unlock_swap (w : World V E P) (t b : Nat) (m : Mode)
    (hpc : (w.threads t).pc = .unlock m .swap) (hb : w.mem.ll.batch = some b) :
    step w t = some ({ w with mem := { w.mem with ll := { w.mem.ll with batch := none } } }.setThread
      t { w.threads t with pc := .unlock m (.wake b) }) := by
  unfold step
  rw [hpc]
  simp only [lock.UnlockStep, hb]

theorem step_unlock_wake (w : World V E P) (t b : Nat) (m : Mode) (x : lock.cond)
    (hpc : (w.threads t).pc = .unlock m (.wake b)) (hb : w.mem.conds[b]? = some x) :
    step w t = some ({ w with mem := { w.mem with
        conds := w.mem.conds.set b ⟨(w.threads t).res⟩ } }.setThread
      t { w.threads t with pc := .unlock m .mux }) := by
  unfold step
  rw [hpc]
  simp only [lock.UnlockStep, hb]

theorem step_unlock_mux (w : World V E P) (t : Nat) (m : Mode)
    (hpc : (w.threads t).pc = .unlock m .mux) (hm : w.mem.ll.mux = true) :
    step w t = some ({ w with mem := { w.mem with ll := { w.mem.ll with mux := false } } }.setThread
      t { w.threads t with pc := .ret m }) := by
  unfold step
  rw [hpc]
  simp only [lock.UnlockStep, hm, if_true]

/-- A leader that is about to call its work function and is then scheduled five times
in a row: it calls the work function, runs `Unlock(res)` and reaches the end of `Do`. -/
theorem leader_solo (fns : Nat → FnExit V (GoError E P) P) (w : World V E P) (L : Nat)
    (h : Inv fns w) (hpc : (w.threads L).pc = .work) :
    ∃ (b : Nat) (w1 : World V E P), w.mem.ll.batch = some b ∧
      run w [L, L, L, L, L] = some w1 ∧
      w1.threads L = { fn := fns L,
                       pc := .done (exitOf (recordOf (fns L)) (modeOf (fns L))),
                       called := true,
                       res := some w.results.length } ∧
      w1.results = w.results ++ [recordOf (fns L)] ∧
      w1.mem.conds[b]? = some ⟨some w.results.length⟩ ∧
      w1.mem.ll.mux = false ∧ w1.mem.ll.batch = none := by
  have hfn := h.fnc L
  obtain ⟨b, hb⟩ := h.batch L (by rw [hpc]; rfl)
  have hbv := h.batchv b hb
  have hmux := h.held L (by rw [hpc]; rfl)
  obtain ⟨x, hx⟩ : ∃ x, w.mem.conds[b]? = some x :=
    ⟨_, List.getElem?_eq_getElem hbv⟩
  refine ⟨b, ?_⟩
  simp only [run]
  rw [step_work w L hpc]
  simp only
  rw [step_unlock_swap _ L b (modeOf (w.threads L).fn) (by simp [World.setThread])
    (by simp [World.setThread]; exact hb)]
  simp only
  rw [step_unlock_wake _ L b (modeOf (w.threads L).fn) x (by simp [World.setThread])
    (by simp [World.setThread]; exact hx)]
  simp only
  rw [step_unlock_mux _ L (modeOf (w.threads L).fn) (by simp [World.setThread])
    (by simp [World.setThread]; exact hmux)]
  simp only
  rw [step_ret _ L w.results.length (modeOf (w.threads L).fn) (recordOf (w.threads L).fn)
    (by simp [World.setThread]) (by simp [World.setThread])
    (by simp [World.setThread])]
  exact ⟨_, hb, rfl, by simp [World.setThread, hfn], by simp [World.setThread, hfn],
    by simp [World.setThread, List.getElem?_set_self hbv], by simp [World.setThread],
    by simp [World.setThread]⟩

/-! ## The hand-over of a batch token from the leader to a follower -/

/-- In a world satisfying the invariant, `step` takes only the steps of `Step`. -/
theorem step_cases (fns : Nat → FnExit V (GoError E P) P) (w w1 : World V E P) (t : Nat)
    (h : Inv fns w) (hs : step w t = some w1) : Step w t w1 := by
  unfold step at hs
  cases hpc : (w.threads t).pc with
  | start =>
    simp only [hpc, Option.some.injEq] at hs
    rw [← hs]; exact Step.start hpc
  | lock lp =>
    cases lp with
    | add =>
      simp only [hpc, lock.LockStep] at hs
      by_cases hn : lock.wrapInt32 (w.mem.ll.nr + 1) > 1
      · simp only [hn, if_true, Option.some.injEq] at hs
        rw [← hs]; exact Step.addFollow hpc hn
      · simp only [hn, if_false, Option.some.injEq] at hs
        rw [← hs]; exact Step.addLead hpc hn
    | loadCond =>
      simp only [hpc, lock.LockStep, Option.some.injEq] at hs
      rw [← hs]; exact Step.loadCond hpc
    | wait c =>
      simp only [hpc, lock.LockStep] at hs
      cases hcd : w.mem.conds[c]? with
      | none => simp [hcd] at hs
      | some cd =>
        cases cd with
        | mk u =>
          cases u with
          | none => simp [hcd] at hs
          | some p =>
            simp only [hcd, Option.some.injEq] at hs
            rw [← hs]; exact Step.wait c p hpc hcd
    | read c =>
      obtain ⟨p, hp⟩ := h.woken t c hpc
      simp only [hpc, lock.LockStep, hp, Option.some.injEq] at hs
      rw [← hs]; exact Step.read c p hpc hp
    | mux =>
      simp only [hpc, lock.LockStep] at hs
      cases hm : w.mem.ll.mux with
      | true => simp [hm] at hs
      | false =>
        simp only [hm, Bool.false_eq_true, if_false, Option.some.injEq] at hs
        rw [← hs]; exact Step.mux hpc hm
    | storeNr =>
      simp only [hpc, lock.LockStep, Option.some.injEq] at hs
      rw [← hs]; exact Step.storeNr hpc
    | swap =>
      simp only [hpc, lock.LockStep, Option.some.injEq] at hs
      rw [← hs]; exact Step.swap hpc
    | ret u => simp [hpc, lock.LockStep] at hs
  | follower p =>
    obtain ⟨L, hL1, hL2⟩ := h.foll t p hpc
    obtain ⟨r, hr1, hr2⟩ := h.recd L hL1
    rw [hL2] at hr1
    simp only [Option.some.injEq] at hr1
    subst hr1
    simp only [hpc, hr2, Option.some.injEq] at hs
    rw [← hs]; exact Step.follower p L hpc ⟨hL1, hL2⟩ hr2
  | work =>
    simp only [hpc, Option.some.injEq] at hs
    rw [← hs]; exact Step.work hpc
  | unlock m up =>
    obtain ⟨hcl, _⟩ := h.lateU t m up hpc
    obtain ⟨r, hr1, _⟩ := h.recd t hcl
    cases up with
    | swap =>
      obtain ⟨b, hb⟩ := h.batch t (by rw [hpc]; rfl)
      simp only [hpc, lock.UnlockStep, hb, Option.some.injEq] at hs
      rw [← hs]; exact Step.unlockSwap m b hpc hb
    | wake b =>
      have hbv := h.wakev t m b hpc
      simp only [hpc, lock.UnlockStep, List.getElem?_eq_getElem hbv, hr1,
        Option.some.injEq] at hs
      rw [← hs]
      have := Step.wake m b r hpc hbv hr1
      simpa [hr1] using this
    | mux =>
      have hm := h.held t (by rw [hpc]; rfl)
      simp only [hpc, lock.UnlockStep, hm, if_true, Option.some.injEq] at hs
      rw [← hs]; exact Step.unlockMux m hpc hm
    | ret => exact absurd hpc (h.inUnlock t m).1
    | fatal => exact absurd hpc (h.inUnlock t m).2
  | ret m =>
    obtain ⟨hcl, _⟩ := h.lateR t m hpc
    obtain ⟨r, hr1, hr2⟩ := h.recd t hcl
    simp only [hpc, hr1, hr2, Option.some.injEq] at hs
    rw [← hs]
    have := Step.ret m r hpc hr1 hr2
    simpa [hr1] using this
  | done e => simp [hpc] at hs

theorem tokens_init (fns : Nat → FnExit V (GoError E P) P) :
    Tokens (World.init fns : World V E P) := by
  constructor
  · simp [World.init, lock.NewLeadLock]
  · intro b hb; simp [World.init, lock.NewLeadLock] at hb
  · intro i m b hi; simp [World.init] at hi
  · intro b hb; simp [World.init, lock.NewLeadLock] at hb

/-- The frame rule of `Tokens`: a step of goroutine `t` that leaves the tokens, `this.cond`
and `this.batch` alone, does not enter the wake-up of `Unlock`, and does not give up the
token in `this.batch`. -/
theorem tokens_frame (w w1 : World V E P) (t : Nat) (hk : Tokens w)
    (hconds : w1.mem.conds = w.mem.conds) (hcond : w1.mem.ll.cond = w.mem.ll.cond)
    (hbatch : w1.mem.ll.batch = w.mem.ll.batch)
    (hoth : ∀ i, i ≠ t → w1.threads i = w.threads i)
    (hwake : ∀ m b, (w1.threads t).pc ≠ .unlock m (.wake b))
    (hhold : (w.threads t).pc.holdsBatch = true → (w1.threads t).pc.holdsBatch = true) :
    Tokens w1 := by
  constructor
  · rw [hconds, hcond]; exact hk.condFresh
  · intro b hb
    rw [hbatch] at hb
    rw [hconds, hcond]; exact hk.batchFresh b hb
  · intro i m b hi
    by_cases hit : i = t
    · subst hit; exact absurd hi (hwake m b)
    · rw [hoth i hit] at hi
      rw [hconds, hcond]; exact hk.wakeFresh i m b hi
  · intro b hb
    rw [hbatch] at hb
    obtain ⟨i, hi⟩ := hk.batchHeld b hb
    by_cases hit : i = t
    · subst hit; exact ⟨i, hhold hi⟩
    · exact ⟨i, by rw [hoth i hit]; exact hi⟩

/-- Every step keeps `Tokens`. -/
theorem tokens_step (fns : Nat → FnExit V (GoError E P) P) (w w1 : World V E P) (t : Nat)
    (h : Inv fns w) (hk : Tokens w) (hs : Step w t w1) : Tokens w1 := by
  cases hs with
  | start hpc =>
    exact tokens_frame w _ t hk rfl rfl rfl (fun i hi => setThread_other _ t i _ hi)
      (by intro m b; rw [setThread_same]; simp)
      (by intro hb; rw [hpc] at hb; simp [Pc.holdsBatch] at hb)
  | addFollow hpc hn =>
    exact tokens_frame w _ t hk rfl rfl rfl (fun i hi => setThread_other _ t i _ hi)
      (by intro m b; rw [setThread_same]; simp)
      (by intro hb; rw [hpc] at hb; simp [Pc.holdsBatch] at hb)
  | addLead hpc hn =>
    exact tokens_frame w _ t hk rfl rfl rfl (fun i hi => setThread_other _ t i _ hi)
      (by intro m b; rw [setThread_same]; simp)
      (by intro hb; rw [hpc] at hb; simp [Pc.holdsBatch] at hb)
  | loadCond hpc =>
    exact tokens_frame w _ t hk rfl rfl rfl (fun i hi => setThread_other _ t i _ hi)
      (by intro m b; rw [setThread_same]; simp)
      (by intro hb; rw [hpc] at hb; simp [Pc.holdsBatch] at hb)
  | wait c p hpc hc =>
    exact tokens_frame w _ t hk rfl rfl rfl (fun i hi => setThread_other _ t i _ hi)
      (by intro m b; rw [setThread_same]; simp)
      (by intro hb; rw [hpc] at hb; simp [Pc.holdsBatch] at hb)
  | read c p hpc hc =>
    exact tokens_frame w _ t hk rfl rfl rfl (fun i hi => setThread_other _ t i _ hi)
      (by intro m b; rw [setThread_same]; simp)
      (by intro hb; rw [hpc] at hb; simp [Pc.holdsBatch] at hb)
  | mux hpc hm =>
    exact tokens_frame w _ t hk rfl rfl rfl (fun i hi => setThread_other _ t i _ hi)
      (by intro m b; rw [setThread_same]; simp)
      (by intro hb; rw [hpc] at hb; simp [Pc.holdsBatch] at hb)
  | storeNr hpc =>
    exact tokens_frame w _ t hk rfl rfl rfl (fun i hi => setThread_other _ t i _ hi)
      (by intro m b; rw [setThread_same]; simp)
      (by intro hb; rw [hpc] at hb; simp [Pc.holdsBatch] at hb)
  | follower p L hpc hL hr =>
    exact tokens_frame w _ t hk rfl rfl rfl (fun i hi => setThread_other _ t i _ hi)
      (by intro m b; rw [setThread_same]; simp)
      (by intro hb; rw [hpc] at hb; simp [Pc.holdsBatch] at hb)
  | work hpc =>
    exact tokens_frame w _ t hk rfl rfl rfl (fun i hi => setThread_other _ t i _ hi)
      (by intro m b; rw [setThread_same]; simp)
      (by intro _; rw [setThread_same]; rfl)
  | unlockMux m hpc hm =>
    exact tokens_frame w _ t hk rfl rfl rfl (fun i hi => setThread_other _ t i _ hi)
      (by intro m b; rw [setThread_same]; simp)
      (by intro hb; rw [hpc] at hb; simp [Pc.holdsBatch] at hb)
  | ret m r hpc hres hr =>
    exact tokens_frame w _ t hk rfl rfl rfl (fun i hi => setThread_other _ t i _ hi)
      (by intro m b; rw [setThread_same]; simp)
      (by intro hb; rw [hpc] at hb; simp [Pc.holdsBatch] at hb)
  | swap hpc =>
    have hcrit : (w.threads t).pc.crit = true := by rw [hpc]; rfl
    have hoth := others_not_crit fns w h t hcrit
    constructor
    · show (w.mem.conds ++ [lock.cond.mk none])[w.mem.conds.length]? = _
      simp
    · intro b hb
      have hb1 : w.mem.ll.cond = b := by
        have : some w.mem.ll.cond = some b := hb
        exact Option.some.inj this
      subst hb1
      refine ⟨?_, Nat.ne_of_lt h.condv⟩
      show (w.mem.conds ++ [lock.cond.mk none])[w.mem.ll.cond]? = _
      rw [List.getElem?_append_left h.condv]
      exact hk.condFresh
    · intro i m b hi
      by_cases hit : i = t
      · subst hit; rw [setThread_same] at hi; simp at hi
      · rw [setThread_other _ t i _ hit] at hi
        have := hoth i hit
        rw [hi] at this
        simp [Pc.crit] at this
    · intro b _
      exact ⟨t, by rw [setThread_same]; rfl⟩
  | unlockSwap m b hpc hb =>
    have hcrit : (w.threads t).pc.crit = true := by rw [hpc]; rfl
    have hoth := others_not_crit fns w h t hcrit
    constructor
    · exact hk.condFresh
    · intro b1 hb1
      have : (none : Option Nat) = some b1 := hb1
      exact absurd this (by simp)
    · intro i m1 b1 hi
      by_cases hit : i = t
      · subst hit
        rw [setThread_same] at hi
        simp only [Pc.unlock.injEq, lock.UnlockPc.wake.injEq] at hi
        rw [← hi.2]
        exact hk.batchFresh b hb
      · rw [setThread_other _ t i _ hit] at hi
        have := hoth i hit
        rw [hi] at this
        simp [Pc.crit] at this
    · intro b1 hb1
      have : (none : Option Nat) = some b1 := hb1
      exact absurd this (by simp)
  | wake m b r hpc hb hr =>
    have hcrit : (w.threads t).pc.crit = true := by rw [hpc]; rfl
    have hoth := others_not_crit fns w h t hcrit
    obtain ⟨_, hne⟩ := hk.wakeFresh t m b hpc
    have hnob : ∀ b1, w.mem.ll.batch = some b1 → False := by
      intro b1 hb1
      obtain ⟨i, hi⟩ := hk.batchHeld b1 hb1
      by_cases hit : i = t
      · subst hit; rw [hpc] at hi; simp [Pc.holdsBatch] at hi
      · have := hoth i hit
        rw [holdsBatch_crit _ hi] at this
        exact absurd this (by simp)
    constructor
    · show (w.mem.conds.set b (lock.cond.mk (some r)))[w.mem.ll.cond]? = _
      rw [List.getElem?_set_ne hne]
      exact hk.condFresh
    · intro b1 hb1
      exact absurd (hnob b1 hb1) id
    · intro i m1 b1 hi
      by_cases hit : i = t
      · subst hit; rw [setThread_same] at hi; simp at hi
      · rw [setThread_other _ t i _ hit] at hi
        have := hoth i hit
        rw [hi] at this
        simp [Pc.crit] at this
    · intro b1 hb1
      exact absurd (hnob b1 hb1) id

theorem step_thread_other (w w1 : World V E P) (t i : Nat) (hs : Step w t w1) (hi : i ≠ t) :
    w1.threads i = w.threads i := by
  cases hs <;> exact setThread_other _ t i _ hi

/-- The step of a goroutine inside `cond.wait()`: the token has been woken. -/
theorem step_at_wait (w w1 : World V E P) (t b : Nat) (hs : Step w t w1)
    (hpc : (w.threads t).pc = .lock (.wait b)) :
    (∃ p, w.mem.conds[b]? = some (lock.cond.mk (some p))) ∧
      w1 = w.setThread t { w.threads t with pc := .lock (.read b) } := by
  cases hs with
  | start h0 =>
    rw [h0] at hpc; simp at hpc
  | addFollow h0 hn0 =>
    rw [h0] at hpc; simp at hpc
  | addLead h0 hn0 =>
    rw [h0] at hpc; simp at hpc
  | loadCond h0 =>
    rw [h0] at hpc; simp at hpc
  | wait c0 p0 h0 hc0 =>
    rw [h0] at hpc
    simp only [Pc.lock.injEq, lock.LockPc.wait.injEq] at hpc
    subst hpc
    exact ⟨⟨p0, hc0⟩, rfl⟩
  | read c0 p0 h0 hc0 =>
    rw [h0] at hpc; simp at hpc
  | mux h0 hm0 =>
    rw [h0] at hpc; simp at hpc
  | storeNr h0 =>
    rw [h0] at hpc; simp at hpc
  | swap h0 =>
    rw [h0] at hpc; simp at hpc
  | follower p0 L0 h0 hL0 hr0 =>
    rw [h0] at hpc; simp at hpc
  | work h0 =>
    rw [h0] at hpc; simp at hpc
  | unlockSwap m0 b0 h0 hb0 =>
    rw [h0] at hpc; simp at hpc
  | wake m0 b0 r0 h0 hb0 hr0 =>
    rw [h0] at hpc; simp at hpc
  | unlockMux m0 h0 hm0 =>
    rw [h0] at hpc; simp at hpc
  | ret m0 r0 h0 hres0 hr0 =>
    rw [h0] at hpc; simp at hpc

/-- The step of a goroutine that reads the pointer of its woken token. -/
theorem step_at_read (w w1 : World V E P) (t b : Nat) (hs : Step w t w1)
    (hpc : (w.threads t).pc = .lock (.read b)) :
    ∃ p, w.mem.conds[b]? = some (lock.cond.mk (some p)) ∧
      w1 = w.setThread t { w.threads t with pc := .follower p } := by
  cases hs with
  | start h0 =>
    rw [h0] at hpc; simp at hpc
  | addFollow h0 hn0 =>
    rw [h0] at hpc; simp at hpc
  | addLead h0 hn0 =>
    rw [h0] at hpc; simp at hpc
  | loadCond h0 =>
    rw [h0] at hpc; simp at hpc
  | wait c0 p0 h0 hc0 =>
    rw [h0] at hpc; simp at hpc
  | read c0 p0 h0 hc0 =>
    rw [h0] at hpc
    simp only [Pc.lock.injEq, lock.LockPc.read.injEq] at hpc
    subst hpc
    exact ⟨p0, hc0, rfl⟩
  | mux h0 hm0 =>
    rw [h0] at hpc; simp at hpc
  | storeNr h0 =>
    rw [h0] at hpc; simp at hpc
  | swap h0 =>
    rw [h0] at hpc; simp at hpc
  | follower p0 L0 h0 hL0 hr0 =>
    rw [h0] at hpc; simp at hpc
  | work h0 =>
    rw [h0] at hpc; simp at hpc
  | unlockSwap m0 b0 h0 hb0 =>
    rw [h0] at hpc; simp at hpc
  | wake m0 b0 r0 h0 hb0 hr0 =>
    rw [h0] at hpc; simp at hpc
  | unlockMux m0 h0 hm0 =>
    rw [h0] at hpc; simp at hpc
  | ret m0 r0 h0 hres0 hr0 =>
    rw [h0] at hpc; simp at hpc

/-- The step of a follower that decodes the record it was handed. -/
theorem step_at_follower (w w1 : World V E P) (t r : Nat) (hs : Step w t w1)
    (hpc : (w.threads t).pc = .follower r) :
    ∃ L0, w.results[r]? = some (recordOf (w.threads L0).fn) ∧
      w1 = w.setThread t
        { w.threads t with
          res := some r,
          pc := .done (exitOf (recordOf (w.threads L0).fn) .normal) } := by
  cases hs with
  | start h0 =>
    rw [h0] at hpc; simp at hpc
  | addFollow h0 hn0 =>
    rw [h0] at hpc; simp at hpc
  | addLead h0 hn0 =>
    rw [h0] at hpc; simp at hpc
  | loadCond h0 =>
    rw [h0] at hpc; simp at hpc
  | wait c0 p0 h0 hc0 =>
    rw [h0] at hpc; simp at hpc
  | read c0 p0 h0 hc0 =>
    rw [h0] at hpc; simp at hpc
  | mux h0 hm0 =>
    rw [h0] at hpc; simp at hpc
  | storeNr h0 =>
    rw [h0] at hpc; simp at hpc
  | swap h0 =>
    rw [h0] at hpc; simp at hpc
  | follower p0 L0 h0 hL0 hr0 =>
    rw [h0] at hpc
    simp only [Pc.follower.injEq] at hpc
    subst hpc
    exact ⟨L0, hr0, rfl⟩
  | work h0 =>
    rw [h0] at hpc; simp at hpc
  | unlockSwap m0 b0 h0 hb0 =>
    rw [h0] at hpc; simp at hpc
  | wake m0 b0 r0 h0 hb0 hr0 =>
    rw [h0] at hpc; simp at hpc
  | unlockMux m0 h0 hm0 =>
    rw [h0] at hpc; simp at hpc
  | ret m0 r0 h0 hres0 hr0 =>
    rw [h0] at hpc; simp at hpc

theorem step_at_done (w w1 : World V E P) (t : Nat) (e : DoExit V E P)
    (hs : Step w t w1) (hpc : (w.threads t).pc = .done e) : False := by
  cases hs with
  | start h0 =>
    rw [h0] at hpc; simp at hpc
  | addFollow h0 hn0 =>
    rw [h0] at hpc; simp at hpc
  | addLead h0 hn0 =>
    rw [h0] at hpc; simp at hpc
  | loadCond h0 =>
    rw [h0] at hpc; simp at hpc
  | wait c0 p0 h0 hc0 =>
    rw [h0] at hpc; simp at hpc
  | read c0 p0 h0 hc0 =>
    rw [h0] at hpc; simp at hpc
  | mux h0 hm0 =>
    rw [h0] at hpc; simp at hpc
  | storeNr h0 =>
    rw [h0] at hpc; simp at hpc
  | swap h0 =>
    rw [h0] at hpc; simp at hpc
  | follower p0 L0 h0 hL0 hr0 =>
    rw [h0] at hpc; simp at hpc
  | work h0 =>
    rw [h0] at hpc; simp at hpc
  | unlockSwap m0 b0 h0 hb0 =>
    rw [h0] at hpc; simp at hpc
  | wake m0 b0 r0 h0 hb0 hr0 =>
    rw [h0] at hpc; simp at hpc
  | unlockMux m0 h0 hm0 =>
    rw [h0] at hpc; simp at hpc
  | ret m0 r0 h0 hres0 hr0 =>
    rw [h0] at hpc; simp at hpc

/-- A goroutine outside the critical section does not touch `this.cond` nor `this.batch`
while the mutex is held. -/
theorem step_mem_noncrit (w w1 : World V E P) (t : Nat) (hs : Step w t w1)
    (hcrit : (w.threads t).pc.crit = false) (hmux : w.mem.ll.mux = true) :
    w1.mem.ll.cond = w.mem.ll.cond ∧ w1.mem.ll.batch = w.mem.ll.batch := by
  cases hs with
  | start h0 =>
    exact ⟨rfl, rfl⟩
  | addFollow h0 hn0 =>
    exact ⟨rfl, rfl⟩
  | addLead h0 hn0 =>
    exact ⟨rfl, rfl⟩
  | loadCond h0 =>
    exact ⟨rfl, rfl⟩
  | wait c0 p0 h0 hc0 =>
    exact ⟨rfl, rfl⟩
  | read c0 p0 h0 hc0 =>
    exact ⟨rfl, rfl⟩
  | mux h0 hm0 =>
    rw [hmux] at hm0; exact absurd hm0 (by simp)
  | storeNr h0 =>
    rw [h0] at hcrit; simp [Pc.crit] at hcrit
  | swap h0 =>
    rw [h0] at hcrit; simp [Pc.crit] at hcrit
  | follower p0 L0 h0 hL0 hr0 =>
    exact ⟨rfl, rfl⟩
  | work h0 =>
    rw [h0] at hcrit; simp [Pc.crit] at hcrit
  | unlockSwap m0 b0 h0 hb0 =>
    rw [h0] at hcrit; simp [Pc.crit] at hcrit
  | wake m0 b0 r0 h0 hb0 hr0 =>
    rw [h0] at hcrit; simp [Pc.crit] at hcrit
  | unlockMux m0 h0 hm0 =>
    rw [h0] at hcrit; simp [Pc.crit] at hcrit
  | ret m0 r0 h0 hres0 hr0 =>
    exact ⟨rfl, rfl⟩

/-- A woken token stays woken with the same pointer. -/
theorem conds_woken_step (w w1 : World V E P) (t b r : Nat) (hk : Tokens w)
    (hs : Step w t w1) (hb : w.mem.conds[b]? = some (lock.cond.mk (some r))) :
    w1.mem.conds[b]? = some (lock.cond.mk (some r)) := by
  cases hs with
  | start h0 =>
    exact hb
  | addFollow h0 hn0 =>
    exact hb
  | addLead h0 hn0 =>
    exact hb
  | loadCond h0 =>
    exact hb
  | wait c0 p0 h0 hc0 =>
    exact hb
  | read c0 p0 h0 hc0 =>
    exact hb
  | mux h0 hm0 =>
    exact hb
  | storeNr h0 =>
    exact hb
  | swap h0 =>
    exact (conds_append_none w.mem.conds b r).mpr hb
  | follower p0 L0 h0 hL0 hr0 =>
    exact hb
  | work h0 =>
    exact hb
  | unlockSwap m0 b0 h0 hb0 =>
    exact hb
  | wake m0 b0 r0 h0 hb0 hr0 =>
    have hf := (hk.wakeFresh t m0 b0 h0).1
    have hne : b0 ≠ b := by
      intro heq
      rw [heq, hb] at hf
      simp at hf
    show (w.mem.conds.set b0 (lock.cond.mk (some r0)))[b]? = _
    rw [List.getElem?_set_ne hne]
    exact hb
  | unlockMux m0 h0 hm0 =>
    exact hb
  | ret m0 r0 h0 hres0 hr0 =>
    exact hb

/-- A goroutine that has called its work function keeps its record. -/
theorem step_late (fns : Nat → FnExit V (GoError E P) P) (w w1 : World V E P) (t : Nat)
    (h : Inv fns w) (hs : Step w t w1) (hc : (w.threads t).called = true) :
    (w1.threads t).called = true ∧ (w1.threads t).res = (w.threads t).res ∧
      (w1.threads t).fn = (w.threads t).fn := by
  cases hs with
  | start h0 =>
    have := h.early t (by rw [h0]; rfl)
    rw [hc] at this
    exact absurd this (by simp)
  | addFollow h0 hn0 =>
    have := h.early t (by rw [h0]; rfl)
    rw [hc] at this
    exact absurd this (by simp)
  | addLead h0 hn0 =>
    have := h.early t (by rw [h0]; rfl)
    rw [hc] at this
    exact absurd this (by simp)
  | loadCond h0 =>
    have := h.early t (by rw [h0]; rfl)
    rw [hc] at this
    exact absurd this (by simp)
  | wait c0 p0 h0 hc0 =>
    have := h.early t (by rw [h0]; rfl)
    rw [hc] at this
    exact absurd this (by simp)
  | read c0 p0 h0 hc0 =>
    have := h.early t (by rw [h0]; rfl)
    rw [hc] at this
    exact absurd this (by simp)
  | mux h0 hm0 =>
    have := h.early t (by rw [h0]; rfl)
    rw [hc] at this
    exact absurd this (by simp)
  | storeNr h0 =>
    have := h.early t (by rw [h0]; rfl)
    rw [hc] at this
    exact absurd this (by simp)
  | swap h0 =>
    have := h.early t (by rw [h0]; rfl)
    rw [hc] at this
    exact absurd this (by simp)
  | follower p0 L0 h0 hL0 hr0 =>
    have := h.early t (by rw [h0]; rfl)
    rw [hc] at this
    exact absurd this (by simp)
  | work h0 =>
    have := h.early t (by rw [h0]; rfl)
    rw [hc] at this
    exact absurd this (by simp)
  | unlockSwap m0 b0 h0 hb0 =>
    rw [setThread_same]
    exact ⟨hc, rfl, rfl⟩
  | wake m0 b0 r0 h0 hb0 hr0 =>
    rw [setThread_same]
    exact ⟨hc, rfl, rfl⟩
  | unlockMux m0 h0 hm0 =>
    rw [setThread_same]
    exact ⟨hc, rfl, rfl⟩
  | ret m0 r0 h0 hres0 hr0 =>
    rw [setThread_same]
    exact ⟨hc, rfl, rfl⟩
/-- The step of the leader that resets `this.nr`. -/
theorem step_at_storeNr (w w1 : World V E P) (t : Nat) (hs : Step w t w1)
    (hpc : (w.threads t).pc = .lock .storeNr) :
    (w1.threads t).pc = .lock .swap ∧ w1.mem.ll.cond = w.mem.ll.cond := by
  cases hs with
  | start h0 =>
    rw [h0] at hpc; simp at hpc
  | addFollow h0 hn0 =>
    rw [h0] at hpc; simp at hpc
  | addLead h0 hn0 =>
    rw [h0] at hpc; simp at hpc
  | loadCond h0 =>
    rw [h0] at hpc; simp at hpc
  | wait c0 p0 h0 hc0 =>
    rw [h0] at hpc; simp at hpc
  | read c0 p0 h0 hc0 =>
    rw [h0] at hpc; simp at hpc
  | mux h0 hm0 =>
    rw [h0] at hpc; simp at hpc
  | storeNr h0 =>
    exact ⟨by rw [setThread_same], rfl⟩
  | swap h0 =>
    rw [h0] at hpc; simp at hpc
  | follower p0 L0 h0 hL0 hr0 =>
    rw [h0] at hpc; simp at hpc
  | work h0 =>
    rw [h0] at hpc; simp at hpc
  | unlockSwap m0 b0 h0 hb0 =>
    rw [h0] at hpc; simp at hpc
  | wake m0 b0 r0 h0 hb0 hr0 =>
    rw [h0] at hpc; simp at hpc
  | unlockMux m0 h0 hm0 =>
    rw [h0] at hpc; simp at hpc
  | ret m0 r0 h0 hres0 hr0 =>
    rw [h0] at hpc; simp at hpc

/-- The step of the leader that moves the token of `this.cond` into `this.batch`. -/
theorem step_at_swap (w w1 : World V E P) (t : Nat) (hs : Step w t w1)
    (hpc : (w.threads t).pc = .lock .swap) :
    (w1.threads t).pc = .work ∧ w1.mem.ll.batch = some w.mem.ll.cond := by
  cases hs with
  | start h0 =>
    rw [h0] at hpc; simp at hpc
  | addFollow h0 hn0 =>
    rw [h0] at hpc; simp at hpc
  | addLead h0 hn0 =>
    rw [h0] at hpc; simp at hpc
  | loadCond h0 =>
    rw [h0] at hpc; simp at hpc
  | wait c0 p0 h0 hc0 =>
    rw [h0] at hpc; simp at hpc
  | read c0 p0 h0 hc0 =>
    rw [h0] at hpc; simp at hpc
  | mux h0 hm0 =>
    rw [h0] at hpc; simp at hpc
  | storeNr h0 =>
    rw [h0] at hpc; simp at hpc
  | swap h0 =>
    exact ⟨by rw [setThread_same], rfl⟩
  | follower p0 L0 h0 hL0 hr0 =>
    rw [h0] at hpc; simp at hpc
  | work h0 =>
    rw [h0] at hpc; simp at hpc
  | unlockSwap m0 b0 h0 hb0 =>
    rw [h0] at hpc; simp at hpc
  | wake m0 b0 r0 h0 hb0 hr0 =>
    rw [h0] at hpc; simp at hpc
  | unlockMux m0 h0 hm0 =>
    rw [h0] at hpc; simp at hpc
  | ret m0 r0 h0 hres0 hr0 =>
    rw [h0] at hpc; simp at hpc

/-- The step of a leader whose token is in `this.batch`: it calls its work function, or
takes the token back to wake it. -/
theorem step_at_hold (w w1 : World V E P) (t b : Nat) (hs : Step w t w1)
    (hpc : (w.threads t).pc.holdsBatch = true) (hb : w.mem.ll.batch = some b) :
    ((w1.threads t).pc.holdsBatch = true ∧ w1.mem.ll.batch = some b) ∨
      (∃ m, (w1.threads t).pc = .unlock m (.wake b)) := by
  cases hs with
  | start h0 =>
    rw [h0] at hpc; simp [Pc.holdsBatch] at hpc
  | addFollow h0 hn0 =>
    rw [h0] at hpc; simp [Pc.holdsBatch] at hpc
  | addLead h0 hn0 =>
    rw [h0] at hpc; simp [Pc.holdsBatch] at hpc
  | loadCond h0 =>
    rw [h0] at hpc; simp [Pc.holdsBatch] at hpc
  | wait c0 p0 h0 hc0 =>
    rw [h0] at hpc; simp [Pc.holdsBatch] at hpc
  | read c0 p0 h0 hc0 =>
    rw [h0] at hpc; simp [Pc.holdsBatch] at hpc
  | mux h0 hm0 =>
    rw [h0] at hpc; simp [Pc.holdsBatch] at hpc
  | storeNr h0 =>
    rw [h0] at hpc; simp [Pc.holdsBatch] at hpc
  | swap h0 =>
    rw [h0] at hpc; simp [Pc.holdsBatch] at hpc
  | follower p0 L0 h0 hL0 hr0 =>
    rw [h0] at hpc; simp [Pc.holdsBatch] at hpc
  | work h0 =>
    exact Or.inl ⟨by rw [setThread_same]; rfl, hb⟩
  | unlockSwap m0 b0 h0 hb0 =>
    rw [hb] at hb0
    simp only [Option.some.injEq] at hb0
    subst hb0
    exact Or.inr ⟨m0, by rw [setThread_same]⟩
  | wake m0 b0 r0 h0 hb0 hr0 =>
    rw [h0] at hpc; simp [Pc.holdsBatch] at hpc
  | unlockMux m0 h0 hm0 =>
    rw [h0] at hpc; simp [Pc.holdsBatch] at hpc
  | ret m0 r0 h0 hres0 hr0 =>
    rw [h0] at hpc; simp [Pc.holdsBatch] at hpc

/-- The step of a leader that wakes its token: the token holds the leader's record. -/
theorem step_at_wake (fns : Nat → FnExit V (GoError E P) P) (w w1 : World V E P)
    (t b : Nat) (m : Mode) (h : Inv fns w) (hs : Step w t w1)
    (hpc : (w.threads t).pc = .unlock m (.wake b)) :
    (w1.threads t).called = true ∧
      ∃ r, (w1.threads t).res = some r ∧
        w1.mem.conds[b]? = some (lock.cond.mk (some r)) := by
  cases hs with
  | start h0 =>
    rw [h0] at hpc; simp at hpc
  | addFollow h0 hn0 =>
    rw [h0] at hpc; simp at hpc
  | addLead h0 hn0 =>
    rw [h0] at hpc; simp at hpc
  | loadCond h0 =>
    rw [h0] at hpc; simp at hpc
  | wait c0 p0 h0 hc0 =>
    rw [h0] at hpc; simp at hpc
  | read c0 p0 h0 hc0 =>
    rw [h0] at hpc; simp at hpc
  | mux h0 hm0 =>
    rw [h0] at hpc; simp at hpc
  | storeNr h0 =>
    rw [h0] at hpc; simp at hpc
  | swap h0 =>
    rw [h0] at hpc; simp at hpc
  | follower p0 L0 h0 hL0 hr0 =>
    rw [h0] at hpc; simp at hpc
  | work h0 =>
    rw [h0] at hpc; simp at hpc
  | unlockSwap m0 b0 h0 hb0 =>
    rw [h0] at hpc; simp at hpc
  | wake m0 b0 r0 h0 hb0 hr0 =>
    rw [h0] at hpc
    simp only [Pc.unlock.injEq, lock.UnlockPc.wake.injEq] at hpc
    obtain ⟨_, hbb⟩ := hpc
    subst hbb
    refine ⟨?_, r0, ?_, ?_⟩
    · rw [setThread_same]; exact (h.lateU t m0 _ h0).1
    · rw [setThread_same]; exact hr0
    · show (w.mem.conds.set b0 (lock.cond.mk (some r0)))[b0]? = _
      rw [List.getElem?_set_self hb0]
  | unlockMux m0 h0 hm0 =>
    rw [h0] at hpc; simp at hpc
  | ret m0 r0 h0 hres0 hr0 =>
    rw [h0] at hpc; simp at hpc

/-- A step of a follower keeps `called` false. -/
theorem step_uncalled (w w1 : World V E P) (t : Nat) (hs : Step w t w1)
    (hpc : (w.threads t).pc.follPath = true) (hc : (w.threads t).called = false) :
    (w1.threads t).called = false ∧ w1.mem = w.mem := by
  cases hs with
  | start h0 =>
    rw [h0] at hpc; simp [Pc.follPath] at hpc
  | addFollow h0 hn0 =>
    rw [h0] at hpc; simp [Pc.follPath] at hpc
  | addLead h0 hn0 =>
    rw [h0] at hpc; simp [Pc.follPath] at hpc
  | loadCond h0 =>
    exact ⟨by rw [setThread_same]; exact hc, rfl⟩
  | wait c0 p0 h0 hc0 =>
    exact ⟨by rw [setThread_same]; exact hc, rfl⟩
  | read c0 p0 h0 hc0 =>
    exact ⟨by rw [setThread_same]; exact hc, rfl⟩
  | mux h0 hm0 =>
    rw [h0] at hpc; simp [Pc.follPath] at hpc
  | storeNr h0 =>
    rw [h0] at hpc; simp [Pc.follPath] at hpc
  | swap h0 =>
    rw [h0] at hpc; simp [Pc.follPath] at hpc
  | follower p0 L0 h0 hL0 hr0 =>
    exact ⟨by rw [setThread_same]; exact hc, rfl⟩
  | work h0 =>
    rw [h0] at hpc; simp [Pc.follPath] at hpc
  | unlockSwap m0 b0 h0 hb0 =>
    rw [h0] at hpc; simp [Pc.follPath] at hpc
  | wake m0 b0 r0 h0 hb0 hr0 =>
    rw [h0] at hpc; simp [Pc.follPath] at hpc
  | unlockMux m0 h0 hm0 =>
    rw [h0] at hpc; simp [Pc.follPath] at hpc
  | ret m0 r0 h0 hres0 hr0 =>
    rw [h0] at hpc; simp [Pc.follPath] at hpc
/-- Every step keeps the hand-over: the follower cannot leave `cond.wait()` before the
leader has woken the token, nobody but the leader wakes it, and once woken it keeps the
pointer to the leader's record. -/
theorem handoff_step (fns : Nat → FnExit V (GoError E P) P) (w w1 : World V E P)
    (t L T b : Nat) (h : Inv fns w) (hk : Tokens w) (hs : Step w t w1)
    (hh : Handoff w L T b) : Handoff w1 L T b := by
  unfold Handoff at hh ⊢
  obtain ⟨hc, hst⟩ := hh
  have hLT : L ≠ T := by
    intro e
    subst e
    rcases hst with ⟨hL | hL, _, hT⟩ | ⟨hL, _, hT⟩ | ⟨⟨m, hL⟩, hT⟩ | ⟨hLc, _⟩
    · rw [hT] at hL; simp at hL
    · rw [hT] at hL; simp at hL
    · rw [hT] at hL; simp [Pc.holdsBatch] at hL
    · rw [hT] at hL; simp at hL
    · rw [hc] at hLc; simp at hLc
  by_cases htT : t = T
  · subst htT
    have hL1 : w1.threads L = w.threads L := step_thread_other w w1 t L hs hLT
    rcases hst with ⟨hL, hcond, hT⟩ | ⟨hL, hbt, hT⟩ | ⟨⟨m, hL⟩, hT⟩ | ⟨hLc, r, hres, hcd, hT⟩
    · obtain ⟨⟨p, hp⟩, _⟩ := step_at_wait w w1 t b hs hT
      have := hk.condFresh
      rw [hcond, hp] at this
      simp at this
    · obtain ⟨⟨p, hp⟩, _⟩ := step_at_wait w w1 t b hs hT
      have := (hk.batchFresh b hbt).1
      rw [hp] at this
      simp at this
    · obtain ⟨⟨p, hp⟩, _⟩ := step_at_wait w w1 t b hs hT
      have := (hk.wakeFresh L m b hL).1
      rw [hp] at this
      simp at this
    · have hpath : (w.threads t).pc.follPath = true ∨ ∃ e, (w.threads t).pc = .done e := by
        rcases hT with hT | hT | hT | hT
        · left; rw [hT]; rfl
        · left; rw [hT]; rfl
        · left; rw [hT]; rfl
        · right; exact ⟨_, hT⟩
      rcases hpath with hpath | ⟨e, he⟩
      · obtain ⟨hc1, hmem⟩ := step_uncalled w w1 t hs hpath hc
        rw [hL1, hmem]
        refine ⟨hc1, Or.inr (Or.inr (Or.inr ⟨hLc, r, hres, hcd, ?_⟩))⟩
        rcases hT with hT | hT | hT | hT
        · obtain ⟨_, hw1⟩ := step_at_wait w w1 t b hs hT
          right; left
          rw [hw1, setThread_same]
        · obtain ⟨p, hp, hw1⟩ := step_at_read w w1 t b hs hT
          rw [hcd] at hp
          simp only [Option.some.injEq, lock.cond.mk.injEq] at hp
          subst hp
          right; right; left
          rw [hw1, setThread_same]
        · obtain ⟨L0, hr0, hw1⟩ := step_at_follower w w1 t r hs hT
          obtain ⟨r1, hr1, hr2⟩ := h.recd L hLc
          rw [hres] at hr1
          simp only [Option.some.injEq] at hr1
          subst hr1
          rw [hr0] at hr2
          simp only [Option.some.injEq] at hr2
          right; right; right
          rw [hw1, setThread_same, hr2]
        · exact absurd (step_at_done w w1 t _ hs hT) id
      · exact absurd (step_at_done w w1 t e hs he) id
  · have hT1 : w1.threads T = w.threads T := step_thread_other w w1 t T hs (Ne.symm htT)
    rw [hT1]
    by_cases htL : t = L
    · subst htL
      rcases hst with ⟨hL, hcond, hT⟩ | ⟨hL, hbt, hT⟩ | ⟨⟨m, hL⟩, hT⟩ | ⟨hLc, r, hres, hcd, hT⟩
      · rcases hL with hL | hL
        · obtain ⟨hp1, hc1⟩ := step_at_storeNr w w1 t hs hL
          exact ⟨hc, Or.inl ⟨Or.inr hp1, by rw [hc1]; exact hcond, hT⟩⟩
        · obtain ⟨hp1, hb1⟩ := step_at_swap w w1 t hs hL
          exact ⟨hc, Or.inr (Or.inl ⟨by rw [hp1]; rfl, by rw [hb1, hcond], hT⟩)⟩
      · rcases step_at_hold w w1 t b hs hL hbt with ⟨hp1, hb1⟩ | hp1
        · exact ⟨hc, Or.inr (Or.inl ⟨hp1, hb1, hT⟩)⟩
        · exact ⟨hc, Or.inr (Or.inr (Or.inl ⟨hp1, hT⟩))⟩
      · obtain ⟨hc1, r, hr1, hcd1⟩ := step_at_wake fns w w1 t b m h hs hL
        exact ⟨hc, Or.inr (Or.inr (Or.inr ⟨hc1, r, hr1, hcd1, Or.inl hT⟩))⟩
      · obtain ⟨hc1, hr1, hf1⟩ := step_late fns w w1 t h hs hLc
        rw [hf1]
        exact ⟨hc, Or.inr (Or.inr (Or.inr ⟨hc1, r, by rw [hr1]; exact hres,
          conds_woken_step w w1 t b r hk hs hcd, hT⟩))⟩
    · have hL1 : w1.threads L = w.threads L := step_thread_other w w1 t L hs (Ne.symm htL)
      rw [hL1]
      rcases hst with ⟨hL, hcond, hT⟩ | ⟨hL, hbt, hT⟩ | ⟨⟨m, hL⟩, hT⟩ | ⟨hLc, r, hres, hcd, hT⟩
      · have hcrit : (w.threads L).pc.crit = true := by
          rcases hL with hL | hL <;> rw [hL] <;> rfl
        obtain ⟨hc1, _⟩ := step_mem_noncrit w w1 t hs
          (others_not_crit fns w h L hcrit t htL) (h.held L hcrit)
        exact ⟨hc, Or.inl ⟨hL, by rw [hc1]; exact hcond, hT⟩⟩
      · have hcrit : (w.threads L).pc.crit = true := holdsBatch_crit _ hL
        obtain ⟨_, hb1⟩ := step_mem_noncrit w w1 t hs
          (others_not_crit fns w h L hcrit t htL) (h.held L hcrit)
        exact ⟨hc, Or.inr (Or.inl ⟨hL, by rw [hb1]; exact hbt, hT⟩)⟩
      · exact ⟨hc, Or.inr (Or.inr (Or.inl ⟨⟨m, hL⟩, hT⟩))⟩
      · exact ⟨hc, Or.inr (Or.inr (Or.inr ⟨hLc, r, hres,
          conds_woken_step w w1 t b r hk hs hcd, hT⟩))⟩

/-- The token facts and the hand-over are kept along every run. -/
theorem handoff_run (fns : Nat → FnExit V (GoError E P) P) (L T b : Nat) :
    ∀ (sched : List Nat) (w w1 : World V E P), Inv fns w → Tokens w →
      run w sched = some w1 → (Tokens w1 ∧ (Handoff w L T b → Handoff w1 L T b)) := by
  intro sched
  induction sched with
  | nil =>
    intro w w1 _ hk hr
    simp only [run, Option.some.injEq] at hr
    rw [← hr]; exact ⟨hk, id⟩
  | cons t ts ih =>
    intro w w1 h hk hr
    simp only [run] at hr
    cases hs : step w t with
    | none => rw [hs] at hr; exact absurd hr (by simp)
    | some w2 =>
      rw [hs] at hr
      have hS := step_cases fns w w2 t h hs
      obtain ⟨hk1, hh1⟩ := ih w2 w1 (inv_step fns w w2 t h hs) (tokens_step fns w w2 t h hk hS) hr
      exact ⟨hk1, fun hh => hh1 (handoff_step fns w w2 t L T b h hk hS hh)⟩

theorem tokens_of_reachable (fns : Nat → FnExit V (GoError E P) P) (w : World V E P)
    (h : Reachable fns w) : Tokens w := by
  obtain ⟨sched, hs⟩ := h
  exact (handoff_run fns 0 0 0 sched _ w (inv_init fns) (tokens_init fns) hs).1

/-- A follower that waited on the token its leader `L` swapped into `this.batch` ends by
the final check of `Do` on the record of `L`. -/
theorem handoff_done (fns : Nat → FnExit V (GoError E P) P) (w : World V E P)
    (L T b : Nat) (h : Inv fns w) (hh : Handoff w L T b) (e : DoExit V E P)
    (he : (w.threads T).pc = .done e) : e = exitOf (recordOf (fns L)) .normal := by
  unfold Handoff at hh
  obtain ⟨_, hst⟩ := hh
  rw [he] at hst
  rw [← h.fnc L]
  rcases hst with ⟨_, _, hT⟩ | ⟨_, _, hT⟩ | ⟨_, hT⟩ | ⟨_, r, _, _, hT | hT | hT | hT⟩
  · simp at hT
  · simp at hT
  · simp at hT
  · simp at hT
  · simp at hT
  · simp at hT
  · simpa using hT

/-- The fan-out of a record whose final check in `Do` ends every caller the same way `x`,
whether the caller returns normally from the inner function or not (a `*panicError` or
the `errGoexit` marker).  In a world satisfying the invariant:

* a leader `L` about to call its work function and scheduled five times in a row ends
  with `x`, having stored its record, woken the token of `this.batch` with the address of
  the record, and released the mutex; it takes no further step;
* once `L` has called its work function, `res` points to its record, `L` is never
  blocked, it ends with `x`, and every caller whose `Lock` returned the record ends
  with `x` at its next step without calling its own work function;
* every follower that was handed the token of `L` ends with `x`. -/
theorem abnormal_fan_out (fns : Nat → FnExit V (GoError E P) P) (w : World V E P)
    (L : Nat) (x : DoExit V E P) (h : Inv fns w)
    (hx : ∀ m, exitOf (recordOf (fns L)) m = x) :
    ((w.threads L).pc = .work →
      ∃ (b : Nat) (w1 : World V E P), w.mem.ll.batch = some b ∧
        run w [L, L, L, L, L] = some w1 ∧
        (w1.threads L).pc = .done x ∧
        (w1.threads L).called = true ∧
        w1.results[w.results.length]? = some (recordOf (fns L)) ∧
        w1.mem.conds[b]? = some ⟨some w.results.length⟩ ∧
        w1.mem.ll.mux = false ∧ w1.mem.ll.batch = none ∧
        step w1 L = none)
    ∧ ((w.threads L).called = true →
      ∃ r : Nat, (w.threads L).res = some r ∧ w.results[r]? = some (recordOf (fns L)) ∧
        (∀ e, (w.threads L).pc = .done e → e = x) ∧
        ((∀ e, (w.threads L).pc ≠ .done e) → ∃ w1, step w L = some w1) ∧
        ∀ T : Nat, (w.threads T).pc = .follower r →
          (w.threads T).called = false ∧
          ∃ w1 : World V E P, step w T = some w1 ∧
            (w1.threads T).pc = .done x ∧
            (w1.threads T).called = false)
    ∧ (∀ T b : Nat, Handoff w L T b → ∀ e, (w.threads T).pc = .done e → e = x) := by
  refine ⟨?_, ?_, ?_⟩
  · intro hpc
    obtain ⟨b, w1, hb, hrun, hth, hres, hcond, hmux, hbatch⟩ := leader_solo fns w L h hpc
    refine ⟨b, w1, hb, hrun, ?_, ?_, ?_, hcond, hmux, hbatch, ?_⟩
    · rw [hth]
      simp only
      rw [hx]
    · rw [hth]
    · rw [hres]
      exact List.getElem?_concat_length _ _
    · unfold step
      rw [hth]
  · intro hcalled
    obtain ⟨r, hr1, hr2⟩ := h.recd L hcalled
    rw [h.fnc L] at hr2
    refine ⟨r, hr1, hr2, ?_, ?_, ?_⟩
    · intro e he
      rw [h.doneL L e he hcalled, h.fnc L]
      exact hx _
    · intro hnd
      cases hpc : (w.threads L).pc with
      | done e => exact absurd hpc (hnd e)
      | ret m => exact ⟨_, step_ret w L r m _ hpc hr1 hr2⟩
      | unlock m up =>
        cases up with
        | swap =>
          obtain ⟨b, hb⟩ := h.batch L (by rw [hpc]; rfl)
          exact ⟨_, step_unlock_swap w L b m hpc hb⟩
        | wake b =>
          have hbv := h.wakev L m b hpc
          exact ⟨_, step_unlock_wake w L b m _ hpc (List.getElem?_eq_getElem hbv)⟩
        | mux => exact ⟨_, step_unlock_mux w L m hpc (h.held L (by rw [hpc]; rfl))⟩
        | ret => exact absurd hpc (h.inUnlock L m).1
        | fatal => exact absurd hpc (h.inUnlock L m).2
      | start =>
        have := h.early L (by rw [hpc]; rfl)
        rw [hcalled] at this; exact absurd this (by simp)
      | lock lp =>
        have := h.early L (by rw [hpc]; rfl)
        rw [hcalled] at this; exact absurd this (by simp)
      | follower p =>
        have := h.early L (by rw [hpc]; rfl)
        rw [hcalled] at this; exact absurd this (by simp)
      | work =>
        have := h.early L (by rw [hpc]; rfl)
        rw [hcalled] at this; exact absurd this (by simp)
    · intro T hT
      have hTc : (w.threads T).called = false := h.early T (by rw [hT]; rfl)
      refine ⟨hTc, _, step_follower w T r _ hT hr2, ?_, ?_⟩
      · rw [setThread_same]
        simp only
        rw [hx]
      · rw [setThread_same]
        exact hTc
  · intro T b hh e he
    rw [handoff_done fns w L T b h hh e he]
    exact hx _

theorem follPath_step (fns : Nat → FnExit V (GoError E P) P) (w w1 : World V E P)
    (t T : Nat) (h : Inv fns w) (hs : step w t = some w1)
    (hT : (w.threads T).pc.follPath = true ∧ (w.threads T).called = false) :
    (w1.threads T).pc.follPath = true ∧ (w1.threads T).called = false := by
  by_cases htT : T = t
  · subst htT
    unfold step at hs
    cases hpc : (w.threads T).pc with
    | lock lp =>
      cases lp with
      | loadCond =>
        simp only [hpc, lock.LockStep, Option.some.injEq] at hs
        rw [← hs, setThread_same]
        exact ⟨rfl, hT.2⟩
      | wait c =>
        simp only [hpc, lock.LockStep] at hs
        cases hcd : w.mem.conds[c]? with
        | none => simp [hcd] at hs
        | some cd =>
          cases cd with
          | mk u =>
            cases u with
            | none => simp [hcd] at hs
            | some p =>
              simp only [hcd, Option.some.injEq] at hs
              rw [← hs, setThread_same]
              exact ⟨rfl, hT.2⟩
      | read c =>
        obtain ⟨p, hp⟩ := h.woken T c hpc
        simp only [hpc, lock.LockStep, hp, Option.some.injEq] at hs
        rw [← hs, setThread_same]
        exact ⟨rfl, hT.2⟩
      | add => rw [hpc] at hT; simp [Pc.follPath] at hT
      | mux => rw [hpc] at hT; simp [Pc.follPath] at hT
      | storeNr => rw [hpc] at hT; simp [Pc.follPath] at hT
      | swap => rw [hpc] at hT; simp [Pc.follPath] at hT
      | ret u => rw [hpc] at hT; simp [Pc.follPath] at hT
    | follower p =>
      simp only [hpc] at hs
      cases hr : w.results[p]? with
      | none =>
        simp only [hr, Option.some.injEq] at hs
        rw [← hs, setThread_same]
        exact ⟨rfl, hT.2⟩
      | some r =>
        simp only [hr, Option.some.injEq] at hs
        rw [← hs, setThread_same]
        exact ⟨rfl, hT.2⟩
    | done e => simp [hpc] at hs
    | start => rw [hpc] at hT; simp [Pc.follPath] at hT
    | work => rw [hpc] at hT; simp [Pc.follPath] at hT
    | unlock m up => rw [hpc] at hT; simp [Pc.follPath] at hT
    | ret m => rw [hpc] at hT; simp [Pc.follPath] at hT
  · rw [step_other w w1 t T hs htT]
    exact hT

theorem follPath_run (fns : Nat → FnExit V (GoError E P) P) (T : Nat) :
    ∀ (sched : List Nat) (w w1 : World V E P), Inv fns w → run w sched = some w1 →
      (w.threads T).pc.follPath = true ∧ (w.threads T).called = false →
      (w1.threads T).pc.follPath = true ∧ (w1.threads T).called = false := by
  intro sched
  induction sched with
  | nil =>
    intro w w1 _ hr hT
    simp only [run, Option.some.injEq] at hr
    rw [← hr]; exact hT
  | cons t ts ih =>
    intro w w1 h hr hT
    simp only [run] at hr
    cases hs : step w t with
    | none => rw [hs] at hr; exact absurd hr (by simp)
    | some w2 =>
      rw [hs] at hr
      exact ih w2 w1 (inv_step fns w w2 t h hs) hr (follPath_step fns w w2 t T h hs hT)

theorem run_append_bind (w : World V E P) (l1 l2 : List Nat) :
    run w (l1 ++ l2) = (run w l1).bind (fun x => run x l2) := by
  induction l1 generalizing w with
  | nil => simp [run]
  | cons t ts ih =>
    simp only [List.cons_append, run]
    cases step w t with
    | none => rfl
    | some x => exact ih x

theorem run_after (fns : Nat → FnExit V (GoError E P) P) (s0 s1 : List Nat)
    (h : (run (World.init fns) (s0 ++ s1)).isSome = true) :
    run (World.after fns s0) s1 = some (World.after fns (s0 ++ s1)) := by
  unfold World.after
  rw [run_append_bind] at h ⊢
  cases hr : run (World.init fns) s0 with
  | none => rw [hr] at h; exact absurd h (by simp)
  | some x =>
    rw [hr] at h
    have hb : ((some x).bind fun x => run x s1) = run x s1 := rfl
    rw [hb] at h ⊢
    cases hx : run x s1 with
    | none => rw [hx] at h; exact absurd h (by simp)
    | some y => exact hx

theorem reachable_after (fns : Nat → FnExit V (GoError E P) P) (sched : List Nat)
    (h : (run (World.init fns) sched).isSome = true) :
    Reachable fns (World.after fns sched) := by
  refine ⟨sched, ?_⟩
  unfold World.after
  cases hr : run (World.init fns) sched with
  | none => rw [hr] at h; exact absurd h (by simp)
  | some x => rfl

/-! ## The delivery of the leader's record to the followers of its batch -/

/-- A leader that stands before the call of its work function, or is past it, advances by
one place of the leader's path at each of its own steps and is not moved by the steps of
the other goroutines. -/
theorem lead_steps_step (fns : Nat → FnExit V (GoError E P) P) (w w1 : World V E P)
    (t L : Nat) (h : Inv fns w) (hs : Step w t w1)
    (hL : (w.threads L).pc = .work ∨ (w.threads L).called = true) :
    ((w1.threads L).pc = .work ∨ (w1.threads L).called = true) ∧
      (w1.threads L).pc.leadSteps
        = (w.threads L).pc.leadSteps + (if t = L then 1 else 0) := by
  by_cases htL : t = L
  · subst htL
    simp only [if_true]
    cases hs with
    | start h0 =>
      rcases hL with hL | hL
      · rw [h0] at hL; simp at hL
      · have := h.early t (by rw [h0]; rfl)
        rw [hL] at this
        exact absurd this (by simp)
    | addFollow h0 hn0 =>
      rcases hL with hL | hL
      · rw [h0] at hL; simp at hL
      · have := h.early t (by rw [h0]; rfl)
        rw [hL] at this
        exact absurd this (by simp)
    | addLead h0 hn0 =>
      rcases hL with hL | hL
      · rw [h0] at hL; simp at hL
      · have := h.early t (by rw [h0]; rfl)
        rw [hL] at this
        exact absurd this (by simp)
    | loadCond h0 =>
      rcases hL with hL | hL
      · rw [h0] at hL; simp at hL
      · have := h.early t (by rw [h0]; rfl)
        rw [hL] at this
        exact absurd this (by simp)
    | wait c0 p0 h0 hc0 =>
      rcases hL with hL | hL
      · rw [h0] at hL; simp at hL
      · have := h.early t (by rw [h0]; rfl)
        rw [hL] at this
        exact absurd this (by simp)
    | read c0 p0 h0 hc0 =>
      rcases hL with hL | hL
      · rw [h0] at hL; simp at hL
      · have := h.early t (by rw [h0]; rfl)
        rw [hL] at this
        exact absurd this (by simp)
    | mux h0 hm0 =>
      rcases hL with hL | hL
      · rw [h0] at hL; simp at hL
      · have := h.early t (by rw [h0]; rfl)
        rw [hL] at this
        exact absurd this (by simp)
    | storeNr h0 =>
      rcases hL with hL | hL
      · rw [h0] at hL; simp at hL
      · have := h.early t (by rw [h0]; rfl)
        rw [hL] at this
        exact absurd this (by simp)
    | swap h0 =>
      rcases hL with hL | hL
      · rw [h0] at hL; simp at hL
      · have := h.early t (by rw [h0]; rfl)
        rw [hL] at this
        exact absurd this (by simp)
    | follower p0 L0 h0 hL0 hr0 =>
      rcases hL with hL | hL
      · rw [h0] at hL; simp at hL
      · have := h.early t (by rw [h0]; rfl)
        rw [hL] at this
        exact absurd this (by simp)
    | work h0 =>
      rw [setThread_same, h0]
      exact ⟨Or.inr rfl, rfl⟩
    | unlockSwap m0 b0 h0 hb0 =>
      have hc : (w.threads t).called = true := by
        rcases hL with hL | hL
        · rw [h0] at hL; simp at hL
        · exact hL
      rw [setThread_same, h0]
      exact ⟨Or.inr hc, rfl⟩
    | wake m0 b0 r0 h0 hb0 hr0 =>
      have hc : (w.threads t).called = true := by
        rcases hL with hL | hL
        · rw [h0] at hL; simp at hL
        · exact hL
      rw [setThread_same, h0]
      exact ⟨Or.inr hc, rfl⟩
    | unlockMux m0 h0 hm0 =>
      have hc : (w.threads t).called = true := by
        rcases hL with hL | hL
        · rw [h0] at hL; simp at hL
        · exact hL
      rw [setThread_same, h0]
      exact ⟨Or.inr hc, rfl⟩
    | ret m0 r0 h0 hres0 hr0 =>
      have hc : (w.threads t).called = true := by
        rcases hL with hL | hL
        · rw [h0] at hL; simp at hL
        · exact hL
      rw [setThread_same, h0]
      exact ⟨Or.inr hc, rfl⟩
  · rw [step_thread_other w w1 t L hs (Ne.symm htL)]
    simp only [if_neg htL, Nat.add_zero]
    exact ⟨hL, trivial⟩

/-- A follower inside `cond.wait()` or past it advances by one place of the follower's
path at each of its own steps and is not moved by the steps of the other goroutines. -/
theorem foll_steps_step (w w1 : World V E P) (t T : Nat) (hs : Step w t w1)
    (hT : (w.threads T).pc.waited = true) :
    (w1.threads T).pc.waited = true ∧
      (w1.threads T).pc.follSteps
        = (w.threads T).pc.follSteps + (if t = T then 1 else 0) := by
  by_cases htT : t = T
  · subst htT
    simp only [if_true]
    cases hpc : (w.threads t).pc with
    | lock lp =>
      cases lp with
      | wait c =>
        obtain ⟨_, hw1⟩ := step_at_wait w w1 t c hs hpc
        rw [hw1, setThread_same]
        exact ⟨rfl, rfl⟩
      | read c =>
        obtain ⟨p, _, hw1⟩ := step_at_read w w1 t c hs hpc
        rw [hw1, setThread_same]
        exact ⟨rfl, rfl⟩
      | add => rw [hpc] at hT; simp [Pc.waited] at hT
      | loadCond => rw [hpc] at hT; simp [Pc.waited] at hT
      | mux => rw [hpc] at hT; simp [Pc.waited] at hT
      | storeNr => rw [hpc] at hT; simp [Pc.waited] at hT
      | swap => rw [hpc] at hT; simp [Pc.waited] at hT
      | ret u => rw [hpc] at hT; simp [Pc.waited] at hT
    | follower p =>
      obtain ⟨L0, _, hw1⟩ := step_at_follower w w1 t p hs hpc
      rw [hw1, setThread_same]
      exact ⟨rfl, rfl⟩
    | done e => exact absurd (step_at_done w w1 t e hs hpc) id
    | start => rw [hpc] at hT; simp [Pc.waited] at hT
    | work => rw [hpc] at hT; simp [Pc.waited] at hT
    | unlock m up => rw [hpc] at hT; simp [Pc.waited] at hT
    | ret m => rw [hpc] at hT; simp [Pc.waited] at hT
  · rw [step_thread_other w w1 t T hs (Ne.symm htT)]
    simp only [if_neg htT, Nat.add_zero]
    exact ⟨hT, trivial⟩

/-- Along every run the leader has taken as many steps of the leader's path as the
schedule names it, and the follower as many steps of the follower's path. -/
theorem path_steps_run (fns : Nat → FnExit V (GoError E P) P) (L T : Nat) :
    ∀ (sched : List Nat) (w w2 : World V E P), Inv fns w → run w sched = some w2 →
      ((w.threads L).pc = .work ∨ (w.threads L).called = true) →
      (w.threads T).pc.waited = true →
      ((w2.threads L).pc = .work ∨ (w2.threads L).called = true) ∧
      (w2.threads L).pc.leadSteps = (w.threads L).pc.leadSteps + sched.count L ∧
      (w2.threads T).pc.waited = true ∧
      (w2.threads T).pc.follSteps = (w.threads T).pc.follSteps + sched.count T := by
  intro sched
  induction sched with
  | nil =>
    intro w w2 _ hr hL hT
    simp only [run, Option.some.injEq] at hr
    subst hr
    exact ⟨hL, rfl, hT, rfl⟩
  | cons t ts ih =>
    intro w w2 h hr hL hT
    simp only [run] at hr
    cases hs : step w t with
    | none => rw [hs] at hr; exact absurd hr (by simp)
    | some w1 =>
      rw [hs] at hr
      have hS := step_cases fns w w1 t h hs
      obtain ⟨hL1, hl1⟩ := lead_steps_step fns w w1 t L h hS hL
      obtain ⟨hT1, hf1⟩ := foll_steps_step w w1 t T hS hT
      obtain ⟨hL2, hl2, hT2, hf2⟩ := ih w1 w2 (inv_step fns w w1 t h hs) hr hL1 hT1
      refine ⟨hL2, ?_, hT2, ?_⟩
      · rw [hl2, hl1, List.count_cons]
        by_cases htL : t = L
        · simp [htL]; omega
        · simp [htL]
      · rw [hf2, hf1, List.count_cons]
        by_cases htT : t = T
        · simp [htT]; omega
        · simp [htT]

/-- A goroutine inside `cond.wait()` on a token that has not been woken is blocked. -/
theorem step_wait_blocked (w : World V E P) (t b : Nat)
    (hpc : (w.threads t).pc = .lock (.wait b))
    (hb : w.mem.conds[b]? = some (lock.cond.mk none)) : step w t = none := by
  unfold step
  simp only [hpc, lock.LockStep, hb]

/-- A leader that has called its work function is not blocked until its call of `Do`
has ended. -/
theorem leader_enabled (fns : Nat → FnExit V (GoError E P) P) (w : World V E P) (L : Nat)
    (h : Inv fns w) (hL : (w.threads L).pc = .work ∨ (w.threads L).called = true)
    (hnd : ∀ e, (w.threads L).pc ≠ .done e) : ∃ w1, step w L = some w1 := by
  rcases hL with hL | hcalled
  · exact ⟨_, step_work w L hL⟩
  · obtain ⟨r, hr1, hr2⟩ := h.recd L hcalled
    cases hpc : (w.threads L).pc with
    | done e => exact absurd hpc (hnd e)
    | ret m => exact ⟨_, step_ret w L r m _ hpc hr1 hr2⟩
    | unlock m up =>
      cases up with
      | swap =>
        obtain ⟨b, hb⟩ := h.batch L (by rw [hpc]; rfl)
        exact ⟨_, step_unlock_swap w L b m hpc hb⟩
      | wake b =>
        have hbv := h.wakev L m b hpc
        exact ⟨_, step_unlock_wake w L b m _ hpc (List.getElem?_eq_getElem hbv)⟩
      | mux => exact ⟨_, step_unlock_mux w L m hpc (h.held L (by rw [hpc]; rfl))⟩
      | ret => exact absurd hpc (h.inUnlock L m).1
      | fatal => exact absurd hpc (h.inUnlock L m).2
    | start =>
      have := h.early L (by rw [hpc]; rfl)
      rw [hcalled] at this; exact absurd this (by simp)
    | lock lp =>
      have := h.early L (by rw [hpc]; rfl)
      rw [hcalled] at this; exact absurd this (by simp)
    | follower p =>
      have := h.early L (by rw [hpc]; rfl)
      rw [hcalled] at this; exact absurd this (by simp)
    | work => exact ⟨_, step_work w L hpc⟩

/-- As long as the leader `L` has its batch token `b` in `this.batch` or is about to
wake it, a follower inside `cond.wait()` on `b` stays there: no step but the leader's
wake of `b` ends this. -/
theorem prewake_step (fns : Nat → FnExit V (GoError E P) P) (w w1 : World V E P)
    (t L T b : Nat) (h : Inv fns w) (hk : Tokens w) (hs : Step w t w1)
    (hT : (w.threads T).pc = .lock (.wait b))
    (hL : ((w.threads L).pc.holdsBatch = true ∧ w.mem.ll.batch = some b) ∨
      ∃ m, (w.threads L).pc = .unlock m (.wake b)) :
    (w1.threads T).pc = .lock (.wait b) ∧
      ((((w1.threads L).pc.holdsBatch = true ∧ w1.mem.ll.batch = some b) ∨
          ∃ m, (w1.threads L).pc = .unlock m (.wake b)) ∨
        (t = L ∧ ∃ m, (w.threads L).pc = .unlock m (.wake b))) := by
  have hfresh : w.mem.conds[b]? = some (lock.cond.mk none) := by
    rcases hL with ⟨_, hb⟩ | ⟨m, hm⟩
    · exact (hk.batchFresh b hb).1
    · exact (hk.wakeFresh L m b hm).1
  have hLT : L ≠ T := by
    intro e
    subst e
    rcases hL with ⟨hL, _⟩ | ⟨m, hL⟩
    · rw [hT] at hL; simp [Pc.holdsBatch] at hL
    · rw [hT] at hL; simp at hL
  by_cases htT : t = T
  · subst htT
    obtain ⟨⟨p, hp⟩, _⟩ := step_at_wait w w1 t b hs hT
    rw [hp] at hfresh
    simp at hfresh
  · have hT1 : w1.threads T = w.threads T := step_thread_other w w1 t T hs (Ne.symm htT)
    rw [hT1]
    refine ⟨hT, ?_⟩
    by_cases htL : t = L
    · subst htL
      rcases hL with ⟨hL, hb⟩ | ⟨m, hL⟩
      · left
        exact step_at_hold w w1 t b hs hL hb
      · right
        exact ⟨rfl, m, hL⟩
    · have hL1 : w1.threads L = w.threads L := step_thread_other w w1 t L hs (Ne.symm htL)
      rw [hL1]
      left
      rcases hL with ⟨hL, hb⟩ | ⟨m, hL⟩
      · have hcrit : (w.threads L).pc.crit = true := holdsBatch_crit _ hL
        obtain ⟨_, hb1⟩ := step_mem_noncrit w w1 t hs
          (others_not_crit fns w h L hcrit t htL) (h.held L hcrit)
        exact Or.inl ⟨hL, by rw [hb1]; exact hb⟩
      · exact Or.inr ⟨m, hL⟩

/-- A follower inside `cond.wait()` on the batch token of the leader `L` is still there,
blocked, in every world of a run in which `L` has taken fewer than three steps since it
stood before the call of its work function (the third one is the wake of the token). -/
theorem prewake_run (fns : Nat → FnExit V (GoError E P) P) (L T b : Nat) :
    ∀ (sched : List Nat) (w w2 : World V E P), Inv fns w → Tokens w →
      run w sched = some w2 →
      (w.threads T).pc = .lock (.wait b) →
      (((w.threads L).pc.holdsBatch = true ∧ w.mem.ll.batch = some b) ∨
        ∃ m, (w.threads L).pc = .unlock m (.wake b)) →
      (w2.threads L).pc.leadSteps < 3 →
      (w2.threads T).pc = .lock (.wait b) ∧ step w2 T = none := by
  intro sched
  induction sched with
  | nil =>
    intro w w2 _ hk hr hT hL _
    simp only [run, Option.some.injEq] at hr
    subst hr
    refine ⟨hT, step_wait_blocked w T b hT ?_⟩
    rcases hL with ⟨_, hb⟩ | ⟨m, hm⟩
    · exact (hk.batchFresh b hb).1
    · exact (hk.wakeFresh L m b hm).1
  | cons t ts ih =>
    intro w w2 h hk hr hT hL hlt
    simp only [run] at hr
    cases hs : step w t with
    | none => rw [hs] at hr; exact absurd hr (by simp)
    | some w1 =>
      rw [hs] at hr
      have hS := step_cases fns w w1 t h hs
      have h1 := inv_step fns w w1 t h hs
      obtain ⟨hT1, hL1 | ⟨htL, m, hm⟩⟩ := prewake_step fns w w1 t L T b h hk hS hT hL
      · exact ih w1 w2 h1 (tokens_step fns w w1 t h hk hS) hr hT1 hL1 hlt
      · exfalso
        have hc : (w.threads L).called = true := (h.lateU L m _ hm).1
        obtain ⟨hlate1, hl1⟩ := lead_steps_step fns w w1 t L h hS (Or.inr hc)
        rw [hm, if_pos htL] at hl1
        obtain ⟨_, hl2, _, _⟩ := path_steps_run fns L T ts w1 w2 h1 hr hlate1
          (by rw [hT1]; rfl)
        rw [hl2, hl1] at hlt
        simp only [Pc.leadSteps] at hlt
        omega

/-- The delivery of the record of a leader `L` to a follower `T` of its batch.  In a world
satisfying the invariant let `L` stand before the call of its work function with the
token `b` in `this.batch`, and let `T` be inside `cond.wait()` on `b`; let the final check
of `Do` on the record of `L` yield `x` for the leader and for a follower.  Then in every
world `w2` of every run from there:

* `T` has not called its own work function;
* while `L` has taken fewer than three steps, `T` is inside `wait()` and blocked;
* once `L` has taken three steps, the token `b` holds the address of the record of `L`,
  and `T` is not blocked until its call has ended;
* `L` is not blocked until its call has ended;
* when `T` has taken two steps, its `Lock` has returned the address of the record of `L`;
* `L` has ended exactly when it has taken five steps, `T` exactly when it has taken three,
  and both have ended with `x`. -/
theorem batch_delivery (fns : Nat → FnExit V (GoError E P) P) (w w2 : World V E P)
    (L T b : Nat) (x : DoExit V E P) (sched : List Nat) (h : Inv fns w) (hk : Tokens w)
    (hxL : exitOf (recordOf (fns L)) (modeOf (fns L)) = x)
    (hxF : exitOf (recordOf (fns L)) .normal = x)
    (hL : (w.threads L).pc = .work) (hb : w.mem.ll.batch = some b)
    (hT : (w.threads T).pc = .lock (.wait b)) (hrun : run w sched = some w2) :
    (w2.threads T).called = false
    ∧ (sched.count L < 3 → (w2.threads T).pc = .lock (.wait b) ∧ step w2 T = none)
    ∧ (3 ≤ sched.count L →
        (∃ p, (w2.threads L).res = some p ∧ w2.results[p]? = some (recordOf (fns L)) ∧
          w2.mem.conds[b]? = some ⟨some p⟩) ∧
        ((∀ e, (w2.threads T).pc ≠ .done e) → ∃ w3, step w2 T = some w3))
    ∧ ((∀ e, (w2.threads L).pc ≠ .done e) → ∃ w3, step w2 L = some w3)
    ∧ (sched.count T = 2 →
        ∃ p, (w2.threads T).pc = .follower p ∧ (w2.threads L).res = some p)
    ∧ (sched.count L = 5 ↔ (w2.threads L).pc = .done x)
    ∧ (sched.count T = 3 ↔ (w2.threads T).pc = .done x)
    ∧ (∀ e, (w2.threads L).pc = .done e ∨ (w2.threads T).pc = .done e → e = x) := by
  have h2 : Inv fns w2 := inv_run fns sched w w2 h hrun
  have hTc : (w.threads T).called = false := h.early T (by rw [hT]; rfl)
  have hh : Handoff w L T b :=
    ⟨hTc, Or.inr (Or.inl ⟨by rw [hL]; rfl, hb, hT⟩)⟩
  obtain ⟨hk2, hh2⟩ := handoff_run fns L T b sched w w2 h hk hrun
  have hh2 := hh2 hh
  obtain ⟨hlate, hl, hwaited, hf⟩ := path_steps_run fns L T sched w w2 h hrun
    (Or.inl hL) (by rw [hT]; rfl)
  have e1 : (Pc.work : Pc V E P).leadSteps = 0 := rfl
  have e2 : (Pc.lock (.wait b) : Pc V E P).follSteps = 0 := rfl
  rw [hL, e1, Nat.zero_add] at hl
  rw [hT, e2, Nat.zero_add] at hf
  have hdoneL : ∀ e, (w2.threads L).pc = .done e → e = x := by
    intro e he
    have hc : (w2.threads L).called = true := by
      rcases hlate with hw | hc
      · rw [he] at hw; simp at hw
      · exact hc
    rw [h2.doneL L e he hc, h2.fnc L]
    exact hxL
  have hdoneT : ∀ e, (w2.threads T).pc = .done e → e = x := by
    intro e he
    rw [handoff_done fns w2 L T b h2 hh2 e he]
    exact hxF
  refine ⟨hh2.1, ?_, ?_, ?_, ?_, ?_, ?_, ?_⟩
  · intro hlt
    exact prewake_run fns L T b sched w w2 h hk hrun hT
      (Or.inl ⟨by rw [hL]; rfl, hb⟩) (by rw [hl]; exact hlt)
  · intro hge
    rw [← hl] at hge
    obtain ⟨_, hst⟩ := hh2
    rcases hst with ⟨hL2 | hL2, _, _⟩ | ⟨hL2, _, _⟩ | ⟨⟨m, hL2⟩, _⟩ |
      ⟨hLc, r, hres, hcd, hT2⟩
    · rw [hL2] at hge; simp [Pc.leadSteps] at hge
    · rw [hL2] at hge; simp [Pc.leadSteps] at hge
    · exfalso
      cases hpc : (w2.threads L).pc with
      | work => rw [hpc] at hge; simp [Pc.leadSteps] at hge
      | unlock m up =>
        cases up with
        | swap => rw [hpc] at hge; simp [Pc.leadSteps] at hge
        | wake c => rw [hpc] at hL2; simp [Pc.holdsBatch] at hL2
        | mux => rw [hpc] at hL2; simp [Pc.holdsBatch] at hL2
        | ret => rw [hpc] at hL2; simp [Pc.holdsBatch] at hL2
        | fatal => rw [hpc] at hL2; simp [Pc.holdsBatch] at hL2
      | start => rw [hpc] at hL2; simp [Pc.holdsBatch] at hL2
      | lock lp => rw [hpc] at hL2; simp [Pc.holdsBatch] at hL2
      | follower p => rw [hpc] at hL2; simp [Pc.holdsBatch] at hL2
      | ret m => rw [hpc] at hL2; simp [Pc.holdsBatch] at hL2
      | done e => rw [hpc] at hL2; simp [Pc.holdsBatch] at hL2
    · rw [hL2] at hge; simp [Pc.leadSteps] at hge
    · obtain ⟨r1, hr1, hr2⟩ := h2.recd L hLc
      rw [hres] at hr1
      simp only [Option.some.injEq] at hr1
      subst hr1
      rw [h2.fnc L] at hr2
      refine ⟨⟨r, hres, hr2, hcd⟩, ?_⟩
      intro hnd
      rcases hT2 with hT2 | hT2 | hT2 | hT2
      · apply Option.isSome_iff_exists.mp
        unfold step
        simp only [hT2, lock.LockStep, hcd, Option.isSome_some]
      · apply Option.isSome_iff_exists.mp
        unfold step
        simp only [hT2, lock.LockStep, hcd, Option.isSome_some]
      · exact ⟨_, step_follower w2 T r _ hT2 hr2⟩
      · exact absurd hT2 (hnd _)
  · exact leader_enabled fns w2 L h2 hlate
  · intro h2T
    rw [← hf] at h2T
    obtain ⟨_, hst⟩ := hh2
    rcases hst with ⟨_, _, hT2⟩ | ⟨_, _, hT2⟩ | ⟨_, hT2⟩ |
      ⟨_, r, hres, _, hT2 | hT2 | hT2 | hT2⟩
    · rw [hT2] at h2T; simp [Pc.follSteps] at h2T
    · rw [hT2] at h2T; simp [Pc.follSteps] at h2T
    · rw [hT2] at h2T; simp [Pc.follSteps] at h2T
    · rw [hT2] at h2T; simp [Pc.follSteps] at h2T
    · rw [hT2] at h2T; simp [Pc.follSteps] at h2T
    · exact ⟨r, hT2, hres⟩
    · rw [hT2] at h2T; simp [Pc.follSteps] at h2T
  · constructor
    · intro h5
      rw [← hl] at h5
      cases hpc : (w2.threads L).pc with
      | done e => rw [hdoneL e hpc]
      | work => rw [hpc] at h5; simp [Pc.leadSteps] at h5
      | unlock m up =>
        cases up <;> (rw [hpc] at h5; simp [Pc.leadSteps] at h5)
      | start => rw [hpc] at h5; simp [Pc.leadSteps] at h5
      | lock lp => rw [hpc] at h5; simp [Pc.leadSteps] at h5
      | follower p => rw [hpc] at h5; simp [Pc.leadSteps] at h5
      | ret m => rw [hpc] at h5; simp [Pc.leadSteps] at h5
    · intro hd
      rw [← hl, hd]
      rfl
  · constructor
    · intro h3
      rw [← hf] at h3
      cases hpc : (w2.threads T).pc with
      | done e => rw [hdoneT e hpc]
      | lock lp =>
        cases lp <;> (rw [hpc] at h3; simp [Pc.follSteps] at h3)
      | work => rw [hpc] at h3; simp [Pc.follSteps] at h3
      | unlock m up => rw [hpc] at h3; simp [Pc.follSteps] at h3
      | start => rw [hpc] at h3; simp [Pc.follSteps] at h3
      | follower p => rw [hpc] at h3; simp [Pc.follSteps] at h3
      | ret m => rw [hpc] at h3; simp [Pc.follSteps] at h3
    · intro hd
      rw [← hf, hd]
      rfl
  · intro e he
    rcases he with he | he
    · exact hdoneL e he
    · exact hdoneT e he

/-! ## Batching: followers, and arrivals after the counter reset -/

/-- An arrival after the leader has reset the arrival counter leads the next batch (the
window the specification accepts).  Two callers of `Do` for one key.  After the schedule
`[0,0,0,0,0]` caller 0 is the elected leader (its `Lock` has returned nil, it is about to
call `f1` and holds the mutex) and caller 1 has not invoked `Do`.  Caller 1 then invokes
`Do`: its increment of `this.nr`, which the leader has reset to 0, returns 1, so it goes
for `this.mux.Lock()` and waits there while the leader still holds the lock.  When the
leader has released the lock, caller 1 becomes the leader of the next batch: it calls its
own work function `f2` and returns `("v2", nil)`, not the `("v1", nil)` of `f1`. -/
theorem late_arrival_leads_next_batch :
    (run (World.init twoCallers) [0, 0, 0, 0, 0]).map
        (fun w => ((w.threads 0).pc, (w.threads 1).pc, w.mem.ll.mux, w.mem.ll.nr))
      = some (.work, .start, true, 0)
    ∧ (run (World.init twoCallers) [0, 0, 0, 0, 0, 1, 1]).map
        (fun w => ((w.threads 0).pc, (w.threads 1).pc, w.mem.ll.mux, w.mem.ll.nr))
      = some (.work, .lock .mux, true, 1)
    ∧ (run (World.init twoCallers)
        [0, 0, 0, 0, 0, 1, 1, 0, 0, 0, 0, 0, 1, 1, 1, 1, 1, 1, 1, 1]).map
        (fun w => ((w.threads 0).pc, (w.threads 1).pc, (w.threads 1).called))
      = some (.done (.returned (some "v1") none), .done (.returned (some "v2") none),
          true) := by
  refine ⟨?_, ?_, ?_⟩ <;> decide

/-- What holds of every follower.  In any world the callers of one key can get into, let
caller `T` have just incremented `this.nr` to a value above 1 (it joins a batch as a follower and is
about to load the batch token).  Then, whatever the interleaving that follows, `T` never
calls its own work function `f2`; whenever its call has ended, it has ended by the final
check of `Do` on the record of a leader `L` other than `T` that has called its work
function, so it has returned `(v, err)` if the work of `L` returned `(v, err)` with an
ordinary `err`; as long as its call has not ended, `T` can take a step unless it is
inside `cond.wait()` on a token that has not been woken; and if on the way `T` was inside
`cond.wait()` on the token of `this.cond` while a leader `L` held the mutex and had not
yet swapped that token into `this.batch`, the record is that of `L`. -/
theorem follower_is_coalesced (fns : Nat → FnExit V (GoError E P) P)
    (w w1 : World V E P) (T : Nat) (sched : List Nat)
    (hreach : Reachable fns w) (hT : (w.threads T).pc = .lock .loadCond)
    (hrun : run w sched = some w1) :
    (w1.threads T).called = false
    ∧ (∀ e, (w1.threads T).pc = .done e →
        ∃ L : Nat, L ≠ T ∧ (w1.threads L).called = true ∧
          e = exitOf (recordOf (fns L)) .normal ∧
          ∀ v err, fns L = .ret v err → ordinary err = true → e = .returned v err)
    ∧ ((∀ e, (w1.threads T).pc ≠ .done e) →
        (∀ c, (w1.threads T).pc = .lock (.wait c) →
          ∃ p, w1.mem.conds[c]? = some (lock.cond.mk (some p))) →
        ∃ w2 : World V E P, step w1 T = some w2)
    ∧ (∀ (wm : World V E P) (s1 s2 : List Nat) (L : Nat),
        run w s1 = some wm → run wm s2 = some w1 →
        ((wm.threads L).pc = .lock .storeNr ∨ (wm.threads L).pc = .lock .swap) →
        (wm.threads T).pc = .lock (.wait wm.mem.ll.cond) →
        ∀ e, (w1.threads T).pc = .done e →
          e = exitOf (recordOf (fns L)) .normal ∧
          ∀ v err, fns L = .ret v err → ordinary err = true → e = .returned v err) := by
  have h := inv_of_reachable fns w hreach
  have h1 : Inv fns w1 := inv_run fns sched w w1 h hrun
  have hT0 : (w.threads T).pc.follPath = true ∧ (w.threads T).called = false :=
    ⟨by rw [hT]; rfl, h.early T (by rw [hT]; rfl)⟩
  obtain ⟨hpath, hcalled⟩ := follPath_run fns T sched w w1 h hrun hT0
  refine ⟨hcalled, ?_, ?_, ?_⟩
  · intro e he
    obtain ⟨L, hL1, hL2⟩ := h1.doneF T e he hcalled
    have hne : L ≠ T := by
      intro heq; rw [heq, hcalled] at hL1; exact absurd hL1 (by simp)
    rw [h1.fnc L] at hL2
    refine ⟨L, hne, hL1, hL2, ?_⟩
    intro v err hfn hord
    rw [hL2, hfn]
    exact exitOf_ordinary v err hord .normal rfl
  · intro hnd hwait
    cases hpc : (w1.threads T).pc with
    | done e => exact absurd hpc (hnd e)
    | follower p =>
      obtain ⟨L, hL1, hL2⟩ := h1.foll T p hpc
      obtain ⟨r, hr1, hr2⟩ := h1.recd L hL1
      rw [hL2] at hr1
      simp only [Option.some.injEq] at hr1
      subst hr1
      exact ⟨_, step_follower w1 T p _ hpc hr2⟩
    | lock lp =>
      cases lp with
      | loadCond =>
        apply Option.isSome_iff_exists.mp
        unfold step
        simp only [hpc, lock.LockStep, Option.isSome_some]
      | wait c =>
        obtain ⟨p, hp⟩ := hwait c hpc
        apply Option.isSome_iff_exists.mp
        unfold step
        simp only [hpc, lock.LockStep, hp, Option.isSome_some]
      | read c =>
        obtain ⟨p, hp⟩ := h1.woken T c hpc
        apply Option.isSome_iff_exists.mp
        unfold step
        simp only [hpc, lock.LockStep, hp, Option.isSome_some]
      | add => rw [hpc] at hpath; simp [Pc.follPath] at hpath
      | mux => rw [hpc] at hpath; simp [Pc.follPath] at hpath
      | storeNr => rw [hpc] at hpath; simp [Pc.follPath] at hpath
      | swap => rw [hpc] at hpath; simp [Pc.follPath] at hpath
      | ret u => rw [hpc] at hpath; simp [Pc.follPath] at hpath
    | start => rw [hpc] at hpath; simp [Pc.follPath] at hpath
    | work => rw [hpc] at hpath; simp [Pc.follPath] at hpath
    | unlock m up => rw [hpc] at hpath; simp [Pc.follPath] at hpath
    | ret m => rw [hpc] at hpath; simp [Pc.follPath] at hpath
  · intro wm s1 s2 L hr1 hr2 hL hTw e he
    have hrm : Reachable fns wm := reachable_run fns w wm s1 hreach hr1
    have hm : Inv fns wm := inv_of_reachable fns wm hrm
    have hh : Handoff wm L T wm.mem.ll.cond :=
      ⟨hm.early T (by rw [hTw]; rfl), Or.inl ⟨hL, rfl, hTw⟩⟩
    have hh1 := (handoff_run fns L T wm.mem.ll.cond s2 wm w1 hm
      (tokens_of_reachable fns wm hrm) hr2).2 hh
    have he := handoff_done fns w1 L T wm.mem.ll.cond h1 hh1 e he
    refine ⟨he, ?_⟩
    intro v err hfn hord
    rw [he, hfn]
    exact exitOf_ordinary v err hord .normal rfl

/-- An instance of `follower_is_coalesced`: caller 1 increments `this.nr` right after
caller 0, before caller 0 resets it, loads the batch token and waits on it before the
leader swaps it, and is woken by the leader's `Unlock`: it does not call `f2` and returns
the `("v1", nil)` of `f1`. -/
theorem follower_is_coalesced_example :
    Reachable twoCallers (World.after twoCallers [0, 0, 1, 1])
    ∧ ((World.after twoCallers [0, 0, 1, 1]).threads 1).pc = .lock .loadCond
    ∧ run (World.after twoCallers [0, 0, 1, 1]) [1, 0, 0, 0, 0, 0, 0, 0, 0, 1, 1, 1]
        = some (World.after twoCallers [0, 0, 1, 1, 1, 0, 0, 0, 0, 0, 0, 0, 0, 1, 1, 1])
    ∧ ((World.after twoCallers
        [0, 0, 1, 1, 1, 0, 0, 0, 0, 0, 0, 0, 0, 1, 1, 1]).threads 1).called = false
    ∧ ((World.after twoCallers
        [0, 0, 1, 1, 1, 0, 0, 0, 0, 0, 0, 0, 0, 1, 1, 1]).threads 1).pc
        = .done (.returned (some "v1") none)
    ∧ (.returned (some "v1") none : DoExit String String String)
        = exitOf (recordOf (twoCallers 0)) .normal := by
  have hr : Reachable twoCallers (World.after twoCallers [0, 0, 1, 1]) :=
    reachable_after twoCallers _ (by decide)
  have h1 : run (World.after twoCallers [0, 0, 1, 1]) [1, 0, 0, 0, 0, 0, 0, 0, 0, 1, 1, 1]
      = some (World.after twoCallers [0, 0, 1, 1, 1, 0, 0, 0, 0, 0, 0, 0, 0, 1, 1, 1]) :=
    run_after twoCallers [0, 0, 1, 1] [1, 0, 0, 0, 0, 0, 0, 0, 0, 1, 1, 1] (by decide)
  have ha : run (World.after twoCallers [0, 0, 1, 1]) [1, 0]
      = some (World.after twoCallers [0, 0, 1, 1, 1, 0]) :=
    run_after twoCallers [0, 0, 1, 1] [1, 0] (by decide)
  have hb : run (World.after twoCallers [0, 0, 1, 1, 1, 0]) [0, 0, 0, 0, 0, 0, 0, 1, 1, 1]
      = some (World.after twoCallers [0, 0, 1, 1, 1, 0, 0, 0, 0, 0, 0, 0, 0, 1, 1, 1]) :=
    run_after twoCallers [0, 0, 1, 1, 1, 0] [0, 0, 0, 0, 0, 0, 0, 1, 1, 1] (by decide)
  have hdone : ((World.after twoCallers
      [0, 0, 1, 1, 1, 0, 0, 0, 0, 0, 0, 0, 0, 1, 1, 1]).threads 1).pc
      = .done (.returned (some "v1") none) := by decide
  have key := follower_is_coalesced twoCallers _ _ 1 _ hr (by decide) h1
  exact ⟨hr, by decide, h1, key.1, hdone,
    (key.2.2.2 _ [1, 0] [0, 0, 0, 0, 0, 0, 0, 1, 1, 1] 0 ha hb (Or.inl (by decide))
      (by decide) _ hdone).1⟩
/-! ## The claims on `SimpleSingleFlight.Do` -/

/-- C9 fails on the code: a wake-up is lost.  Two callers of `Do` for one key, every step
traced on `simple.go` and `leadlock.go`.

* After the schedule `[0, 0]` caller 0 has invoked `Do(key, f1)` and its
  `atomic.AddInt32(&this.nr, 1)` has returned 1: it is the elected leader of the batch and
  goes for `this.mux.Lock()`.
* Caller 1 then invokes `Do(key, f2)`; its increment returns 2, so it is a follower, about
  to execute `atomic.LoadPointer(ptr)` (leadlock.go line 54).
* Before it does, the leader takes the mutex, resets `this.nr` and swaps a new token into
  `this.cond` (line 60), keeping the old token 0 in `this.batch`.  Caller 1 now loads
  the new token 1 and enters `cond.wait()` on it.
* The leader calls `f1`, wakes token 0 in `Unlock`, frees the mutex and returns
  `("v1", nil)`.  Token 1 has not been woken and nobody is left to wake it: neither
  caller can take a step, and caller 1, which has not executed `f2`, never returns the
  value of `f1`.
* With a third caller arriving later (work function `f3`), that caller leads the next
  batch, its `Unlock` wakes token 1, and caller 1 returns `("v3", nil)`, the value of `f3`
  and not the `("v1", nil)` of `f1`. -/
theorem C9_follower_stranded :
    (run (World.init twoCallers) [0, 0]).map
        (fun w => ((w.threads 0).pc, (w.threads 1).pc, w.mem.ll.nr))
      = some (.lock .mux, .start, 1)
    ∧ (run (World.init twoCallers) [0, 0, 1, 1]).map
        (fun w => ((w.threads 0).pc, (w.threads 1).pc, w.mem.ll.nr))
      = some (.lock .mux, .lock .loadCond, 2)
    ∧ (run (World.init twoCallers) [0, 0, 1, 1, 0, 0, 0, 1]).map
        (fun w => ((w.threads 0).pc, (w.threads 1).pc, w.mem.ll.batch, w.mem.ll.cond))
      = some (.work, .lock (.wait 1), some 0, 1)
    ∧ (run (World.init twoCallers) [0, 0, 1, 1, 0, 0, 0, 1, 0, 0, 0, 0, 0]).map
        (fun w => ((w.threads 0).pc, (w.threads 1).pc, (w.threads 1).called))
      = some (.done (.returned (some "v1") none), .lock (.wait 1), false)
    ∧ (run (World.init twoCallers) [0, 0, 1, 1, 0, 0, 0, 1, 0, 0, 0, 0, 0]).map
        (fun w => (w.mem.conds, w.mem.ll.mux, (step w 0).isSome, (step w 1).isSome))
      = some ([⟨some 0⟩, ⟨none⟩], false, false, false)
    ∧ (run (World.init threeCallers)
        [0, 0, 1, 1, 0, 0, 0, 1, 0, 0, 0, 0, 0, 2, 2, 2, 2, 2, 2, 2, 2, 2, 2, 1, 1, 1]).map
        (fun w => ((w.threads 0).pc, (w.threads 1).pc, (w.threads 2).pc,
          (w.threads 1).called))
      = some (.done (.returned (some "v1") none), .done (.returned (some "v3") none),
          .done (.returned (some "v3") none), false) := by
  refine ⟨?_, ?_, ?_, ?_, ?_, ?_⟩ <;> decide

/-- C10 (ordinary results in `SimpleSingleFlight.Do`).  In any world the callers of one
key can get into, let the work function of caller `L` return `(v, err)` with `err`
ordinary (nil or an application-level error).

* If `L` is a leader about to call its work function and is scheduled five times in a
  row, it ends with `return (v, err)`; its `Unlock` has stored the address of its record
  in the batch token that was in `this.batch`, the record holds `(v, err)`, and the mutex
  is free again.
* Under any interleaving: once `L` has called its work function, its `res` points to a
  record holding `(v, err)` (this is the argument of its `Unlock`), its next step is
  never blocked, and if its call has ended it has returned exactly `(v, err)`.
* Every caller `T` whose `Lock` returned that record has not called its own work
  function, and its next step ends its call with `return (v, err)`, still without a call
  of its work function.
* If `L` is a leader about to call its work function with the token `b` in `this.batch`
  and `T` is a follower inside `cond.wait()` on `b`, then under every interleaving that
  follows (of `L`, `T` and any other callers): `T` never calls its work function; `T` is
  blocked inside `wait()` as long as `L` has taken fewer than three steps; once `L` has
  taken three, the token holds the address of the record `(v, err)` and `T` is not
  blocked until its call has ended; `L` is not blocked until its call has ended; after
  two steps of `T` its `Lock` has returned the address of that record; `L` has ended
  exactly when it has taken five steps and `T` exactly when it has taken three, both
  with `return (v, err)`. -/
theorem C10_ordinary_results (fns : Nat → FnExit V (GoError E P) P) (w : World V E P)
    (L : Nat) (v : Option V) (err : Option (GoError E P))
    (hreach : Reachable fns w) (hfn : fns L = .ret v err) (hord : ordinary err = true) :
    ((w.threads L).pc = .work →
      ∃ (b : Nat) (w1 : World V E P), w.mem.ll.batch = some b ∧
        run w [L, L, L, L, L] = some w1 ∧
        (w1.threads L).pc = .done (.returned v err) ∧
        (w1.threads L).called = true ∧
        (w1.threads L).res = some w.results.length ∧
        w1.results[w.results.length]? = some ⟨v, err⟩ ∧
        w1.mem.conds[b]? = some ⟨some w.results.length⟩ ∧
        w1.mem.ll.mux = false)
    ∧ ((w.threads L).called = true →
      ∃ r : Nat, (w.threads L).res = some r ∧ w.results[r]? = some ⟨v, err⟩ ∧
        (∀ e, (w.threads L).pc = .done e → e = .returned v err) ∧
        ((∀ e, (w.threads L).pc ≠ .done e) → ∃ w1, step w L = some w1) ∧
        ∀ T : Nat, (w.threads T).pc = .follower r →
          (w.threads T).called = false ∧
          ∃ w1 : World V E P, step w T = some w1 ∧
            (w1.threads T).pc = .done (.returned v err) ∧
            (w1.threads T).called = false)
    ∧ (∀ (T b : Nat) (sched : List Nat) (w2 : World V E P),
        (w.threads L).pc = .work → w.mem.ll.batch = some b →
        (w.threads T).pc = .lock (.wait b) → run w sched = some w2 →
        (w2.threads T).called = false
        ∧ (sched.count L < 3 → (w2.threads T).pc = .lock (.wait b) ∧ step w2 T = none)
        ∧ (3 ≤ sched.count L →
            (∃ p, (w2.threads L).res = some p ∧
              w2.results[p]? = some ⟨v, err⟩ ∧
              w2.mem.conds[b]? = some ⟨some p⟩) ∧
            ((∀ e, (w2.threads T).pc ≠ .done e) → ∃ w3, step w2 T = some w3))
        ∧ ((∀ e, (w2.threads L).pc ≠ .done e) → ∃ w3, step w2 L = some w3)
        ∧ (sched.count T = 2 →
            ∃ p, (w2.threads T).pc = .follower p ∧ (w2.threads L).res = some p)
        ∧ (sched.count L = 5 ↔ (w2.threads L).pc = .done (.returned v err))
        ∧ (sched.count T = 3 ↔ (w2.threads T).pc = .done (.returned v err))
        ∧ (∀ e, (w2.threads L).pc = .done e ∨ (w2.threads T).pc = .done e →
            e = (.returned v err))) := by
  have h := inv_of_reachable fns w hreach
  have hrec : recordOf (fns L) = (⟨v, err⟩ : result V E P) := by rw [hfn]; rfl
  have hmode : modeOf (fns L) = .normal := by rw [hfn]; rfl
  refine ⟨?_, ?_, ?_⟩
  · intro hpc
    obtain ⟨b, w1, hb, hrun, hth, hres, hcond, hmux, _⟩ := leader_solo fns w L h hpc
    refine ⟨b, w1, hb, hrun, ?_, ?_, ?_, ?_, hcond, hmux⟩
    · rw [hth, hrec, hmode]
      simp only
      rw [exitOf_ordinary v err hord .normal rfl]
    · rw [hth]
    · rw [hth]
    · rw [hres, hrec]
      exact List.getElem?_concat_length _ _
  · intro hcalled
    obtain ⟨r, hr1, hr2⟩ := h.recd L hcalled
    rw [h.fnc L, hrec] at hr2
    refine ⟨r, hr1, hr2, ?_, ?_, ?_⟩
    · intro e he
      rw [h.doneL L e he hcalled, h.fnc L, hrec, hmode]
      exact exitOf_ordinary v err hord .normal rfl
    · intro hnd
      cases hpc : (w.threads L).pc with
      | done e => exact absurd hpc (hnd e)
      | ret m => exact ⟨_, step_ret w L r m _ hpc hr1 hr2⟩
      | unlock m up =>
        cases up with
        | swap =>
          obtain ⟨b, hb⟩ := h.batch L (by rw [hpc]; rfl)
          exact ⟨_, step_unlock_swap w L b m hpc hb⟩
        | wake b =>
          have hbv := h.wakev L m b hpc
          exact ⟨_, step_unlock_wake w L b m _ hpc (List.getElem?_eq_getElem hbv)⟩
        | mux => exact ⟨_, step_unlock_mux w L m hpc (h.held L (by rw [hpc]; rfl))⟩
        | ret => exact absurd hpc (h.inUnlock L m).1
        | fatal => exact absurd hpc (h.inUnlock L m).2
      | start =>
        have := h.early L (by rw [hpc]; rfl)
        rw [hcalled] at this; exact absurd this (by simp)
      | lock lp =>
        have := h.early L (by rw [hpc]; rfl)
        rw [hcalled] at this; exact absurd this (by simp)
      | follower p =>
        have := h.early L (by rw [hpc]; rfl)
        rw [hcalled] at this; exact absurd this (by simp)
      | work =>
        have := h.early L (by rw [hpc]; rfl)
        rw [hcalled] at this; exact absurd this (by simp)
    · intro T hT
      have hTc : (w.threads T).called = false := h.early T (by rw [hT]; rfl)
      refine ⟨hTc, _, step_follower w T r _ hT hr2, ?_, ?_⟩
      · rw [setThread_same]
        simp only
        rw [exitOf_ordinary v err hord .normal rfl]
      · rw [setThread_same]
        exact hTc
  · intro T b sched w2 hL hb hT hrun
    have hx1 : exitOf (recordOf (fns L)) (modeOf (fns L))
        = (.returned v err : DoExit V E P) := by
      rw [hrec, hmode]
      exact exitOf_ordinary v err hord .normal rfl
    have hx2 : exitOf (recordOf (fns L)) .normal = (.returned v err : DoExit V E P) := by
      rw [hrec]
      exact exitOf_ordinary v err hord .normal rfl
    have key := batch_delivery fns w w2 L T b (.returned v err) sched h
      (tokens_of_reachable fns w hreach) hx1 hx2 hL hb hT hrun
    rw [hrec] at key
    exact key

/-- Witness of `C10_ordinary_results` on two callers: caller 0 is the
elected leader, about to call its work function, and caller 1 is inside `cond.wait()` on
the batch token.  While the leader has taken two steps caller 1 is blocked; after the
schedule `[0, 0, 0, 1, 0, 1, 0, 1]`, in which the two interleave, both have ended the same
way and caller 1 has not called its work function. -/
theorem C10_ordinary_results_witness :
    Reachable twoCallers (World.after twoCallers [0, 0, 1, 1, 1, 0, 0, 0])
    ∧ twoCallers 0 = .ret (some "v1") none
    ∧ ((World.after twoCallers [0, 0, 1, 1, 1, 0, 0, 0]).threads 0).pc = .work
    ∧ (World.after twoCallers [0, 0, 1, 1, 1, 0, 0, 0]).mem.ll.batch = some 0
    ∧ ((World.after twoCallers [0, 0, 1, 1, 1, 0, 0, 0]).threads 1).pc = .lock (.wait 0)
    ∧ run (World.after twoCallers [0, 0, 1, 1, 1, 0, 0, 0]) [0, 0, 0, 1, 0, 1, 0, 1]
        = some (World.after twoCallers [0, 0, 1, 1, 1, 0, 0, 0, 0, 0, 0, 1, 0, 1, 0, 1])
    ∧ step (World.after twoCallers [0, 0, 1, 1, 1, 0, 0, 0, 0, 0]) 1 = none
    ∧ ((World.after twoCallers [0, 0, 1, 1, 1, 0, 0, 0, 0, 0, 0, 1, 0, 1, 0, 1]).threads 0).pc
        = .done (.returned (some "v1") none)
    ∧ ((World.after twoCallers [0, 0, 1, 1, 1, 0, 0, 0, 0, 0, 0, 1, 0, 1, 0, 1]).threads 1).pc
        = .done (.returned (some "v1") none)
    ∧ ((World.after twoCallers [0, 0, 1, 1, 1, 0, 0, 0, 0, 0, 0, 1, 0, 1, 0, 1]).threads 1).called
        = false := by
  have hr : Reachable twoCallers (World.after twoCallers [0, 0, 1, 1, 1, 0, 0, 0]) :=
    reachable_after twoCallers _ (by decide)
  have h1 : run (World.after twoCallers [0, 0, 1, 1, 1, 0, 0, 0]) [0, 0, 0, 1, 0, 1, 0, 1]
      = some (World.after twoCallers [0, 0, 1, 1, 1, 0, 0, 0, 0, 0, 0, 1, 0, 1, 0, 1]) :=
    run_after twoCallers [0, 0, 1, 1, 1, 0, 0, 0] [0, 0, 0, 1, 0, 1, 0, 1] (by decide)
  have h2 : run (World.after twoCallers [0, 0, 1, 1, 1, 0, 0, 0]) [0, 0]
      = some (World.after twoCallers [0, 0, 1, 1, 1, 0, 0, 0, 0, 0]) :=
    run_after twoCallers [0, 0, 1, 1, 1, 0, 0, 0] [0, 0] (by decide)
  obtain ⟨k1, _, _, _, _, k6, k7, _⟩ :=
    (C10_ordinary_results twoCallers (World.after twoCallers [0, 0, 1, 1, 1, 0, 0, 0]) 0
      (some "v1") none hr rfl rfl).2.2 1 0 _ _
      (by decide) (by decide) (by decide) h1
  obtain ⟨_, j2, _⟩ :=
    (C10_ordinary_results twoCallers (World.after twoCallers [0, 0, 1, 1, 1, 0, 0, 0]) 0
      (some "v1") none hr rfl rfl).2.2 1 0 _ _
      (by decide) (by decide) (by decide) h2
  exact ⟨hr, rfl, by decide, by decide, by decide, h1, (j2 (by decide)).2,
    k6.mp (by decide), k7.mp (by decide), k1⟩

/-- C11 (panic fan-out in `SimpleSingleFlight.Do`).  In any world the callers of one key
can get into, let the work function of caller `L` panic with the value `r` (not nil).

* If `L` is a leader about to call its work function and is scheduled five times in a
  row, it stores `newPanicError(r)` in its record, its one `Unlock` wakes the token that
  was in `this.batch` with the address of that record and frees the mutex, and `L` then
  ends by panicking with that `*panicError`; it takes no further step.
* Under any interleaving: once `L` has called its work function, its `res` points to
  the record `(nil, newPanicError(r))`, its next step is never blocked, and if its call
  has ended it has panicked with the `*panicError` of `r`.
* Every caller `T` whose `Lock` returned that record has not called its own work
  function, and its next step ends its call by the same panic.
* If `L` is a leader about to call its work function with the token `b` in `this.batch`
  and `T` is a follower inside `cond.wait()` on `b`, then under every interleaving that
  follows (of `L`, `T` and any other callers): `T` never calls its work function; `T` is
  blocked inside `wait()` as long as `L` has taken fewer than three steps; once `L` has
  taken three, the token holds the address of the record `(nil, newPanicError(r))` and
  `T` is not blocked until its call has ended; `L` is not blocked until its call has
  ended; after two steps of `T` its `Lock` has returned the address of that record; `L`
  has ended exactly when it has taken five steps and `T` exactly when it has taken
  three, both by panicking with the `*panicError` of `r`: neither returns a value. -/
theorem C11_panic_fan_out (fns : Nat → FnExit V (GoError E P) P) (w : World V E P)
    (L : Nat) (r : P) (hreach : Reachable fns w) (hfn : fns L = .panic r) :
    ((w.threads L).pc = .work →
      ∃ (b : Nat) (w1 : World V E P), w.mem.ll.batch = some b ∧
        run w [L, L, L, L, L] = some w1 ∧
        (w1.threads L).pc = .done (.panicked r) ∧
        (w1.threads L).called = true ∧
        w1.results[w.results.length]? = some ⟨none, some (newPanicError r)⟩ ∧
        w1.mem.conds[b]? = some ⟨some w.results.length⟩ ∧
        w1.mem.ll.mux = false ∧ w1.mem.ll.batch = none ∧
        step w1 L = none)
    ∧ ((w.threads L).called = true →
      ∃ p : Nat, (w.threads L).res = some p ∧
        w.results[p]? = some ⟨none, some (newPanicError r)⟩ ∧
        (∀ e, (w.threads L).pc = .done e → e = .panicked r) ∧
        ((∀ e, (w.threads L).pc ≠ .done e) → ∃ w1, step w L = some w1) ∧
        ∀ T : Nat, (w.threads T).pc = .follower p →
          (w.threads T).called = false ∧
          ∃ w1 : World V E P, step w T = some w1 ∧
            (w1.threads T).pc = .done (.panicked r) ∧
            (w1.threads T).called = false)
    ∧ (∀ (T b : Nat) (sched : List Nat) (w2 : World V E P),
        (w.threads L).pc = .work → w.mem.ll.batch = some b →
        (w.threads T).pc = .lock (.wait b) → run w sched = some w2 →
        (w2.threads T).called = false
        ∧ (sched.count L < 3 → (w2.threads T).pc = .lock (.wait b) ∧ step w2 T = none)
        ∧ (3 ≤ sched.count L →
            (∃ p, (w2.threads L).res = some p ∧
              w2.results[p]? = some ⟨none, some (newPanicError r)⟩ ∧
              w2.mem.conds[b]? = some ⟨some p⟩) ∧
            ((∀ e, (w2.threads T).pc ≠ .done e) → ∃ w3, step w2 T = some w3))
        ∧ ((∀ e, (w2.threads L).pc ≠ .done e) → ∃ w3, step w2 L = some w3)
        ∧ (sched.count T = 2 →
            ∃ p, (w2.threads T).pc = .follower p ∧ (w2.threads L).res = some p)
        ∧ (sched.count L = 5 ↔ (w2.threads L).pc = .done (.panicked r))
        ∧ (sched.count T = 3 ↔ (w2.threads T).pc = .done (.panicked r))
        ∧ (∀ e, (w2.threads L).pc = .done e ∨ (w2.threads T).pc = .done e →
            e = (.panicked r))) := by
  have h := inv_of_reachable fns w hreach
  have hrec : recordOf (fns L) = (⟨none, some (newPanicError r)⟩ : result V E P) := by
    rw [hfn]; rfl
  have hx : ∀ m, exitOf (recordOf (fns L)) m = (.panicked r : DoExit V E P) := by
    intro m; rw [hrec]; rfl
  have key := abnormal_fan_out fns w L (.panicked r) h hx
  rw [hrec] at key
  refine ⟨key.1, key.2.1, ?_⟩
  intro T b sched w2 hL hb hT hrun
  have key2 := batch_delivery fns w w2 L T b (.panicked r) sched h
    (tokens_of_reachable fns w hreach) (hx _) (hx _) hL hb hT hrun
  rw [hrec] at key2
  exact key2

/-- Witness of `C11_panic_fan_out` on the callers of `TestPanicDo`: caller 0 is the
elected leader, about to call its work function, and caller 1 is inside `cond.wait()` on
the batch token.  While the leader has taken two steps caller 1 is blocked; after the
schedule `[0, 0, 0, 1, 0, 1, 0, 1]`, in which the two interleave, both have ended the same
way and caller 1 has not called its work function. -/
theorem C11_panic_fan_out_witness :
    Reachable panicCallers (World.after panicCallers [0, 0, 1, 1, 1, 0, 0, 0])
    ∧ panicCallers 0 = .panic "invalid memory address or nil pointer dereference"
    ∧ ((World.after panicCallers [0, 0, 1, 1, 1, 0, 0, 0]).threads 0).pc = .work
    ∧ (World.after panicCallers [0, 0, 1, 1, 1, 0, 0, 0]).mem.ll.batch = some 0
    ∧ ((World.after panicCallers [0, 0, 1, 1, 1, 0, 0, 0]).threads 1).pc = .lock (.wait 0)
    ∧ run (World.after panicCallers [0, 0, 1, 1, 1, 0, 0, 0]) [0, 0, 0, 1, 0, 1, 0, 1]
        = some (World.after panicCallers [0, 0, 1, 1, 1, 0, 0, 0, 0, 0, 0, 1, 0, 1, 0, 1])
    ∧ step (World.after panicCallers [0, 0, 1, 1, 1, 0, 0, 0, 0, 0]) 1 = none
    ∧ ((World.after panicCallers [0, 0, 1, 1, 1, 0, 0, 0, 0, 0, 0, 1, 0, 1, 0, 1]).threads 0).pc
        = .done (.panicked "invalid memory address or nil pointer dereference")
    ∧ ((World.after panicCallers [0, 0, 1, 1, 1, 0, 0, 0, 0, 0, 0, 1, 0, 1, 0, 1]).threads 1).pc
        = .done (.panicked "invalid memory address or nil pointer dereference")
    ∧ ((World.after panicCallers
        [0, 0, 1, 1, 1, 0, 0, 0, 0, 0, 0, 1, 0, 1, 0, 1]).threads 1).called = false := by
  have hr : Reachable panicCallers (World.after panicCallers [0, 0, 1, 1, 1, 0, 0, 0]) :=
    reachable_after panicCallers _ (by decide)
  have h1 : run (World.after panicCallers [0, 0, 1, 1, 1, 0, 0, 0]) [0, 0, 0, 1, 0, 1, 0, 1]
      = some (World.after panicCallers [0, 0, 1, 1, 1, 0, 0, 0, 0, 0, 0, 1, 0, 1, 0, 1]) :=
    run_after panicCallers [0, 0, 1, 1, 1, 0, 0, 0] [0, 0, 0, 1, 0, 1, 0, 1] (by decide)
  have h2 : run (World.after panicCallers [0, 0, 1, 1, 1, 0, 0, 0]) [0, 0]
      = some (World.after panicCallers [0, 0, 1, 1, 1, 0, 0, 0, 0, 0]) :=
    run_after panicCallers [0, 0, 1, 1, 1, 0, 0, 0] [0, 0] (by decide)
  obtain ⟨k1, _, _, _, _, k6, k7, _⟩ :=
    (C11_panic_fan_out panicCallers (World.after panicCallers [0, 0, 1, 1, 1, 0, 0, 0]) 0
      "invalid memory address or nil pointer dereference" hr rfl).2.2 1 0 _ _
      (by decide) (by decide) (by decide) h1
  obtain ⟨_, j2, _⟩ :=
    (C11_panic_fan_out panicCallers (World.after panicCallers [0, 0, 1, 1, 1, 0, 0, 0]) 0
      "invalid memory address or nil pointer dereference" hr rfl).2.2 1 0 _ _
      (by decide) (by decide) (by decide) h2
  exact ⟨hr, rfl, by decide, by decide, by decide, h1, (j2 (by decide)).2,
    k6.mp (by decide), k7.mp (by decide), k1⟩

/-- C12 (cooperative abrupt exit in `SimpleSingleFlight.Do`).  In any world the callers
of one key can get into, let the work function of caller `L` call `runtime.Goexit()`.

* If `L` is a leader about to call its work function and is scheduled five times in a
  row, it stores a nil value with the `errGoexit` marker in its record, its one `Unlock`
  wakes the token that was in `this.batch` with the address of that record and frees the
  mutex, and `L` then ends by `runtime.Goexit`; it takes no further step.
* Under any interleaving: once `L` has called its work function, its `res` points to
  the record `(nil, errGoexit)`, its next step is never blocked, and if its call has
  ended it has ended by `runtime.Goexit`.
* Every caller `T` whose `Lock` returned that record has not called its own work
  function, and its next step ends its call by `runtime.Goexit`.
* If `L` is a leader about to call its work function with the token `b` in `this.batch`
  and `T` is a follower inside `cond.wait()` on `b`, then under every interleaving that
  follows (of `L`, `T` and any other callers): `T` never calls its work function; `T` is
  blocked inside `wait()` as long as `L` has taken fewer than three steps; once `L` has
  taken three, the token holds the address of the record `(nil, errGoexit)` and `T` is
  not blocked until its call has ended; `L` is not blocked until its call has ended;
  after two steps of `T` its `Lock` has returned the address of that record; `L` has
  ended exactly when it has taken five steps and `T` exactly when it has taken three,
  both by `runtime.Goexit`: neither returns, so neither observes an error. -/
theorem C12_goexit_fan_out (fns : Nat → FnExit V (GoError E P) P) (w : World V E P)
    (L : Nat) (hreach : Reachable fns w) (hfn : fns L = .goexit) :
    ((w.threads L).pc = .work →
      ∃ (b : Nat) (w1 : World V E P), w.mem.ll.batch = some b ∧
        run w [L, L, L, L, L] = some w1 ∧
        (w1.threads L).pc = .done .goexit ∧
        (w1.threads L).called = true ∧
        w1.results[w.results.length]? = some ⟨none, some .errGoexit⟩ ∧
        w1.mem.conds[b]? = some ⟨some w.results.length⟩ ∧
        w1.mem.ll.mux = false ∧ w1.mem.ll.batch = none ∧
        step w1 L = none)
    ∧ ((w.threads L).called = true →
      ∃ p : Nat, (w.threads L).res = some p ∧
        w.results[p]? = some ⟨none, some .errGoexit⟩ ∧
        (∀ e, (w.threads L).pc = .done e → e = .goexit) ∧
        ((∀ e, (w.threads L).pc ≠ .done e) → ∃ w1, step w L = some w1) ∧
        ∀ T : Nat, (w.threads T).pc = .follower p →
          (w.threads T).called = false ∧
          ∃ w1 : World V E P, step w T = some w1 ∧
            (w1.threads T).pc = .done .goexit ∧
            (w1.threads T).called = false)
    ∧ (∀ (T b : Nat) (sched : List Nat) (w2 : World V E P),
        (w.threads L).pc = .work → w.mem.ll.batch = some b →
        (w.threads T).pc = .lock (.wait b) → run w sched = some w2 →
        (w2.threads T).called = false
        ∧ (sched.count L < 3 → (w2.threads T).pc = .lock (.wait b) ∧ step w2 T = none)
        ∧ (3 ≤ sched.count L →
            (∃ p, (w2.threads L).res = some p ∧
              w2.results[p]? = some ⟨none, some .errGoexit⟩ ∧
              w2.mem.conds[b]? = some ⟨some p⟩) ∧
            ((∀ e, (w2.threads T).pc ≠ .done e) → ∃ w3, step w2 T = some w3))
        ∧ ((∀ e, (w2.threads L).pc ≠ .done e) → ∃ w3, step w2 L = some w3)
        ∧ (sched.count T = 2 →
            ∃ p, (w2.threads T).pc = .follower p ∧ (w2.threads L).res = some p)
        ∧ (sched.count L = 5 ↔ (w2.threads L).pc = .done .goexit)
        ∧ (sched.count T = 3 ↔ (w2.threads T).pc = .done .goexit)
        ∧ (∀ e, (w2.threads L).pc = .done e ∨ (w2.threads T).pc = .done e →
            e = .goexit)) := by
  have h := inv_of_reachable fns w hreach
  have hrec : recordOf (fns L) = (⟨none, some .errGoexit⟩ : result V E P) := by
    rw [hfn]; rfl
  have hx : ∀ m, exitOf (recordOf (fns L)) m = (.goexit : DoExit V E P) := by
    intro m; rw [hrec]; rfl
  have key := abnormal_fan_out fns w L .goexit h hx
  rw [hrec] at key
  refine ⟨key.1, key.2.1, ?_⟩
  intro T b sched w2 hL hb hT hrun
  have key2 := batch_delivery fns w w2 L T b .goexit sched h
    (tokens_of_reachable fns w hreach) (hx _) (hx _) hL hb hT hrun
  rw [hrec] at key2
  exact key2

/-- Witness of `C12_goexit_fan_out` on the callers of `TestGoexitDo`: caller 0 is the
elected leader, about to call its work function, and caller 1 is inside `cond.wait()` on
the batch token.  While the leader has taken two steps caller 1 is blocked; after the
schedule `[0, 0, 0, 1, 0, 1, 0, 1]`, in which the two interleave, both have ended the same
way and caller 1 has not called its work function. -/
theorem C12_goexit_fan_out_witness :
    Reachable goexitCallers (World.after goexitCallers [0, 0, 1, 1, 1, 0, 0, 0])
    ∧ goexitCallers 0 = .goexit
    ∧ ((World.after goexitCallers [0, 0, 1, 1, 1, 0, 0, 0]).threads 0).pc = .work
    ∧ (World.after goexitCallers [0, 0, 1, 1, 1, 0, 0, 0]).mem.ll.batch = some 0
    ∧ ((World.after goexitCallers [0, 0, 1, 1, 1, 0, 0, 0]).threads 1).pc = .lock (.wait 0)
    ∧ run (World.after goexitCallers [0, 0, 1, 1, 1, 0, 0, 0]) [0, 0, 0, 1, 0, 1, 0, 1]
        = some (World.after goexitCallers [0, 0, 1, 1, 1, 0, 0, 0, 0, 0, 0, 1, 0, 1, 0, 1])
    ∧ step (World.after goexitCallers [0, 0, 1, 1, 1, 0, 0, 0, 0, 0]) 1 = none
    ∧ ((World.after goexitCallers [0, 0, 1, 1, 1, 0, 0, 0, 0, 0, 0, 1, 0, 1, 0, 1]).threads 0).pc
        = .done .goexit
    ∧ ((World.after goexitCallers [0, 0, 1, 1, 1, 0, 0, 0, 0, 0, 0, 1, 0, 1, 0, 1]).threads 1).pc
        = .done .goexit
    ∧ ((World.after goexitCallers
        [0, 0, 1, 1, 1, 0, 0, 0, 0, 0, 0, 1, 0, 1, 0, 1]).threads 1).called = false := by
  have hr : Reachable goexitCallers (World.after goexitCallers [0, 0, 1, 1, 1, 0, 0, 0]) :=
    reachable_after goexitCallers _ (by decide)
  have h1 : run (World.after goexitCallers [0, 0, 1, 1, 1, 0, 0, 0]) [0, 0, 0, 1, 0, 1, 0, 1]
      = some (World.after goexitCallers [0, 0, 1, 1, 1, 0, 0, 0, 0, 0, 0, 1, 0, 1, 0, 1]) :=
    run_after goexitCallers [0, 0, 1, 1, 1, 0, 0, 0] [0, 0, 0, 1, 0, 1, 0, 1] (by decide)
  have h2 : run (World.after goexitCallers [0, 0, 1, 1, 1, 0, 0, 0]) [0, 0]
      = some (World.after goexitCallers [0, 0, 1, 1, 1, 0, 0, 0, 0, 0]) :=
    run_after goexitCallers [0, 0, 1, 1, 1, 0, 0, 0] [0, 0] (by decide)
  obtain ⟨k1, _, _, _, _, k6, k7, _⟩ :=
    (C12_goexit_fan_out goexitCallers (World.after goexitCallers [0, 0, 1, 1, 1, 0, 0, 0]) 0
      hr rfl).2.2 1 0 _ _
      (by decide) (by decide) (by decide) h1
  obtain ⟨_, j2, _⟩ :=
    (C12_goexit_fan_out goexitCallers (World.after goexitCallers [0, 0, 1, 1, 1, 0, 0, 0]) 0
      hr rfl).2.2 1 0 _ _
      (by decide) (by decide) (by decide) h2
  exact ⟨hr, rfl, by decide, by decide, by decide, h1, (j2 (by decide)).2,
    k6.mp (by decide), k7.mp (by decide), k1⟩

end SimpleProofs

end singleflight

/-! # Proofs on `LeadLock` -/

namespace lock

theorem sys_set_same (s : Sys) (m : Mem) (t : Nat) (pc : CallerPc) :
    (s.set m t pc).pcs t = pc := by
  simp [Sys.set]

theorem sys_set_other (s : Sys) (m : Mem) (t i : Nat) (pc : CallerPc) (h : i ≠ t) :
    (s.set m t pc).pcs i = s.pcs i := by
  simp [Sys.set, Function.update_noteq h]

theorem sys_others_not_crit (R : Nat → Option Nat) (s : Sys) (h : CInv R s) (t : Nat)
    (ht : (s.pcs t).crit = true) : ∀ i, i ≠ t → (s.pcs i).crit = false := by
  intro i hi
  cases hc : (s.pcs i).crit with
  | false => rfl
  | true => exact absurd (h.excl i t hc ht) hi

theorem sys_none_crit_of_free (R : Nat → Option Nat) (s : Sys) (h : CInv R s)
    (hm : s.mem.ll.mux = false) : ∀ i, (s.pcs i).crit = false := by
  intro i
  cases hc : (s.pcs i).crit with
  | false => rfl
  | true =>
    have := h.held i hc
    rw [hm] at this
    exact absurd this (by simp)

theorem holdsBatch_leads (pc : CallerPc) (hb : pc.holdsBatch = true) : pc.leads = true := by
  cases pc with
  | leader => rfl
  | unlock up =>
    cases up with
    | swap => rfl
    | _ => simp [CallerPc.holdsBatch] at hb
  | _ => simp [CallerPc.holdsBatch] at hb

theorem leads_crit (pc : CallerPc) (hb : pc.leads = true) : pc.crit = true := by
  cases pc with
  | lock lp => simp [CallerPc.leads] at hb
  | leader => rfl
  | unlock up =>
    cases up with
    | swap => rfl
    | wake b => rfl
    | mux => rfl
    | ret => simp [CallerPc.leads] at hb
    | fatal => simp [CallerPc.leads] at hb
  | follower p => simp [CallerPc.leads] at hb
  | released => simp [CallerPc.leads] at hb
  | fatal => simp [CallerPc.leads] at hb

/-- In a system satisfying the invariant, `Sys.step` takes only the steps of
`Sys.Step`. -/
theorem sys_step_cases (R : Nat → Option Nat) (s s1 : Sys) (t : Nat) (h : CInv R s)
    (hs : s.step R t = some s1) : Sys.Step R s t s1 := by
  unfold Sys.step at hs
  cases hpc : s.pcs t with
  | lock lp =>
    cases lp with
    | add =>
      simp only [hpc, LockStep] at hs
      by_cases hn : wrapInt32 (s.mem.ll.nr + 1) > 1
      · simp only [hn, if_true, Option.some.injEq] at hs
        rw [← hs]; exact Sys.Step.addFollow hpc hn
      · simp only [hn, if_false, Option.some.injEq] at hs
        rw [← hs]; exact Sys.Step.addLead hpc hn
    | loadCond =>
      simp only [hpc, LockStep, Option.some.injEq] at hs
      rw [← hs]; exact Sys.Step.loadCond hpc
    | wait c =>
      simp only [hpc, LockStep] at hs
      cases hcd : s.mem.conds[c]? with
      | none => simp [hcd] at hs
      | some cd =>
        cases cd with
        | mk u =>
          cases u with
          | none => simp [hcd] at hs
          | some p =>
            simp only [hcd, Option.some.injEq] at hs
            rw [← hs]; exact Sys.Step.wait c p hpc hcd
    | read c =>
      obtain ⟨p, hp⟩ := h.woken t c hpc
      simp only [hpc, LockStep, hp, Option.some.injEq] at hs
      rw [← hs]; exact Sys.Step.read c p hpc hp
    | mux =>
      simp only [hpc, LockStep] at hs
      cases hm : s.mem.ll.mux with
      | true => simp [hm] at hs
      | false =>
        simp only [hm, Bool.false_eq_true, if_false, Option.some.injEq] at hs
        rw [← hs]; exact Sys.Step.mux hpc hm
    | storeNr =>
      simp only [hpc, LockStep, Option.some.injEq] at hs
      rw [← hs]; exact Sys.Step.storeNr hpc
    | swap =>
      simp only [hpc, LockStep, Option.some.injEq] at hs
      rw [← hs]; exact Sys.Step.swap hpc
    | ret u => exact absurd hpc ((h.trans t).1 u)
  | leader =>
    simp only [hpc, Option.some.injEq] at hs
    rw [← hs]; exact Sys.Step.call hpc
  | unlock up =>
    cases up with
    | swap =>
      obtain ⟨b, hb⟩ := h.batchOf t (by rw [hpc]; rfl)
      simp only [hpc, UnlockStep, hb, Option.some.injEq] at hs
      rw [← hs]; exact Sys.Step.unlockSwap b hpc hb
    | wake b =>
      have hbv : b < s.mem.conds.length :=
        (List.getElem?_eq_some.mp (h.wakeFresh t b hpc).1).1
      simp only [hpc, UnlockStep, List.getElem?_eq_getElem hbv, Option.some.injEq] at hs
      rw [← hs]; exact Sys.Step.wake b hpc hbv
    | mux =>
      have hm := h.held t (by rw [hpc]; rfl)
      simp only [hpc, UnlockStep, hm, if_true, Option.some.injEq] at hs
      rw [← hs]; exact Sys.Step.unlockMux hpc hm
    | ret => exact absurd hpc (h.trans t).2.1
    | fatal => exact absurd hpc (h.trans t).2.2.1
  | follower p => simp [hpc] at hs
  | released => simp [hpc] at hs
  | fatal => simp [hpc] at hs

/-- The frame rule of the invariant: a step of caller `t` that leaves the tokens,
`this.cond` and `this.batch` alone and does not enter the wake-up of `Unlock`. -/
theorem sys_inv_frame (R : Nat → Option Nat) (s : Sys) (h : CInv R s) (t : Nat)
    (m1 : Mem) (pc1 : CallerPc)
    (hconds : m1.conds = s.mem.conds) (hcond : m1.ll.cond = s.mem.ll.cond)
    (hbatch : m1.ll.batch = s.mem.ll.batch)
    (hwake1 : ∀ b, pc1 ≠ .unlock (.wake b))
    (hexcl : pc1.crit = true → ∀ i, i ≠ t → (s.pcs i).crit = false)
    (hheld : ∀ i, i ≠ t → (s.pcs i).crit = true → m1.ll.mux = true)
    (hheld1 : pc1.crit = true → m1.ll.mux = true)
    (hhold1 : pc1.holdsBatch = true → ∃ b, s.mem.ll.batch = some b)
    (hholdK : (s.pcs t).holdsBatch = true → pc1.holdsBatch = true)
    (hwoken1 : ∀ c, pc1 = .lock (.read c) →
      ∃ p, s.mem.conds[c]? = some (cond.mk (some p)))
    (htrans1 : (∀ u, pc1 ≠ .lock (.ret u)) ∧ pc1 ≠ .unlock .ret ∧
      pc1 ≠ .unlock .fatal ∧ pc1 ≠ .fatal)
    (hpast : (s.pcs t).past = true → pc1.past = true)
    (hfoll1 : ∀ p, pc1 = .follower p → ∃ L, R L = some p ∧ (s.pcs L).past = true) :
    CInv R (s.set m1 t pc1) := by
  have past1 : ∀ L, (s.pcs L).past = true → ((s.set m1 t pc1).pcs L).past = true := by
    intro L hL
    by_cases hLt : L = t
    · rw [hLt, sys_set_same]; rw [hLt] at hL; exact hpast hL
    · rw [sys_set_other s m1 t L pc1 hLt]; exact hL
  constructor
  · show m1.conds[m1.ll.cond]? = _
    rw [hconds, hcond]; exact h.condFresh
  · intro b hb
    have hb1 : m1.ll.batch = some b := hb
    show m1.conds[b]? = _ ∧ b ≠ m1.ll.cond
    rw [hbatch] at hb1
    rw [hconds, hcond]; exact h.batchFresh b hb1
  · intro i b hi
    show m1.conds[b]? = _ ∧ b ≠ m1.ll.cond
    rw [hconds, hcond]
    by_cases hit : i = t
    · rw [hit, sys_set_same] at hi; exact absurd hi (hwake1 b)
    · rw [sys_set_other s m1 t i pc1 hit] at hi; exact h.wakeFresh i b hi
  · intro i j hi hj
    by_cases hit : i = t
    · by_cases hjt : j = t
      · rw [hit, hjt]
      · rw [hit, sys_set_same] at hi
        rw [sys_set_other s m1 t j pc1 hjt, hexcl hi j hjt] at hj
        exact absurd hj (by simp)
    · by_cases hjt : j = t
      · rw [hjt, sys_set_same] at hj
        rw [sys_set_other s m1 t i pc1 hit, hexcl hj i hit] at hi
        exact absurd hi (by simp)
      · rw [sys_set_other s m1 t i pc1 hit] at hi
        rw [sys_set_other s m1 t j pc1 hjt] at hj
        exact h.excl i j hi hj
  · intro i hi
    show m1.ll.mux = true
    by_cases hit : i = t
    · rw [hit, sys_set_same] at hi; exact hheld1 hi
    · rw [sys_set_other s m1 t i pc1 hit] at hi; exact hheld i hit hi
  · intro i hi
    show ∃ b, m1.ll.batch = some b
    rw [hbatch]
    by_cases hit : i = t
    · rw [hit, sys_set_same] at hi; exact hhold1 hi
    · rw [sys_set_other s m1 t i pc1 hit] at hi; exact h.batchOf i hi
  · intro b hb
    have hb1 : m1.ll.batch = some b := hb
    rw [hbatch] at hb1
    obtain ⟨i, hi⟩ := h.batchHeld b hb1
    by_cases hit : i = t
    · refine ⟨t, ?_⟩
      rw [sys_set_same]; rw [hit] at hi; exact hholdK hi
    · exact ⟨i, by rw [sys_set_other s m1 t i pc1 hit]; exact hi⟩
  · intro i c hi
    show ∃ p, m1.conds[c]? = _
    rw [hconds]
    by_cases hit : i = t
    · rw [hit, sys_set_same] at hi; exact hwoken1 c hi
    · rw [sys_set_other s m1 t i pc1 hit] at hi; exact h.woken i c hi
  · intro i
    by_cases hit : i = t
    · rw [hit, sys_set_same]; exact htrans1
    · rw [sys_set_other s m1 t i pc1 hit]; exact h.trans i
  · intro c p hc
    have hc1 : m1.conds[c]? = some (cond.mk (some p)) := hc
    rw [hconds] at hc1
    obtain ⟨L, hL1, hL2⟩ := h.uptr c p hc1
    exact ⟨L, hL1, past1 L hL2⟩
  · intro i p hi
    by_cases hit : i = t
    · rw [hit, sys_set_same] at hi
      obtain ⟨L, hL1, hL2⟩ := hfoll1 p hi
      exact ⟨L, hL1, past1 L hL2⟩
    · rw [sys_set_other s m1 t i pc1 hit] at hi
      obtain ⟨L, hL1, hL2⟩ := h.foll i p hi
      exact ⟨L, hL1, past1 L hL2⟩

theorem sys_conds_append_none (conds : List cond) (c p : Nat) :
    (conds ++ [cond.mk none])[c]? = some (cond.mk (some p)) ↔
      conds[c]? = some (cond.mk (some p)) := by
  by_cases hlt : c < conds.length
  · rw [List.getElem?_append_left hlt]
  · have hge : conds.length ≤ c := Nat.le_of_not_lt hlt
    rw [List.getElem?_append_right hge, List.getElem?_eq_none hge]
    constructor
    · intro hx
      by_cases h0 : c - conds.length = 0
      · rw [h0] at hx; simp at hx
      · have : 1 ≤ c - conds.length := Nat.one_le_iff_ne_zero.mpr h0
        rw [List.getElem?_eq_none (by simpa using this)] at hx
        exact absurd hx (by simp)
    · intro hx; exact absurd hx (by simp)

/-- The rule of the invariant for a step of the caller inside the critical section that
touches the tokens, `this.cond` or `this.batch`. -/
theorem sys_inv_crit (R : Nat → Option Nat) (s : Sys) (h : CInv R s) (t : Nat)
    (m1 : Mem) (pc1 : CallerPc)
    (hcrit : (s.pcs t).crit = true) (hnp : (s.pcs t).past = false)
    (hmux : m1.ll.mux = s.mem.ll.mux)
    (hcondF : m1.conds[m1.ll.cond]? = some (cond.mk none))
    (hbatchF : ∀ b, m1.ll.batch = some b →
      m1.conds[b]? = some (cond.mk none) ∧ b ≠ m1.ll.cond)
    (hwake1 : ∀ b, pc1 = .unlock (.wake b) →
      m1.conds[b]? = some (cond.mk none) ∧ b ≠ m1.ll.cond)
    (hhold1 : pc1.holdsBatch = true ↔ ∃ b, m1.ll.batch = some b)
    (hwokenK : ∀ (c p : Nat), s.mem.conds[c]? = some (cond.mk (some p)) →
      m1.conds[c]? = some (cond.mk (some p)))
    (hwoken1 : ∀ c, pc1 ≠ .lock (.read c))
    (htrans1 : (∀ u, pc1 ≠ .lock (.ret u)) ∧ pc1 ≠ .unlock .ret ∧
      pc1 ≠ .unlock .fatal ∧ pc1 ≠ .fatal)
    (huptr : ∀ (c p : Nat), m1.conds[c]? = some (cond.mk (some p)) →
      s.mem.conds[c]? = some (cond.mk (some p)) ∨ (R t = some p ∧ pc1.past = true))
    (hfoll1 : ∀ p, pc1 ≠ .follower p) :
    CInv R (s.set m1 t pc1) := by
  have hoth := sys_others_not_crit R s h t hcrit
  have past1 : ∀ L, (s.pcs L).past = true → ((s.set m1 t pc1).pcs L).past = true := by
    intro L hL
    by_cases hLt : L = t
    · rw [hLt, hnp] at hL; exact absurd hL (by simp)
    · rw [sys_set_other s m1 t L pc1 hLt]; exact hL
  have nocrit : ∀ i, i ≠ t → ((s.set m1 t pc1).pcs i).crit = false := by
    intro i hit
    rw [sys_set_other s m1 t i pc1 hit]; exact hoth i hit
  constructor
  · exact hcondF
  · exact hbatchF
  · intro i b hi
    by_cases hit : i = t
    · rw [hit, sys_set_same] at hi; exact hwake1 b hi
    · have := nocrit i hit
      rw [hi] at this
      exact absurd this (by simp [CallerPc.crit, CallerPc.leads])
  · intro i j hi hj
    by_cases hit : i = t
    · by_cases hjt : j = t
      · rw [hit, hjt]
      · rw [nocrit j hjt] at hj; exact absurd hj (by simp)
    · rw [nocrit i hit] at hi; exact absurd hi (by simp)
  · intro i _
    show m1.ll.mux = true
    rw [hmux]; exact h.held t hcrit
  · intro i hi
    by_cases hit : i = t
    · rw [hit, sys_set_same] at hi; exact hhold1.mp hi
    · have := nocrit i hit
      rw [leads_crit _ (holdsBatch_leads _ hi)] at this
      exact absurd this (by simp)
  · intro b hb
    exact ⟨t, by rw [sys_set_same]; exact hhold1.mpr ⟨b, hb⟩⟩
  · intro i c hi
    by_cases hit : i = t
    · rw [hit, sys_set_same] at hi; exact absurd hi (hwoken1 c)
    · rw [sys_set_other s m1 t i pc1 hit] at hi
      obtain ⟨p, hp⟩ := h.woken i c hi
      exact ⟨p, hwokenK c p hp⟩
  · intro i
    by_cases hit : i = t
    · rw [hit, sys_set_same]; exact htrans1
    · rw [sys_set_other s m1 t i pc1 hit]; exact h.trans i
  · intro c p hc
    rcases huptr c p hc with hold | ⟨h1, h2⟩
    · obtain ⟨L, hL1, hL2⟩ := h.uptr c p hold
      exact ⟨L, hL1, past1 L hL2⟩
    · exact ⟨t, h1, by rw [sys_set_same]; exact h2⟩
  · intro i p hi
    by_cases hit : i = t
    · rw [hit, sys_set_same] at hi; exact absurd hi (hfoll1 p)
    · rw [sys_set_other s m1 t i pc1 hit] at hi
      obtain ⟨L, hL1, hL2⟩ := h.foll i p hi
      exact ⟨L, hL1, past1 L hL2⟩

/-- Every step keeps the invariant. -/
theorem sys_inv_step (R : Nat → Option Nat) (s s1 : Sys) (t : Nat) (h : CInv R s)
    (hs : Sys.Step R s t s1) : CInv R s1 := by
  cases hs with
  | addFollow hpc hn =>
    exact sys_inv_frame R s h t _ _ rfl rfl rfl (by intro b; simp)
      (by intro hc; simp [CallerPc.crit, CallerPc.leads] at hc)
      (fun i _ hi => h.held i hi)
      (by intro hc; simp [CallerPc.crit, CallerPc.leads] at hc)
      (by intro hb; simp [CallerPc.holdsBatch] at hb)
      (by intro hb; rw [hpc] at hb; simp [CallerPc.holdsBatch] at hb)
      (by intro c hc; simp at hc) ⟨by intro u; simp, by simp, by simp, by simp⟩
      (by intro hp; rw [hpc] at hp; simp [CallerPc.past] at hp)
      (by intro p hp; simp at hp)
  | addLead hpc hn =>
    exact sys_inv_frame R s h t _ _ rfl rfl rfl (by intro b; simp)
      (by intro hc; simp [CallerPc.crit, CallerPc.leads] at hc)
      (fun i _ hi => h.held i hi)
      (by intro hc; simp [CallerPc.crit, CallerPc.leads] at hc)
      (by intro hb; simp [CallerPc.holdsBatch] at hb)
      (by intro hb; rw [hpc] at hb; simp [CallerPc.holdsBatch] at hb)
      (by intro c hc; simp at hc) ⟨by intro u; simp, by simp, by simp, by simp⟩
      (by intro hp; rw [hpc] at hp; simp [CallerPc.past] at hp)
      (by intro p hp; simp at hp)
  | loadCond hpc =>
    exact sys_inv_frame R s h t _ _ rfl rfl rfl (by intro b; simp)
      (by intro hc; simp [CallerPc.crit, CallerPc.leads] at hc)
      (fun i _ hi => h.held i hi)
      (by intro hc; simp [CallerPc.crit, CallerPc.leads] at hc)
      (by intro hb; simp [CallerPc.holdsBatch] at hb)
      (by intro hb; rw [hpc] at hb; simp [CallerPc.holdsBatch] at hb)
      (by intro c hc; simp at hc) ⟨by intro u; simp, by simp, by simp, by simp⟩
      (by intro hp; rw [hpc] at hp; simp [CallerPc.past] at hp)
      (by intro p hp; simp at hp)
  | wait c p hpc hc =>
    exact sys_inv_frame R s h t _ _ rfl rfl rfl (by intro b; simp)
      (by intro hc; simp [CallerPc.crit, CallerPc.leads] at hc)
      (fun i _ hi => h.held i hi)
      (by intro hc; simp [CallerPc.crit, CallerPc.leads] at hc)
      (by intro hb; simp [CallerPc.holdsBatch] at hb)
      (by intro hb; rw [hpc] at hb; simp [CallerPc.holdsBatch] at hb)
      (by
        intro c1 hc1
        simp only [CallerPc.lock.injEq, LockPc.read.injEq] at hc1
        subst hc1
        exact ⟨p, hc⟩)
      ⟨by intro u; simp, by simp, by simp, by simp⟩
      (by intro hp; rw [hpc] at hp; simp [CallerPc.past] at hp)
      (by intro p hp; simp at hp)
  | read c p hpc hc =>
    exact sys_inv_frame R s h t _ _ rfl rfl rfl (by intro b; simp)
      (by intro hc; simp [CallerPc.crit, CallerPc.leads] at hc)
      (fun i _ hi => h.held i hi)
      (by intro hc; simp [CallerPc.crit, CallerPc.leads] at hc)
      (by intro hb; simp [CallerPc.holdsBatch] at hb)
      (by intro hb; rw [hpc] at hb; simp [CallerPc.holdsBatch] at hb)
      (by intro c hc; simp at hc) ⟨by intro u; simp, by simp, by simp, by simp⟩
      (by intro hp; rw [hpc] at hp; simp [CallerPc.past] at hp)
      (by
        intro p1 hp1
        simp only [CallerPc.follower.injEq] at hp1
        subst hp1
        exact h.uptr c _ hc)
  | mux hpc hm =>
    exact sys_inv_frame R s h t _ _ rfl rfl rfl (by intro b; simp)
      (fun _ i _ => sys_none_crit_of_free R s h hm i)
      (fun _ _ _ => rfl)
      (fun _ => rfl)
      (by intro hb; simp [CallerPc.holdsBatch] at hb)
      (by intro hb; rw [hpc] at hb; simp [CallerPc.holdsBatch] at hb)
      (by intro c hc; simp at hc) ⟨by intro u; simp, by simp, by simp, by simp⟩
      (by intro hp; rw [hpc] at hp; simp [CallerPc.past] at hp)
      (by intro p hp; simp at hp)
  | storeNr hpc =>
    exact sys_inv_frame R s h t _ _ rfl rfl rfl (by intro b; simp)
      (fun _ => sys_others_not_crit R s h t (by rw [hpc]; rfl))
      (fun i _ hi => h.held i hi)
      (fun _ => h.held t (by rw [hpc]; rfl))
      (by intro hb; simp [CallerPc.holdsBatch] at hb)
      (by intro hb; rw [hpc] at hb; simp [CallerPc.holdsBatch] at hb)
      (by intro c hc; simp at hc) ⟨by intro u; simp, by simp, by simp, by simp⟩
      (by intro hp; rw [hpc] at hp; simp [CallerPc.past] at hp)
      (by intro p hp; simp at hp)
  | call hpc =>
    exact sys_inv_frame R s h t _ _ rfl rfl rfl (by intro b; simp)
      (fun _ => sys_others_not_crit R s h t (by rw [hpc]; rfl))
      (fun i _ hi => h.held i hi)
      (fun _ => h.held t (by rw [hpc]; rfl))
      (fun _ => h.batchOf t (by rw [hpc]; rfl))
      (fun _ => rfl)
      (by intro c hc; simp at hc) ⟨by intro u; simp, by simp, by simp, by simp⟩
      (by intro hp; rw [hpc] at hp; simp [CallerPc.past] at hp)
      (by intro p hp; simp at hp)
  | unlockMux hpc hm =>
    exact sys_inv_frame R s h t _ _ rfl rfl rfl (by intro b; simp)
      (by intro hc; simp [CallerPc.crit, CallerPc.leads] at hc)
      (fun i hi hc => by
        rw [sys_others_not_crit R s h t (by rw [hpc]; rfl) i hi] at hc
        exact absurd hc (by simp))
      (by intro hc; simp [CallerPc.crit, CallerPc.leads] at hc)
      (by intro hb; simp [CallerPc.holdsBatch] at hb)
      (by intro hb; rw [hpc] at hb; simp [CallerPc.holdsBatch] at hb)
      (by intro c hc; simp at hc) ⟨by intro u; simp, by simp, by simp, by simp⟩
      (fun _ => rfl)
      (by intro p hp; simp at hp)
  | swap hpc =>
    have hcv : s.mem.ll.cond < s.mem.conds.length :=
      (List.getElem?_eq_some.mp h.condFresh).1
    refine sys_inv_crit R s h t _ _ (by rw [hpc]; rfl) (by rw [hpc]; rfl) rfl ?_ ?_
      (by intro b hb; simp at hb) ⟨fun _ => ⟨_, rfl⟩, fun _ => rfl⟩ ?_
      (by intro c; simp) ⟨by intro u; simp, by simp, by simp, by simp⟩ ?_
      (by intro p; simp)
    · exact List.getElem?_concat_length _ _
    · intro b hb
      have hb1 : s.mem.ll.cond = b := Option.some.inj hb
      subst hb1
      refine ⟨?_, Nat.ne_of_lt hcv⟩
      show (s.mem.conds ++ [cond.mk none])[s.mem.ll.cond]? = _
      rw [List.getElem?_append_left hcv]
      exact h.condFresh
    · intro c p hc
      exact (sys_conds_append_none _ c p).mpr hc
    · intro c p hc
      exact Or.inl ((sys_conds_append_none _ c p).mp hc)
  | unlockSwap b hpc hb =>
    refine sys_inv_crit R s h t _ _ (by rw [hpc]; rfl) (by rw [hpc]; rfl) rfl h.condFresh ?_
      ?_ ⟨fun hx => by simp [CallerPc.holdsBatch] at hx, fun hx => ?_⟩ (fun _ _ hc => hc)
      (by intro c; simp) ⟨by intro u; simp, by simp, by simp, by simp⟩
      (fun _ _ hc => Or.inl hc) (by intro p; simp)
    · intro b1 hb1
      have : (none : Option Nat) = some b1 := hb1
      exact absurd this (by simp)
    · intro b1 hb1
      simp only [CallerPc.unlock.injEq, UnlockPc.wake.injEq] at hb1
      rw [← hb1]
      exact h.batchFresh b hb
    · obtain ⟨b1, hb1⟩ := hx
      have : (none : Option Nat) = some b1 := hb1
      exact absurd this (by simp)
  | wake b hpc hbv =>
    obtain ⟨hfresh, hne⟩ := h.wakeFresh t b hpc
    have hnob : ∀ b1, s.mem.ll.batch = some b1 → False := by
      intro b1 hb1
      obtain ⟨i, hi⟩ := h.batchHeld b1 hb1
      have hic := leads_crit _ (holdsBatch_leads _ hi)
      have := h.excl i t hic (by rw [hpc]; rfl)
      rw [this, hpc] at hi
      simp [CallerPc.holdsBatch] at hi
    refine sys_inv_crit R s h t _ _ (by rw [hpc]; rfl) (by rw [hpc]; rfl) rfl ?_ ?_
      (by intro b1 hb1; simp at hb1)
      ⟨fun hx => by simp [CallerPc.holdsBatch] at hx, fun hx => ?_⟩ ?_
      (by intro c; simp) ⟨by intro u; simp, by simp, by simp, by simp⟩ ?_ (by intro p; simp)
    · show (s.mem.conds.set b (cond.mk (R t)))[s.mem.ll.cond]? = _
      rw [List.getElem?_set_ne hne]
      exact h.condFresh
    · intro b1 hb1
      exact absurd (hnob b1 hb1) id
    · obtain ⟨b1, hb1⟩ := hx
      exact absurd (hnob b1 hb1) id
    · intro c p hc
      have hcb : b ≠ c := by
        intro heq
        rw [heq, hc] at hfresh
        simp at hfresh
      show (s.mem.conds.set b (cond.mk (R t)))[c]? = _
      rw [List.getElem?_set_ne hcb]
      exact hc
    · intro c p hc
      have hc1 : (s.mem.conds.set b (cond.mk (R t)))[c]? = some (cond.mk (some p)) := hc
      by_cases hcb : b = c
      · subst hcb
        rw [List.getElem?_set_self hbv] at hc1
        simp only [Option.some.injEq, cond.mk.injEq] at hc1
        exact Or.inr ⟨hc1, rfl⟩
      · rw [List.getElem?_set_ne hcb] at hc1
        exact Or.inl hc1

theorem sys_inv_init (R : Nat → Option Nat) : CInv R Sys.init := by
  constructor
  · rfl
  · intro b hb; simp [Sys.init, NewLeadLock] at hb
  · intro i b hi; simp [Sys.init] at hi
  · intro i j hi; simp [Sys.init, CallerPc.crit, CallerPc.leads] at hi
  · intro i hi; simp [Sys.init, CallerPc.crit, CallerPc.leads] at hi
  · intro i hi; simp [Sys.init, CallerPc.holdsBatch] at hi
  · intro b hb; simp [Sys.init, NewLeadLock] at hb
  · intro i c hi; simp [Sys.init] at hi
  · intro i; simp [Sys.init]
  · intro c p hc
    simp only [Sys.init, NewLeadLock] at hc
    cases c with
    | zero => simp at hc
    | succ n => simp at hc
  · intro i p hi; simp [Sys.init] at hi

theorem sys_inv_run (R : Nat → Option Nat) :
    ∀ (sched : List Nat) (s s1 : Sys), CInv R s → s.run R sched = some s1 → CInv R s1 := by
  intro sched
  induction sched with
  | nil =>
    intro s s1 h hr
    simp only [Sys.run, Option.some.injEq] at hr
    rw [← hr]; exact h
  | cons t ts ih =>
    intro s s1 h hr
    simp only [Sys.run] at hr
    cases hs : s.step R t with
    | none => rw [hs] at hr; exact absurd hr (by simp)
    | some s2 =>
      rw [hs] at hr
      exact ih s2 s1 (sys_inv_step R s s2 t h (sys_step_cases R s s2 t h hs)) hr

theorem sys_inv_of_reachable (R : Nat → Option Nat) (s : Sys) (h : Sys.Reachable R s) :
    CInv R s := by
  obtain ⟨sched, hs⟩ := h
  exact sys_inv_run R sched _ s (sys_inv_init R) hs

theorem sys_run_append (R : Nat → Option Nat) (s : Sys) (l1 l2 : List Nat) :
    s.run R (l1 ++ l2) = (s.run R l1).bind (fun x => x.run R l2) := by
  induction l1 generalizing s with
  | nil => simp [Sys.run]
  | cons t ts ih =>
    simp only [List.cons_append, Sys.run]
    cases s.step R t with
    | none => rfl
    | some x => exact ih x

theorem sys_reachable_run (R : Nat → Option Nat) (s s1 : Sys) (sched : List Nat)
    (h : Sys.Reachable R s) (hr : s.run R sched = some s1) : Sys.Reachable R s1 := by
  obtain ⟨s0, h0⟩ := h
  refine ⟨s0 ++ sched, ?_⟩
  rw [sys_run_append, h0]
  exact hr

theorem sys_run_after (R : Nat → Option Nat) (s0 s1 : List Nat)
    (h : (Sys.init.run R (s0 ++ s1)).isSome = true) :
    (Sys.after R s0).run R s1 = some (Sys.after R (s0 ++ s1)) := by
  unfold Sys.after
  rw [sys_run_append] at h ⊢
  cases hr : Sys.init.run R s0 with
  | none => rw [hr] at h; exact absurd h (by simp)
  | some x =>
    rw [hr] at h
    have hb : ((some x).bind fun x => x.run R s1) = x.run R s1 := rfl
    rw [hb] at h ⊢
    cases hx : x.run R s1 with
    | none => rw [hx] at h; exact absurd h (by simp)
    | some y => exact hx

theorem sys_reachable_after (R : Nat → Option Nat) (sched : List Nat)
    (h : (Sys.init.run R sched).isSome = true) : Sys.Reachable R (Sys.after R sched) := by
  refine ⟨sched, ?_⟩
  unfold Sys.after
  cases hr : Sys.init.run R sched with
  | none => rw [hr] at h; exact absurd h (by simp)
  | some x => rfl

theorem sys_step_other (R : Nat → Option Nat) (s s1 : Sys) (t i : Nat)
    (hs : Sys.Step R s t s1) (hi : i ≠ t) : s1.pcs i = s.pcs i := by
  cases hs <;> exact sys_set_other _ _ t i _ hi

/-- The step of a caller that loads the batch token. -/
theorem sys_step_at_loadCond (R : Nat → Option Nat) (s s1 : Sys) (t : Nat)
    (hs : Sys.Step R s t s1) (hpc : s.pcs t = .lock .loadCond) :
    s1.pcs t = .lock (.wait s.mem.ll.cond) ∧ s1.mem = s.mem := by
  cases hs with
  | addFollow h0 hn0 =>
    rw [h0] at hpc; simp at hpc
  | addLead h0 hn0 =>
    rw [h0] at hpc; simp at hpc
  | loadCond h0 =>
    exact ⟨sys_set_same _ _ _ _, rfl⟩
  | wait c0 p0 h0 hc0 =>
    rw [h0] at hpc; simp at hpc
  | read c0 p0 h0 hc0 =>
    rw [h0] at hpc; simp at hpc
  | mux h0 hm0 =>
    rw [h0] at hpc; simp at hpc
  | storeNr h0 =>
    rw [h0] at hpc; simp at hpc
  | swap h0 =>
    rw [h0] at hpc; simp at hpc
  | call h0 =>
    rw [h0] at hpc; simp at hpc
  | unlockSwap b0 h0 hb0 =>
    rw [h0] at hpc; simp at hpc
  | wake b0 h0 hb0 =>
    rw [h0] at hpc; simp at hpc
  | unlockMux h0 hm0 =>
    rw [h0] at hpc; simp at hpc

/-- The step of a caller inside `cond.wait()`: the token has been woken. -/
theorem sys_step_at_wait (R : Nat → Option Nat) (s s1 : Sys) (t b : Nat)
    (hs : Sys.Step R s t s1) (hpc : s.pcs t = .lock (.wait b)) :
    (∃ p, s.mem.conds[b]? = some (cond.mk (some p))) ∧
      s1.pcs t = .lock (.read b) ∧ s1.mem = s.mem := by
  cases hs with
  | addFollow h0 hn0 =>
    rw [h0] at hpc; simp at hpc
  | addLead h0 hn0 =>
    rw [h0] at hpc; simp at hpc
  | loadCond h0 =>
    rw [h0] at hpc; simp at hpc
  | wait c0 p0 h0 hc0 =>
    rw [h0] at hpc
    simp only [CallerPc.lock.injEq, LockPc.wait.injEq] at hpc
    subst hpc
    exact ⟨⟨p0, hc0⟩, sys_set_same _ _ _ _, rfl⟩
  | read c0 p0 h0 hc0 =>
    rw [h0] at hpc; simp at hpc
  | mux h0 hm0 =>
    rw [h0] at hpc; simp at hpc
  | storeNr h0 =>
    rw [h0] at hpc; simp at hpc
  | swap h0 =>
    rw [h0] at hpc; simp at hpc
  | call h0 =>
    rw [h0] at hpc; simp at hpc
  | unlockSwap b0 h0 hb0 =>
    rw [h0] at hpc; simp at hpc
  | wake b0 h0 hb0 =>
    rw [h0] at hpc; simp at hpc
  | unlockMux h0 hm0 =>
    rw [h0] at hpc; simp at hpc

/-- The step of a caller that reads the pointer of its woken token. -/
theorem sys_step_at_read (R : Nat → Option Nat) (s s1 : Sys) (t b : Nat)
    (hs : Sys.Step R s t s1) (hpc : s.pcs t = .lock (.read b)) :
    ∃ p, s.mem.conds[b]? = some (cond.mk (some p)) ∧
      s1.pcs t = .follower p ∧ s1.mem = s.mem := by
  cases hs with
  | addFollow h0 hn0 =>
    rw [h0] at hpc; simp at hpc
  | addLead h0 hn0 =>
    rw [h0] at hpc; simp at hpc
  | loadCond h0 =>
    rw [h0] at hpc; simp at hpc
  | wait c0 p0 h0 hc0 =>
    rw [h0] at hpc; simp at hpc
  | read c0 p0 h0 hc0 =>
    rw [h0] at hpc
    simp only [CallerPc.lock.injEq, LockPc.read.injEq] at hpc
    subst hpc
    exact ⟨p0, hc0, sys_set_same _ _ _ _, rfl⟩
  | mux h0 hm0 =>
    rw [h0] at hpc; simp at hpc
  | storeNr h0 =>
    rw [h0] at hpc; simp at hpc
  | swap h0 =>
    rw [h0] at hpc; simp at hpc
  | call h0 =>
    rw [h0] at hpc; simp at hpc
  | unlockSwap b0 h0 hb0 =>
    rw [h0] at hpc; simp at hpc
  | wake b0 h0 hb0 =>
    rw [h0] at hpc; simp at hpc
  | unlockMux h0 hm0 =>
    rw [h0] at hpc; simp at hpc

theorem sys_step_at_follower (R : Nat → Option Nat) (s s1 : Sys) (t p : Nat)
    (hs : Sys.Step R s t s1) (hpc : s.pcs t = .follower p) : False := by
  cases hs with
  | addFollow h0 hn0 =>
    rw [h0] at hpc; simp at hpc
  | addLead h0 hn0 =>
    rw [h0] at hpc; simp at hpc
  | loadCond h0 =>
    rw [h0] at hpc; simp at hpc
  | wait c0 p0 h0 hc0 =>
    rw [h0] at hpc; simp at hpc
  | read c0 p0 h0 hc0 =>
    rw [h0] at hpc; simp at hpc
  | mux h0 hm0 =>
    rw [h0] at hpc; simp at hpc
  | storeNr h0 =>
    rw [h0] at hpc; simp at hpc
  | swap h0 =>
    rw [h0] at hpc; simp at hpc
  | call h0 =>
    rw [h0] at hpc; simp at hpc
  | unlockSwap b0 h0 hb0 =>
    rw [h0] at hpc; simp at hpc
  | wake b0 h0 hb0 =>
    rw [h0] at hpc; simp at hpc
  | unlockMux h0 hm0 =>
    rw [h0] at hpc; simp at hpc

/-- A caller outside the critical section touches neither the tokens nor `this.cond`
nor `this.batch` while the mutex is held. -/
theorem sys_step_noncrit (R : Nat → Option Nat) (s s1 : Sys) (t : Nat)
    (hs : Sys.Step R s t s1) (hcrit : (s.pcs t).crit = false)
    (hmux : s.mem.ll.mux = true) :
    s1.mem.ll.cond = s.mem.ll.cond ∧ s1.mem.ll.batch = s.mem.ll.batch ∧
      s1.mem.conds = s.mem.conds ∧ (s1.pcs t).crit = false := by
  cases hs with
  | addFollow h0 hn0 =>
    exact ⟨rfl, rfl, rfl, by rw [sys_set_same]; rfl⟩
  | addLead h0 hn0 =>
    exact ⟨rfl, rfl, rfl, by rw [sys_set_same]; rfl⟩
  | loadCond h0 =>
    exact ⟨rfl, rfl, rfl, by rw [sys_set_same]; rfl⟩
  | wait c0 p0 h0 hc0 =>
    exact ⟨rfl, rfl, rfl, by rw [sys_set_same]; rfl⟩
  | read c0 p0 h0 hc0 =>
    exact ⟨rfl, rfl, rfl, by rw [sys_set_same]; rfl⟩
  | mux h0 hm0 =>
    rw [hmux] at hm0; exact absurd hm0 (by simp)
  | storeNr h0 =>
    rw [h0] at hcrit; simp [CallerPc.crit, CallerPc.leads] at hcrit
  | swap h0 =>
    rw [h0] at hcrit; simp [CallerPc.crit, CallerPc.leads] at hcrit
  | call h0 =>
    rw [h0] at hcrit; simp [CallerPc.crit, CallerPc.leads] at hcrit
  | unlockSwap b0 h0 hb0 =>
    rw [h0] at hcrit; simp [CallerPc.crit, CallerPc.leads] at hcrit
  | wake b0 h0 hb0 =>
    rw [h0] at hcrit; simp [CallerPc.crit, CallerPc.leads] at hcrit
  | unlockMux h0 hm0 =>
    rw [h0] at hcrit; simp [CallerPc.crit, CallerPc.leads] at hcrit

/-- The step of the leader that resets `this.nr`. -/
theorem sys_step_at_storeNr (R : Nat → Option Nat) (s s1 : Sys) (t : Nat)
    (hs : Sys.Step R s t s1) (hpc : s.pcs t = .lock .storeNr) :
    s1.pcs t = .lock .swap ∧ s1.mem.ll.cond = s.mem.ll.cond := by
  cases hs with
  | addFollow h0 hn0 =>
    rw [h0] at hpc; simp at hpc
  | addLead h0 hn0 =>
    rw [h0] at hpc; simp at hpc
  | loadCond h0 =>
    rw [h0] at hpc; simp at hpc
  | wait c0 p0 h0 hc0 =>
    rw [h0] at hpc; simp at hpc
  | read c0 p0 h0 hc0 =>
    rw [h0] at hpc; simp at hpc
  | mux h0 hm0 =>
    rw [h0] at hpc; simp at hpc
  | storeNr h0 =>
    exact ⟨sys_set_same _ _ _ _, rfl⟩
  | swap h0 =>
    rw [h0] at hpc; simp at hpc
  | call h0 =>
    rw [h0] at hpc; simp at hpc
  | unlockSwap b0 h0 hb0 =>
    rw [h0] at hpc; simp at hpc
  | wake b0 h0 hb0 =>
    rw [h0] at hpc; simp at hpc
  | unlockMux h0 hm0 =>
    rw [h0] at hpc; simp at hpc

/-- The step of the leader that moves the token of `this.cond` into `this.batch`. -/
theorem sys_step_at_swap (R : Nat → Option Nat) (s s1 : Sys) (t : Nat)
    (hs : Sys.Step R s t s1) (hpc : s.pcs t = .lock .swap) :
    s1.pcs t = .leader ∧ s1.mem.ll.batch = some s.mem.ll.cond := by
  cases hs with
  | addFollow h0 hn0 =>
    rw [h0] at hpc; simp at hpc
  | addLead h0 hn0 =>
    rw [h0] at hpc; simp at hpc
  | loadCond h0 =>
    rw [h0] at hpc; simp at hpc
  | wait c0 p0 h0 hc0 =>
    rw [h0] at hpc; simp at hpc
  | read c0 p0 h0 hc0 =>
    rw [h0] at hpc; simp at hpc
  | mux h0 hm0 =>
    rw [h0] at hpc; simp at hpc
  | storeNr h0 =>
    rw [h0] at hpc; simp at hpc
  | swap h0 =>
    exact ⟨sys_set_same _ _ _ _, rfl⟩
  | call h0 =>
    rw [h0] at hpc; simp at hpc
  | unlockSwap b0 h0 hb0 =>
    rw [h0] at hpc; simp at hpc
  | wake b0 h0 hb0 =>
    rw [h0] at hpc; simp at hpc
  | unlockMux h0 hm0 =>
    rw [h0] at hpc; simp at hpc

/-- The step of a leader whose token is in `this.batch`: it calls `Unlock`, or takes
the token back to wake it. -/
theorem sys_step_at_hold (R : Nat → Option Nat) (s s1 : Sys) (t b : Nat)
    (hs : Sys.Step R s t s1) (hpc : (s.pcs t).holdsBatch = true)
    (hb : s.mem.ll.batch = some b) :
    ((s1.pcs t).holdsBatch = true ∧ s1.mem.ll.batch = some b) ∨
      s1.pcs t = .unlock (.wake b) := by
  cases hs with
  | addFollow h0 hn0 =>
    rw [h0] at hpc; simp [CallerPc.holdsBatch] at hpc
  | addLead h0 hn0 =>
    rw [h0] at hpc; simp [CallerPc.holdsBatch] at hpc
  | loadCond h0 =>
    rw [h0] at hpc; simp [CallerPc.holdsBatch] at hpc
  | wait c0 p0 h0 hc0 =>
    rw [h0] at hpc; simp [CallerPc.holdsBatch] at hpc
  | read c0 p0 h0 hc0 =>
    rw [h0] at hpc; simp [CallerPc.holdsBatch] at hpc
  | mux h0 hm0 =>
    rw [h0] at hpc; simp [CallerPc.holdsBatch] at hpc
  | storeNr h0 =>
    rw [h0] at hpc; simp [CallerPc.holdsBatch] at hpc
  | swap h0 =>
    rw [h0] at hpc; simp [CallerPc.holdsBatch] at hpc
  | call h0 =>
    exact Or.inl ⟨by rw [sys_set_same]; rfl, hb⟩
  | unlockSwap b0 h0 hb0 =>
    rw [hb] at hb0
    simp only [Option.some.injEq] at hb0
    subst hb0
    exact Or.inr (sys_set_same _ _ _ _)
  | wake b0 h0 hb0 =>
    rw [h0] at hpc; simp [CallerPc.holdsBatch] at hpc
  | unlockMux h0 hm0 =>
    rw [h0] at hpc; simp [CallerPc.holdsBatch] at hpc

/-- The step of a leader that wakes its token: the token holds the leader's pointer and
is out of use. -/
theorem sys_step_at_wake (R : Nat → Option Nat) (s s1 : Sys) (t b : Nat) (h : CInv R s)
    (hs : Sys.Step R s t s1) (hpc : s.pcs t = .unlock (.wake b)) :
    (s1.pcs t).past = true ∧ s1.Retired b ∧ s1.mem.conds[b]? = some (cond.mk (R t)) := by
  have hoth := sys_others_not_crit R s h t (by rw [hpc]; rfl)
  have hnob : s.mem.ll.batch ≠ some b := by
    intro hb1
    obtain ⟨i, hi⟩ := h.batchHeld b hb1
    have hic := leads_crit _ (holdsBatch_leads _ hi)
    have := h.excl i t hic (by rw [hpc]; rfl)
    rw [this, hpc] at hi
    simp [CallerPc.holdsBatch] at hi
  cases hs with
  | addFollow h0 hn0 =>
    rw [h0] at hpc; simp at hpc
  | addLead h0 hn0 =>
    rw [h0] at hpc; simp at hpc
  | loadCond h0 =>
    rw [h0] at hpc; simp at hpc
  | wait c0 p0 h0 hc0 =>
    rw [h0] at hpc; simp at hpc
  | read c0 p0 h0 hc0 =>
    rw [h0] at hpc; simp at hpc
  | mux h0 hm0 =>
    rw [h0] at hpc; simp at hpc
  | storeNr h0 =>
    rw [h0] at hpc; simp at hpc
  | swap h0 =>
    rw [h0] at hpc; simp at hpc
  | call h0 =>
    rw [h0] at hpc; simp at hpc
  | unlockSwap b0 h0 hb0 =>
    rw [h0] at hpc; simp at hpc
  | wake b0 h0 hb0 =>
    rw [h0] at hpc
    simp only [CallerPc.unlock.injEq, UnlockPc.wake.injEq] at hpc
    subst hpc
    refine ⟨by rw [sys_set_same]; rfl, ⟨?_, (h.wakeFresh t b0 h0).2, hnob, ?_⟩, ?_⟩
    · show b0 < (s.mem.conds.set b0 (cond.mk (R t))).length
      rw [List.length_set]; exact hb0
    · intro i hi
      by_cases hit : i = t
      · rw [hit, sys_set_same] at hi; simp at hi
      · rw [sys_set_other _ _ t i _ hit] at hi
        have := hoth i hit
        rw [hi] at this
        simp [CallerPc.crit, CallerPc.leads] at this
    · show (s.mem.conds.set b0 (cond.mk (R t)))[b0]? = _
      rw [List.getElem?_set_self hb0]
  | unlockMux h0 hm0 =>
    rw [h0] at hpc; simp at hpc

/-- A leader that has woken its token stays so. -/
theorem sys_step_past (R : Nat → Option Nat) (s s1 : Sys) (t : Nat)
    (hs : Sys.Step R s t s1) (hpc : (s.pcs t).past = true) : (s1.pcs t).past = true := by
  cases hs with
  | addFollow h0 hn0 =>
    rw [h0] at hpc; simp [CallerPc.past] at hpc
  | addLead h0 hn0 =>
    rw [h0] at hpc; simp [CallerPc.past] at hpc
  | loadCond h0 =>
    rw [h0] at hpc; simp [CallerPc.past] at hpc
  | wait c0 p0 h0 hc0 =>
    rw [h0] at hpc; simp [CallerPc.past] at hpc
  | read c0 p0 h0 hc0 =>
    rw [h0] at hpc; simp [CallerPc.past] at hpc
  | mux h0 hm0 =>
    rw [h0] at hpc; simp [CallerPc.past] at hpc
  | storeNr h0 =>
    rw [h0] at hpc; simp [CallerPc.past] at hpc
  | swap h0 =>
    rw [h0] at hpc; simp [CallerPc.past] at hpc
  | call h0 =>
    rw [h0] at hpc; simp [CallerPc.past] at hpc
  | unlockSwap b0 h0 hb0 =>
    rw [h0] at hpc; simp [CallerPc.past] at hpc
  | wake b0 h0 hb0 =>
    rw [h0] at hpc; simp [CallerPc.past] at hpc
  | unlockMux h0 hm0 =>
    rw [sys_set_same]; rfl

/-- A token that is out of use stays out of use and keeps its pointer. -/
theorem sys_retired_step (R : Nat → Option Nat) (s s1 : Sys) (t b : Nat)
    (hs : Sys.Step R s t s1) (hr : s.Retired b) :
    s1.Retired b ∧ s1.mem.conds[b]? = s.mem.conds[b]? := by
  cases hs with
  | addFollow h0 hn0 =>
    exact ⟨⟨hr.1, hr.2.1, hr.2.2.1, fun i => by
      by_cases hit : i = t
      · rw [hit, sys_set_same]; simp
      · rw [sys_set_other _ _ t i _ hit]; exact hr.2.2.2 i⟩, rfl⟩
  | addLead h0 hn0 =>
    exact ⟨⟨hr.1, hr.2.1, hr.2.2.1, fun i => by
      by_cases hit : i = t
      · rw [hit, sys_set_same]; simp
      · rw [sys_set_other _ _ t i _ hit]; exact hr.2.2.2 i⟩, rfl⟩
  | loadCond h0 =>
    exact ⟨⟨hr.1, hr.2.1, hr.2.2.1, fun i => by
      by_cases hit : i = t
      · rw [hit, sys_set_same]; simp
      · rw [sys_set_other _ _ t i _ hit]; exact hr.2.2.2 i⟩, rfl⟩
  | wait c0 p0 h0 hc0 =>
    exact ⟨⟨hr.1, hr.2.1, hr.2.2.1, fun i => by
      by_cases hit : i = t
      · rw [hit, sys_set_same]; simp
      · rw [sys_set_other _ _ t i _ hit]; exact hr.2.2.2 i⟩, rfl⟩
  | read c0 p0 h0 hc0 =>
    exact ⟨⟨hr.1, hr.2.1, hr.2.2.1, fun i => by
      by_cases hit : i = t
      · rw [hit, sys_set_same]; simp
      · rw [sys_set_other _ _ t i _ hit]; exact hr.2.2.2 i⟩, rfl⟩
  | mux h0 hm0 =>
    exact ⟨⟨hr.1, hr.2.1, hr.2.2.1, fun i => by
      by_cases hit : i = t
      · rw [hit, sys_set_same]; simp
      · rw [sys_set_other _ _ t i _ hit]; exact hr.2.2.2 i⟩, rfl⟩
  | storeNr h0 =>
    exact ⟨⟨hr.1, hr.2.1, hr.2.2.1, fun i => by
      by_cases hit : i = t
      · rw [hit, sys_set_same]; simp
      · rw [sys_set_other _ _ t i _ hit]; exact hr.2.2.2 i⟩, rfl⟩
  | swap h0 =>
    refine ⟨⟨?_, Nat.ne_of_lt hr.1, ?_, fun i => ?_⟩, ?_⟩
    · show b < (s.mem.conds ++ [cond.mk none]).length
      rw [List.length_append]; exact Nat.lt_add_right _ hr.1
    · show some s.mem.ll.cond ≠ some b
      intro heq
      exact hr.2.1 (Option.some.inj heq).symm
    · by_cases hit : i = t
      · rw [hit, sys_set_same]; simp
      · rw [sys_set_other _ _ t i _ hit]; exact hr.2.2.2 i
    · show (s.mem.conds ++ [cond.mk none])[b]? = _
      rw [List.getElem?_append_left hr.1]
  | call h0 =>
    exact ⟨⟨hr.1, hr.2.1, hr.2.2.1, fun i => by
      by_cases hit : i = t
      · rw [hit, sys_set_same]; simp
      · rw [sys_set_other _ _ t i _ hit]; exact hr.2.2.2 i⟩, rfl⟩
  | unlockSwap b0 h0 hb0 =>
    have hbb : b0 ≠ b := by
      intro heq
      rw [heq] at hb0
      exact hr.2.2.1 hb0
    refine ⟨⟨hr.1, hr.2.1, by show (none : Option Nat) ≠ some b; simp, fun i => ?_⟩, rfl⟩
    by_cases hit : i = t
    · rw [hit, sys_set_same]
      simp only [ne_eq, CallerPc.unlock.injEq, UnlockPc.wake.injEq]
      exact hbb
    · rw [sys_set_other _ _ t i _ hit]; exact hr.2.2.2 i
  | wake b0 h0 hb0 =>
    have hbb : b0 ≠ b := by
      intro heq
      rw [heq] at h0
      exact hr.2.2.2 t h0
    refine ⟨⟨?_, hr.2.1, hr.2.2.1, fun i => ?_⟩, ?_⟩
    · show b < (s.mem.conds.set b0 (cond.mk (R t))).length
      rw [List.length_set]; exact hr.1
    · by_cases hit : i = t
      · rw [hit, sys_set_same]; simp
      · rw [sys_set_other _ _ t i _ hit]; exact hr.2.2.2 i
    · show (s.mem.conds.set b0 (cond.mk (R t)))[b]? = _
      rw [List.getElem?_set_ne hbb]
  | unlockMux h0 hm0 =>
    exact ⟨⟨hr.1, hr.2.1, hr.2.2.1, fun i => by
      by_cases hit : i = t
      · rw [hit, sys_set_same]; simp
      · rw [sys_set_other _ _ t i _ hit]; exact hr.2.2.2 i⟩, rfl⟩
/-- A caller on the follower's path stays on it. -/
theorem sys_follPath_step (R : Nat → Option Nat) (s s1 : Sys) (t T : Nat)
    (hs : Sys.Step R s t s1) (hp : (s.pcs T).follPath = true) :
    (s1.pcs T).follPath = true := by
  by_cases htT : T = t
  · subst htT
    cases hs with
    | loadCond h0 => rw [sys_set_same]; rfl
    | wait c0 p0 h0 hc0 => rw [sys_set_same]; rfl
    | read c0 p0 h0 hc0 => rw [sys_set_same]; rfl
    | addFollow h0 hn0 => rw [h0] at hp; simp [CallerPc.follPath] at hp
    | addLead h0 hn0 => rw [h0] at hp; simp [CallerPc.follPath] at hp
    | mux h0 hm0 => rw [h0] at hp; simp [CallerPc.follPath] at hp
    | storeNr h0 => rw [h0] at hp; simp [CallerPc.follPath] at hp
    | swap h0 => rw [h0] at hp; simp [CallerPc.follPath] at hp
    | call h0 => rw [h0] at hp; simp [CallerPc.follPath] at hp
    | unlockSwap b0 h0 hb0 => rw [h0] at hp; simp [CallerPc.follPath] at hp
    | wake b0 h0 hb0 => rw [h0] at hp; simp [CallerPc.follPath] at hp
    | unlockMux h0 hm0 => rw [h0] at hp; simp [CallerPc.follPath] at hp
  · rw [sys_step_other R s s1 t T hs htT]; exact hp

/-- Every step keeps the hand-over: the follower cannot leave `wait()` before the leader
has woken the token, nobody but the leader wakes it, and once woken it keeps the
leader's pointer. -/
theorem sys_handoff_step (R : Nat → Option Nat) (s s1 : Sys) (t L T b : Nat)
    (h : CInv R s) (hs : Sys.Step R s t s1) (hh : s.Handoff R L T b) :
    s1.Handoff R L T b := by
  unfold Sys.Handoff at hh ⊢
  have hLT : L ≠ T := by
    intro e
    subst e
    rcases hh with ⟨hL | hL, _, hT⟩ | ⟨hL, _, hT⟩ | ⟨hL, hT⟩ |
      ⟨hL, _, _, hT | ⟨r, _, hT | hT⟩⟩
    · rw [hT] at hL; simp at hL
    · rw [hT] at hL; simp at hL
    · rw [hT] at hL; simp [CallerPc.holdsBatch] at hL
    · rw [hT] at hL; simp at hL
    · rw [hT] at hL; simp [CallerPc.past] at hL
    · rw [hT] at hL; simp [CallerPc.past] at hL
    · rw [hT] at hL; simp [CallerPc.past] at hL
  by_cases htT : t = T
  · subst htT
    have hL1 : s1.pcs L = s.pcs L := sys_step_other R s s1 t L hs hLT
    rcases hh with ⟨hL, hcond, hT⟩ | ⟨hL, hbt, hT⟩ | ⟨hL, hT⟩ | ⟨hL, hret, hcd, hT⟩
    · obtain ⟨⟨p, hp⟩, _⟩ := sys_step_at_wait R s s1 t b hs hT
      have := h.condFresh
      rw [hcond, hp] at this
      simp at this
    · obtain ⟨⟨p, hp⟩, _⟩ := sys_step_at_wait R s s1 t b hs hT
      have := (h.batchFresh b hbt).1
      rw [hp] at this
      simp at this
    · obtain ⟨⟨p, hp⟩, _⟩ := sys_step_at_wait R s s1 t b hs hT
      have := (h.wakeFresh L b hL).1
      rw [hp] at this
      simp at this
    · obtain ⟨hret1, hcd1⟩ := sys_retired_step R s s1 t b hs hret
      rw [hL1, hcd1]
      refine Or.inr (Or.inr (Or.inr ⟨hL, hret1, hcd, ?_⟩))
      rcases hT with hT | ⟨r, hr, hT | hT⟩
      · obtain ⟨⟨p, hp⟩, hpc1, _⟩ := sys_step_at_wait R s s1 t b hs hT
        rw [hcd] at hp
        simp only [Option.some.injEq, cond.mk.injEq] at hp
        exact Or.inr ⟨p, hp, Or.inl hpc1⟩
      · obtain ⟨p, hp, hpc1, _⟩ := sys_step_at_read R s s1 t b hs hT
        rw [hcd, hr] at hp
        simp only [Option.some.injEq, cond.mk.injEq] at hp
        subst hp
        exact Or.inr ⟨r, hr, Or.inr hpc1⟩
      · exact absurd (sys_step_at_follower R s s1 t r hs hT) id
  · have hT1 : s1.pcs T = s.pcs T := sys_step_other R s s1 t T hs (Ne.symm htT)
    rw [hT1]
    by_cases htL : t = L
    · subst htL
      rcases hh with ⟨hL, hcond, hT⟩ | ⟨hL, hbt, hT⟩ | ⟨hL, hT⟩ | ⟨hL, hret, hcd, hT⟩
      · rcases hL with hL | hL
        · obtain ⟨hp1, hc1⟩ := sys_step_at_storeNr R s s1 t hs hL
          exact Or.inl ⟨Or.inr hp1, by rw [hc1]; exact hcond, hT⟩
        · obtain ⟨hp1, hb1⟩ := sys_step_at_swap R s s1 t hs hL
          exact Or.inr (Or.inl ⟨by rw [hp1]; rfl, by rw [hb1, hcond], hT⟩)
      · rcases sys_step_at_hold R s s1 t b hs hL hbt with ⟨hp1, hb1⟩ | hp1
        · exact Or.inr (Or.inl ⟨hp1, hb1, hT⟩)
        · exact Or.inr (Or.inr (Or.inl ⟨hp1, hT⟩))
      · obtain ⟨hp1, hret1, hcd1⟩ := sys_step_at_wake R s s1 t b h hs hL
        exact Or.inr (Or.inr (Or.inr ⟨hp1, hret1, hcd1, Or.inl hT⟩))
      · obtain ⟨hret1, hcd1⟩ := sys_retired_step R s s1 t b hs hret
        exact Or.inr (Or.inr (Or.inr ⟨sys_step_past R s s1 t hs hL, hret1,
          by rw [hcd1]; exact hcd, hT⟩))
    · have hL1 : s1.pcs L = s.pcs L := sys_step_other R s s1 t L hs (Ne.symm htL)
      rw [hL1]
      rcases hh with ⟨hL, hcond, hT⟩ | ⟨hL, hbt, hT⟩ | ⟨hL, hT⟩ | ⟨hL, hret, hcd, hT⟩
      · have hcrit : (s.pcs L).crit = true := by
          rcases hL with hL | hL <;> rw [hL] <;> rfl
        obtain ⟨hc1, _⟩ := sys_step_noncrit R s s1 t hs
          (sys_others_not_crit R s h L hcrit t htL) (h.held L hcrit)
        exact Or.inl ⟨hL, by rw [hc1]; exact hcond, hT⟩
      · have hcrit : (s.pcs L).crit = true := leads_crit _ (holdsBatch_leads _ hL)
        obtain ⟨_, hb1, _⟩ := sys_step_noncrit R s s1 t hs
          (sys_others_not_crit R s h L hcrit t htL) (h.held L hcrit)
        exact Or.inr (Or.inl ⟨hL, by rw [hb1]; exact hbt, hT⟩)
      · exact Or.inr (Or.inr (Or.inl ⟨hL, hT⟩))
      · obtain ⟨hret1, hcd1⟩ := sys_retired_step R s s1 t b hs hret
        exact Or.inr (Or.inr (Or.inr ⟨hL, hret1, by rw [hcd1]; exact hcd, hT⟩))

/-- The follower's path and the hand-over are kept along every run. -/
theorem sys_handoff_run (R : Nat → Option Nat) (L T b : Nat) :
    ∀ (sched : List Nat) (s s1 : Sys), CInv R s → s.run R sched = some s1 →
      ((s.pcs T).follPath = true → (s1.pcs T).follPath = true) ∧
      (s.Handoff R L T b → s1.Handoff R L T b) := by
  intro sched
  induction sched with
  | nil =>
    intro s s1 _ hr
    simp only [Sys.run, Option.some.injEq] at hr
    rw [← hr]; exact ⟨id, id⟩
  | cons t ts ih =>
    intro s s1 h hr
    simp only [Sys.run] at hr
    cases hs : s.step R t with
    | none => rw [hs] at hr; exact absurd hr (by simp)
    | some s2 =>
      rw [hs] at hr
      have hS := sys_step_cases R s s2 t h hs
      obtain ⟨ih1, ih2⟩ := ih s2 s1 (sys_inv_step R s s2 t h hS) hr
      exact ⟨fun hp => ih1 (sys_follPath_step R s s2 t T hS hp),
        fun hh => ih2 (sys_handoff_step R s s2 t L T b h hS hh)⟩

/-- What the hand-over says of a follower's state: it is inside `wait()` on the token
until the leader has woken it, and a pointer it reads or returns is the leader's. -/
theorem sys_handoff_elim (R : Nat → Option Nat) (s : Sys) (L T b : Nat)
    (hh : s.Handoff R L T b) :
    (s.pcs T = .lock (.wait b) ∨
      (s.pcs L).past = true ∧ ∃ r, R L = some r ∧
        (s.pcs T = .lock (.read b) ∨ s.pcs T = .follower r))
    ∧ ((s.pcs L).past = false → s.pcs T = .lock (.wait b))
    ∧ (R L = none → s.pcs T = .lock (.wait b))
    ∧ (∀ p, s.pcs T = .follower p → R L = some p ∧ (s.pcs L).past = true) := by
  unfold Sys.Handoff at hh
  rcases hh with ⟨_, _, hT⟩ | ⟨_, _, hT⟩ | ⟨_, hT⟩ | ⟨hL, _, _, hT | ⟨r, hr, hT | hT⟩⟩
  · exact ⟨Or.inl hT, fun _ => hT, fun _ => hT, fun p hp => by rw [hT] at hp; simp at hp⟩
  · exact ⟨Or.inl hT, fun _ => hT, fun _ => hT, fun p hp => by rw [hT] at hp; simp at hp⟩
  · exact ⟨Or.inl hT, fun _ => hT, fun _ => hT, fun p hp => by rw [hT] at hp; simp at hp⟩
  · exact ⟨Or.inl hT, fun _ => hT, fun _ => hT, fun p hp => by rw [hT] at hp; simp at hp⟩
  · refine ⟨Or.inr ⟨hL, r, hr, Or.inl hT⟩, fun hn => ?_, fun hn => ?_, fun p hp => ?_⟩
    · rw [hL] at hn; exact absurd hn (by simp)
    · rw [hr] at hn; exact absurd hn (by simp)
    · rw [hT] at hp; simp at hp
  · refine ⟨Or.inr ⟨hL, r, hr, Or.inr hT⟩, fun hn => ?_, fun hn => ?_, fun p hp => ?_⟩
    · rw [hL] at hn; exact absurd hn (by simp)
    · rw [hr] at hn; exact absurd hn (by simp)
    · rw [hT] at hp
      simp only [CallerPc.follower.injEq] at hp
      rw [← hp]
      exact ⟨hr, hL⟩

theorem sys_step_wait_none (R : Nat → Option Nat) (s : Sys) (t b : Nat)
    (hpc : s.pcs t = .lock (.wait b)) (hc : s.mem.conds[b]? = some (cond.mk none)) :
    s.step R t = none := by
  unfold Sys.step
  simp only [hpc, LockStep, hc]

theorem sys_step_wait_some (R : Nat → Option Nat) (s : Sys) (t b p : Nat)
    (hpc : s.pcs t = .lock (.wait b)) (hc : s.mem.conds[b]? = some (cond.mk (some p))) :
    s.step R t = some (s.set s.mem t (.lock (.read b))) := by
  unfold Sys.step
  simp only [hpc, LockStep, hc]

theorem sys_step_read_some (R : Nat → Option Nat) (s : Sys) (t b p : Nat)
    (hpc : s.pcs t = .lock (.read b)) (hc : s.mem.conds[b]? = some (cond.mk (some p))) :
    s.step R t = some (s.set s.mem t (.follower p)) := by
  unfold Sys.step
  simp only [hpc, LockStep, hc]

theorem sys_step_mux_held (R : Nat → Option Nat) (s : Sys) (t : Nat)
    (hpc : s.pcs t = .lock .mux) (hm : s.mem.ll.mux = true) : s.step R t = none := by
  unfold Sys.step
  simp only [hpc, LockStep, hm, if_true]

/-- A caller that finds the mutex free when it calls `this.mux.Lock()` and is scheduled
three times in a row returns the leader role. -/
theorem sys_leader_path (R : Nat → Option Nat) (s : Sys) (t : Nat)
    (hpc : s.pcs t = .lock .mux) (hm : s.mem.ll.mux = false) :
    ∃ s1, s.run R [t, t, t] = some s1 ∧ s1.pcs t = .leader ∧ s1.mem.ll.mux = true ∧
      s1.mem.ll.nr = 0 ∧ s1.mem.ll.batch = some s.mem.ll.cond := by
  have h1 : s.step R t
      = some (s.set { s.mem with ll := { s.mem.ll with mux := true } } t (.lock .storeNr)) := by
    unfold Sys.step
    simp [hpc, LockStep, hm]
  have h2 : ∀ (x : Sys), x.pcs t = .lock .storeNr →
      x.step R t = some (x.set { x.mem with ll := { x.mem.ll with nr := 0 } } t (.lock .swap)) := by
    intro x hx
    unfold Sys.step
    simp [hx, LockStep]
  have h3 : ∀ (x : Sys), x.pcs t = .lock .swap →
      x.step R t = some (x.set
        { ll := { x.mem.ll with cond := x.mem.conds.length, batch := some x.mem.ll.cond },
          conds := x.mem.conds ++ [cond.mk none] } t .leader) := by
    intro x hx
    unfold Sys.step
    simp [hx, LockStep]
  simp only [Sys.run]
  rw [h1]
  simp only
  rw [h2 _ (sys_set_same _ _ _ _)]
  simp only
  rw [h3 _ (sys_set_same _ _ _ _)]
  exact ⟨_, rfl, sys_set_same _ _ _ _, rfl, rfl, rfl⟩

/-- A caller inside the critical section is never blocked. -/
theorem sys_crit_enabled (R : Nat → Option Nat) (s : Sys) (t : Nat) (h : CInv R s)
    (hc : (s.pcs t).crit = true) : ∃ s1, s.step R t = some s1 := by
  apply Option.isSome_iff_exists.mp
  unfold Sys.step
  cases hpc : s.pcs t with
  | lock lp =>
    cases lp with
    | storeNr => simp [LockStep]
    | swap => simp [LockStep]
    | add => rw [hpc] at hc; simp [CallerPc.crit, CallerPc.leads] at hc
    | loadCond => rw [hpc] at hc; simp [CallerPc.crit, CallerPc.leads] at hc
    | wait c => rw [hpc] at hc; simp [CallerPc.crit, CallerPc.leads] at hc
    | read c => rw [hpc] at hc; simp [CallerPc.crit, CallerPc.leads] at hc
    | mux => rw [hpc] at hc; simp [CallerPc.crit, CallerPc.leads] at hc
    | ret u => rw [hpc] at hc; simp [CallerPc.crit, CallerPc.leads] at hc
  | leader => simp
  | unlock up =>
    cases up with
    | swap =>
      obtain ⟨b, hb⟩ := h.batchOf t (by rw [hpc]; rfl)
      simp [UnlockStep, hb]
    | wake b => simp [UnlockStep]
    | mux =>
      have hm := h.held t (by rw [hpc]; rfl)
      simp [UnlockStep, hm]
    | ret => exact absurd hpc (h.trans t).2.1
    | fatal => exact absurd hpc (h.trans t).2.2.1
  | follower p => rw [hpc] at hc; simp [CallerPc.crit, CallerPc.leads] at hc
  | released => rw [hpc] at hc; simp [CallerPc.crit, CallerPc.leads] at hc
  | fatal => rw [hpc] at hc; simp [CallerPc.crit, CallerPc.leads] at hc

/-- What the hand-over gives the follower and the leader: until the leader has woken the
token the follower is blocked inside `wait()` and the leader is not blocked; from then on
the follower, as long as it has not returned the leader's pointer (which is not nil), is
not blocked. -/
theorem sys_handoff_live (R : Nat → Option Nat) (s : Sys) (L T b : Nat) (h : CInv R s)
    (hh : s.Handoff R L T b) :
    ((s.pcs L).past = false →
      s.pcs T = .lock (.wait b) ∧ s.step R T = none ∧ ∃ s1, s.step R L = some s1)
    ∧ (∀ r, R L = some r → (s.pcs L).past = true →
      (s.pcs T = .lock (.wait b) ∨ s.pcs T = .lock (.read b) ∨ s.pcs T = .follower r) ∧
      (s.pcs T ≠ .follower r → ∃ s1, s.step R T = some s1)) := by
  unfold Sys.Handoff at hh
  rcases hh with ⟨hL, hcond, hT⟩ | ⟨hL, hbt, hT⟩ | ⟨hL, hT⟩ | ⟨hL, _, hcd, hT⟩
  · have hcrit : (s.pcs L).crit = true := by
      rcases hL with hL | hL <;> rw [hL] <;> rfl
    have hnp : (s.pcs L).past = false := by
      rcases hL with hL | hL <;> rw [hL] <;> rfl
    refine ⟨fun _ => ⟨hT, sys_step_wait_none R s T b hT (by rw [← hcond]; exact h.condFresh),
      sys_crit_enabled R s L h hcrit⟩, fun _ _ hp => ?_⟩
    rw [hnp] at hp; exact absurd hp (by simp)
  · have hcrit : (s.pcs L).crit = true := leads_crit _ (holdsBatch_leads _ hL)
    have hnp : (s.pcs L).past = false := by
      cases hpc : s.pcs L with
      | leader => rfl
      | unlock up =>
        cases up with
        | swap => rfl
        | _ => rw [hpc] at hL; simp [CallerPc.holdsBatch] at hL
      | _ => rw [hpc] at hL; simp [CallerPc.holdsBatch] at hL
    refine ⟨fun _ => ⟨hT, sys_step_wait_none R s T b hT (h.batchFresh b hbt).1,
      sys_crit_enabled R s L h hcrit⟩, fun _ _ hp => ?_⟩
    rw [hnp] at hp; exact absurd hp (by simp)
  · refine ⟨fun _ => ⟨hT, sys_step_wait_none R s T b hT (h.wakeFresh L b hL).1,
      sys_crit_enabled R s L h (by rw [hL]; rfl)⟩, fun _ _ hp => ?_⟩
    rw [hL] at hp; exact absurd hp (by simp [CallerPc.past])
  · refine ⟨fun hn => ?_, fun r hr _ => ?_⟩
    · rw [hL] at hn; exact absurd hn (by simp)
    · rw [hr] at hcd
      rcases hT with hT | ⟨r1, hr1, hT | hT⟩
      · exact ⟨Or.inl hT, fun _ => ⟨_, sys_step_wait_some R s T b r hT hcd⟩⟩
      · exact ⟨Or.inr (Or.inl hT), fun _ => ⟨_, sys_step_read_some R s T b r hT hcd⟩⟩
      · rw [hr] at hr1
        have : r = r1 := Option.some.inj hr1
        subst this
        exact ⟨Or.inr (Or.inr hT), fun hne => absurd hT hne⟩

/-- An arrival after the leader has reset the arrival counter leads the next batch (the
window the specification accepts), with two callers of a fresh `LeadLock`.  After the
schedule `[0, 0, 0, 1]` caller 0 has taken the mutex and reset `this.nr`, and the increment of
caller 1 has returned 1: caller 1 goes for `this.mux.Lock()`.  Caller 0 then returns the
leader role (`Lock` returns nil) while caller 1 waits for the mutex; and once caller 0 has
called `Unlock(R)` and returned from it, `Lock` returns nil to caller 1 as well: both
calls have returned the leader role, and the other `N - 1 = 1` call has not returned as
a follower with `R`. -/
theorem sys_late_arrival_leads_next_batch :
    (Sys.init.run ownRelease [0, 0, 0, 1]).map
        (fun s => (s.pcs 0, s.pcs 1, s.mem.ll.nr, s.mem.ll.mux))
      = some (.lock .swap, .lock .mux, 1, true)
    ∧ (Sys.init.run ownRelease [0, 0, 0, 1, 0]).map (fun s => (s.pcs 0, s.pcs 1))
      = some (.leader, .lock .mux)
    ∧ (Sys.init.run ownRelease [0, 0, 0, 1, 0, 0, 0, 0, 0, 1, 1, 1]).map
        (fun s => (s.pcs 0, s.pcs 1))
      = some (.released, .leader) := by
  refine ⟨?_, ?_, ?_⟩ <;> decide

/-- What holds of every batch.  Take any system the callers of a fresh `LeadLock` can get into, any
caller `T` and any interleaving that follows.

* If the increment of `T` has returned more than 1 (`T` is about to load the batch
  token), `T` stays on the follower's path and never holds the leader role; when `Lock`
  has returned to it, it has returned a pointer that another caller, a leader that has
  woken its token, passed to `Unlock`.
* If `T` is inside `wait()` on the token of `this.cond` while a leader `L` holds the
  mutex and has not yet swapped that token into `this.batch`, then `T` is in the batch of
  `L`: as long as `L` has not woken the token, `T` is blocked inside `wait()`; if `L`
  passes nil, `T` stays there; a pointer `Lock` returns to `T` is the one `L` passed to
  `Unlock`; and once `L` has woken the token with a pointer that is not nil, `T` is not
  blocked until `Lock` has returned that pointer.
* If the increment of `T` has returned 1 and `T` finds the mutex free, three steps of
  its own make `Lock` return the leader role to it. -/
theorem sys_batches (R : Nat → Option Nat) (s s1 : Sys) (T : Nat) (sched : List Nat)
    (hreach : Sys.Reachable R s) (hrun : s.run R sched = some s1) :
    (s.pcs T = .lock .loadCond →
      (s1.pcs T).follPath = true ∧ (s1.pcs T).leads = false ∧
      ∀ p, s1.pcs T = .follower p →
        ∃ L, L ≠ T ∧ R L = some p ∧ (s1.pcs L).past = true)
    ∧ (∀ L, (s.pcs L = .lock .storeNr ∨ s.pcs L = .lock .swap) →
        s.pcs T = .lock (.wait s.mem.ll.cond) →
        ((s1.pcs L).past = false →
          s1.pcs T = .lock (.wait s.mem.ll.cond) ∧ s1.step R T = none)
        ∧ (R L = none → s1.pcs T = .lock (.wait s.mem.ll.cond))
        ∧ (∀ p, s1.pcs T = .follower p → R L = some p ∧ (s1.pcs L).past = true)
        ∧ (∀ r, R L = some r → (s1.pcs L).past = true → s1.pcs T ≠ .follower r →
            ∃ s2, s1.step R T = some s2))
    ∧ (s1.pcs T = .lock .mux → s1.mem.ll.mux = false →
        ∃ s2, s1.run R [T, T, T] = some s2 ∧ s2.pcs T = .leader) := by
  have h := sys_inv_of_reachable R s hreach
  have h1 : CInv R s1 := sys_inv_run R sched s s1 h hrun
  refine ⟨?_, ?_, ?_⟩
  · intro hT
    have hp := (sys_handoff_run R 0 T 0 sched s s1 h hrun).1 (by rw [hT]; rfl)
    refine ⟨hp, ?_, ?_⟩
    · cases hpc : s1.pcs T with
      | lock lp => rfl
      | follower p => rfl
      | leader => rw [hpc] at hp; simp [CallerPc.follPath] at hp
      | unlock up => rw [hpc] at hp; simp [CallerPc.follPath] at hp
      | released => rw [hpc] at hp; simp [CallerPc.follPath] at hp
      | fatal => rw [hpc] at hp; simp [CallerPc.follPath] at hp
    · intro p hpc
      obtain ⟨L, hL1, hL2⟩ := h1.foll T p hpc
      refine ⟨L, ?_, hL1, hL2⟩
      intro heq
      rw [heq, hpc] at hL2
      simp [CallerPc.past] at hL2
  · intro L hL hT
    have hh : s.Handoff R L T s.mem.ll.cond := Or.inl ⟨hL, rfl, hT⟩
    have hh1 := (sys_handoff_run R L T s.mem.ll.cond sched s s1 h hrun).2 hh
    obtain ⟨_, e2, e3, e4⟩ := sys_handoff_elim R s1 L T s.mem.ll.cond hh1
    obtain ⟨l1, l2⟩ := sys_handoff_live R s1 L T s.mem.ll.cond h1 hh1
    refine ⟨fun hn => ⟨(l1 hn).1, (l1 hn).2.1⟩, e3, e4, ?_⟩
    intro r hr hp hne
    exact (l2 r hr hp).2 hne
  · intro hT hm
    obtain ⟨s2, hs2, hp2, _⟩ := sys_leader_path R s1 T hT hm
    exact ⟨s2, hs2, hp2⟩

/-- An instance of `sys_batches`: the increment of caller 1 returns 2, it loads the batch
token, caller 0 leads and releases with its pointer 100, and caller 1 returns 100. -/
theorem sys_batches_example :
    Sys.Reachable ownRelease (Sys.after ownRelease [0, 1])
    ∧ (Sys.after ownRelease [0, 1]).pcs 1 = .lock .loadCond
    ∧ (Sys.after ownRelease [0, 1]).run ownRelease [1, 0, 0, 0, 0, 0, 0, 0, 1, 1]
        = some (Sys.after ownRelease [0, 1, 1, 0, 0, 0, 0, 0, 0, 0, 1, 1])
    ∧ (Sys.after ownRelease [0, 1, 1, 0, 0, 0, 0, 0, 0, 0, 1, 1]).pcs 1 = .follower 100
    ∧ ∃ L, L ≠ 1 ∧ ownRelease L = some 100 ∧
        ((Sys.after ownRelease [0, 1, 1, 0, 0, 0, 0, 0, 0, 0, 1, 1]).pcs L).past = true := by
  have hr : Sys.Reachable ownRelease (Sys.after ownRelease [0, 1]) :=
    sys_reachable_after ownRelease _ (by decide)
  have h1 : (Sys.after ownRelease [0, 1]).run ownRelease [1, 0, 0, 0, 0, 0, 0, 0, 1, 1]
      = some (Sys.after ownRelease [0, 1, 1, 0, 0, 0, 0, 0, 0, 0, 1, 1]) :=
    sys_run_after ownRelease [0, 1] [1, 0, 0, 0, 0, 0, 0, 0, 1, 1] (by decide)
  have hpc : (Sys.after ownRelease [0, 1, 1, 0, 0, 0, 0, 0, 0, 0, 1, 1]).pcs 1
      = .follower 100 := by decide
  exact ⟨hr, by decide, h1, hpc,
    ((sys_batches ownRelease _ _ 1 _ hr h1).1 (by decide)).2.2 100 hpc⟩

/-! ## The claims on `LeadLock` -/

/-- C13 fails on the code: a wake-up is lost.  `N = 2` concurrent calls of `Lock()` on a
fresh `LeadLock`, every step traced on `leadlock.go`; a leader passes the pointer
`100 + i` (not nil) to `Unlock`.

* After the schedule `[0, 1]` the increment of caller 0 has returned 1 (it will lead) and
  that of caller 1 has returned 2: caller 1 is a follower of this batch, about to execute
  `atomic.LoadPointer(ptr)` (line 54).
* Before it does, caller 0 takes the mutex, resets `this.nr` and swaps a new token into
  `this.cond` (line 60), keeping the old token 0 in `this.batch`; `Lock` returns the
  leader role to it.  Caller 1 now loads the new token 1 and enters `wait()` on it.
* Caller 0 calls `Unlock(100)`: it wakes token 0, frees the mutex and returns.  Exactly
  one call has returned the leader role and that leader has called `Unlock(R)`, but the
  other call has not returned as a follower with `R` and never will: token 1 is not
  woken, caller 1 is blocked inside `wait()` and caller 0 has nothing left to do.
* Only a third call arriving later gets caller 1 out: it leads the next batch, its
  `Unlock(102)` wakes token 1, and `Lock` returns 102 to caller 1, not the `R = 100` of
  the leader in whose batch its increment counted it. -/
theorem C13_lost_wakeup :
    (Sys.init.run ownRelease [0, 1]).map (fun s => (s.pcs 0, s.pcs 1, s.mem.ll.nr))
      = some (.lock .mux, .lock .loadCond, 2)
    ∧ (Sys.init.run ownRelease [0, 1, 0, 0, 0, 1]).map
        (fun s => (s.pcs 0, s.pcs 1, s.mem.ll.batch, s.mem.ll.cond))
      = some (.leader, .lock (.wait 1), some 0, 1)
    ∧ (Sys.init.run ownRelease [0, 1, 0, 0, 0, 1, 0, 0, 0, 0]).map
        (fun s => (s.pcs 0, s.pcs 1, s.mem.conds, s.mem.ll.mux))
      = some (.released, .lock (.wait 1), [⟨some 100⟩, ⟨none⟩], false)
    ∧ (Sys.init.run ownRelease [0, 1, 0, 0, 0, 1, 0, 0, 0, 0]).map
        (fun s => ((s.step ownRelease 0).isSome, (s.step ownRelease 1).isSome))
      = some (false, false)
    ∧ (Sys.init.run ownRelease
        [0, 1, 0, 0, 0, 1, 0, 0, 0, 0, 2, 2, 2, 2, 2, 2, 2, 2, 1, 1]).map
        (fun s => (s.pcs 0, s.pcs 1, s.pcs 2))
      = some (.released, .follower 102, .released) := by
  refine ⟨?_, ?_, ?_, ?_, ?_⟩ <;> decide

/-- C14, refuted as stated, at the nil pointer.  Caller 0 is the current leader of a
fresh `LeadLock` and caller 1 is blocked in `wait()` on its batch token (address 0).
The leader calls `Unlock(nil)` and returns from it: `wake` has stored nil in the token,
so the loop condition `this.uptr == nil` of caller 1 is still true, caller 1 is still
inside `wait()` and cannot take a step: its `Lock` call has not returned. -/
theorem C14_counterexample :
    (Sys.init.run nilRelease [0, 1, 1, 0, 0, 0]).map
        (fun s => (s.pcs 0, s.pcs 1, s.mem.ll.batch, s.mem.conds[0]?))
      = some (.leader, .lock (.wait 0), some 0, some (cond.mk none))
    ∧ (Sys.init.run nilRelease [0, 1, 1, 0, 0, 0, 0, 0, 0, 0]).map
        (fun s => (s.pcs 0, s.pcs 1, s.mem.conds[0]?, s.mem.ll.mux,
          (s.step nilRelease 1).isSome))
      = some (.released, .lock (.wait 0), some (cond.mk none), false, false) := by
  refine ⟨?_, ?_⟩ <;> decide

/-- C14 as amended.  In any system the callers of a fresh `LeadLock` can get into, let
`L` be the current leader with the batch token `b` (still in `this.batch`, or taken back
by its `Unlock` and about to be woken), let `T` be blocked in `wait()` on `b`, and let the
pointer `r` that `L` passes to `Unlock` be not nil.  Then under any interleaving that
follows:

* as long as `L` has not woken the token, `T` is still blocked inside `wait()` and `L` is
  not blocked;
* the step of `L` that wakes the token stores `r` in it, and makes the loop condition of
  `T` false: the next step of `T` leaves `wait()`;
* from then on `T` is inside `wait()`, reads the token or has returned `r`, and it is not
  blocked until `Lock` has returned `r` to it;
* a pointer `Lock` returns to `T` is `r`. -/
theorem C14_release_delivers (R : Nat → Option Nat) (s s1 : Sys) (L T b r : Nat)
    (sched : List Nat) (hreach : Sys.Reachable R s)
    (hLb : ((s.pcs L).holdsBatch = true ∧ s.mem.ll.batch = some b) ∨
      s.pcs L = .unlock (.wake b))
    (hT : s.pcs T = .lock (.wait b)) (hR : R L = some r)
    (hrun : s.run R sched = some s1) :
    ((s1.pcs L).past = false →
      s1.pcs T = .lock (.wait b) ∧ s1.step R T = none ∧ ∃ s2, s1.step R L = some s2)
    ∧ (∀ s2, s1.pcs L = .unlock (.wake b) → s1.step R L = some s2 →
        s2.mem.conds[b]? = some (cond.mk (some r)) ∧
        ∃ s3, s2.step R T = some s3 ∧ s3.pcs T = .lock (.read b))
    ∧ ((s1.pcs L).past = true →
        (s1.pcs T = .lock (.wait b) ∨ s1.pcs T = .lock (.read b) ∨
          s1.pcs T = .follower r) ∧
        (s1.pcs T ≠ .follower r → ∃ s2, s1.step R T = some s2))
    ∧ (∀ p, s1.pcs T = .follower p → p = r) := by
  have h := sys_inv_of_reachable R s hreach
  have h1 : CInv R s1 := sys_inv_run R sched s s1 h hrun
  have hh : s.Handoff R L T b := by
    rcases hLb with ⟨hL, hb⟩ | hL
    · exact Or.inr (Or.inl ⟨hL, hb, hT⟩)
    · exact Or.inr (Or.inr (Or.inl ⟨hL, hT⟩))
  have hh1 := (sys_handoff_run R L T b sched s s1 h hrun).2 hh
  obtain ⟨l1, l2⟩ := sys_handoff_live R s1 L T b h1 hh1
  refine ⟨l1, ?_, l2 r hR, ?_⟩
  · intro s2 hL1 hs2
    have hS := sys_step_cases R s1 s2 L h1 hs2
    obtain ⟨_, _, hcd⟩ := sys_step_at_wake R s1 s2 L b h1 hS hL1
    rw [hR] at hcd
    have hT1 : s1.pcs T = .lock (.wait b) := (l1 (by rw [hL1]; rfl)).1
    have hLT : T ≠ L := by
      intro heq
      rw [heq, hL1] at hT1
      simp at hT1
    have hT2 : s2.pcs T = .lock (.wait b) := by
      rw [sys_step_other R s1 s2 L T hS hLT]; exact hT1
    exact ⟨hcd, _, sys_step_wait_some R s2 T b r hT2 hcd, sys_set_same _ _ _ _⟩
  · intro p hp
    have := ((sys_handoff_elim R s1 L T b hh1).2.2.2 p hp).1
    rw [hR] at this
    exact (Option.some.inj this).symm

/-- Witness of `C14_release_delivers`: caller 0 leads with the token 0 in `this.batch`,
caller 1 waits on it; caller 0 releases with its pointer 100 and caller 1 returns 100;
before the wake-up caller 1 is blocked and caller 0 is not. -/
theorem C14_release_delivers_witness :
    Sys.Reachable ownRelease (Sys.after ownRelease [0, 1, 1, 0, 0, 0])
    ∧ ((Sys.after ownRelease [0, 1, 1, 0, 0, 0]).pcs 0).holdsBatch = true
    ∧ (Sys.after ownRelease [0, 1, 1, 0, 0, 0]).mem.ll.batch = some 0
    ∧ (Sys.after ownRelease [0, 1, 1, 0, 0, 0]).pcs 1 = .lock (.wait 0)
    ∧ ownRelease 0 = some 100
    ∧ (Sys.after ownRelease [0, 1, 1, 0, 0, 0]).run ownRelease [0, 0, 0, 0, 1, 1]
        = some (Sys.after ownRelease [0, 1, 1, 0, 0, 0, 0, 0, 0, 0, 1, 1])
    ∧ (Sys.after ownRelease [0, 1, 1, 0, 0, 0, 0, 0, 0, 0, 1, 1]).pcs 1 = .follower 100
    ∧ ((Sys.after ownRelease [0, 1, 1, 0, 0, 0, 0, 0]).pcs 1 = .lock (.wait 0)
      ∧ (Sys.after ownRelease [0, 1, 1, 0, 0, 0, 0, 0]).step ownRelease 1 = none
      ∧ ∃ s2, (Sys.after ownRelease [0, 1, 1, 0, 0, 0, 0, 0]).step ownRelease 0 = some s2) := by
  have hr : Sys.Reachable ownRelease (Sys.after ownRelease [0, 1, 1, 0, 0, 0]) :=
    sys_reachable_after ownRelease _ (by decide)
  have h1 : (Sys.after ownRelease [0, 1, 1, 0, 0, 0]).run ownRelease [0, 0, 0, 0, 1, 1]
      = some (Sys.after ownRelease [0, 1, 1, 0, 0, 0, 0, 0, 0, 0, 1, 1]) :=
    sys_run_after ownRelease [0, 1, 1, 0, 0, 0] [0, 0, 0, 0, 1, 1] (by decide)
  have hpc : (Sys.after ownRelease [0, 1, 1, 0, 0, 0, 0, 0, 0, 0, 1, 1]).pcs 1
      = .follower 100 := by decide
  have h2 : (Sys.after ownRelease [0, 1, 1, 0, 0, 0]).run ownRelease [0, 0]
      = some (Sys.after ownRelease [0, 1, 1, 0, 0, 0, 0, 0]) :=
    sys_run_after ownRelease [0, 1, 1, 0, 0, 0] [0, 0] (by decide)
  exact ⟨hr, by decide, by decide, by decide, rfl, h1, hpc,
    (C14_release_delivers ownRelease _ _ 0 1 0 100 _ hr (Or.inl ⟨by decide, by decide⟩)
      (by decide) rfl h2).1 (by decide)⟩

/-- C15 (at most one leader).  In every system the callers of a fresh `LeadLock` can get
into, by any interleaving of the steps of their `Lock()` calls and of the `Unlock(R)`
calls of the callers that were returned the leader role:

* at most one caller holds the leader role, and while one does the mutex is held;
* nobody else is then between `this.mux.Lock()` and the return of `Lock`, so no second
  leader is being elected;
* a caller that arrived after the counter reset and calls `this.mux.Lock()` while a
  caller holds the leader role is blocked; and when a caller does get the mutex, nobody
  holds the leader role. -/
theorem C15_at_most_one_leader (R : Nat → Option Nat) (s : Sys)
    (hreach : Sys.Reachable R s) :
    (∀ i j, (s.pcs i).leads = true → (s.pcs j).leads = true → i = j)
    ∧ (∀ i, (s.pcs i).leads = true → s.mem.ll.mux = true)
    ∧ (∀ i j, (s.pcs i).leads = true →
        s.pcs j ≠ .lock .storeNr ∧ s.pcs j ≠ .lock .swap)
    ∧ (∀ i j, (s.pcs i).leads = true → s.pcs j = .lock .mux → s.step R j = none)
    ∧ (∀ j s1, s.pcs j = .lock .mux → s.step R j = some s1 →
        ∀ i, (s.pcs i).leads = false ∧ (i ≠ j → (s1.pcs i).leads = false)) := by
  have h := sys_inv_of_reachable R s hreach
  refine ⟨?_, ?_, ?_, ?_, ?_⟩
  · intro i j hi hj
    exact h.excl i j (leads_crit _ hi) (leads_crit _ hj)
  · intro i hi
    exact h.held i (leads_crit _ hi)
  · intro i j hi
    constructor
    · intro hj
      have := h.excl i j (leads_crit _ hi) (by rw [hj]; rfl)
      rw [this, hj] at hi
      simp [CallerPc.leads] at hi
    · intro hj
      have := h.excl i j (leads_crit _ hi) (by rw [hj]; rfl)
      rw [this, hj] at hi
      simp [CallerPc.leads] at hi
  · intro i j hi hj
    exact sys_step_mux_held R s j hj (h.held i (leads_crit _ hi))
  · intro j s1 hj hs i
    have hm : s.mem.ll.mux = false := by
      cases hmx : s.mem.ll.mux with
      | false => rfl
      | true =>
        rw [sys_step_mux_held R s j hj hmx] at hs
        exact absurd hs (by simp)
    have hnc := sys_none_crit_of_free R s h hm i
    have hl : (s.pcs i).leads = false := by
      cases hx : (s.pcs i).leads with
      | false => rfl
      | true =>
        rw [leads_crit _ hx] at hnc
        exact absurd hnc (by simp)
    refine ⟨hl, fun hij => ?_⟩
    rw [sys_step_other R s s1 j i (sys_step_cases R s s1 j h hs) hij]
    exact hl

/-- Witness of `C15_at_most_one_leader`: caller 0 holds the leader role and caller 1,
whose increment returned 1 after the reset, is blocked in `this.mux.Lock()`. -/
theorem C15_at_most_one_leader_witness :
    Sys.Reachable ownRelease (Sys.after ownRelease [0, 0, 0, 1, 0])
    ∧ ((Sys.after ownRelease [0, 0, 0, 1, 0]).pcs 0).leads = true
    ∧ (Sys.after ownRelease [0, 0, 0, 1, 0]).pcs 1 = .lock .mux
    ∧ (Sys.after ownRelease [0, 0, 0, 1, 0]).step ownRelease 1 = none := by
  have hr : Sys.Reachable ownRelease (Sys.after ownRelease [0, 0, 0, 1, 0]) :=
    sys_reachable_after ownRelease _ (by decide)
  exact ⟨hr, by decide, by decide,
    (C15_at_most_one_leader ownRelease _ hr).2.2.2.1 0 1 (by decide) (by decide)⟩

end lock

/-! # Proofs on `MultiMap` -/

namespace syncmultimap

/-- C16 (`MultiMap.Remove` drops an emptied key), evaluated on a map with one value:
after `Add("testKey2", 3)` the call `Remove("testKey2", 3)` removes the last value of
the key, so the key's set is empty; `MultiMapSet.Remove` returns from inside its loop
right after the removal and never gets to `if len(s.values) == 0`, so the set stays in
the map and `ContainsKey("testKey2")` is still true.  (Only a further `Remove`, which
finds nothing to remove, reaches the test and deletes the key.) -/
theorem C16_remove_keeps_emptied_key :
    ((NewMultiMap : MultiMap Nat).Add "testKey2" 3).valuesOf "testKey2" = [3]
    ∧ (((NewMultiMap : MultiMap Nat).Add "testKey2" 3).Remove "testKey2" 3).valuesOf
        "testKey2" = []
    ∧ (((NewMultiMap : MultiMap Nat).Add "testKey2" 3).Remove "testKey2" 3).ContainsKey
        "testKey2" = true
    ∧ ((((NewMultiMap : MultiMap Nat).Add "testKey2" 3).Remove "testKey2" 3).Remove
        "testKey2" 3).ContainsKey "testKey2" = false := by
  refine ⟨?_, ?_, ?_, ?_⟩ <;> decide

end syncmultimap

/-! # Proofs on `Group.Use` -/

namespace singleflight

section UseProofs

variable {Res Er : Type}

/-- A caller that enters the set counted by `p`. -/
theorem upd_insert {α : Type} (p : α → Bool) (f : Nat → α) (t : Nat) (x : α)
    (ms : List Nat) (hnd : ms.Nodup) (hm : ∀ i, i ∈ ms ↔ p (f i) = true)
    (hold : p (f t) = false) (hnew : p x = true) :
    (t :: ms).Nodup ∧ (∀ i, i ∈ t :: ms ↔ p (Function.update f t x i) = true) := by
  have htm : t ∉ ms := by
    intro hin
    rw [(hm t).mp hin] at hold
    exact absurd hold (by simp)
  refine ⟨List.nodup_cons.mpr ⟨htm, hnd⟩, ?_⟩
  intro i
  by_cases hit : i = t
  · subst hit
    rw [Function.update_same]
    simp [hnew]
  · rw [Function.update_noteq hit, List.mem_cons]
    constructor
    · intro hi
      rcases hi with hi | hi
      · exact absurd hi hit
      · exact (hm i).mp hi
    · intro hi
      exact Or.inr ((hm i).mpr hi)

/-- A caller that stays in, or stays out of, the set counted by `p`. -/
theorem upd_keep {α : Type} (p : α → Bool) (f : Nat → α) (t : Nat) (x : α)
    (ms : List Nat) (hm : ∀ i, i ∈ ms ↔ p (f i) = true) (hsame : p x = p (f t)) :
    ∀ i, i ∈ ms ↔ p (Function.update f t x i) = true := by
  intro i
  by_cases hit : i = t
  · subst hit
    rw [Function.update_same, hsame]
    exact hm i
  · rw [Function.update_noteq hit]
    exact hm i

/-- A caller that leaves the set counted by `p`. -/
theorem upd_erase {α : Type} (p : α → Bool) (f : Nat → α) (t : Nat) (x : α)
    (ms : List Nat) (hnd : ms.Nodup) (hm : ∀ i, i ∈ ms ↔ p (f i) = true)
    (hold : p (f t) = true) (hnew : p x = false) :
    (ms.erase t).Nodup ∧ (∀ i, i ∈ ms.erase t ↔ p (Function.update f t x i) = true) ∧
      (ms.erase t).length = ms.length - 1 ∧ 1 ≤ ms.length := by
  have htm : t ∈ ms := (hm t).mpr hold
  refine ⟨hnd.erase t, ?_, List.length_erase_of_mem htm, List.length_pos_of_mem htm⟩
  intro i
  rw [hnd.mem_erase_iff]
  by_cases hit : i = t
  · subst hit
    rw [Function.update_same, hnew]
    simp
  · rw [Function.update_noteq hit]
    constructor
    · intro hi; exact (hm i).mp hi.2
    · intro hi; exact ⟨hit, (hm i).mpr hi⟩

/-- A list without duplicates that holds exactly the numbers below `N` has length `N`. -/
theorem nodup_length_below (l : List Nat) (N : Nat) (hnd : l.Nodup)
    (hm : ∀ t, t ∈ l ↔ t < N) : l.length = N := by
  have hp : l.Perm (List.range N) :=
    (List.perm_ext_iff_of_nodup hnd (List.nodup_range N)).mpr
      (fun t => by rw [hm, List.mem_range])
  rw [hp.length_eq, List.length_range]

theorem useInv_init (N : Nat) (creates : Nat → Option Res × Option Er) :
    UseInv N creates (UseWorld.init : UseWorld Res Er) := by
  constructor
  · intro t _; rfl
  · exact ⟨[], List.nodup_nil, fun t => by simp [UseWorld.init, UsePc.inSession], rfl⟩
  · intro _; rfl
  · exact ⟨fun t ht => by simp [UseWorld.init] at ht,
      fun hp => by simp [UseWorld.init] at hp,
      fun i j hi => by simp [UseWorld.init] at hi⟩
  · intro t r e ht; simp [UseWorld.init] at ht
  · exact ⟨fun t r ht => by simp [UseWorld.init] at ht,
      fun hp => by simp [UseWorld.init] at hp,
      fun i j r r1 hi => by simp [UseWorld.init] at hi⟩
  · intro _
    refine ⟨fun _ => rfl, fun r e hp => by simp [UseWorld.init] at hp,
      fun hp => by simp [UseWorld.init] at hp,
      fun x hx => by simp [UseWorld.init] at hx,
      ⟨[], List.nodup_nil, fun t => by simp [UseWorld.init, UsePc.begun], rfl⟩,
      ⟨[], List.nodup_nil, fun t => by simp [UseWorld.init, UsePc.handled], rfl⟩⟩
  · intro hp
    rcases hp with hp | ⟨r, e, hp⟩ <;> simp [UseWorld.init] at hp
/-- The step of a caller that begins a session keeps the invariant. -/
theorem useInv_begin (N : Nat) (creates : Nat → Option Res × Option Er)
    (w : UseWorld Res Er) (t : Nat) (h : UseInv N creates w) (ht : t < N)
    (hpc : w.pcs t = .start) (hph : w.phase = .idle) :
    UseInv N creates { w with phase := .creating, active := 1,
                              pcs := Function.update w.pcs t .create } := by
  obtain ⟨ms, hnd, hm, hlen⟩ := h.members
  have hact : w.active = 0 := h.quiet (Or.inl hph)
  have hms : ms = [] := List.length_eq_zero.mp (by rw [← hlen]; exact hact)
  subst hms
  have hout : ∀ i, (w.pcs i).inSession = false := by
    intro i
    cases hx : (w.pcs i).inSession with
    | false => rfl
    | true => exact absurd ((hm i).mpr hx) (by simp)
  have hnoc : ∀ i, w.pcs i ≠ .create := by
    intro i hi
    have := hout i
    rw [hi] at this
    simp [UsePc.inSession] at this
  have hnoh : ∀ (i : Nat) (r : Option Res) (e : Option Er), w.pcs i ≠ .handle r e := by
    intro i r e hi
    have := hout i
    rw [hi] at this
    simp [UsePc.inSession] at this
  have hnod : ∀ (i : Nat) (r : Option Res), w.pcs i ≠ .dispose r := by
    intro i r hi
    have := h.disposer.1 i r hi
    rw [hph] at this
    simp at this
  constructor
  · intro i hi
    dsimp only
    rw [Function.update_noteq (by omega)]
    exact h.fresh i hi
  · dsimp only
    obtain ⟨h1, h2⟩ := upd_insert UsePc.inSession w.pcs t (.create : UsePc Res Er) []
      List.nodup_nil hm (hout t) rfl
    exact ⟨[t], h1, h2, rfl⟩
  · dsimp only
    intro hp
    rcases hp with hp | hp <;> simp at hp
  · dsimp only
    refine ⟨fun _ _ => rfl, fun _ => ⟨t, Function.update_same _ _ _⟩, ?_⟩
    intro i j hi hj
    by_cases hit : i = t
    · by_cases hjt : j = t
      · rw [hit, hjt]
      · rw [Function.update_noteq hjt] at hj; exact absurd hj (hnoc j)
    · rw [Function.update_noteq hit] at hi; exact absurd hi (hnoc i)
  · dsimp only
    intro i r e hi
    by_cases hit : i = t
    · rw [hit, Function.update_same] at hi; simp at hi
    · rw [Function.update_noteq hit] at hi; exact absurd hi (hnoh i r e)
  · dsimp only
    refine ⟨?_, fun hp => by simp at hp, ?_⟩
    · intro i r hi
      by_cases hit : i = t
      · rw [hit, Function.update_same] at hi; simp at hi
      · rw [Function.update_noteq hit] at hi; exact absurd hi (hnod i r)
    · intro i j r r1 hi _
      by_cases hit : i = t
      · rw [hit, Function.update_same] at hi; simp at hi
      · rw [Function.update_noteq hit] at hi; exact absurd hi (hnod i r)
  · dsimp only
    intro hd
    obtain ⟨f1, _, _, f4, ⟨bs, b1, b2, b3⟩, ⟨fs, g1, g2, g3⟩⟩ := h.first hd
    refine ⟨fun _ => f1 (Or.inl hph), fun r e hp => by simp at hp,
      fun hp => by simp at hp, f4,
      ⟨bs, b1, upd_keep UsePc.begun w.pcs t _ bs b2 (by rw [hpc]; rfl), b3⟩,
      ⟨fs, g1, upd_keep UsePc.handled w.pcs t _ fs g2 (by rw [hpc]; rfl), g3⟩⟩
  · dsimp only
    intro _; exact Nat.le_refl _

/-- The step of a caller that joins a session keeps the invariant. -/
theorem useInv_join (N : Nat) (creates : Nat → Option Res × Option Er)
    (w : UseWorld Res Er) (t : Nat) (h : UseInv N creates w) (ht : t < N)
    (hpc : w.pcs t = .start)
    (hph : w.phase = .creating ∨ ∃ r e, w.phase = .ready r e) :
    UseInv N creates { w with active := w.active + 1,
                              pcs := Function.update w.pcs t .wait } := by
  obtain ⟨ms, hnd, hm, hlen⟩ := h.members
  constructor
  · intro i hi
    dsimp only
    rw [Function.update_noteq (by omega)]
    exact h.fresh i hi
  · dsimp only
    obtain ⟨h1, h2⟩ := upd_insert UsePc.inSession w.pcs t (.wait : UsePc Res Er) ms
      hnd hm (by rw [hpc]; rfl) rfl
    exact ⟨t :: ms, h1, h2, by rw [hlen]; rfl⟩
  · dsimp only
    intro hp
    rcases hph with hph | ⟨r, e, hph⟩ <;> rw [hph] at hp <;> rcases hp with hp | hp <;>
      simp at hp
  · dsimp only
    refine ⟨?_, ?_, ?_⟩
    · intro i hi
      by_cases hit : i = t
      · rw [hit, Function.update_same] at hi; simp at hi
      · rw [Function.update_noteq hit] at hi; exact h.creator.1 i hi
    · intro hp
      obtain ⟨c, hc⟩ := h.creator.2.1 hp
      have hct : c ≠ t := by
        intro heq; rw [heq, hpc] at hc; simp at hc
      exact ⟨c, by rw [Function.update_noteq hct]; exact hc⟩
    · intro i j hi hj
      by_cases hit : i = t
      · rw [hit, Function.update_same] at hi; simp at hi
      · by_cases hjt : j = t
        · rw [hjt, Function.update_same] at hj; simp at hj
        · rw [Function.update_noteq hit] at hi
          rw [Function.update_noteq hjt] at hj
          exact h.creator.2.2 i j hi hj
  · dsimp only
    intro i r e hi
    by_cases hit : i = t
    · rw [hit, Function.update_same] at hi; simp at hi
    · rw [Function.update_noteq hit] at hi; exact h.handler i r e hi
  · dsimp only
    refine ⟨?_, ?_, ?_⟩
    · intro i r hi
      by_cases hit : i = t
      · rw [hit, Function.update_same] at hi; simp at hi
      · rw [Function.update_noteq hit] at hi; exact h.disposer.1 i r hi
    · intro hp
      rcases hph with hph | ⟨r, e, hph⟩ <;> rw [hph] at hp <;> simp at hp
    · intro i j r r1 hi hj
      by_cases hit : i = t
      · rw [hit, Function.update_same] at hi; simp at hi
      · by_cases hjt : j = t
        · rw [hjt, Function.update_same] at hj; simp at hj
        · rw [Function.update_noteq hit] at hi
          rw [Function.update_noteq hjt] at hj
          exact h.disposer.2.2 i j r r1 hi hj
  · dsimp only
    intro hd
    obtain ⟨f1, f2, f3, f4, ⟨bs, b1, b2, b3⟩, ⟨fs, g1, g2, g3⟩⟩ := h.first hd
    exact ⟨f1, f2, f3, f4,
      ⟨bs, b1, upd_keep UsePc.begun w.pcs t _ bs b2 (by rw [hpc]; rfl), b3⟩,
      ⟨fs, g1, upd_keep UsePc.handled w.pcs t _ fs g2 (by rw [hpc]; rfl), g3⟩⟩
  · dsimp only
    intro _; exact Nat.le_add_left _ _
/-- The completion of `create` keeps the invariant. -/
theorem useInv_created (N : Nat) (creates : Nat → Option Res × Option Er)
    (w : UseWorld Res Er) (t : Nat) (h : UseInv N creates w) (ht : t < N)
    (hpc : w.pcs t = .create) :
    UseInv N creates { w with phase := .ready (creates t).1 (creates t).2,
                              creators := w.creators ++ [t],
                              pcs := Function.update w.pcs t .wait } := by
  obtain ⟨ms, hnd, hm, hlen⟩ := h.members
  have hph : w.phase = .creating := h.creator.1 t hpc
  have hnoc : ∀ i, i ≠ t → w.pcs i ≠ .create := by
    intro i hit hi
    exact hit (h.creator.2.2 i t hi hpc)
  have hnoh : ∀ (i : Nat) (r : Option Res) (e : Option Er), w.pcs i ≠ .handle r e := by
    intro i r e hi
    have := h.handler i r e hi
    rw [hph] at this
    simp at this
  have hnod : ∀ (i : Nat) (r : Option Res), w.pcs i ≠ .dispose r := by
    intro i r hi
    have := h.disposer.1 i r hi
    rw [hph] at this
    simp at this
  constructor
  · intro i hi
    dsimp only
    rw [Function.update_noteq (by omega)]
    exact h.fresh i hi
  · dsimp only
    exact ⟨ms, hnd, upd_keep UsePc.inSession w.pcs t _ ms hm (by rw [hpc]; rfl), hlen⟩
  · dsimp only
    intro hp
    rcases hp with hp | hp <;> simp at hp
  · dsimp only
    refine ⟨?_, fun hp => by simp at hp, ?_⟩
    · intro i hi
      by_cases hit : i = t
      · rw [hit, Function.update_same] at hi; simp at hi
      · rw [Function.update_noteq hit] at hi; exact absurd hi (hnoc i hit)
    · intro i j hi _
      by_cases hit : i = t
      · rw [hit, Function.update_same] at hi; simp at hi
      · rw [Function.update_noteq hit] at hi; exact absurd hi (hnoc i hit)
  · dsimp only
    intro i r e hi
    by_cases hit : i = t
    · rw [hit, Function.update_same] at hi; simp at hi
    · rw [Function.update_noteq hit] at hi; exact absurd hi (hnoh i r e)
  · dsimp only
    refine ⟨?_, fun hp => by simp at hp, ?_⟩
    · intro i r hi
      by_cases hit : i = t
      · rw [hit, Function.update_same] at hi; simp at hi
      · rw [Function.update_noteq hit] at hi; exact absurd hi (hnod i r)
    · intro i j r r1 hi _
      by_cases hit : i = t
      · rw [hit, Function.update_same] at hi; simp at hi
      · rw [Function.update_noteq hit] at hi; exact absurd hi (hnod i r)
  · dsimp only
    intro hd
    obtain ⟨f1, _, _, f4, ⟨bs, b1, b2, b3⟩, ⟨fs, g1, g2, g3⟩⟩ := h.first hd
    have hcr : w.creators = [] := f1 (Or.inr hph)
    refine ⟨fun hp => by rcases hp with hp | hp <;> simp at hp, ?_,
      fun hp => by simp at hp, ?_,
      ⟨bs, b1, upd_keep UsePc.begun w.pcs t _ bs b2 (by rw [hpc]; rfl), b3⟩,
      ⟨fs, g1, upd_keep UsePc.handled w.pcs t _ fs g2 (by rw [hpc]; rfl), g3⟩⟩
    · intro r e hp
      simp only [Phase.ready.injEq] at hp
      refine ⟨t, by rw [hcr]; rfl, ?_⟩
      rw [← hp.1, ← hp.2]
    · intro x hx
      obtain ⟨c, hc, _⟩ := f4 x hx
      rw [hcr] at hc
      simp at hc
  · dsimp only
    intro _; exact h.live (Or.inl hph)

/-- The step of a caller that begins `handle` keeps the invariant. -/
theorem useInv_handle (N : Nat) (creates : Nat → Option Res × Option Er)
    (w : UseWorld Res Er) (t : Nat) (r : Option Res) (e : Option Er)
    (h : UseInv N creates w) (ht : t < N)
    (hpc : w.pcs t = .wait) (hph : w.phase = .ready r e) :
    UseInv N creates { w with handleStarts := w.handleStarts ++ [(r, e)],
                              pcs := Function.update w.pcs t (.handle r e) } := by
  obtain ⟨ms, hnd, hm, hlen⟩ := h.members
  constructor
  · intro i hi
    dsimp only
    rw [Function.update_noteq (by omega)]
    exact h.fresh i hi
  · dsimp only
    exact ⟨ms, hnd, upd_keep UsePc.inSession w.pcs t _ ms hm (by rw [hpc]; rfl), hlen⟩
  · dsimp only
    exact h.quiet
  · dsimp only
    refine ⟨?_, ?_, ?_⟩
    · intro i hi
      by_cases hit : i = t
      · rw [hit, Function.update_same] at hi; simp at hi
      · rw [Function.update_noteq hit] at hi; exact h.creator.1 i hi
    · intro hp
      rw [hph] at hp; simp at hp
    · intro i j hi hj
      by_cases hit : i = t
      · rw [hit, Function.update_same] at hi; simp at hi
      · by_cases hjt : j = t
        · rw [hjt, Function.update_same] at hj; simp at hj
        · rw [Function.update_noteq hit] at hi
          rw [Function.update_noteq hjt] at hj
          exact h.creator.2.2 i j hi hj
  · dsimp only
    intro i r1 e1 hi
    by_cases hit : i = t
    · rw [hit, Function.update_same] at hi
      simp only [UsePc.handle.injEq] at hi
      rw [← hi.1, ← hi.2]; exact hph
    · rw [Function.update_noteq hit] at hi; exact h.handler i r1 e1 hi
  · dsimp only
    refine ⟨?_, ?_, ?_⟩
    · intro i r1 hi
      by_cases hit : i = t
      · rw [hit, Function.update_same] at hi; simp at hi
      · rw [Function.update_noteq hit] at hi; exact h.disposer.1 i r1 hi
    · intro hp
      rw [hph] at hp; simp at hp
    · intro i j r1 r2 hi hj
      by_cases hit : i = t
      · rw [hit, Function.update_same] at hi; simp at hi
      · by_cases hjt : j = t
        · rw [hjt, Function.update_same] at hj; simp at hj
        · rw [Function.update_noteq hit] at hi
          rw [Function.update_noteq hjt] at hj
          exact h.disposer.2.2 i j r1 r2 hi hj
  · dsimp only
    intro hd
    obtain ⟨f1, f2, f3, f4, ⟨bs, b1, b2, b3⟩, ⟨fs, g1, g2, g3⟩⟩ := h.first hd
    obtain ⟨n1, n2⟩ := upd_insert UsePc.begun w.pcs t (.handle r e : UsePc Res Er) bs
      b1 b2 (by rw [hpc]; rfl) rfl
    refine ⟨f1, f2, f3, ?_, ⟨t :: bs, n1, n2, ?_⟩,
      ⟨fs, g1, upd_keep UsePc.handled w.pcs t _ fs g2 (by rw [hpc]; rfl), g3⟩⟩
    · intro x hx
      rw [List.mem_append, List.mem_singleton] at hx
      rcases hx with hx | hx
      · exact f4 x hx
      · rw [hx]; exact f2 r e hph
    · rw [List.length_append, List.length_singleton, b3]; rfl
  · dsimp only
    exact h.live
/-- The completion of the last `handle` of the session keeps the invariant. -/
theorem useInv_last (N : Nat) (creates : Nat → Option Res × Option Er)
    (w : UseWorld Res Er) (t : Nat) (r : Option Res) (e : Option Er)
    (h : UseInv N creates w) (ht : t < N)
    (hpc : w.pcs t = .handle r e) (hact : w.active = 1) :
    UseInv N creates { w with phase := .disposing, active := 0,
                              handleCount := w.handleCount + 1,
                              pcs := Function.update w.pcs t (.dispose r) } := by
  obtain ⟨ms, hnd, hm, hlen⟩ := h.members
  have hph : w.phase = .ready r e := h.handler t r e hpc
  obtain ⟨e1, e2, e3, _⟩ := upd_erase UsePc.inSession w.pcs t (.dispose r : UsePc Res Er) ms
    hnd hm (by rw [hpc]; rfl) rfl
  have hlen0 : (ms.erase t).length = 0 := by rw [e3, ← hlen, hact]
  have hnil : ms.erase t = [] := List.length_eq_zero.mp hlen0
  have hout : ∀ i, i ≠ t → (w.pcs i).inSession = false := by
    intro i hit
    cases hx : (w.pcs i).inSession with
    | false => rfl
    | true =>
      have := (e2 i).mpr (by rw [Function.update_noteq hit]; exact hx)
      rw [hnil] at this
      exact absurd this (by simp)
  have hnod : ∀ (i : Nat) (r1 : Option Res), w.pcs i ≠ .dispose r1 := by
    intro i r1 hi
    have := h.disposer.1 i r1 hi
    rw [hph] at this
    simp at this
  constructor
  · intro i hi
    dsimp only
    rw [Function.update_noteq (by omega)]
    exact h.fresh i hi
  · dsimp only
    exact ⟨ms.erase t, e1, e2, hlen0.symm⟩
  · dsimp only
    intro _; trivial
  · dsimp only
    refine ⟨?_, fun hp => by simp at hp, ?_⟩
    · intro i hi
      by_cases hit : i = t
      · rw [hit, Function.update_same] at hi; simp at hi
      · rw [Function.update_noteq hit] at hi
        have := hout i hit
        rw [hi] at this
        simp [UsePc.inSession] at this
    · intro i j hi _
      by_cases hit : i = t
      · rw [hit, Function.update_same] at hi; simp at hi
      · rw [Function.update_noteq hit] at hi
        have := hout i hit
        rw [hi] at this
        simp [UsePc.inSession] at this
  · dsimp only
    intro i r1 e1 hi
    by_cases hit : i = t
    · rw [hit, Function.update_same] at hi; simp at hi
    · rw [Function.update_noteq hit] at hi
      have := hout i hit
      rw [hi] at this
      simp [UsePc.inSession] at this
  · dsimp only
    refine ⟨fun _ _ _ => rfl, fun _ => ⟨t, r, Function.update_same _ _ _⟩, ?_⟩
    intro i j r1 r2 hi hj
    by_cases hit : i = t
    · by_cases hjt : j = t
      · rw [hit, hjt]
      · rw [Function.update_noteq hjt] at hj; exact absurd hj (hnod j r2)
    · rw [Function.update_noteq hit] at hi; exact absurd hi (hnod i r1)
  · dsimp only
    intro hd
    obtain ⟨_, f2, _, f4, ⟨bs, b1, b2, b3⟩, ⟨fs, g1, g2, g3⟩⟩ := h.first hd
    obtain ⟨n1, n2⟩ := upd_insert UsePc.handled w.pcs t (.dispose r : UsePc Res Er) fs
      g1 g2 (by rw [hpc]; rfl) rfl
    obtain ⟨c, hc, _⟩ := f2 r e hph
    exact ⟨fun hp => by rcases hp with hp | hp <;> simp at hp,
      fun r1 e1 hp => by simp at hp, fun _ => ⟨c, hc⟩, f4,
      ⟨bs, b1, upd_keep UsePc.begun w.pcs t _ bs b2 (by rw [hpc]; rfl), b3⟩,
      ⟨t :: fs, n1, n2, by rw [g3]; rfl⟩⟩
  · dsimp only
    intro hp
    rcases hp with hp | ⟨r1, e1, hp⟩ <;> simp at hp

/-- The completion of a `handle` that is not the last keeps the invariant. -/
theorem useInv_handled (N : Nat) (creates : Nat → Option Res × Option Er)
    (w : UseWorld Res Er) (t : Nat) (r : Option Res) (e : Option Er)
    (h : UseInv N creates w) (ht : t < N)
    (hpc : w.pcs t = .handle r e) (hact : w.active ≠ 1) :
    UseInv N creates { w with active := w.active - 1,
                              handleCount := w.handleCount + 1,
                              pcs := Function.update w.pcs t .done } := by
  obtain ⟨ms, hnd, hm, hlen⟩ := h.members
  have hph : w.phase = .ready r e := h.handler t r e hpc
  obtain ⟨e1, e2, e3, _⟩ := upd_erase UsePc.inSession w.pcs t (.done : UsePc Res Er) ms
    hnd hm (by rw [hpc]; rfl) rfl
  constructor
  · intro i hi
    dsimp only
    rw [Function.update_noteq (by omega)]
    exact h.fresh i hi
  · dsimp only
    exact ⟨ms.erase t, e1, e2, by rw [e3, hlen]⟩
  · dsimp only
    intro hp
    rw [hph] at hp
    rcases hp with hp | hp <;> simp at hp
  · dsimp only
    refine ⟨?_, ?_, ?_⟩
    · intro i hi
      by_cases hit : i = t
      · rw [hit, Function.update_same] at hi; simp at hi
      · rw [Function.update_noteq hit] at hi; exact h.creator.1 i hi
    · intro hp
      rw [hph] at hp; simp at hp
    · intro i j hi hj
      by_cases hit : i = t
      · rw [hit, Function.update_same] at hi; simp at hi
      · by_cases hjt : j = t
        · rw [hjt, Function.update_same] at hj; simp at hj
        · rw [Function.update_noteq hit] at hi
          rw [Function.update_noteq hjt] at hj
          exact h.creator.2.2 i j hi hj
  · dsimp only
    intro i r1 e1 hi
    by_cases hit : i = t
    · rw [hit, Function.update_same] at hi; simp at hi
    · rw [Function.update_noteq hit] at hi; exact h.handler i r1 e1 hi
  · dsimp only
    refine ⟨?_, ?_, ?_⟩
    · intro i r1 hi
      by_cases hit : i = t
      · rw [hit, Function.update_same] at hi; simp at hi
      · rw [Function.update_noteq hit] at hi; exact h.disposer.1 i r1 hi
    · intro hp
      rw [hph] at hp; simp at hp
    · intro i j r1 r2 hi hj
      by_cases hit : i = t
      · rw [hit, Function.update_same] at hi; simp at hi
      · by_cases hjt : j = t
        · rw [hjt, Function.update_same] at hj; simp at hj
        · rw [Function.update_noteq hit] at hi
          rw [Function.update_noteq hjt] at hj
          exact h.disposer.2.2 i j r1 r2 hi hj
  · dsimp only
    intro hd
    obtain ⟨f1, f2, f3, f4, ⟨bs, b1, b2, b3⟩, ⟨fs, g1, g2, g3⟩⟩ := h.first hd
    obtain ⟨n1, n2⟩ := upd_insert UsePc.handled w.pcs t (.done : UsePc Res Er) fs
      g1 g2 (by rw [hpc]; rfl) rfl
    exact ⟨f1, f2, f3, f4,
      ⟨bs, b1, upd_keep UsePc.begun w.pcs t _ bs b2 (by rw [hpc]; rfl), b3⟩,
      ⟨t :: fs, n1, n2, by rw [g3]; rfl⟩⟩
  · dsimp only
    intro hp
    have := h.live hp
    omega

/-- The completion of `dispose` keeps the invariant. -/
theorem useInv_disposed (N : Nat) (creates : Nat → Option Res × Option Er)
    (w : UseWorld Res Er) (t : Nat) (r : Option Res)
    (h : UseInv N creates w) (ht : t < N) (hpc : w.pcs t = .dispose r) :
    UseInv N creates { w with phase := .idle, disposeCount := w.disposeCount + 1,
                              pcs := Function.update w.pcs t .done } := by
  obtain ⟨ms, hnd, hm, hlen⟩ := h.members
  have hph : w.phase = .disposing := h.disposer.1 t r hpc
  have hnoc : ∀ i, w.pcs i ≠ .create := by
    intro i hi
    have := h.creator.1 i hi
    rw [hph] at this
    simp at this
  have hnoh : ∀ (i : Nat) (r1 : Option Res) (e1 : Option Er), w.pcs i ≠ .handle r1 e1 := by
    intro i r1 e1 hi
    have := h.handler i r1 e1 hi
    rw [hph] at this
    simp at this
  have hnod : ∀ (i : Nat) (r1 : Option Res), i ≠ t → w.pcs i ≠ .dispose r1 := by
    intro i r1 hit hi
    exact hit (h.disposer.2.2 i t r1 r hi hpc)
  constructor
  · intro i hi
    dsimp only
    rw [Function.update_noteq (by omega)]
    exact h.fresh i hi
  · dsimp only
    exact ⟨ms, hnd, upd_keep UsePc.inSession w.pcs t _ ms hm (by rw [hpc]; rfl), hlen⟩
  · dsimp only
    intro _
    exact h.quiet (Or.inr hph)
  · dsimp only
    refine ⟨?_, fun hp => by simp at hp, ?_⟩
    · intro i hi
      by_cases hit : i = t
      · rw [hit, Function.update_same] at hi; simp at hi
      · rw [Function.update_noteq hit] at hi; exact absurd hi (hnoc i)
    · intro i j hi _
      by_cases hit : i = t
      · rw [hit, Function.update_same] at hi; simp at hi
      · rw [Function.update_noteq hit] at hi; exact absurd hi (hnoc i)
  · dsimp only
    intro i r1 e1 hi
    by_cases hit : i = t
    · rw [hit, Function.update_same] at hi; simp at hi
    · rw [Function.update_noteq hit] at hi; exact absurd hi (hnoh i r1 e1)
  · dsimp only
    refine ⟨?_, fun hp => by simp at hp, ?_⟩
    · intro i r1 hi
      by_cases hit : i = t
      · rw [hit, Function.update_same] at hi; simp at hi
      · rw [Function.update_noteq hit] at hi; exact absurd hi (hnod i r1 hit)
    · intro i j r1 r2 hi _
      by_cases hit : i = t
      · rw [hit, Function.update_same] at hi; simp at hi
      · rw [Function.update_noteq hit] at hi; exact absurd hi (hnod i r1 hit)
  · dsimp only
    intro hd
    exact absurd hd (Nat.succ_ne_zero _)
  · dsimp only
    intro hp
    rcases hp with hp | ⟨r1, e1, hp⟩ <;> simp at hp

/-- Every step of one of the `N` callers keeps the invariant. -/
theorem useInv_step (N : Nat) (creates : Nat → Option Res × Option Er)
    (w w1 : UseWorld Res Er) (t : Nat) (h : UseInv N creates w) (ht : t < N)
    (hs : useStep creates w t = some w1) : UseInv N creates w1 := by
  unfold useStep at hs
  cases hpc : w.pcs t with
  | start =>
    rw [hpc] at hs
    dsimp only at hs
    cases hph : w.phase with
    | idle =>
      rw [hph] at hs
      simp only [Option.some.injEq] at hs
      rw [← hs]; exact useInv_begin N creates w t h ht hpc hph
    | creating =>
      rw [hph] at hs
      simp only [Option.some.injEq] at hs
      rw [← hs]
      have key := useInv_join N creates w t h ht hpc (Or.inl hph)
      rw [hph] at key
      exact key
    | ready r e =>
      rw [hph] at hs
      simp only [Option.some.injEq] at hs
      rw [← hs]
      have key := useInv_join N creates w t h ht hpc (Or.inr ⟨r, e, hph⟩)
      rw [hph] at key
      exact key
    | disposing =>
      rw [hph] at hs
      exact absurd hs (by simp)
  | create =>
    rw [hpc] at hs
    simp only [Option.some.injEq] at hs
    rw [← hs]; exact useInv_created N creates w t h ht hpc
  | wait =>
    rw [hpc] at hs
    dsimp only at hs
    cases hph : w.phase with
    | ready r e =>
      rw [hph] at hs
      simp only [Option.some.injEq] at hs
      rw [← hs]
      have key := useInv_handle N creates w t r e h ht hpc hph
      rw [hph] at key
      exact key
    | idle => rw [hph] at hs; exact absurd hs (by simp)
    | creating => rw [hph] at hs; exact absurd hs (by simp)
    | disposing => rw [hph] at hs; exact absurd hs (by simp)
  | handle r e =>
    rw [hpc] at hs
    dsimp only at hs
    by_cases hact : w.active = 1
    · rw [if_pos hact] at hs
      simp only [Option.some.injEq] at hs
      rw [← hs]; exact useInv_last N creates w t r e h ht hpc hact
    · rw [if_neg hact] at hs
      simp only [Option.some.injEq] at hs
      rw [← hs]; exact useInv_handled N creates w t r e h ht hpc hact
  | dispose r =>
    rw [hpc] at hs
    simp only [Option.some.injEq] at hs
    rw [← hs]; exact useInv_disposed N creates w t r h ht hpc
  | done =>
    rw [hpc] at hs
    exact absurd hs (by simp)

theorem useInv_run (N : Nat) (creates : Nat → Option Res × Option Er) :
    ∀ (sched : List Nat) (w w1 : UseWorld Res Er), UseInv N creates w →
      (∀ t ∈ sched, t < N) → useRun creates w sched = some w1 → UseInv N creates w1 := by
  intro sched
  induction sched with
  | nil =>
    intro w w1 h _ hr
    simp only [useRun, Option.some.injEq] at hr
    rw [← hr]; exact h
  | cons t ts ih =>
    intro w w1 h hlt hr
    simp only [useRun] at hr
    cases hs : useStep creates w t with
    | none => rw [hs] at hr; exact absurd hr (by simp)
    | some w2 =>
      rw [hs] at hr
      exact ih w2 w1 (useInv_step N creates w w2 t h (hlt t (List.mem_cons_self t ts)) hs)
        (fun x hx => hlt x (List.mem_cons_of_mem t hx)) hr

/-- What a step of caller `t` does to the other callers, to `t` and to the count of
`dispose` calls. -/
theorem useStep_facts (creates : Nat → Option Res × Option Er) (w w1 : UseWorld Res Er)
    (t : Nat) (hs : useStep creates w t = some w1) :
    (∀ i, i ≠ t → w1.pcs i = w.pcs i) ∧ w1.pcs t ≠ .start ∧ w.pcs t ≠ .done ∧
    ((w1.disposeCount = w.disposeCount ∧ ∀ r, w.pcs t ≠ .dispose r) ∨
      (∃ r, w.pcs t = .dispose r ∧ w1.disposeCount = w.disposeCount + 1 ∧
        w1.phase = .idle ∧ w1.pcs t = .done ∧ w1.creators = w.creators ∧
        w1.handleStarts = w.handleStarts ∧ w1.handleCount = w.handleCount)) := by
  unfold useStep at hs
  cases hpc : w.pcs t with
  | start =>
    rw [hpc] at hs
    dsimp only at hs
    cases hph : w.phase with
    | idle =>
      rw [hph] at hs
      simp only [Option.some.injEq] at hs
      rw [← hs]
      exact ⟨fun i hi => Function.update_noteq hi _ _, by simp, by simp,
        Or.inl ⟨rfl, by simp⟩⟩
    | creating =>
      rw [hph] at hs
      simp only [Option.some.injEq] at hs
      rw [← hs]
      exact ⟨fun i hi => Function.update_noteq hi _ _, by simp, by simp,
        Or.inl ⟨rfl, by simp⟩⟩
    | ready r e =>
      rw [hph] at hs
      simp only [Option.some.injEq] at hs
      rw [← hs]
      exact ⟨fun i hi => Function.update_noteq hi _ _, by simp, by simp,
        Or.inl ⟨rfl, by simp⟩⟩
    | disposing =>
      rw [hph] at hs
      exact absurd hs (by simp)
  | create =>
    rw [hpc] at hs
    simp only [Option.some.injEq] at hs
    rw [← hs]
    exact ⟨fun i hi => Function.update_noteq hi _ _, by simp, by simp,
      Or.inl ⟨rfl, by simp⟩⟩
  | wait =>
    rw [hpc] at hs
    dsimp only at hs
    cases hph : w.phase with
    | ready r e =>
      rw [hph] at hs
      simp only [Option.some.injEq] at hs
      rw [← hs]
      exact ⟨fun i hi => Function.update_noteq hi _ _, by simp, by simp,
        Or.inl ⟨rfl, by simp⟩⟩
    | idle => rw [hph] at hs; exact absurd hs (by simp)
    | creating => rw [hph] at hs; exact absurd hs (by simp)
    | disposing => rw [hph] at hs; exact absurd hs (by simp)
  | handle r e =>
    rw [hpc] at hs
    dsimp only at hs
    by_cases hact : w.active = 1
    · rw [if_pos hact] at hs
      simp only [Option.some.injEq] at hs
      rw [← hs]
      exact ⟨fun i hi => Function.update_noteq hi _ _, by simp, by simp,
        Or.inl ⟨rfl, by simp⟩⟩
    · rw [if_neg hact] at hs
      simp only [Option.some.injEq] at hs
      rw [← hs]
      exact ⟨fun i hi => Function.update_noteq hi _ _, by simp, by simp,
        Or.inl ⟨rfl, by simp⟩⟩
  | dispose r =>
    rw [hpc] at hs
    simp only [Option.some.injEq] at hs
    rw [← hs]
    exact ⟨fun i hi => Function.update_noteq hi _ _, by simp, by simp,
      Or.inr ⟨r, rfl, rfl, rfl, by simp, rfl, rfl, rfl⟩⟩
  | done =>
    rw [hpc] at hs
    exact absurd hs (by simp)

/-- In the first session of `N` callers that have all joined, a caller runs `dispose`
only when all the others have returned: `create` has run once, and all `N` calls of
`handle` have begun, on what `create` returned, and completed. -/
theorem use_pre_dispose (N : Nat) (creates : Nat → Option Res × Option Er)
    (w : UseWorld Res Er) (d : Nat) (r : Option Res) (h : UseInv N creates w)
    (hj : ∀ t, t < N → w.pcs t ≠ .start) (h0 : w.disposeCount = 0)
    (hd : w.pcs d = .dispose r) :
    (∀ i, i < N → i ≠ d → w.pcs i = .done) ∧
    (∃ c, w.creators = [c] ∧ ∀ x ∈ w.handleStarts, x = creates c) ∧
    w.handleStarts.length = N ∧ w.handleCount = N := by
  obtain ⟨ms, hnd, hm, hlen⟩ := h.members
  have hph : w.phase = .disposing := h.disposer.1 d r hd
  have hact : w.active = 0 := h.quiet (Or.inr hph)
  have hms : ms = [] := List.length_eq_zero.mp (by rw [← hlen]; exact hact)
  subst hms
  have hdone : ∀ i, i < N → i ≠ d → w.pcs i = .done := by
    intro i hi hid
    cases hx : w.pcs i with
    | done => rfl
    | start => exact absurd hx (hj i hi)
    | create => exact absurd ((hm i).mpr (by rw [hx]; rfl)) (by simp)
    | wait => exact absurd ((hm i).mpr (by rw [hx]; rfl)) (by simp)
    | handle r1 e1 => exact absurd ((hm i).mpr (by rw [hx]; rfl)) (by simp)
    | dispose r1 => exact absurd (h.disposer.2.2 i d r1 r hx hd) hid
  have hdN : d < N := by
    by_contra hge
    have := h.fresh d (Nat.le_of_not_lt hge)
    rw [hd] at this
    simp at this
  obtain ⟨_, _, f3, f4, ⟨bs, b1, b2, b3⟩, ⟨fs, g1, g2, g3⟩⟩ := h.first h0
  obtain ⟨c, hc⟩ := f3 hph
  have hbegun : ∀ i, (w.pcs i).begun = true ↔ i < N := by
    intro i
    constructor
    · intro hb
      by_contra hge
      rw [h.fresh i (Nat.le_of_not_lt hge)] at hb
      simp [UsePc.begun] at hb
    · intro hi
      by_cases hid : i = d
      · rw [hid, hd]; rfl
      · rw [hdone i hi hid]; rfl
  have hhandled : ∀ i, (w.pcs i).handled = true ↔ i < N := by
    intro i
    constructor
    · intro hb
      by_contra hge
      rw [h.fresh i (Nat.le_of_not_lt hge)] at hb
      simp [UsePc.handled] at hb
    · intro hi
      by_cases hid : i = d
      · rw [hid, hd]; rfl
      · rw [hdone i hi hid]; rfl
  refine ⟨hdone, ⟨c, hc, ?_⟩, ?_, ?_⟩
  · intro x hx
    obtain ⟨c1, hc1, hx1⟩ := f4 x hx
    rw [hc] at hc1
    simp only [List.cons.injEq, and_true] at hc1
    rw [hc1]; exact hx1
  · rw [b3]
    exact nodup_length_below bs N b1 (fun i => by rw [b2, hbegun])
  · rw [g3]
    exact nodup_length_below fs N g1 (fun i => by rw [g2, hhandled])

/-- Every step of one of the `N` callers keeps the session. -/
theorem useSession_step (N : Nat) (creates : Nat → Option Res × Option Er)
    (w w1 : UseWorld Res Er) (t : Nat) (h : UseSession N creates w) (ht : t < N)
    (hs : useStep creates w t = some w1) : UseSession N creates w1 := by
  obtain ⟨hinv, hj, hcase⟩ := h
  obtain ⟨hoth, hns, hnd, hdc⟩ := useStep_facts creates w w1 t hs
  have hj1 : ∀ i, i < N → w1.pcs i ≠ .start := by
    intro i hi
    by_cases hit : i = t
    · rw [hit]; exact hns
    · rw [hoth i hit]; exact hj i hi
  refine ⟨useInv_step N creates w w1 t hinv ht hs, hj1, ?_⟩
  rcases hcase with h0 | hfin
  · rcases hdc with ⟨hsame, _⟩ | ⟨r, hd, hinc, hph1, hpc1, hcr, hhs, hhc⟩
    · left; rw [hsame]; exact h0
    · right
      obtain ⟨hdone, ⟨c, hc, hargs⟩, hlen, hcnt⟩ := use_pre_dispose N creates w t r hinv hj h0 hd
      refine ⟨by rw [hinc, h0], hph1, ?_, ⟨c, by rw [hcr]; exact hc, by rw [hhs]; exact hargs⟩,
        by rw [hhs]; exact hlen, by rw [hhc]; exact hcnt⟩
      intro i hi
      by_cases hit : i = t
      · rw [hit]; exact hpc1
      · rw [hoth i hit]; exact hdone i hi hit
  · exact absurd (hfin.2.2.1 t ht) hnd

theorem useSession_run (N : Nat) (creates : Nat → Option Res × Option Er) :
    ∀ (sched : List Nat) (w w1 : UseWorld Res Er), UseSession N creates w →
      (∀ t ∈ sched, t < N) → useRun creates w sched = some w1 →
      UseSession N creates w1 := by
  intro sched
  induction sched with
  | nil =>
    intro w w1 h _ hr
    simp only [useRun, Option.some.injEq] at hr
    rw [← hr]; exact h
  | cons t ts ih =>
    intro w w1 h hlt hr
    simp only [useRun] at hr
    cases hs : useStep creates w t with
    | none => rw [hs] at hr; exact absurd hr (by simp)
    | some w2 =>
      rw [hs] at hr
      exact ih w2 w1
        (useSession_step N creates w w2 t h (hlt t (List.mem_cons_self t ts)) hs)
        (fun x hx => hlt x (List.mem_cons_of_mem t hx)) hr

/-- A list without duplicates of numbers below `N` has at most `N` elements. -/
theorem nodup_length_le (l : List Nat) (N : Nat) (hnd : l.Nodup)
    (hm : ∀ t ∈ l, t < N) : l.length ≤ N := by
  have hs : l ⊆ List.range N := fun t ht => List.mem_range.mpr (hm t ht)
  have := (List.subperm_of_subset hnd hs).length_le
  rw [List.length_range] at this
  exact this

/-- A caller that has left `start` is one of the `N` callers. -/
theorem use_lt_of_joined (N : Nat) (creates : Nat → Option Res × Option Er)
    (w : UseWorld Res Er) (h : UseInv N creates w) (t : Nat) (ht : w.pcs t ≠ .start) :
    t < N := by
  by_contra hge
  exact ht (h.fresh t (Nat.le_of_not_lt hge))

/-- As long as one of the `N` concurrent callers has not returned, one of them can take a
step. -/
theorem useSession_progress (N : Nat) (creates : Nat → Option Res × Option Er)
    (w : UseWorld Res Er) (h : UseSession N creates w)
    (hnd : ∃ t, t < N ∧ w.pcs t ≠ .done) :
    ∃ t, t < N ∧ ∃ w1, useStep creates w t = some w1 := by
  obtain ⟨hinv, hj, _⟩ := h
  obtain ⟨t, ht, hpt⟩ := hnd
  obtain ⟨ms, hnd, hm, hlen⟩ := hinv.members
  cases hph : w.phase with
  | idle =>
    have hact : w.active = 0 := hinv.quiet (Or.inl hph)
    have hms : ms = [] := List.length_eq_zero.mp (by rw [← hlen]; exact hact)
    subst hms
    cases hx : w.pcs t with
    | done => exact absurd hx hpt
    | start => exact absurd hx (hj t ht)
    | create => exact absurd ((hm t).mpr (by rw [hx]; rfl)) (by simp)
    | wait => exact absurd ((hm t).mpr (by rw [hx]; rfl)) (by simp)
    | handle r1 e1 => exact absurd ((hm t).mpr (by rw [hx]; rfl)) (by simp)
    | dispose r1 =>
      have := hinv.disposer.1 t r1 hx
      rw [hph] at this
      simp at this
  | creating =>
    obtain ⟨c, hc⟩ := hinv.creator.2.1 hph
    refine ⟨c, use_lt_of_joined N creates w hinv c (by rw [hc]; simp), ?_⟩
    apply Option.isSome_iff_exists.mp
    unfold useStep
    simp [hc]
  | disposing =>
    obtain ⟨d, r, hd⟩ := hinv.disposer.2.1 hph
    refine ⟨d, use_lt_of_joined N creates w hinv d (by rw [hd]; simp), ?_⟩
    apply Option.isSome_iff_exists.mp
    unfold useStep
    simp [hd]
  | ready r e =>
    refine ⟨t, ht, ?_⟩
    apply Option.isSome_iff_exists.mp
    unfold useStep
    cases hx : w.pcs t with
    | done => exact absurd hx hpt
    | start => exact absurd hx (hj t ht)
    | create =>
      have := hinv.creator.1 t hx
      rw [hph] at this
      simp at this
    | wait => simp [hph]
    | handle r1 e1 =>
      dsimp only
      by_cases hact : w.active = 1
      · rw [if_pos hact]; rfl
      · rw [if_neg hact]; rfl
    | dispose r1 =>
      have := hinv.disposer.1 t r1 hx
      rw [hph] at this
      simp at this

/-- What holds of the counters of the test in every state of the session of `N`
concurrent callers. -/
theorem useSession_counts (N : Nat) (creates : Nat → Option Res × Option Er)
    (w : UseWorld Res Er) (h : UseSession N creates w) (hN : 0 < N) :
    w.creators.length ≤ 1
    ∧ (∀ x ∈ w.handleStarts, ∃ c, w.creators = [c] ∧ x = creates c)
    ∧ (∀ (t : Nat) (r : Option Res) (e : Option Er), w.pcs t = .handle r e →
        ∃ c, w.creators = [c] ∧ (r, e) = creates c)
    ∧ w.handleStarts.length ≤ N
    ∧ w.disposeCount ≤ 1
    ∧ ((w.disposeCount = 1 ∨ ∃ t r, w.pcs t = .dispose r) →
        w.handleStarts.length = N ∧ w.handleCount = N)
    ∧ ((∀ t, t < N → w.pcs t = .done) →
        w.creators.length = 1 ∧ w.handleStarts.length = N ∧ w.handleCount = N ∧
        w.disposeCount = 1) := by
  obtain ⟨hinv, hj, hcase⟩ := h
  rcases hcase with h0 | ⟨hd1, hidle, hdone, ⟨c, hc, hargs⟩, hlen, hcnt⟩
  · obtain ⟨f1, f2, f3, f4, ⟨bs, b1, b2, b3⟩, ⟨fs, g1, g2, g3⟩⟩ := hinv.first h0
    have hbsN : ∀ t ∈ bs, t < N := by
      intro t htb
      have hb := (b2 t).mp htb
      apply use_lt_of_joined N creates w hinv t
      intro hst
      rw [hst] at hb
      simp [UsePc.begun] at hb
    refine ⟨?_, f4, ?_, ?_, by rw [h0]; exact Nat.zero_le _, ?_, ?_⟩
    · cases hph : w.phase with
      | idle => rw [f1 (Or.inl hph)]; exact Nat.zero_le _
      | creating => rw [f1 (Or.inr hph)]; exact Nat.zero_le _
      | ready r e =>
        obtain ⟨c, hc, _⟩ := f2 r e hph
        rw [hc]; exact Nat.le_refl _
      | disposing =>
        obtain ⟨c, hc⟩ := f3 hph
        rw [hc]; exact Nat.le_refl _
    · intro t r e hpc
      exact f2 r e (hinv.handler t r e hpc)
    · rw [b3]; exact nodup_length_le bs N b1 hbsN
    · intro hd
      rcases hd with hd | ⟨t, r, hd⟩
      · rw [h0] at hd; exact absurd hd (by simp)
      · obtain ⟨_, _, hl, hcn⟩ := use_pre_dispose N creates w t r hinv hj h0 hd
        exact ⟨hl, hcn⟩
    · intro hall
      exfalso
      obtain ⟨ms, hnd, hm, hlen⟩ := hinv.members
      cases hph : w.phase with
      | creating =>
        obtain ⟨c, hc⟩ := hinv.creator.2.1 hph
        have := hall c (use_lt_of_joined N creates w hinv c (by rw [hc]; simp))
        rw [hc] at this
        simp at this
      | disposing =>
        obtain ⟨d, r, hd⟩ := hinv.disposer.2.1 hph
        have := hall d (use_lt_of_joined N creates w hinv d (by rw [hd]; simp))
        rw [hd] at this
        simp at this
      | ready r e =>
        have hact := hinv.live (Or.inr ⟨r, e, hph⟩)
        rw [hlen] at hact
        obtain ⟨i, hi⟩ := List.exists_mem_of_length_pos hact
        have hin := (hm i).mp hi
        have hiN : i < N := by
          apply use_lt_of_joined N creates w hinv i
          intro hst
          rw [hst] at hin
          simp [UsePc.inSession] at hin
        rw [hall i hiN] at hin
        simp [UsePc.inSession] at hin
      | idle =>
        have hcr := f1 (Or.inl hph)
        have h0b : (0 : Nat) ∈ bs := (b2 0).mpr (by rw [hall 0 hN]; rfl)
        have hpos : 0 < w.handleStarts.length := by
          rw [b3]; exact List.length_pos_of_mem h0b
        obtain ⟨x, hx⟩ := List.exists_mem_of_length_pos hpos
        obtain ⟨c, hc, _⟩ := f4 x hx
        rw [hcr] at hc
        simp at hc
  · refine ⟨by rw [hc]; exact Nat.le_refl _, fun x hx => ⟨c, hc, hargs x hx⟩, ?_,
      by rw [hlen], by rw [hd1], fun _ => ⟨hlen, hcnt⟩,
      fun _ => ⟨by rw [hc]; rfl, hlen, hcnt, hd1⟩⟩
    intro t r e hpc
    have := hdone t (use_lt_of_joined N creates w hinv t (by rw [hpc]; simp))
    rw [hpc] at this
    simp at this

theorem useRun_append (creates : Nat → Option Res × Option Er) (w : UseWorld Res Er)
    (l1 l2 : List Nat) :
    useRun creates w (l1 ++ l2) = (useRun creates w l1).bind (fun x => useRun creates x l2) := by
  induction l1 generalizing w with
  | nil => simp [useRun]
  | cons t ts ih =>
    simp only [List.cons_append, useRun]
    cases useStep creates w t with
    | none => rfl
    | some x => exact ih x

theorem useRun_after (creates : Nat → Option Res × Option Er) (s0 s1 : List Nat)
    (h : (useRun creates (UseWorld.init : UseWorld Res Er) (s0 ++ s1)).isSome = true) :
    useRun creates (UseWorld.after creates s0) s1 = some (UseWorld.after creates (s0 ++ s1)) := by
  unfold UseWorld.after
  rw [useRun_append] at h ⊢
  cases hr : useRun creates (UseWorld.init : UseWorld Res Er) s0 with
  | none => rw [hr] at h; exact absurd h (by simp)
  | some x =>
    rw [hr] at h
    have hb : ((some x).bind fun x => useRun creates x s1) = useRun creates x s1 := rfl
    rw [hb] at h ⊢
    cases hx : useRun creates x s1 with
    | none => rw [hx] at h; exact absurd h (by simp)
    | some y => exact hx

/-- C17 (lifecycle of `Group.Use`), on the state machine of section 4.4 of the
specification.  Let `N ≥ 1` callers of `Use` for one key be concurrent: at some moment
`w` all of them have joined the session and no `dispose` has run yet.  Then in every
state `w1` they get into afterwards, by any interleaving:

* `create` has run at most once, and it has run, exactly once, before any `handle` has
  begun: every `handle` call begun or running has the resource or error that this one
  `create` call returned;
* at most `N` calls of `handle` have begun and `dispose` has run at most once;
* when a caller runs `dispose` or `dispose` has run, all `N` calls of `handle` have begun
  and completed;
* when all `N` callers have returned, `create` has run exactly once, `handle` has begun
  and completed exactly `N` times, and `dispose` has run exactly once;
* as long as one of the callers has not returned, one of them can take a step. -/
theorem C17_use_lifecycle (N : Nat) (creates : Nat → Option Res × Option Er)
    (w w1 : UseWorld Res Er) (sched0 sched : List Nat) (hN : 0 < N)
    (h0 : ∀ t ∈ sched0, t < N) (hw : useRun creates UseWorld.init sched0 = some w)
    (hjoined : ∀ t, t < N → w.pcs t ≠ .start) (hfirst : w.disposeCount = 0)
    (h1 : ∀ t ∈ sched, t < N) (hrun : useRun creates w sched = some w1) :
    w1.creators.length ≤ 1
    ∧ (∀ x ∈ w1.handleStarts, ∃ c, w1.creators = [c] ∧ x = creates c)
    ∧ (∀ (t : Nat) (r : Option Res) (e : Option Er), w1.pcs t = .handle r e →
        ∃ c, w1.creators = [c] ∧ (r, e) = creates c)
    ∧ w1.handleStarts.length ≤ N
    ∧ w1.disposeCount ≤ 1
    ∧ ((w1.disposeCount = 1 ∨ ∃ t r, w1.pcs t = .dispose r) →
        w1.handleStarts.length = N ∧ w1.handleCount = N)
    ∧ ((∀ t, t < N → w1.pcs t = .done) →
        w1.creators.length = 1 ∧ w1.handleStarts.length = N ∧ w1.handleCount = N ∧
        w1.disposeCount = 1)
    ∧ ((∃ t, t < N ∧ w1.pcs t ≠ .done) →
        ∃ t, t < N ∧ ∃ w2, useStep creates w1 t = some w2) := by
  have hinv : UseInv N creates w :=
    useInv_run N creates sched0 _ w (useInv_init N creates) h0 hw
  have hs : UseSession N creates w := ⟨hinv, hjoined, Or.inl hfirst⟩
  have hs1 : UseSession N creates w1 := useSession_run N creates sched w w1 hs h1 hrun
  obtain ⟨c1, c2, c3, c4, c5, c6, c7⟩ := useSession_counts N creates w1 hs1 hN
  exact ⟨c1, c2, c3, c4, c5, c6, c7, useSession_progress N creates w1 hs1⟩

/-- Witness of `C17_use_lifecycle` on the four callers of `TestUse`: all four join while
`create` runs, then each runs `handle` and the last one to complete runs `dispose`. -/
theorem C17_use_lifecycle_witness :
    (0 : Nat) < 4
    ∧ useRun testCreate UseWorld.init [0, 1, 2, 3]
        = some (UseWorld.after testCreate [0, 1, 2, 3])
    ∧ (UseWorld.after testCreate [0, 1, 2, 3]).disposeCount = 0
    ∧ useRun testCreate (UseWorld.after testCreate [0, 1, 2, 3])
        [0, 0, 1, 2, 3, 0, 1, 2, 3, 3]
        = some (UseWorld.after testCreate [0, 1, 2, 3, 0, 0, 1, 2, 3, 0, 1, 2, 3, 3])
    ∧ (UseWorld.after testCreate [0, 1, 2, 3, 0, 0, 1, 2, 3, 0, 1, 2, 3, 3]).creators.length
        = 1
    ∧ (UseWorld.after testCreate
        [0, 1, 2, 3, 0, 0, 1, 2, 3, 0, 1, 2, 3, 3]).handleStarts.length = 4
    ∧ (UseWorld.after testCreate [0, 1, 2, 3, 0, 0, 1, 2, 3, 0, 1, 2, 3, 3]).handleCount = 4
    ∧ (UseWorld.after testCreate [0, 1, 2, 3, 0, 0, 1, 2, 3, 0, 1, 2, 3, 3]).disposeCount
        = 1 := by
  have hw : useRun testCreate UseWorld.init [0, 1, 2, 3]
      = some (UseWorld.after testCreate [0, 1, 2, 3]) :=
    useRun_after testCreate [] [0, 1, 2, 3] (by decide)
  have hw1 : useRun testCreate (UseWorld.after testCreate [0, 1, 2, 3])
      [0, 0, 1, 2, 3, 0, 1, 2, 3, 3]
      = some (UseWorld.after testCreate [0, 1, 2, 3, 0, 0, 1, 2, 3, 0, 1, 2, 3, 3]) :=
    useRun_after testCreate [0, 1, 2, 3] [0, 0, 1, 2, 3, 0, 1, 2, 3, 3] (by decide)
  have hjoin : ∀ t, t < 4 → (UseWorld.after testCreate [0, 1, 2, 3]).pcs t ≠ .start := by
    intro t ht
    have : t = 0 ∨ t = 1 ∨ t = 2 ∨ t = 3 := by omega
    rcases this with h | h | h | h <;> rw [h] <;> decide
  have hdone : ∀ t, t < 4 → (UseWorld.after testCreate
      [0, 1, 2, 3, 0, 0, 1, 2, 3, 0, 1, 2, 3, 3]).pcs t = .done := by
    intro t ht
    have : t = 0 ∨ t = 1 ∨ t = 2 ∨ t = 3 := by omega
    rcases this with h | h | h | h <;> rw [h] <;> decide
  have key := (C17_use_lifecycle 4 testCreate _ _ [0, 1, 2, 3] _ (by decide) (by decide)
    hw hjoin (by decide) (by decide) hw1).2.2.2.2.2.2.1 hdone
  exact ⟨by decide, hw, by decide, hw1, key⟩
end UseProofs

end singleflight

/-! # The bookkeeping invariant of `Group` -/

namespace singleflight

section GroupInvariant

variable {V E F P : Type}

theorem getElem?_set_cases {α : Type} (l : List α) (i j : Nat) (a b : α)
    (h : (l.set i a)[j]? = some b) : (j = i ∧ b = a) ∨ (j ≠ i ∧ l[j]? = some b) := by
  by_cases hji : j = i
  · subst hji
    left
    have hlt : j < l.length := by
      have := (List.getElem?_eq_some.mp h).1
      rw [List.length_set] at this
      exact this
    rw [List.getElem?_set_self hlt] at h
    exact ⟨rfl, (Option.some.inj h).symm⟩
  · right
    rw [List.getElem?_set_ne (Ne.symm hji)] at h
    exact ⟨hji, h⟩

theorem getElem?_concat_cases {α : Type} (l : List α) (j : Nat) (a b : α)
    (h : (l ++ [a])[j]? = some b) : (j = l.length ∧ b = a) ∨ (j < l.length ∧ l[j]? = some b) := by
  by_cases hlt : j < l.length
  · right
    rw [List.getElem?_append_left hlt] at h
    exact ⟨hlt, h⟩
  · left
    have hj : j < (l ++ [a]).length := (List.getElem?_eq_some.mp h).1
    rw [List.length_append, List.length_singleton] at hj
    have : j = l.length := by omega
    subst this
    rw [List.getElem?_concat_length] at h
    exact ⟨rfl, (Option.some.inj h).symm⟩

theorem Forget_none (s : State V E F) (key : String) (h : mapLookup s.g.m key = none) :
    Forget s key = { s with g := ⟨mapDelete s.g.m key⟩ } := by
  unfold Forget
  simp only [h]

theorem Forget_some (s : State V E F) (key : String) (c : Nat) (r : call V E)
    (h : mapLookup s.g.m key = some c) (hc : s.calls[c]? = some r) :
    Forget s key = { s with g := ⟨mapDelete s.g.m key⟩,
                            calls := s.calls.set c { r with forgotten := true } } := by
  unfold Forget
  simp only [h, modifyAt, hc]

theorem ginv_init : GInv (Prog.init : Prog V E F) := by
  constructor
  · rfl
  · intro i sp h; simp [Prog.init, State.init] at h
  · intro i h; simp [Prog.init] at h
  · intro key c h; simp [Prog.init, State.init, mapLookup] at h
  · intro c r h; simp [Prog.init, State.init] at h
  · intro c r h; simp [Prog.init, State.init] at h
  · intro c r h; simp [Prog.init, State.init] at h
  · intro c c1 r r1 h; simp [Prog.init, State.init] at h
  · intro c r h; simp [Prog.init, State.init] at h

/-- A registration that creates a record keeps the invariant. -/
theorem ginv_doChan_new (p : Prog V E F) (key : String) (fn : F) (h : GInv p)
    (hl : mapLookup p.s.g.m key = none) :
    GInv ({ p with s := (DoChan p.s key fn).2 } : Prog V E F) := by
  rw [DoChan_new p.s key fn hl]
  constructor
  · show (p.s.spawned ++ [_]).length = (p.s.calls ++ [_]).length
    rw [List.length_append, List.length_append, h.spawnLen]
    rfl
  · intro i sp hi
    rcases getElem?_concat_cases _ _ _ _ hi with ⟨h1, h2⟩ | ⟨_, h2⟩
    · rw [h2, h1, h.spawnLen]
    · exact h.spawnC i sp h2
  · intro i hi
    show i < (p.s.calls ++ [_]).length
    rw [List.length_append]
    exact Nat.lt_add_right _ (h.compv i hi)
  · intro k c hk
    by_cases hkk : k = key
    · subst hkk
      have hk1 : mapLookup (some (mapStore (p.s.g.m.getD []) k p.s.calls.length)) k
          = some c := hk
      rw [mapLookup_mapStore_self] at hk1
      have hc : p.s.calls.length = c := Option.some.inj hk1
      subst hc
      refine ⟨_, ⟨p.s.calls.length, k, fn⟩, List.getElem?_concat_length _ _, rfl, ?_, ?_, rfl⟩
      · intro hin
        exact absurd (h.compv _ hin) (Nat.lt_irrefl _)
      · show (p.s.spawned ++ [_])[p.s.calls.length]? = _
        rw [← h.spawnLen]
        exact List.getElem?_concat_length _ _
    · have hk1 : mapLookup (some (mapStore (p.s.g.m.getD []) key p.s.calls.length)) k
          = some c := hk
      rw [mapLookup_mapStore_ne _ _ _ _ hkk, lookup_getD] at hk1
      obtain ⟨r, sp, hr, hf, hcm, hsp, hkey⟩ := h.table k c hk1
      have hclt : c < p.s.calls.length := (List.getElem?_eq_some.mp hr).1
      refine ⟨r, sp, ?_, hf, hcm, ?_, hkey⟩
      · show (p.s.calls ++ [_])[c]? = _
        rw [List.getElem?_append_left hclt]
        exact hr
      · show (p.s.spawned ++ [_])[c]? = _
        rw [List.getElem?_append_left (by rw [h.spawnLen]; exact hclt)]
        exact hsp
  · intro c r hc hcm
    rcases getElem?_concat_cases _ _ _ _ hc with ⟨_, h2⟩ | ⟨_, h2⟩
    · rw [h2]
      exact ⟨Nat.le_refl _, fun _ => rfl⟩
    · exact h.refs c r h2 hcm
  · intro c r hc hcm
    rcases getElem?_concat_cases _ _ _ _ hc with ⟨_, h2⟩ | ⟨_, h2⟩
    · rw [h2]
    · exact h.wgI c r h2 hcm
  · intro c r hc hcm
    rcases getElem?_concat_cases _ _ _ _ hc with ⟨_, h2⟩ | ⟨_, h2⟩
    · rw [h2]
      refine ⟨List.nodup_singleton _, ?_⟩
      intro ch hch
      rw [List.mem_singleton] at hch
      subst hch
      exact List.getElem?_concat_length _ _
    · obtain ⟨hnd, hemp⟩ := h.chansI c r h2 hcm
      refine ⟨hnd, ?_⟩
      intro ch hch
      show (p.s.chans ++ [[]])[ch]? = _
      rw [List.getElem?_append_left (h.bound c r h2 ch hch)]
      exact hemp ch hch
  · intro c c1 r r1 hc hc1 hne ch hch
    rcases getElem?_concat_cases _ _ _ _ hc with ⟨e1, h2⟩ | ⟨l1, h2⟩
    · rcases getElem?_concat_cases _ _ _ _ hc1 with ⟨e3, _⟩ | ⟨_, h4⟩
      · exact absurd (e1.trans e3.symm) hne
      · rw [h2] at hch
        simp only [List.mem_singleton] at hch
        intro hin
        have := h.bound c1 r1 h4 ch hin
        rw [hch] at this
        exact absurd this (Nat.lt_irrefl _)
    · rcases getElem?_concat_cases _ _ _ _ hc1 with ⟨_, h4⟩ | ⟨_, h4⟩
      · rw [h4]
        simp only [List.mem_singleton]
        intro heq
        have := h.bound c r h2 ch hch
        rw [heq] at this
        exact absurd this (Nat.lt_irrefl _)
      · exact h.disj c c1 r r1 h2 h4 hne ch hch
  · intro c r hc ch hch
    show ch < (p.s.chans ++ [[]]).length
    rw [List.length_append, List.length_singleton]
    rcases getElem?_concat_cases _ _ _ _ hc with ⟨_, h2⟩ | ⟨_, h2⟩
    · rw [h2] at hch
      simp only [List.mem_singleton] at hch
      rw [hch]
      exact Nat.lt_succ_self _
    · exact Nat.lt_succ_of_lt (h.bound c r h2 ch hch)

/-- A registration that attaches to the record of the table keeps the invariant. -/
theorem ginv_doChan_attach (p : Prog V E F) (key : String) (fn : F) (h : GInv p)
    (c0 : Nat) (hl : mapLookup p.s.g.m key = some c0) :
    GInv ({ p with s := (DoChan p.s key fn).2 } : Prog V E F) := by
  obtain ⟨r0, sp0, hr0, hf0, hcm0, hsp0, hkey0⟩ := h.table key c0 hl
  rw [DoChan_attach p.s key fn c0 r0 hl hr0]
  have hlen : ∀ x : call V E, (p.s.calls.set c0 x).length = p.s.calls.length :=
    fun x => List.length_set _ _ _
  have hfresh : ∀ (c : Nat) (r : call V E), p.s.calls[c]? = some r →
      p.s.chans.length ∉ r.chans := by
    intro c r hc hin
    exact absurd (h.bound c r hc _ hin) (Nat.lt_irrefl _)
  constructor
  · show p.s.spawned.length = _
    rw [hlen]; exact h.spawnLen
  · exact h.spawnC
  · intro i hi
    show i < _
    rw [hlen]; exact h.compv i hi
  · intro k c hk
    obtain ⟨r, sp, hr, hf, hcm, hsp, hkey⟩ := h.table k c hk
    by_cases hcc : c = c0
    · subst hcc
      rw [hr0] at hr
      have hrr : r0 = r := Option.some.inj hr
      subst hrr
      refine ⟨_, sp, List.getElem?_set_self (List.getElem?_eq_some.mp hr0).1, hf, hcm, hsp,
        hkey⟩
    · refine ⟨r, sp, ?_, hf, hcm, hsp, hkey⟩
      show (p.s.calls.set c0 _)[c]? = _
      rw [List.getElem?_set_ne (Ne.symm hcc)]
      exact hr
  · intro c r hc hcm
    rcases getElem?_set_cases _ _ _ _ _ hc with ⟨e1, h2⟩ | ⟨_, h2⟩
    · subst e1
      obtain ⟨h1, hb⟩ := h.refs c r0 hr0 hcm
      rw [h2]
      simp only [List.length_append, List.length_singleton]
      refine ⟨Nat.le_add_left _ _, ?_⟩
      intro hbd
      push_cast at hbd
      have hb1 := hb (by omega)
      rw [hb1]
      push_cast
      apply wrapInt64_id <;> omega
    · exact h.refs c r h2 hcm
  · intro c r hc hcm
    rcases getElem?_set_cases _ _ _ _ _ hc with ⟨e1, h2⟩ | ⟨_, h2⟩
    · subst e1
      rw [h2]
      exact h.wgI c r0 hr0 hcm
    · exact h.wgI c r h2 hcm
  · intro c r hc hcm
    have key1 : ∀ (ch : Nat) (r1 : call V E) (c1 : Nat), p.s.calls[c1]? = some r1 →
        ch ∈ r1.chans →
        p.s.chans[ch]? = some [] → (p.s.chans ++ [[]])[ch]? = some [] := by
      intro ch r1 c1 hc1 hch hemp
      rw [List.getElem?_append_left (h.bound c1 r1 hc1 ch hch)]
      exact hemp
    rcases getElem?_set_cases _ _ _ _ _ hc with ⟨e1, h2⟩ | ⟨_, h2⟩
    · subst e1
      obtain ⟨hnd, hemp⟩ := h.chansI c r0 hr0 hcm
      rw [h2]
      refine ⟨?_, ?_⟩
      · show (r0.chans ++ [p.s.chans.length]).Nodup
        rw [List.nodup_append]
        refine ⟨hnd, List.nodup_singleton _, ?_⟩
        intro x hx hx1
        rw [List.mem_singleton] at hx1
        subst hx1
        exact hfresh c r0 hr0 hx
      · intro ch hch
        have hch1 : ch ∈ r0.chans ++ [p.s.chans.length] := hch
        rw [List.mem_append, List.mem_singleton] at hch1
        rcases hch1 with hch1 | hch1
        · exact key1 ch r0 c hr0 hch1 (hemp ch hch1)
        · rw [hch1]
          exact List.getElem?_concat_length _ _
    · obtain ⟨hnd, hemp⟩ := h.chansI c r h2 hcm
      exact ⟨hnd, fun ch hch => key1 ch r c h2 hch (hemp ch hch)⟩
  · intro c c1 r r1 hc hc1 hne ch hch
    rcases getElem?_set_cases _ _ _ _ _ hc with ⟨e1, h2⟩ | ⟨n1, h2⟩
    · rcases getElem?_set_cases _ _ _ _ _ hc1 with ⟨e3, _⟩ | ⟨_, h4⟩
      · exact absurd (e1.trans e3.symm) hne
      · subst e1
        rw [h2] at hch
        have hch1 : ch ∈ r0.chans ++ [p.s.chans.length] := hch
        rw [List.mem_append, List.mem_singleton] at hch1
        rcases hch1 with hch1 | hch1
        · exact h.disj c c1 r0 r1 hr0 h4 hne ch hch1
        · rw [hch1]
          exact hfresh c1 r1 h4
    · rcases getElem?_set_cases _ _ _ _ _ hc1 with ⟨e3, h4⟩ | ⟨_, h4⟩
      · subst e3
        rw [h4]
        intro hin
        have hin1 : ch ∈ r0.chans ++ [p.s.chans.length] := hin
        rw [List.mem_append, List.mem_singleton] at hin1
        rcases hin1 with hin1 | hin1
        · exact h.disj c c1 r r0 h2 hr0 hne ch hch hin1
        · rw [hin1] at hch
          exact hfresh c r h2 hch
      · exact h.disj c c1 r r1 h2 h4 hne ch hch
  · intro c r hc ch hch
    show ch < (p.s.chans ++ [[]]).length
    rw [List.length_append, List.length_singleton]
    rcases getElem?_set_cases _ _ _ _ _ hc with ⟨e1, h2⟩ | ⟨_, h2⟩
    · subst e1
      rw [h2] at hch
      have hch1 : ch ∈ r0.chans ++ [p.s.chans.length] := hch
      rw [List.mem_append, List.mem_singleton] at hch1
      rcases hch1 with hch1 | hch1
      · exact Nat.lt_succ_of_lt (h.bound c r0 hr0 ch hch1)
      · rw [hch1]; exact Nat.lt_succ_self _
    · exact Nat.lt_succ_of_lt (h.bound c r h2 ch hch)

theorem ginv_doChan (p : Prog V E F) (key : String) (fn : F) (h : GInv p) :
    GInv ({ p with s := (DoChan p.s key fn).2 } : Prog V E F) := by
  cases hl : mapLookup p.s.g.m key with
  | none => exact ginv_doChan_new p key fn h hl
  | some c0 => exact ginv_doChan_attach p key fn h c0 hl

/-- `Forget` keeps the invariant. -/
theorem ginv_forget (p : Prog V E F) (key : String) (h : GInv p) :
    GInv ({ p with s := Forget p.s key } : Prog V E F) := by
  have htab : ∀ (k : String) (c : Nat), mapLookup (mapDelete p.s.g.m key) k = some c →
      k ≠ key ∧ mapLookup p.s.g.m k = some c := by
    intro k c hk
    by_cases hkk : k = key
    · subst hkk
      rw [mapLookup_mapDelete_self] at hk
      exact absurd hk (by simp)
    · rw [mapLookup_mapDelete_ne _ _ _ hkk] at hk
      exact ⟨hkk, hk⟩
  cases hl : mapLookup p.s.g.m key with
  | none =>
    rw [Forget_none p.s key hl]
    constructor
    · exact h.spawnLen
    · exact h.spawnC
    · exact h.compv
    · intro k c hk
      exact h.table k c (htab k c hk).2
    · exact h.refs
    · exact h.wgI
    · exact h.chansI
    · exact h.disj
    · exact h.bound
  | some c0 =>
    obtain ⟨r0, sp0, hr0, hf0, hcm0, hsp0, hkey0⟩ := h.table key c0 hl
    rw [Forget_some p.s key c0 r0 hl hr0]
    have hlen : ∀ x : call V E, (p.s.calls.set c0 x).length = p.s.calls.length :=
      fun x => List.length_set _ _ _
    constructor
    · show p.s.spawned.length = _
      rw [hlen]; exact h.spawnLen
    · exact h.spawnC
    · intro i hi
      show i < _
      rw [hlen]; exact h.compv i hi
    · intro k c hk
      obtain ⟨hkk, hk1⟩ := htab k c hk
      obtain ⟨r, sp, hr, hf, hcm, hsp, hkey⟩ := h.table k c hk1
      have hcc : c ≠ c0 := by
        intro heq
        subst heq
        rw [hsp0] at hsp
        have : sp0 = sp := Option.some.inj hsp
        subst this
        exact hkk (hkey.symm.trans hkey0)
      refine ⟨r, sp, ?_, hf, hcm, hsp, hkey⟩
      show (p.s.calls.set c0 _)[c]? = _
      rw [List.getElem?_set_ne (Ne.symm hcc)]
      exact hr
    · intro c r hc hcm
      rcases getElem?_set_cases _ _ _ _ _ hc with ⟨e1, h2⟩ | ⟨_, h2⟩
      · subst e1
        rw [h2]
        exact h.refs c r0 hr0 hcm
      · exact h.refs c r h2 hcm
    · intro c r hc hcm
      rcases getElem?_set_cases _ _ _ _ _ hc with ⟨e1, h2⟩ | ⟨_, h2⟩
      · subst e1
        rw [h2]
        exact h.wgI c r0 hr0 hcm
      · exact h.wgI c r h2 hcm
    · intro c r hc hcm
      rcases getElem?_set_cases _ _ _ _ _ hc with ⟨e1, h2⟩ | ⟨_, h2⟩
      · subst e1
        rw [h2]
        exact h.chansI c r0 hr0 hcm
      · exact h.chansI c r h2 hcm
    · intro c c1 r r1 hc hc1 hne ch hch
      rcases getElem?_set_cases _ _ _ _ _ hc with ⟨e1, h2⟩ | ⟨n1, h2⟩
      · rcases getElem?_set_cases _ _ _ _ _ hc1 with ⟨e3, _⟩ | ⟨_, h4⟩
        · exact absurd (e1.trans e3.symm) hne
        · subst e1
          rw [h2] at hch
          exact h.disj c c1 r0 r1 hr0 h4 hne ch hch
      · rcases getElem?_set_cases _ _ _ _ _ hc1 with ⟨e3, h4⟩ | ⟨_, h4⟩
        · subst e3
          rw [h4]
          exact h.disj c c1 r r0 h2 hr0 hne ch hch
        · exact h.disj c c1 r r1 h2 h4 hne ch hch
    · intro c r hc ch hch
      rcases getElem?_set_cases _ _ _ _ _ hc with ⟨e1, h2⟩ | ⟨_, h2⟩
      · subst e1
        rw [h2] at hch
        exact h.bound c r0 hr0 ch hch
      · exact h.bound c r h2 ch hch

/-- What `doCallRun` has done when it gets to its end. -/
theorem doCallRun_done_inv (s s1 : State V E F) (c : Nat) (out : FnExit V E P)
    (hd : doCallRun s c out = .done s1) :
    ∃ (r : call V E) (v : Option V) (err : Option E), s.calls[c]? = some r ∧
      s1.g = s.g ∧ s1.chans = s.chans ∧ s1.spawned = s.spawned ∧
      s1.calls = s.calls.set c { r with val := v, err := err, wg := r.wg - 1 } := by
  unfold doCallRun at hd
  cases out with
  | panic x => simp at hd
  | goexit => simp at hd
  | ret v err =>
    simp only at hd
    cases hc : s.calls[c]? with
    | none => rw [hc] at hd; simp at hd
    | some r =>
      rw [hc] at hd
      simp only at hd
      by_cases hw : r.wg - 1 < 0
      · rw [if_pos hw] at hd; simp at hd
      · rw [if_neg hw] at hd
        simp only [Exit.done.injEq] at hd
        refine ⟨r, v, err, rfl, ?_, ?_, ?_, ?_⟩ <;> rw [← hd]

/-- What the completion step has done when it gets to its end. -/
theorem doCallLocked_done_inv (s s1 : State V E F) (c : Nat) (key : String)
    (hd : (doCallLocked s c key : Exit (State V E F) P) = .done s1) :
    ∃ r : call V E, s.calls[c]? = some r ∧
      s1.g = ⟨if !r.forgotten then mapDelete s.g.m key else s.g.m⟩ ∧
      s1.chans = (sendAll s.chans ⟨r.val, r.err, mkShared c r⟩ r.chans).1 ∧
      s1.spawned = s.spawned ∧ s1.calls = s.calls := by
  unfold doCallLocked at hd
  cases hc : s.calls[c]? with
  | none => rw [hc] at hd; simp at hd
  | some r =>
    rw [hc] at hd
    simp only at hd
    by_cases hw : (sendAll s.chans (⟨r.val, r.err, mkShared c r⟩ : Result V E) r.chans).2 = true
    · rw [if_pos hw] at hd
      simp only [Exit.done.injEq] at hd
      refine ⟨r, rfl, ?_, ?_, ?_, ?_⟩ <;> rw [← hd]
    · rw [if_neg hw] at hd; simp at hd

/-- The return of a work function keeps the invariant. -/
theorem ginv_work (p : Prog V E F) (i : Nat) (sp : Spawn F) (out : FnExit V E P)
    (s1 : State V E F) (h : GInv p) (hsp : p.s.spawned[i]? = some sp)
    (hd : doCallRun p.s sp.c out = .done s1) :
    GInv ({ p with s := s1, ran := i :: p.ran } : Prog V E F) := by
  obtain ⟨r0, v, err, hr0, hg, hch, hspw, hcalls⟩ := doCallRun_done_inv p.s s1 sp.c out hd
  have hci : sp.c = i := h.spawnC i sp hsp
  rw [hci] at hr0 hcalls
  constructor
  · show s1.spawned.length = s1.calls.length
    rw [hspw, hcalls, List.length_set]; exact h.spawnLen
  · show ∀ (j : Nat) (x : Spawn F), s1.spawned[j]? = some x → x.c = j
    rw [hspw]; exact h.spawnC
  · intro j hj
    show j < s1.calls.length
    rw [hcalls, List.length_set]; exact h.compv j hj
  · intro k c hk
    have hk1 : mapLookup s1.g.m k = some c := hk
    rw [hg] at hk1
    obtain ⟨r, x, hr, hf, hcm, hx, hkey⟩ := h.table k c hk1
    show ∃ (r : call V E) (sp : Spawn F), s1.calls[c]? = some r ∧ r.forgotten = false ∧
      c ∉ p.completed ∧ s1.spawned[c]? = some sp ∧ sp.key = k
    rw [hspw, hcalls]
    by_cases hcc : c = i
    · subst hcc
      rw [hr0] at hr
      have hrr : r0 = r := Option.some.inj hr
      subst hrr
      exact ⟨_, x, List.getElem?_set_self (List.getElem?_eq_some.mp hr0).1, hf, hcm, hx, hkey⟩
    · refine ⟨r, x, ?_, hf, hcm, hx, hkey⟩
      rw [List.getElem?_set_ne (Ne.symm hcc)]
      exact hr
  · intro c r hc hcm
    have hc1 : s1.calls[c]? = some r := hc
    rw [hcalls] at hc1
    rcases getElem?_set_cases _ _ _ _ _ hc1 with ⟨e1, h2⟩ | ⟨_, h2⟩
    · subst e1
      rw [h2]
      exact h.refs c r0 hr0 hcm
    · exact h.refs c r h2 hcm
  · intro c r hc hcm
    have hc1 : s1.calls[c]? = some r := hc
    rw [hcalls] at hc1
    have hcm1 : c ≠ i ∧ c ∉ p.ran := by
      have : c ∉ i :: p.ran := hcm
      rw [List.mem_cons, not_or] at this
      exact this
    rcases getElem?_set_cases _ _ _ _ _ hc1 with ⟨e1, _⟩ | ⟨_, h2⟩
    · exact absurd e1 hcm1.1
    · exact h.wgI c r h2 hcm1.2
  · intro c r hc hcm
    have hc1 : s1.calls[c]? = some r := hc
    rw [hcalls] at hc1
    show r.chans.Nodup ∧ ∀ ch ∈ r.chans, s1.chans[ch]? = some []
    rw [hch]
    rcases getElem?_set_cases _ _ _ _ _ hc1 with ⟨e1, h2⟩ | ⟨_, h2⟩
    · subst e1
      rw [h2]
      exact h.chansI c r0 hr0 hcm
    · exact h.chansI c r h2 hcm
  · intro c c1 r r1 hc hc1 hne ch hchm
    have hc2 : s1.calls[c]? = some r := hc
    have hc3 : s1.calls[c1]? = some r1 := hc1
    rw [hcalls] at hc2 hc3
    rcases getElem?_set_cases _ _ _ _ _ hc2 with ⟨e1, h2⟩ | ⟨n1, h2⟩
    · rcases getElem?_set_cases _ _ _ _ _ hc3 with ⟨e3, _⟩ | ⟨_, h4⟩
      · exact absurd (e1.trans e3.symm) hne
      · subst e1
        rw [h2] at hchm
        exact h.disj c c1 r0 r1 hr0 h4 hne ch hchm
    · rcases getElem?_set_cases _ _ _ _ _ hc3 with ⟨e3, h4⟩ | ⟨_, h4⟩
      · subst e3
        rw [h4]
        exact h.disj c c1 r r0 h2 hr0 hne ch hchm
      · exact h.disj c c1 r r1 h2 h4 hne ch hchm
  · intro c r hc ch hchm
    have hc1 : s1.calls[c]? = some r := hc
    rw [hcalls] at hc1
    show ch < s1.chans.length
    rw [hch]
    rcases getElem?_set_cases _ _ _ _ _ hc1 with ⟨e1, h2⟩ | ⟨_, h2⟩
    · subst e1
      rw [h2] at hchm
      exact h.bound c r0 hr0 ch hchm
    · exact h.bound c r h2 ch hchm

/-- The completion step keeps the invariant. -/
theorem ginv_complete (P : Type) (p : Prog V E F) (i : Nat) (sp : Spawn F)
    (s1 : State V E F) (h : GInv p) (hsp : p.s.spawned[i]? = some sp)
    (hnc : i ∉ p.completed)
    (hd : (doCallLocked p.s sp.c sp.key : Exit (State V E F) P) = .done s1) :
    GInv ({ p with s := s1, completed := i :: p.completed } : Prog V E F) := by
  obtain ⟨r0, hr0, hg, hch, hspw, hcalls⟩ := doCallLocked_done_inv p.s s1 sp.c sp.key hd
  have hci : sp.c = i := h.spawnC i sp hsp
  rw [hci] at hr0 hch
  obtain ⟨hnd0, hemp0⟩ := h.chansI i r0 hr0 hnc
  obtain ⟨_, hslen, _, hsframe⟩ :=
    sendAll_spec (⟨r0.val, r0.err, mkShared i r0⟩ : Result V E) r0.chans p.s.chans hnd0 hemp0
  have hmem : ∀ c : Nat, c ∉ i :: p.completed → c ≠ i ∧ c ∉ p.completed := by
    intro c hc
    rw [List.mem_cons, not_or] at hc
    exact hc
  constructor
  · show s1.spawned.length = s1.calls.length
    rw [hspw, hcalls]; exact h.spawnLen
  · show ∀ (j : Nat) (x : Spawn F), s1.spawned[j]? = some x → x.c = j
    rw [hspw]; exact h.spawnC
  · intro j hj
    show j < s1.calls.length
    rw [hcalls]
    have hj1 : j ∈ i :: p.completed := hj
    rw [List.mem_cons] at hj1
    rcases hj1 with hj1 | hj1
    · rw [hj1]; exact (List.getElem?_eq_some.mp hr0).1
    · exact h.compv j hj1
  · intro k c hk
    have hk1 : mapLookup s1.g.m k = some c := hk
    rw [hg] at hk1
    show ∃ (r : call V E) (x : Spawn F), s1.calls[c]? = some r ∧ r.forgotten = false ∧
      c ∉ i :: p.completed ∧ s1.spawned[c]? = some x ∧ x.key = k
    rw [hspw, hcalls]
    cases hf0 : r0.forgotten with
    | true =>
      rw [hf0] at hk1
      simp only [Bool.not_true, Bool.false_eq_true, if_false] at hk1
      obtain ⟨r, x, hr, hf, hcm, hx, hkey⟩ := h.table k c hk1
      have hcc : c ≠ i := by
        intro heq
        subst heq
        rw [hr0] at hr
        have hrr : r0 = r := Option.some.inj hr
        subst hrr
        rw [hf0] at hf
        exact absurd hf (by simp)
      refine ⟨r, x, hr, hf, ?_, hx, hkey⟩
      rw [List.mem_cons, not_or]
      exact ⟨hcc, hcm⟩
    | false =>
      rw [hf0] at hk1
      simp only [Bool.not_false, if_true] at hk1
      have hkk : k ≠ sp.key := by
        intro heq
        rw [heq, mapLookup_mapDelete_self] at hk1
        exact absurd hk1 (by simp)
      rw [mapLookup_mapDelete_ne _ _ _ hkk] at hk1
      obtain ⟨r, x, hr, hf, hcm, hx, hkey⟩ := h.table k c hk1
      have hcc : c ≠ i := by
        intro heq
        subst heq
        rw [hsp] at hx
        have hxx : sp = x := Option.some.inj hx
        subst hxx
        exact hkk hkey.symm
      refine ⟨r, x, hr, hf, ?_, hx, hkey⟩
      rw [List.mem_cons, not_or]
      exact ⟨hcc, hcm⟩
  · intro c r hc hcm
    have hc1 : s1.calls[c]? = some r := hc
    rw [hcalls] at hc1
    exact h.refs c r hc1 (hmem c hcm).2
  · intro c r hc hcm
    have hc1 : s1.calls[c]? = some r := hc
    rw [hcalls] at hc1
    exact h.wgI c r hc1 hcm
  · intro c r hc hcm
    have hc1 : s1.calls[c]? = some r := hc
    rw [hcalls] at hc1
    obtain ⟨hci1, hcm1⟩ := hmem c hcm
    obtain ⟨hnd, hemp⟩ := h.chansI c r hc1 hcm1
    refine ⟨hnd, ?_⟩
    intro ch hchm
    show s1.chans[ch]? = some []
    rw [hch, hsframe ch (h.disj c i r r0 hc1 hr0 hci1 ch hchm)]
    exact hemp ch hchm
  · intro c c1 r r1 hc hc1
    have hc2 : s1.calls[c]? = some r := hc
    have hc3 : s1.calls[c1]? = some r1 := hc1
    rw [hcalls] at hc2 hc3
    exact h.disj c c1 r r1 hc2 hc3
  · intro c r hc ch hchm
    have hc1 : s1.calls[c]? = some r := hc
    rw [hcalls] at hc1
    show ch < s1.chans.length
    rw [hch, hslen]
    exact h.bound c r hc1 ch hchm

/-- Every step of a program keeps the invariant. -/
theorem ginv_apply (p p1 : Prog V E F) (op : GroupOp V E F P) (h : GInv p)
    (ha : p.apply op = some p1) : GInv p1 := by
  cases op with
  | doChan key fn =>
    simp only [Prog.apply, Option.some.injEq] at ha
    rw [← ha]; exact ginv_doChan p key fn h
  | forget key =>
    simp only [Prog.apply, Option.some.injEq] at ha
    rw [← ha]; exact ginv_forget p key h
  | work i out =>
    simp only [Prog.apply] at ha
    by_cases hi : i ∈ p.ran
    · rw [if_pos hi] at ha; exact absurd ha (by simp)
    · rw [if_neg hi] at ha
      cases hsp : p.s.spawned[i]? with
      | none => rw [hsp] at ha; exact absurd ha (by simp)
      | some sp =>
        rw [hsp] at ha
        simp only at ha
        cases hd : doCallRun p.s sp.c out with
        | done s1 =>
          rw [hd] at ha
          simp only [Option.some.injEq] at ha
          rw [← ha]; exact ginv_work p i sp out s1 h hsp hd
        | blocked s1 => rw [hd] at ha; exact absurd ha (by simp)
        | panicked x s1 => rw [hd] at ha; exact absurd ha (by simp)
        | goexit s1 => rw [hd] at ha; exact absurd ha (by simp)
  | complete i =>
    simp only [Prog.apply] at ha
    by_cases hi : i ∈ p.ran ∧ i ∉ p.completed
    · rw [if_pos hi] at ha
      cases hsp : p.s.spawned[i]? with
      | none => rw [hsp] at ha; exact absurd ha (by simp)
      | some sp =>
        rw [hsp] at ha
        simp only at ha
        cases hd : (doCallLocked p.s sp.c sp.key : Exit (State V E F) P) with
        | done s1 =>
          rw [hd] at ha
          simp only [Option.some.injEq] at ha
          rw [← ha]; exact ginv_complete P p i sp s1 h hsp hi.2 hd
        | blocked s1 => rw [hd] at ha; exact absurd ha (by simp)
        | panicked x s1 => rw [hd] at ha; exact absurd ha (by simp)
        | goexit s1 => rw [hd] at ha; exact absurd ha (by simp)
    · rw [if_neg hi] at ha; exact absurd ha (by simp)

theorem ginv_run : ∀ (ops : List (GroupOp V E F P)) (p p1 : Prog V E F), GInv p →
    p.run ops = some p1 → GInv p1 := by
  intro ops
  induction ops with
  | nil =>
    intro p p1 h hr
    simp only [Prog.run, Option.some.injEq] at hr
    rw [← hr]; exact h
  | cons op rest ih =>
    intro p p1 h hr
    simp only [Prog.run] at hr
    cases ha : p.apply op with
    | none => rw [ha] at hr; exact absurd hr (by simp)
    | some p2 =>
      rw [ha] at hr
      exact ih p2 p1 (ginv_apply p p2 op h ha) hr

/-- Under the invariant a call has completed exactly if its address is in the list of
the completed goroutines. -/
theorem hasCompleted_iff (p : Prog V E F) (h : GInv p) (c : Nat) :
    p.hasCompleted c ↔ c ∈ p.completed := by
  constructor
  · rintro ⟨i, hi, sp, hsp, hc⟩
    rw [← hc, h.spawnC i sp hsp]
    exact hi
  · intro hc
    have hlt : c < p.s.spawned.length := by rw [h.spawnLen]; exact h.compv c hc
    exact ⟨c, hc, p.s.spawned[c], List.getElem?_eq_getElem hlt,
      h.spawnC c _ (List.getElem?_eq_getElem hlt)⟩

/-- Under the invariant the work function of a goroutine can return, and a goroutine whose
work function has returned can run its completion step: no send of it blocks. -/
theorem ginv_enabled (P : Type) (p : Prog V E F) (h : GInv p) (i : Nat) (sp : Spawn F)
    (hsp : p.s.spawned[i]? = some sp) :
    (i ∉ p.ran → ∀ (v : Option V) (err : Option E),
      ∃ p1, p.apply (.work i (.ret v err) : GroupOp V E F P) = some p1)
    ∧ (i ∈ p.ran → i ∉ p.completed →
      ∃ p1, p.apply (.complete i : GroupOp V E F P) = some p1) := by
  have hci : sp.c = i := h.spawnC i sp hsp
  have hlt : i < p.s.calls.length := by
    rw [← h.spawnLen]; exact (List.getElem?_eq_some.mp hsp).1
  have hr : p.s.calls[i]? = some p.s.calls[i] := List.getElem?_eq_getElem hlt
  constructor
  · intro hnr v err
    have hwg := h.wgI i _ hr hnr
    simp only [Prog.apply, if_neg hnr, hsp, hci]
    rw [doCallRun_ret P p.s i _ v err hr (by rw [hwg]; decide)]
    exact ⟨_, rfl⟩
  · intro hran hnc
    obtain ⟨hnd, hemp⟩ := h.chansI i _ hr hnc
    simp only [Prog.apply, if_pos (And.intro hran hnc), hsp, hci]
    rw [doCallLocked_done P p.s i sp.key _ hr hnd hemp]
    exact ⟨_, rfl⟩

/-- C18 (bookkeeping invariant of `Group`).  In every state a program reaches from the
zero `Group` by `DoChan` registrations, returns of work functions, completion steps and
`Forget` calls, in any order:

* every table entry leads to a call record whose call has not completed and that is not
  forgotten;
* every call record whose call has not completed has at least one receiver, and its
  `refCount` equals the number of its receivers (as long as that number fits `int64`).

Moreover the steps of the goroutines are never stuck in such a state: a work function
that has not returned can return, and a goroutine whose work function has returned can
run its completion step without blocking on a send. -/
theorem C18_group_bookkeeping (ops : List (GroupOp V E F P)) (p : Prog V E F)
    (hrun : (Prog.init : Prog V E F).run ops = some p) :
    (∀ key c, mapLookup p.s.g.m key = some c →
      ∃ r : call V E, p.s.calls[c]? = some r ∧ ¬ p.hasCompleted c ∧ r.forgotten = false)
    ∧ (∀ (c : Nat) (r : call V E), p.s.calls[c]? = some r → ¬ p.hasCompleted c →
        1 ≤ r.chans.length ∧
        ((r.chans.length : Int) < 9223372036854775808 → r.refCount = r.chans.length))
    ∧ (∀ (i : Nat) (sp : Spawn F), p.s.spawned[i]? = some sp →
        (i ∉ p.ran → ∀ (v : Option V) (err : Option E),
          ∃ p1, p.apply (.work i (.ret v err) : GroupOp V E F P) = some p1)
        ∧ (i ∈ p.ran → i ∉ p.completed →
          ∃ p1, p.apply (.complete i : GroupOp V E F P) = some p1)) := by
  have h : GInv p := ginv_run ops _ p ginv_init hrun
  refine ⟨?_, ?_, ?_⟩
  · intro key c hk
    obtain ⟨r, _, hr, hf, hcm, _, _⟩ := h.table key c hk
    exact ⟨r, hr, fun hc => hcm ((hasCompleted_iff p h c).mp hc), hf⟩
  · intro c r hr hnc
    exact h.refs c r hr (fun hc => hnc ((hasCompleted_iff p h c).mpr hc))
  · intro i sp hsp
    exact ginv_enabled P p h i sp hsp

/-- Witness of `C18_group_bookkeeping`: two callers register for `"key"`, the key is
forgotten, a third caller registers and starts a second call, a fourth attaches to it,
and the first call completes. -/
theorem C18_group_bookkeeping_witness :
    ∃ p : Prog String String String,
      (Prog.init : Prog String String String).run
        ([.doChan "key" "fn", .doChan "key" "fn", .forget "key", .doChan "key" "fn",
          .doChan "key" "fn", .work 0 (.ret (some "bar") none), .complete 0] :
          List (GroupOp String String String String)) = some p
      ∧ mapLookup p.s.g.m "key" = some 1
      ∧ ∀ key c, mapLookup p.s.g.m key = some c →
          ∃ r : call String String,
            p.s.calls[c]? = some r ∧ ¬ p.hasCompleted c ∧ r.forgotten = false := by
  have hsome : ((Prog.init : Prog String String String).run
      ([.doChan "key" "fn", .doChan "key" "fn", .forget "key", .doChan "key" "fn",
        .doChan "key" "fn", .work 0 (.ret (some "bar") none), .complete 0] :
        List (GroupOp String String String String))).isSome = true := by decide
  have hkey : (((Prog.init : Prog String String String).run
      ([.doChan "key" "fn", .doChan "key" "fn", .forget "key", .doChan "key" "fn",
        .doChan "key" "fn", .work 0 (.ret (some "bar") none), .complete 0] :
        List (GroupOp String String String String))).map
        (fun p => mapLookup p.s.g.m "key")) = some (some 1) := by decide
  obtain ⟨p, hp⟩ := Option.isSome_iff_exists.mp hsome
  rw [hp] at hkey
  exact ⟨p, hp, Option.some.inj hkey, (C18_group_bookkeeping _ p hp).1⟩

end GroupInvariant

end singleflight
